import Mathlib

/-!
# Verification development for `251207-go-pkg-cfgm`

Shallow embedding of the two packages of the repository that carry the
algorithms:

* `pkg/templexp`: the shell-style parameter expander (`ExpandTemplate`);
* `pkg/cfgm`: the layered configuration loader (`Load`).

Go strings are byte strings; they are embedded as `List Char`, one element per
byte.  Every character the code inspects is ASCII.
-/

/-- Go `string`: a sequence of bytes. -/
abbrev Str := List Char

namespace Templexp

/-! ## Session (`map[string]string`) -/

/-- The expansion session: Go `map[string]string`, a lookup `env[name]` gives
`(val, isSet)`, here `some val` or `none`. -/
abbrev Session := Str → Option Str

/-- The map store `env[name] = value`. -/
def Session.assign (env : Session) (name value : Str) : Session :=
  fun k => if k = name then some value else env k

/-- `strings.SplitN(env, "=", 2)`: the text before and after the first `=`,
`none` when there is no `=` (`len(parts) != 2`). -/
def splitFirstEq : Str → Option (Str × Str)
  | [] => none
  | c :: rest =>
    if c = '=' then some ([], rest)
    else (splitFirstEq rest).map (fun p => (c :: p.1, p.2))

/-- `newTemplateData`: snapshot of `os.Environ()` (a list of `KEY=value`
entries) as a fresh map. -/
def newTemplateData (environ : List Str) : Session :=
  environ.foldl
    (fun vars e =>
      match splitFirstEq e with
      | some (k, v) => Session.assign vars k v
      | none => vars)
    (fun _ => none)

/-! ## Variable names and the expression parser -/

def isVarNameStart (ch : Char) : Bool :=
  ('A'.toNat ≤ ch.toNat && ch.toNat ≤ 'Z'.toNat) ||
    ('a'.toNat ≤ ch.toNat && ch.toNat ≤ 'z'.toNat) || ch = '_'

def isVarNameChar (ch : Char) : Bool :=
  isVarNameStart ch || ('0'.toNat ≤ ch.toNat && ch.toNat ≤ '9'.toNat)

/-- The `case '-', '+', '?', '=':` test of `parseShellParameter`. -/
def isOpChar (ch : Char) : Bool :=
  ch = '-' || ch = '+' || ch = '?' || ch = '='

/-- `parseShellParameter(expr)`: `some (name, op, word)` when the Go function
returns `ok = true`, `none` when it returns `ok = false`. -/
def parseShellParameter (expr : Str) : Option (Str × Str × Str) :=
  match expr with
  | [] => none
  | c :: tail =>
    if !isVarNameStart c then none
    else
      let name := c :: tail.takeWhile isVarNameChar
      let rest := tail.dropWhile isVarNameChar
      match rest with
      | [] => some (name, [], [])
      | r0 :: rest1 =>
        match rest1 with
        | r1 :: word =>
          if r0 = ':' && isOpChar r1 then some (name, [r0, r1], word)
          else if isOpChar r0 then some (name, [r0], rest1)
          else none
        | [] => if isOpChar r0 then some (name, [r0], []) else none

/-- `errorMessage(name, word)`: the text of the returned error. -/
def errorMessage (name word : Str) : Str :=
  if word = [] then
    "templexp: ".toList ++ name ++ ": parameter null or not set".toList
  else "templexp: ".toList ++ name ++ ": ".toList ++ word

/-! ## Brace matching -/

/-- The loop of `findMatchingBrace`: `rest` is `text[i:]`, `i` the absolute
index of its first byte. -/
def findMatchingBraceLoop : Str → Nat → Nat → Option Nat
  | [], _, _ => none
  | [c], depth, i =>
    if c = '}' then
      if depth = 0 then some i else findMatchingBraceLoop [] (depth - 1) (i + 1)
    else findMatchingBraceLoop [] depth (i + 1)
  | c :: d :: rest, depth, i =>
    if c = '$' ∧ d = '{' then findMatchingBraceLoop rest (depth + 1) (i + 2)
    else if c = '}' then
      if depth = 0 then some i else findMatchingBraceLoop (d :: rest) (depth - 1) (i + 1)
    else findMatchingBraceLoop (d :: rest) depth (i + 1)

/-- `findMatchingBrace(text, start)`: `some i` for a returned index `i`, `none`
for `-1`. -/
def findMatchingBrace (text : Str) (start : Nat) : Option Nat :=
  findMatchingBraceLoop (text.drop start) 0 start

/-! ## The expander -/

/-- Result of a call of the expander: a value, the returned `error` (its
message), or `exhausted` when the recursion budget of the embedding ran out. -/
inductive Outcome (α : Type) where
  | ok : α → Outcome α
  | error : Str → Outcome α
  | exhausted : Outcome α
  deriving DecidableEq, Repr

/-- `strings.Contains(word, "${")`. -/
def containsDollarBrace : Str → Bool
  | [] => false
  | c :: rest => (c = '$' && rest.head? = some '{') || containsDollarBrace rest

/-- `expandShellWord(word, env)`; `recur` is `expandShellParameters`. -/
def expandShellWord (recur : Str → Session → Outcome (Str × Session))
    (word : Str) (env : Session) : Outcome (Str × Session) :=
  if !containsDollarBrace word then .ok (word, env) else recur word env

/-- The shared shape of the branches of `expandShellExpression` that expand the
word: `expanded, err := expandShellWord(word, env)`, then optionally
`env[name] = expanded`, then `return expanded, true, nil`. -/
def expandWordBranch (recur : Str → Session → Outcome (Str × Session))
    (name word : Str) (env : Session) (store : Bool) :
    Outcome (Option Str × Session) :=
  match expandShellWord recur word env with
  | .ok (expanded, env1) =>
    .ok (some expanded, if store then Session.assign env1 name expanded else env1)
  | .error m => .error m
  | .exhausted => .exhausted

/-- `expandShellExpression(expr, env)`: the Go result `(s, true, nil)` is
`ok (some s, env)`, `("", false, nil)` is `ok (none, env)`, and
`("", false, err)` is `error msg`.  The session after the call is returned
next to the value. -/
def expandShellExpression (recur : Str → Session → Outcome (Str × Session))
    (expr : Str) (env : Session) : Outcome (Option Str × Session) :=
  match parseShellParameter expr with
  | none => .ok (none, env)
  | some (name, op, word) =>
    let isSet := (env name).isSome
    let val := (env name).getD []
    if op = [] then
      .ok (some val, env)
    else if op = [':', '-'] then
      if !isSet || val = [] then expandWordBranch recur name word env false
      else .ok (some val, env)
    else if op = ['-'] then
      if !isSet then expandWordBranch recur name word env false
      else .ok (some val, env)
    else if op = [':', '+'] then
      if isSet && val ≠ [] then expandWordBranch recur name word env false
      else .ok (some [], env)
    else if op = ['+'] then
      if isSet then expandWordBranch recur name word env false
      else .ok (some [], env)
    else if op = [':', '?'] then
      if !isSet || val = [] then .error (errorMessage name word)
      else .ok (some val, env)
    else if op = ['?'] then
      if !isSet then .error (errorMessage name word)
      else .ok (some val, env)
    else if op = [':', '='] then
      if !isSet || val = [] then expandWordBranch recur name word env true
      else .ok (some val, env)
    else if op = ['='] then
      if !isSet then expandWordBranch recur name word env true
      else .ok (some val, env)
    else .ok (none, env)

/-- `buf.WriteString(s)` in front of what the rest of the loop writes. -/
def emit (s : Str) : Outcome (Str × Session) → Outcome (Str × Session)
  | .ok (out, env) => .ok (s ++ out, env)
  | .error m => .error m
  | .exhausted => .exhausted

/-- The loop of `expandShellParameters`.  `text` is the unread part `text[i:]`
of the input (so the index `i` of the Go loop is `0` here and every slice is
taken relative to it); the first argument bounds the number of loop iterations
and nested calls. -/
def expandShellParametersFuel : Nat → Str → Session → Outcome (Str × Session)
  | _, [], env => .ok ([], env)
  | 0, _ :: _, _ => .exhausted
  | fuel + 1, ch :: rest, env =>
    if ch ≠ '$' then emit [ch] (expandShellParametersFuel fuel rest env)
    else
      match rest with
      | [] => emit [ch] (expandShellParametersFuel fuel rest env)
      | next :: rest2 =>
        if next = '$' then emit ['$'] (expandShellParametersFuel fuel rest2 env)
        else if next ≠ '{' then emit [ch] (expandShellParametersFuel fuel rest env)
        else
          match findMatchingBrace (ch :: next :: rest2) 2 with
          | none => emit [ch] (expandShellParametersFuel fuel rest env)
          | some e =>
            let expr := ((ch :: next :: rest2).take e).drop 2
            match expandShellExpression (expandShellParametersFuel fuel) expr env with
            | .error m => .error m
            | .exhausted => .exhausted
            | .ok (some expanded, env1) =>
              emit expanded
                (expandShellParametersFuel fuel ((ch :: next :: rest2).drop (e + 1)) env1)
            | .ok (none, env1) =>
              emit ((ch :: next :: rest2).take (e + 1))
                (expandShellParametersFuel fuel ((ch :: next :: rest2).drop (e + 1)) env1)

/-- `expandShellParameters(text, env)`: the result and the session after the
call. -/
def expandShellParameters (text : Str) (env : Session) : Outcome (Str × Session) :=
  expandShellParametersFuel text.length text env

/-- `ExpandTemplate(text)`, with `environ` the value of `os.Environ()`. -/
def ExpandTemplate (environ : List Str) (text : Str) : Outcome Str :=
  match expandShellParameters text (newTemplateData environ) with
  | .ok (s, _) => .ok s
  | .error m => .error m
  | .exhausted => .exhausted

/-! ## Specification vocabulary -/

/-- A valid variable name: an ASCII letter or underscore followed by ASCII
letters, digits and underscores. -/
def isValidName : Str → Bool
  | [] => false
  | c :: t => isVarNameStart c && t.all isVarNameChar

/-- The nine operators of `expandShellExpression` (the empty one is the plain
reference). -/
def operators : List Str :=
  [[], [':', '-'], ['-'], [':', '+'], ['+'], [':', '?'], ['?'], [':', '='], ['=']]

/-- The text `${body}`. -/
def braced (body : Str) : Str := '$' :: '{' :: (body ++ ['}'])

/-- What the loop does with the result of `expandShellExpression`: propagate
the error, write the expansion, or write the expression text back. -/
def afterExpression (verbatim : Str) (next : Session → Outcome (Str × Session)) :
    Outcome (Option Str × Session) → Outcome (Str × Session)
  | .error m => .error m
  | .exhausted => .exhausted
  | .ok (some expanded, env1) => emit expanded (next env1)
  | .ok (none, env1) => emit verbatim (next env1)

/-- The session `env1` arises from `env` by assignments of the `:=` and `=`
operators: a name is changed only where it was unset or empty before, and a
changed name is set. -/
def SessionExtends (env env1 : Session) : Prop :=
  ∀ k, env1 k = env k ∨ ((env k = none ∨ env k = some []) ∧ env1 k ≠ none)

/-- The error `m` of an expansion of `text` started in session `env` is raised
by a `${name:?w}` of the text with `name` unset or empty, or by a `${name?w}`
of the text with `name` unset, in the session `env1` in which that expression
is evaluated. -/
def RequiredFailure (text : Str) (env : Session) (m : Str) : Prop :=
  ∃ (name w : Str) (env1 : Session), isValidName name = true ∧ SessionExtends env env1 ∧
    m = errorMessage name w ∧
    ((braced (name ++ [':', '?'] ++ w) <:+: text ∧ (env1 name = none ∨ env1 name = some [])) ∨
     (braced (name ++ ['?'] ++ w) <:+: text ∧ env1 name = none))

/-- The two facts carried through the recursion: a successful expansion only
extends the session, and an error has a required-operator source. -/
def Traced (text : Str) (env : Session) : Prop :=
  (∀ out env1, expandShellParameters text env = .ok (out, env1) → SessionExtends env env1) ∧
  (∀ m, expandShellParameters text env = .error m → RequiredFailure text env m)


/-! ## Brace balance of a word -/

/-- The nesting depth after reading `w` from depth `depth`, counted as
`findMatchingBrace` counts it: a `${` opens a level and a `}` closes one.  The
result is `none` when a `}` of `w` finds no level to close, that is, when it
closes no `${` opened earlier in `w`. -/
def braceDepth : Str → Nat → Option Nat
  | [], depth => some depth
  | [c], depth =>
    if c = '}' then
      if depth = 0 then none else some (depth - 1)
    else some depth
  | c :: d :: rest, depth =>
    if c = '$' ∧ d = '{' then braceDepth rest (depth + 1)
    else if c = '}' then
      if depth = 0 then none else braceDepth (d :: rest) (depth - 1)
    else braceDepth (d :: rest) depth

/-- Every `}` of `w` closes a `${` opened earlier in `w`. -/
def closesOnlyOpened (w : Str) : Bool := (braceDepth w 0).isSome

/-- The word is brace-balanced: every `}` of `w` closes a `${` opened earlier
in `w`, and every `${` of `w` is closed in `w`. -/
def braceBalanced (w : Str) : Bool := braceDepth w 0 = some 0


/-! ## The expander with the session after every call

The Go functions change the map `env` in place, so a caller sees the map as the
call left it whatever the call returns.  The definitions below are the
expander once more, each returning its result together with the map after the
call, also next to an error. -/

/-- `expandShellWord(word, env)`, with the map after the call; `recur` is
`expandShellParameters`. -/
def expandShellWordRun (recur : Str → Session → Outcome Str × Session)
    (word : Str) (env : Session) : Outcome Str × Session :=
  if !containsDollarBrace word then (.ok word, env) else recur word env

/-- The branches of `expandShellExpression` that expand the word, with the map
after the call: the store `env[name] = expanded` is reached only when the word
expanded without error. -/
def expandWordBranchRun (recur : Str → Session → Outcome Str × Session)
    (name word : Str) (env : Session) (store : Bool) : Outcome (Option Str) × Session :=
  match expandShellWordRun recur word env with
  | (.ok expanded, env1) =>
    (.ok (some expanded), if store then Session.assign env1 name expanded else env1)
  | (.error m, env1) => (.error m, env1)
  | (.exhausted, env1) => (.exhausted, env1)

/-- `expandShellExpression(expr, env)`, with the map after the call. -/
def expandShellExpressionRun (recur : Str → Session → Outcome Str × Session)
    (expr : Str) (env : Session) : Outcome (Option Str) × Session :=
  match parseShellParameter expr with
  | none => (.ok none, env)
  | some (name, op, word) =>
    let isSet := (env name).isSome
    let val := (env name).getD []
    if op = [] then
      (.ok (some val), env)
    else if op = [':', '-'] then
      if !isSet || val = [] then expandWordBranchRun recur name word env false
      else (.ok (some val), env)
    else if op = ['-'] then
      if !isSet then expandWordBranchRun recur name word env false
      else (.ok (some val), env)
    else if op = [':', '+'] then
      if isSet && val ≠ [] then expandWordBranchRun recur name word env false
      else (.ok (some []), env)
    else if op = ['+'] then
      if isSet then expandWordBranchRun recur name word env false
      else (.ok (some []), env)
    else if op = [':', '?'] then
      if !isSet || val = [] then (.error (errorMessage name word), env)
      else (.ok (some val), env)
    else if op = ['?'] then
      if !isSet then (.error (errorMessage name word), env)
      else (.ok (some val), env)
    else if op = [':', '='] then
      if !isSet || val = [] then expandWordBranchRun recur name word env true
      else (.ok (some val), env)
    else if op = ['='] then
      if !isSet then expandWordBranchRun recur name word env true
      else (.ok (some val), env)
    else (.ok none, env)

/-- `buf.WriteString(s)` in front of what the rest of the loop writes, the map
untouched. -/
def emitRun (s : Str) : Outcome Str × Session → Outcome Str × Session
  | (.ok out, env) => (.ok (s ++ out), env)
  | (.error m, env) => (.error m, env)
  | (.exhausted, env) => (.exhausted, env)

/-- The loop of `expandShellParameters`, with the map after the call. -/
def expandShellParametersRunFuel : Nat → Str → Session → Outcome Str × Session
  | _, [], env => (.ok [], env)
  | 0, _ :: _, env => (.exhausted, env)
  | fuel + 1, ch :: rest, env =>
    if ch ≠ '$' then emitRun [ch] (expandShellParametersRunFuel fuel rest env)
    else
      match rest with
      | [] => emitRun [ch] (expandShellParametersRunFuel fuel rest env)
      | next :: rest2 =>
        if next = '$' then emitRun ['$'] (expandShellParametersRunFuel fuel rest2 env)
        else if next ≠ '{' then emitRun [ch] (expandShellParametersRunFuel fuel rest env)
        else
          match findMatchingBrace (ch :: next :: rest2) 2 with
          | none => emitRun [ch] (expandShellParametersRunFuel fuel rest env)
          | some e =>
            let expr := ((ch :: next :: rest2).take e).drop 2
            match expandShellExpressionRun (expandShellParametersRunFuel fuel) expr env with
            | (.error m, env1) => (.error m, env1)
            | (.exhausted, env1) => (.exhausted, env1)
            | (.ok (some expanded), env1) =>
              emitRun expanded
                (expandShellParametersRunFuel fuel ((ch :: next :: rest2).drop (e + 1)) env1)
            | (.ok none, env1) =>
              emitRun ((ch :: next :: rest2).take (e + 1))
                (expandShellParametersRunFuel fuel ((ch :: next :: rest2).drop (e + 1)) env1)

/-- What the loop does with the result of `expandShellExpression`, the map
carried along: return the error, write the expansion, or write the expression
text back. -/
def afterExpressionRun (verbatim : Str) (next : Session → Outcome Str × Session) :
    Outcome (Option Str) × Session → Outcome Str × Session
  | (.error m, env1) => (.error m, env1)
  | (.exhausted, env1) => (.exhausted, env1)
  | (.ok (some expanded), env1) => emitRun expanded (next env1)
  | (.ok none, env1) => emitRun verbatim (next env1)

/-- `expandShellParameters(text, env)`: the result and the map after the
call. -/
def expandShellParametersRun (text : Str) (env : Session) : Outcome Str × Session :=
  expandShellParametersRunFuel text.length text env

/-- A result with the map after the call, as the expander without the map
next to an error gives it. -/
def withoutErrorSession {α : Type} : Outcome α × Session → Outcome (α × Session)
  | (.ok a, env) => .ok (a, env)
  | (.error m, _) => .error m
  | (.exhausted, _) => .exhausted

/-- The text holds an assignment to the name `k`: an expression that starts
`${k:=` or `${k=`. -/
def assignsTo (k text : Str) : Prop :=
  ('$' :: '{' :: (k ++ [':', '='])) <:+: text ∨ ('$' :: '{' :: (k ++ ['='])) <:+: text

/-- The session `env1` differs from `env` only at names that `text` assigns to
and that were unset or empty in `env`. -/
def OnlyAssigned (text : Str) (env env1 : Session) : Prop :=
  ∀ k, env1 k ≠ env k → (env k = none ∨ env k = some []) ∧ assignsTo k text


/-! ## The scan index of the loop -/

/-- The scan index `i` of the loop of `expandShellParameters` after the
iteration that starts at index `i` of `text` and does not return: `i + 1` after
a byte is copied, `i + 2` after `$$`, and `end + 1` after an expression that
ends at the index `end` which `findMatchingBrace(text, i+2)` returned.  Outside
the text (the loop condition `i < len(text)` fails) the index stays. -/
def nextIndex (text : Str) (i : Nat) : Nat :=
  match text[i]? with
  | none => i
  | some ch =>
    if ch ≠ '$' then i + 1
    else
      match text[i + 1]? with
      | none => i + 1
      | some next =>
        if next = '$' then i + 2
        else if next ≠ '{' then i + 1
        else
          match findMatchingBrace text (i + 2) with
          | none => i + 1
          | some e => e + 1

/-- The error `m` is the error of a required operator of `text` in the session
`env1`: the text holds an expression `${name:?w}` and `name` is unset or empty
in `env1`, or an expression `${name?w}` and `name` is unset in `env1`, and `m`
is the message `errorMessage` builds from `name` and `w`. -/
def RaisedIn (text m : Str) (env1 : Session) : Prop :=
  ∃ (name w : Str), isValidName name = true ∧ m = errorMessage name w ∧
    ((braced (name ++ [':', '?'] ++ w) <:+: text ∧ (env1 name = none ∨ env1 name = some [])) ∨
     (braced (name ++ ['?'] ++ w) <:+: text ∧ env1 name = none))

/-- An unterminated text with nested expressions: `${A:-${B:-${C:-x}}`, one
closing brace short. -/
def nestedOpenText : Str :=
  '$' :: '{' :: ("A:-".toList ++ braced ("B:-".toList ++ braced "C:-x".toList))

end Templexp

namespace Cfgm

/-! ## Generic values (`any`) and `map[string]any` -/

/-- The `reflect.Kind` of a type.  Kinds the code never names (complex
numbers, channels, functions, interfaces, arrays, ...) are `other`. -/
inductive Kind where
  | bool | int | int8 | int16 | int32 | int64
  | uint | uint8 | uint16 | uint32 | uint64
  | float32 | float64 | string
  | pointer | slice | map | struct | other
  deriving DecidableEq, Repr

/-- A Go value held in an `any`.  `map` is `map[string]any` and `seq` is
`[]any`, the two containers the code looks into; every other constructor is a
value the code only moves around.  Integers carry their kind, floats their
IEEE bit pattern, a `time.Time` an instant; `strs`, `nums`, `floats`, `times`
and `strMap` are the typed slices and the `map[string]string` returned by the
command's getters; `mapAny` is a `map[any]any`, each key given by its `%v`
rendering; `nilRef` and `ref` are a pointer held in an `any`, a nil pointer and
a pointer given by what its pointee converts to; `other` is a value of any
further type.  A Go map is a list of entries with distinct keys. -/
inductive GoAny where
  | null
  | str (s : Str)
  | bool (b : Bool)
  | num (k : Kind) (v : Int)
  | float (k : Kind) (bits : Nat)
  | duration (ns : Int)
  | time (t : Int)
  | strs (xs : List Str)
  | nums (k : Kind) (xs : List Int)
  | floats (k : Kind) (xs : List Nat)
  | times (xs : List Int)
  | strMap (m : List (Str × Str))
  | other (repr : Nat)
  | nilRef
  | ref (target : GoAny)
  | seq (xs : List GoAny)
  | map (m : List (Str × GoAny))
  | mapAny (m : List (Str × GoAny))

/-- Go `map[string]any`. -/
abbrev ConfigMap := List (Str × GoAny)

/-- The map index `m[key]`: `some v` when the key is present. -/
def mapGet {α : Type} (m : List (Str × α)) (key : Str) : Option α :=
  match m with
  | [] => none
  | (k, v) :: rest => if k = key then some v else mapGet rest key

/-- The map store `m[key] = value`. -/
def mapSet {α : Type} (m : List (Str × α)) (key : Str) (value : α) : List (Str × α) :=
  match m with
  | [] => [(key, value)]
  | (k, v) :: rest => if k = key then (k, value) :: rest else (k, v) :: mapSet rest key value

/-- The type assertion `v.(map[string]any)` on the result of a map index. -/
def asMap : Option GoAny → Option ConfigMap
  | some (.map m) => some m
  | _ => none

/-! ## `mergeMaps` and `setByPath` -/

mutual
/-- The value `mergeMaps` leaves at `dst[key]` for the entry `key, value` of
`src`, `old` being `dst[key]` before: the merged map when both are
`map[string]any`, `value` otherwise. -/
def mergeValue : Option GoAny → GoAny → GoAny
  | some (.map dstMap), .map valueMap => .map (mergeMaps dstMap valueMap)
  | _, value => value
/-- `mergeMaps(dst, src)`: the map `dst` after the call. -/
def mergeMaps : ConfigMap → ConfigMap → ConfigMap
  | dst, [] => dst
  | dst, (key, value) :: rest =>
    mergeMaps (mapSet dst key (mergeValue (mapGet dst key) value)) rest
end

/-- `strings.Split(s, sep)` for a one-byte separator. -/
def splitOnByte (sep : Char) : Str → List Str
  | [] => [[]]
  | c :: rest =>
    if c = sep then [] :: splitOnByte sep rest
    else
      match splitOnByte sep rest with
      | [] => [[c]]
      | p :: ps => (c :: p) :: ps

/-- The loop of `setByPath` over `parts`, `current` being the map reached so
far; the result is that map after the loop. -/
def setByParts : List Str → ConfigMap → GoAny → ConfigMap
  | [], current, _ => current
  | [part], current, value => mapSet current part value
  | part :: rest, current, value =>
    let next := (asMap (mapGet current part)).getD []
    mapSet current part (.map (setByParts rest next value))

/-- `setByPath(dst, path, value)`: the map `dst` after the call. -/
def setByPath (dst : ConfigMap) (path : Str) (value : GoAny) : ConfigMap :=
  setByParts (splitOnByte '.' path) dst value

/-- What a value holds at a sequence of keys, descending through
`map[string]any` values only. -/
def getAt : List Str → GoAny → Option GoAny
  | [], v => some v
  | part :: rest, .map m => (mapGet m part).bind (getAt rest)
  | _ :: _, _ => none

/-- What a tree holds at a key-path, split at `.` as `setByPath` does. -/
def getByPath (m : ConfigMap) (path : Str) : Option GoAny :=
  getAt (splitOnByte '.' path) (.map m)


/-! ## Types and typed values (`reflect.Type`, `reflect.Value`) -/

mutual
/-- A Go type as the code sees it through `reflect`: a finite tree.  `basic k`
is any type of a kind that is no pointer, slice, map or struct, other than
`time.Duration`; `struct` is any struct type other than `time.Time`. -/
inductive GoType where
  | basic (k : Kind)
  | duration
  | time
  | pointer (elem : GoType)
  | slice (elem : GoType)
  | map (key elem : GoType)
  | struct (fields : Fields)
/-- The fields of a struct type in declaration order, each with its
`PkgPath` (empty for an exported field), the value of `Tag.Get("json")` and
its type. -/
inductive Fields where
  | nil
  | cons (pkgPath : Str) (tag : Str) (type : GoType) (rest : Fields)
end

/-- `typ.Kind()`. -/
def GoType.kind : GoType → Kind
  | .basic k => k
  | .duration => .int64
  | .time => .struct
  | .pointer _ => .pointer
  | .slice _ => .slice
  | .map _ _ => .map
  | .struct _ => .struct

/-- A Go value as the code sees it through `reflect`.  `prim a` is a value of
a kind that is no pointer, slice, map or struct, or a `time.Time`, with `a`
its `Interface()`; the entries of a map are given with the `%v` rendering of
their keys, in the order `MapRange` visits them. -/
inductive GoValue where
  | prim (a : GoAny)
  | nilPointer
  | pointer (elem : GoValue)
  | nilSlice
  | slice (elems : List GoValue)
  | nilMap
  | mapOf (entries : List (Str × GoValue))
  | struct (fields : List GoValue)

/-- The text of `s` before the first `,` (`strings.Split(tag, ",")[0]`). -/
def beforeComma : Str → Str
  | [] => []
  | c :: rest => if c = ',' then [] else c :: beforeComma rest

def parseTagName (tag : Str) : Str :=
  if tag = [] then []
  else
    let part0 := beforeComma tag
    if part0 = [] ∨ part0 = ['-'] then [] else part0

/-- `configTagName(field)`, the field given by the value of its `json` tag. -/
def configTagName (tag : Str) : Str := parseTagName tag

def isStructType : GoType → Bool
  | .pointer (.struct _) => true
  | .struct _ => true
  | _ => false

/-- `val.Field(i)` for the first field and the remaining fields of a struct
value. -/
def GoValue.fieldValues : GoValue → List GoValue
  | .struct vs => vs
  | _ => []

mutual
/-- `valueToAny(val, typ)` after its pointer step: `structValueToMap(val, typ)`
when `isStructType(typ)`, the switch on `val.Kind()` otherwise.  Where the Go
code calls `valueToAny` on an element, an entry or a field, the pointer step
of that call is written out (see `valueToAny`), once for a pointer type and
once for any other type.  A value that is still a pointer after the pointer
step, and points to no record, takes the `default` branch of the switch:
`val.Interface()` is the pointer itself, `nilRef` or `ref`. -/
def valueToAnyCore : GoType → GoValue → GoAny
  | .struct fs, val =>
    match val with
    | .nilPointer => .map []
    | .pointer _ => .map []
    | _ => .map (fieldsToMap fs val.fieldValues [])
  | .pointer (.struct fs), val =>
    match val with
    | .pointer v => .map (fieldsToMap fs v.fieldValues [])
    | _ => .map []
  | .slice (.pointer t), val =>
    match val with
    | .nilSlice => .null
    | .slice xs =>
      .seq (xs.map (fun elem =>
        match elem with
        | .nilPointer => .null
        | .pointer v => valueToAnyCore t v
        | _ => valueToAnyCore (.pointer t) elem))
    | .prim a => a
    | _ => .null
  | .slice et, val =>
    match val with
    | .nilSlice => .null
    | .slice xs =>
      .seq (xs.map (fun elem =>
        match elem with
        | .nilPointer => .null
        | _ => valueToAnyCore et elem))
    | .prim a => a
    | _ => .null
  | .map _ (.pointer t), val =>
    match val with
    | .nilMap => .null
    | .mapOf es =>
      .map (es.foldl (fun out entry =>
        mapSet out entry.1
          (match entry.2 with
           | .nilPointer => .null
           | .pointer v => valueToAnyCore t v
           | _ => valueToAnyCore (.pointer t) entry.2)) [])
    | .prim a => a
    | _ => .null
  | .map _ et, val =>
    match val with
    | .nilMap => .null
    | .mapOf es =>
      .map (es.foldl (fun out entry =>
        mapSet out entry.1
          (match entry.2 with
           | .nilPointer => .null
           | _ => valueToAnyCore et entry.2)) [])
    | .prim a => a
    | _ => .null
  | .pointer t, val =>
    match val with
    | .nilPointer => .nilRef
    | .pointer v => .ref (valueToAnyCore t v)
    | .prim a => a
    | _ => .null
  | _, val =>
    match val with
    | .prim a => a
    | _ => .null
/-- The field loop of `structValueToMap`: `vals` are the values `val.Field(i)`
of the fields still to visit, `out` the map built so far. -/
def fieldsToMap : Fields → List GoValue → ConfigMap → ConfigMap
  | .nil, _, out => out
  | .cons pkgPath tag (.pointer t) rest, vals, out =>
    if pkgPath ≠ [] then fieldsToMap rest vals.tail out
    else
      let key := configTagName tag
      if key = [] then fieldsToMap rest vals.tail out
      else
        fieldsToMap rest vals.tail
          (mapSet out key
            (match vals.headD .nilPointer with
             | .nilPointer => .null
             | .pointer v => valueToAnyCore t v
             | fieldVal => valueToAnyCore (.pointer t) fieldVal))
  | .cons pkgPath tag ft rest, vals, out =>
    if pkgPath ≠ [] then fieldsToMap rest vals.tail out
    else
      let key := configTagName tag
      if key = [] then fieldsToMap rest vals.tail out
      else
        fieldsToMap rest vals.tail
          (mapSet out key
            (match vals.headD .nilPointer with
             | .nilPointer => .null
             | fieldVal => valueToAnyCore ft fieldVal))
end

/-- `valueToAny(val, typ)`: a nil pointer gives `nil`, a pointer is followed
once (`val = val.Elem()`, `typ = typ.Elem()`). -/
def valueToAny (typ : GoType) (val : GoValue) : GoAny :=
  match typ, val with
  | _, .nilPointer => .null
  | .pointer t, .pointer v => valueToAnyCore t v
  | _, _ => valueToAnyCore typ val

/-- `structValueToMap(val, typ)`.  The fields of `time.Time` are unexported, so
its loop writes nothing. -/
def structValueToMap (val : GoValue) (typ : GoType) : ConfigMap :=
  match val with
  | .nilPointer => []
  | .pointer v =>
    match typ with
    | .pointer (.struct fs) => fieldsToMap fs v.fieldValues []
    | _ => []
  | _ =>
    match typ with
    | .struct fs => fieldsToMap fs val.fieldValues []
    | _ => []

/-- `structToMap(cfg)`, with `typ` the type and `val` the value of `cfg`. -/
def structToMap (typ : GoType) (val : GoValue) : ConfigMap :=
  structValueToMap val typ

/-! ## Key-paths of the schema -/

mutual
/-- `collectConfigKeysRecursive(typ, prefix, keys)`: the slice `*keys` after
the call. -/
def collectConfigKeysRecursive : GoType → Str → List Str → List Str
  | .pointer (.struct fs), pfx, keys => collectConfigKeysFields fs pfx keys
  | .struct fs, pfx, keys => collectConfigKeysFields fs pfx keys
  | _, _, keys => keys
/-- The field loop of `collectConfigKeysRecursive`. -/
def collectConfigKeysFields : Fields → Str → List Str → List Str
  | .nil, _, keys => keys
  | .cons _ tag ft rest, pfx, keys =>
    let key := configTagName tag
    if key = [] then collectConfigKeysFields rest pfx keys
    else
      let fullKey := if pfx ≠ [] then pfx ++ ['.'] ++ key else key
      if isStructType ft then
        collectConfigKeysFields rest pfx (collectConfigKeysRecursive ft fullKey keys)
      else collectConfigKeysFields rest pfx (keys ++ [fullKey])
end

/-- `collectConfigKeys(defaultConfig)`, with `typ` the type of the value. -/
def collectConfigKeys (typ : GoType) : List Str :=
  collectConfigKeysRecursive typ [] []

/-! ## Environment bindings -/

/-- `strings.NewReplacer(".", "_", "-", "_").Replace`, byte by byte. -/
def replaceDotDash (key : Str) : Str :=
  key.map (fun c => if c = '.' ∨ c = '-' then '_' else c)

/-- `strings.ToUpper(s)`.  A text of ASCII bytes only takes the fast path of
the library: the bytes `a`..`z` become `A`..`Z` and every other byte stays.  A
text with a byte outside ASCII goes through `strings.Map(unicode.ToUpper, s)`,
which maps it rune by rune with the case tables of the `unicode` package: that
call is the parameter `mapToUpper`. -/
def toUpper (mapToUpper : Str → Str) (s : Str) : Str :=
  if s.all (fun c => c.toNat < 128) then s.map Char.toUpper else mapToUpper s

/-- `generateEnvBindings(prefix, keys)`: the map from variable name to
key-path; `mapToUpper` as in `toUpper`. -/
def generateEnvBindings (mapToUpper : Str → Str) (pfx : Str) (keys : List Str) :
    List (Str × Str) :=
  keys.foldl
    (fun bindings key => mapSet bindings (pfx ++ toUpper mapToUpper (replaceDotDash key)) key) []

/-- The loop `for envKey, configPath := range autoBindings` of `load`, over the
entries in the order they are visited. -/
def applyEnvBindings (getenv : Str → Str) : List (Str × Str) → ConfigMap → ConfigMap
  | [], configMap => configMap
  | (envKey, configPath) :: rest, configMap =>
    let val := getenv envKey
    if val ≠ [] then applyEnvBindings getenv rest (setByPath configMap configPath (.str val))
    else applyEnvBindings getenv rest configMap


/-! ## Command-line flags -/

/-- The `*cli.Command` handle: `IsSet` and the typed getters the code calls.
Floats are given by their bit pattern, durations in nanoseconds, timestamps as
instants. -/
structure Command where
  IsSet : Str → Bool
  String : Str → Str
  Bool : Str → Bool
  Int : Str → ℤ
  Int8 : Str → ℤ
  Int16 : Str → ℤ
  Int32 : Str → ℤ
  Int64 : Str → ℤ
  Uint : Str → ℕ
  Uint16 : Str → ℕ
  Uint32 : Str → ℕ
  Uint64 : Str → ℕ
  Float32 : Str → ℕ
  Float64 : Str → ℕ
  Duration : Str → ℤ
  Timestamp : Str → ℤ
  TimestampArgs : Str → List ℤ
  StringSlice : Str → List Str
  IntSlice : Str → List ℤ
  Int8Slice : Str → List ℤ
  Int16Slice : Str → List ℤ
  Int32Slice : Str → List ℤ
  Int64Slice : Str → List ℤ
  Uint16Slice : Str → List ℕ
  Uint32Slice : Str → List ℕ
  Float32Slice : Str → List ℕ
  Float64Slice : Str → List ℕ
  StringMap : Str → List (Str × Str)

/-- `typ.Elem()` of a pointer, slice or map type. -/
def GoType.elemType : GoType → GoType
  | .pointer et => et
  | .slice et => et
  | .map _ et => et
  | t => t

/-- `typ.Key()` of a map type. -/
def GoType.keyType : GoType → GoType
  | .map kt _ => kt
  | t => t

/-- `setSliceFlagValue(cmd, config, configPath, cliFlag, fieldType)`: the map
`config` after the call. -/
def setSliceFlagValue (cmd : Command) (config : ConfigMap) (configPath cliFlag : Str)
    (fieldType : GoType) : ConfigMap :=
  let elemType := fieldType.elemType
  match elemType with
  | .time => setByPath config configPath (.times (cmd.TimestampArgs cliFlag))
  | _ =>
    match elemType.kind with
    | .string => setByPath config configPath (.strs (cmd.StringSlice cliFlag))
    | .int => setByPath config configPath (.nums .int (cmd.IntSlice cliFlag))
    | .int8 => setByPath config configPath (.nums .int8 (cmd.Int8Slice cliFlag))
    | .int16 => setByPath config configPath (.nums .int16 (cmd.Int16Slice cliFlag))
    | .int32 => setByPath config configPath (.nums .int32 (cmd.Int32Slice cliFlag))
    | .int64 => setByPath config configPath (.nums .int64 (cmd.Int64Slice cliFlag))
    | .uint16 =>
      setByPath config configPath (.nums .uint16 ((cmd.Uint16Slice cliFlag).map Int.ofNat))
    | .uint32 =>
      setByPath config configPath (.nums .uint32 ((cmd.Uint32Slice cliFlag).map Int.ofNat))
    | .float32 => setByPath config configPath (.floats .float32 (cmd.Float32Slice cliFlag))
    | .float64 => setByPath config configPath (.floats .float64 (cmd.Float64Slice cliFlag))
    | _ => config

/-- `setCLIFlagValue(cmd, config, configPath, cliFlag, fieldType)`: the map
`config` after the call.  The conversion `uint8(x)` is `x % 256`. -/
def setCLIFlagValue (cmd : Command) (config : ConfigMap) (configPath cliFlag : Str)
    (fieldType : GoType) : ConfigMap :=
  match fieldType with
  | .duration => setByPath config configPath (.duration (cmd.Duration cliFlag))
  | .time => setByPath config configPath (.time (cmd.Timestamp cliFlag))
  | _ =>
    match fieldType.kind with
    | .string => setByPath config configPath (.str (cmd.String cliFlag))
    | .bool => setByPath config configPath (.bool (cmd.Bool cliFlag))
    | .int => setByPath config configPath (.num .int (cmd.Int cliFlag))
    | .int8 => setByPath config configPath (.num .int8 (cmd.Int8 cliFlag))
    | .int16 => setByPath config configPath (.num .int16 (cmd.Int16 cliFlag))
    | .int32 => setByPath config configPath (.num .int32 (cmd.Int32 cliFlag))
    | .int64 => setByPath config configPath (.num .int64 (cmd.Int64 cliFlag))
    | .uint => setByPath config configPath (.num .uint (Int.ofNat (cmd.Uint cliFlag)))
    | .uint8 => setByPath config configPath (.num .uint8 (Int.ofNat (cmd.Uint cliFlag % 256)))
    | .uint16 => setByPath config configPath (.num .uint16 (Int.ofNat (cmd.Uint16 cliFlag)))
    | .uint32 => setByPath config configPath (.num .uint32 (Int.ofNat (cmd.Uint32 cliFlag)))
    | .uint64 => setByPath config configPath (.num .uint64 (Int.ofNat (cmd.Uint64 cliFlag)))
    | .float32 => setByPath config configPath (.float .float32 (cmd.Float32 cliFlag))
    | .float64 => setByPath config configPath (.float .float64 (cmd.Float64 cliFlag))
    | .slice => setSliceFlagValue cmd config configPath cliFlag fieldType
    | .map =>
      if fieldType.keyType.kind = .string ∧ fieldType.elemType.kind = .string then
        setByPath config configPath (.strMap (cmd.StringMap cliFlag))
      else config
    | _ => config

/-- `strings.ReplaceAll(fullKey, ".", "-")`. -/
def replaceDots (fullKey : Str) : Str :=
  fullKey.map (fun c => if c = '.' then '-' else c)

mutual
/-- `applyCLIFlagsRecursive(cmd, config, typ, prefix)`: the map `config` after
the call. -/
def applyCLIFlagsRecursive (cmd : Command) : ConfigMap → GoType → Str → ConfigMap
  | config, .pointer (.struct fs), pfx => applyCLIFlagsFields cmd config fs pfx
  | config, .struct fs, pfx => applyCLIFlagsFields cmd config fs pfx
  | config, _, _ => config
/-- The field loop of `applyCLIFlagsRecursive`. -/
def applyCLIFlagsFields (cmd : Command) : ConfigMap → Fields → Str → ConfigMap
  | config, .nil, _ => config
  | config, .cons _ tag ft rest, pfx =>
    let key := configTagName tag
    if key = [] then applyCLIFlagsFields cmd config rest pfx
    else
      let fullKey := if pfx ≠ [] then pfx ++ ['.'] ++ key else key
      if isStructType ft then
        applyCLIFlagsFields cmd (applyCLIFlagsRecursive cmd config ft fullKey) rest pfx
      else
        let cliFlag := replaceDots fullKey
        if !cmd.IsSet cliFlag then applyCLIFlagsFields cmd config rest pfx
        else applyCLIFlagsFields cmd (setCLIFlagValue cmd config fullKey cliFlag ft) rest pfx
end

/-- `applyCLIFlagsGeneric(cmd, config, defaultConfig)`, with `typ` the type of
`defaultConfig`. -/
def applyCLIFlagsGeneric (cmd : Command) (config : ConfigMap) (typ : GoType) : ConfigMap :=
  applyCLIFlagsRecursive cmd config typ []

/-! ## Options -/

/-- The `options` struct of `load`. -/
structure Options where
  appName : Str := []
  cmd : Option Command := none
  configPaths : List Str := []
  baseDir : Str := []
  baseDirSet : Bool := false
  envPrefix : Str := []
  noTemplateExpansion : Bool := false
  callerSkip : Int := 0

/-- A functional option, Go `Option func(*options)`. -/
abbrev LoadOption := Options → Options

def WithCommand (cmd : Option Command) : LoadOption := fun o => { o with cmd := cmd }

def WithAppName (name : Str) : LoadOption := fun o => { o with appName := name }

def WithConfigPaths (paths : List Str) : LoadOption := fun o => { o with configPaths := paths }

def WithBaseDir (path : Str) : LoadOption :=
  fun o => { o with baseDir := path, baseDirSet := true }

def WithCallerSkip (skip : Int) : LoadOption := fun o => { o with callerSkip := skip }

def WithEnvPrefix (pfx : Str) : LoadOption := fun o => { o with envPrefix := pfx }

def WithoutTemplateExpansion : LoadOption := fun o => { o with noTemplateExpansion := true }

/-! ## The process and the libraries `load` calls -/

/-- What `load` reads from outside the package: the file system, the process
environment, the path functions of `path/filepath`, the JSON and YAML decoders,
`FindProjectRoot` of this repository (its source is not part of the listing),
the order in which `range` visits the entries of the map of environment
bindings, which Go leaves unspecified, and the two places where the `strings`
package consults the tables of the `unicode` package: `mapToUpper` is
`strings.Map(unicode.ToUpper, s)`, the path of `strings.ToUpper` for a text with
a byte outside ASCII, and `unicodeEqualFold` is the path of
`strings.EqualFold` from the first byte outside ASCII on. -/
structure World where
  readFile : Str → Option Str
  getenv : Str → Str
  environ : List Str
  userHomeDir : Option Str
  findProjectRoot : Int → Option Str
  isAbs : Str → Bool
  join : Str → Str → Str
  ext : Str → Str
  jsonUnmarshal : Str → Except Str GoAny
  yamlUnmarshal : Str → Except Str GoAny
  rangeOrder : List (Str × Str) → List (Str × Str)
  mapToUpper : Str → Str
  unicodeEqualFold : Str → Str → Bool

/-- `DefaultPaths(appName...)`. -/
def DefaultPaths (w : World) (appName : List Str) : List Str :=
  let paths :=
    match appName with
    | name :: _ =>
      if name ≠ [] then
        let p1 := ['.'] ++ name ++ ".yaml".toList
        let p2 :=
          match w.userHomeDir with
          | some home => [w.join home (['.'] ++ name ++ ".yaml".toList)]
          | none => []
        [p1] ++ p2 ++ ["/etc/".toList ++ name ++ "/config.yaml".toList]
      else []
    | [] => []
  paths ++ ["config.yaml".toList, "config/config.yaml".toList]

/-! ## Configuration files -/

mutual
/-- `normalizeMapKeys(val)`. -/
def normalizeMapKeys : GoAny → GoAny
  | .map typed => .map (normalizeEntries typed [])
  | .mapAny typed => .map (normalizeEntries typed [])
  | .seq typed => .seq (normalizeElems typed)
  | val => val
/-- The map loops of `normalizeMapKeys`, `out` being the map built so far. -/
def normalizeEntries : List (Str × GoAny) → ConfigMap → ConfigMap
  | [], out => out
  | (key, value) :: rest, out => normalizeEntries rest (mapSet out key (normalizeMapKeys value))
/-- The slice loop of `normalizeMapKeys`. -/
def normalizeElems : List GoAny → List GoAny
  | [] => []
  | x :: xs => normalizeMapKeys x :: normalizeElems xs
end

/-- `strings.EqualFold(s, t)`.  The library compares byte by byte while both
bytes are ASCII: equal bytes and the two cases of one letter match, any other
pair gives `false`, and when one text ends the result is whether both do.  At
the first position where a byte is outside ASCII it goes on with the rest of
both texts rune by rune under Unicode case folding: that part is the parameter
`unicodeEqualFold`. -/
def equalFold (unicodeEqualFold : Str → Str → Bool) : Str → Str → Bool
  | [], [] => true
  | [], _ :: _ => false
  | _ :: _, [] => false
  | sr :: s, tr :: t =>
    if 128 ≤ sr.toNat ∨ 128 ≤ tr.toNat then unicodeEqualFold (sr :: s) (tr :: t)
    else if tr = sr then equalFold unicodeEqualFold s t
    else
      let lo := if tr.toNat < sr.toNat then tr else sr
      let hi := if tr.toNat < sr.toNat then sr else tr
      if 'A'.toNat ≤ lo.toNat ∧ lo.toNat ≤ 'Z'.toNat ∧ hi.toNat = lo.toNat + 32 then
        equalFold unicodeEqualFold s t
      else false

/-- `isJSONPath(path)`: `strings.EqualFold(filepath.Ext(path), ".json")`. -/
def isJSONPath (w : World) (path : Str) : Bool :=
  equalFold w.unicodeEqualFold (w.ext path) ".json".toList

/-- `parseConfigBytes(path, content)`. -/
def parseConfigBytes (w : World) (path content : Str) : Except Str ConfigMap :=
  let decoded := if isJSONPath w path then w.jsonUnmarshal content else w.yamlUnmarshal content
  match decoded with
  | .error err => .error err
  | .ok raw =>
    match normalizeMapKeys raw with
    | .null => .ok []
    | .map configMap => .ok configMap
    | _ => .error "config root must be object".toList

/-- The file loop of `load`: the map `configMap` after it, or the error
returned from inside it. -/
def loadConfigFile (w : World) (noTemplateExpansion : Bool) :
    List Str → ConfigMap → Templexp.Outcome ConfigMap
  | [], configMap => .ok configMap
  | path :: rest, configMap =>
    match w.readFile path with
    | none => loadConfigFile w noTemplateExpansion rest configMap
    | some content =>
      let expanded : Templexp.Outcome Str :=
        if !noTemplateExpansion then Templexp.ExpandTemplate w.environ content
        else .ok content
      match expanded with
      | .error expandErr =>
        .error ("expand template in ".toList ++ path ++ ": ".toList ++ expandErr)
      | .exhausted => .exhausted
      | .ok content1 =>
        match parseConfigBytes w path content1 with
        | .error err => .error ("parse config file ".toList ++ path ++ ": ".toList ++ err)
        | .ok fileMap => .ok (mergeMaps configMap fileMap)

/-! ## `load` -/

/-- The options of a call after the defaults of `load` are filled in: the
caller-skip override, the project root as base directory, the default search
paths. -/
def resolveOptions (w : World) (callerSkip : Int) (opts : List LoadOption) : Options :=
  let options := opts.foldl (fun o opt => opt o) {}
  let callerSkip := if options.callerSkip > 0 then options.callerSkip else callerSkip
  let options :=
    if !options.baseDirSet then
      match w.findProjectRoot callerSkip with
      | some root => { options with baseDir := root }
      | none => options
    else options
  if options.configPaths.length = 0 then
    if options.appName ≠ [] then { options with configPaths := DefaultPaths w [options.appName] }
    else { options with configPaths := DefaultPaths w [] }
  else options

/-- The candidate paths `load` tries, relative ones joined to the base
directory. -/
def candidatePaths (w : World) (options : Options) : List Str :=
  if options.baseDir ≠ [] then
    options.configPaths.map (fun p => if !w.isAbs p then w.join options.baseDir p else p)
  else options.configPaths

/-- The part of `load` before `decodeConfigMap`: the tree handed to the
decoder, or the error returned before. -/
def loadConfigMap (w : World) (typ : GoType) (defaultConfig : GoValue) (callerSkip : Int)
    (opts : List LoadOption) : Templexp.Outcome ConfigMap :=
  let options := resolveOptions w callerSkip opts
  let configMap := structToMap typ defaultConfig
  match loadConfigFile w options.noTemplateExpansion (candidatePaths w options) configMap with
  | .error err => .error err
  | .exhausted => .exhausted
  | .ok configMap =>
    let configMap :=
      if options.envPrefix ≠ [] then
        let autoBindings :=
          generateEnvBindings w.mapToUpper options.envPrefix (collectConfigKeys typ)
        applyEnvBindings w.getenv (w.rangeOrder autoBindings) configMap
      else configMap
    let configMap :=
      match options.cmd with
      | some cmd => applyCLIFlagsGeneric cmd configMap typ
      | none => configMap
    .ok configMap

/-- `load(defaultConfig, callerSkip, opts...)`, with `decode` the call of the
`mapstructure` decoder. -/
def load {τ : Type} (w : World) (decode : ConfigMap → Except Str τ) (typ : GoType)
    (defaultConfig : GoValue) (callerSkip : Int) (opts : List LoadOption) :
    Templexp.Outcome τ :=
  match loadConfigMap w typ defaultConfig callerSkip opts with
  | .error err => .error err
  | .exhausted => .exhausted
  | .ok configMap =>
    match decode configMap with
    | .error err => .error ("failed to unmarshal config: ".toList ++ err)
    | .ok cfg => .ok cfg

/-- `Load(defaultConfig, opts...)`. -/
def Load {τ : Type} (w : World) (decode : ConfigMap → Except Str τ) (typ : GoType)
    (defaultConfig : GoValue) (opts : List LoadOption) : Templexp.Outcome τ :=
  load w decode typ defaultConfig 1 opts


/-! ## Specification vocabulary -/

mutual
/-- The leaves under a type: each key-path `collectConfigKeysRecursive`
appends, with the declared type of its field. -/
def leavesOfType : GoType → Str → List (Str × GoType)
  | .pointer (.struct fs), pfx => leavesOfFields fs pfx
  | .struct fs, pfx => leavesOfFields fs pfx
  | _, _ => []
/-- The leaves under the fields of a struct type. -/
def leavesOfFields : Fields → Str → List (Str × GoType)
  | .nil, _ => []
  | .cons _ tag ft rest, pfx =>
    let key := configTagName tag
    if key = [] then leavesOfFields rest pfx
    else
      let fullKey := if pfx ≠ [] then pfx ++ ['.'] ++ key else key
      if isStructType ft then leavesOfType ft fullKey ++ leavesOfFields rest pfx
      else (fullKey, ft) :: leavesOfFields rest pfx
end

/-- The leaf key-paths of a schema with the declared types of their fields, in
the order `collectConfigKeys` and `applyCLIFlagsGeneric` visit them. -/
def schemaLeaves (typ : GoType) : List (Str × GoType) := leavesOfType typ []

/-- The value `setSliceFlagValue` writes for a slice field, `none` for an
element type it skips. -/
def sliceFlagValue (cmd : Command) (cliFlag : Str) (fieldType : GoType) : Option GoAny :=
  match fieldType.elemType with
  | .time => some (.times (cmd.TimestampArgs cliFlag))
  | elemType =>
    match elemType.kind with
    | .string => some (.strs (cmd.StringSlice cliFlag))
    | .int => some (.nums .int (cmd.IntSlice cliFlag))
    | .int8 => some (.nums .int8 (cmd.Int8Slice cliFlag))
    | .int16 => some (.nums .int16 (cmd.Int16Slice cliFlag))
    | .int32 => some (.nums .int32 (cmd.Int32Slice cliFlag))
    | .int64 => some (.nums .int64 (cmd.Int64Slice cliFlag))
    | .uint16 => some (.nums .uint16 ((cmd.Uint16Slice cliFlag).map Int.ofNat))
    | .uint32 => some (.nums .uint32 ((cmd.Uint32Slice cliFlag).map Int.ofNat))
    | .float32 => some (.floats .float32 (cmd.Float32Slice cliFlag))
    | .float64 => some (.floats .float64 (cmd.Float64Slice cliFlag))
    | _ => none

/-- The value `setCLIFlagValue` writes for a field of the given type: the
result of the getter of that type (converted to `uint8` for a `uint8` field),
`none` for a type it skips. -/
def flagValue (cmd : Command) (cliFlag : Str) (fieldType : GoType) : Option GoAny :=
  match fieldType with
  | .duration => some (.duration (cmd.Duration cliFlag))
  | .time => some (.time (cmd.Timestamp cliFlag))
  | _ =>
    match fieldType.kind with
    | .string => some (.str (cmd.String cliFlag))
    | .bool => some (.bool (cmd.Bool cliFlag))
    | .int => some (.num .int (cmd.Int cliFlag))
    | .int8 => some (.num .int8 (cmd.Int8 cliFlag))
    | .int16 => some (.num .int16 (cmd.Int16 cliFlag))
    | .int32 => some (.num .int32 (cmd.Int32 cliFlag))
    | .int64 => some (.num .int64 (cmd.Int64 cliFlag))
    | .uint => some (.num .uint (Int.ofNat (cmd.Uint cliFlag)))
    | .uint8 => some (.num .uint8 (Int.ofNat (cmd.Uint cliFlag % 256)))
    | .uint16 => some (.num .uint16 (Int.ofNat (cmd.Uint16 cliFlag)))
    | .uint32 => some (.num .uint32 (Int.ofNat (cmd.Uint32 cliFlag)))
    | .uint64 => some (.num .uint64 (Int.ofNat (cmd.Uint64 cliFlag)))
    | .float32 => some (.float .float32 (cmd.Float32 cliFlag))
    | .float64 => some (.float .float64 (cmd.Float64 cliFlag))
    | .slice => sliceFlagValue cmd cliFlag fieldType
    | .map =>
      if fieldType.keyType.kind = .string ∧ fieldType.elemType.kind = .string then
        some (.strMap (cmd.StringMap cliFlag))
      else none
    | _ => none

/-- The flag layer at a leaf: the value written by the flag stage of `load`,
`none` when no command is bound, the flag is not set or the type is skipped. -/
def flagLayer (cmd : Option Command) (key : Str) (fieldType : GoType) : Option GoAny :=
  match cmd with
  | some c => if c.IsSet (replaceDots key) then flagValue c (replaceDots key) fieldType else none
  | none => none

/-- The name of the environment variable bound to a key-path: the prefix
followed by `strings.ToUpper` of the key-path with `.` and `-` replaced. -/
def envName (mapToUpper : Str → Str) (pfx key : Str) : Str :=
  pfx ++ toUpper mapToUpper (replaceDotDash key)

/-- The environment layer at a leaf: the raw string of its variable, `none`
when the prefix is empty or the variable is empty. -/
def envLayer (w : World) (pfx key : Str) : Option GoAny :=
  if pfx ≠ [] ∧ w.getenv (envName w.mapToUpper pfx key) ≠ [] then
    some (.str (w.getenv (envName w.mapToUpper pfx key)))
  else none

/-- The file the file loop of `load` uses: the parsed content of the first
readable candidate, `none` when no candidate is readable. -/
def loadedFile (w : World) (noTemplateExpansion : Bool) :
    List Str → Templexp.Outcome (Option ConfigMap)
  | [] => .ok none
  | path :: rest =>
    match w.readFile path with
    | none => loadedFile w noTemplateExpansion rest
    | some content =>
      let expanded : Templexp.Outcome Str :=
        if !noTemplateExpansion then Templexp.ExpandTemplate w.environ content
        else .ok content
      match expanded with
      | .error expandErr =>
        .error ("expand template in ".toList ++ path ++ ": ".toList ++ expandErr)
      | .exhausted => .exhausted
      | .ok content1 =>
        match parseConfigBytes w path content1 with
        | .error err => .error ("parse config file ".toList ++ path ++ ": ".toList ++ err)
        | .ok fileMap => .ok (some fileMap)

/-- The priority of the four layers at one key-path: the flag value, else the
environment string, else the value of the file, else the default. -/
def layeredValue (flag env file dflt : Option GoAny) : Option GoAny :=
  match flag with
  | some v => some v
  | none =>
    match env with
    | some v => some v
    | none =>
      match file with
      | some v => some v
      | none => dflt

/-- Two key sequences part ways: neither leads into the other. -/
def Diverge (p q : List Str) : Prop := ¬ p <+: q ∧ ¬ q <+: p

mutual
/-- Every `map[string]any` inside the value has pairwise distinct keys, as a
Go map has. -/
def distinctKeys : GoAny → Bool
  | .map m => distinctKeysEntries m [] 
  | .seq xs => distinctKeysElems xs
  | _ => true
/-- The entries of a map have keys distinct from `seen` and from each other,
and values with distinct keys. -/
def distinctKeysEntries : List (Str × GoAny) → List Str → Bool
  | [], _ => true
  | (key, value) :: rest, seen =>
    !seen.contains key && distinctKeys value && distinctKeysEntries rest (key :: seen)
/-- The elements of a slice have distinct keys. -/
def distinctKeysElems : List GoAny → Bool
  | [] => true
  | x :: xs => distinctKeys x && distinctKeysElems xs
end

/-- The key sequences that lead to `p` without reaching it. -/
def OnTheWay (q p : List Str) : Prop := q <+: p ∧ q ≠ p ∧ q ≠ []

/-- The flag stage over a list of leaves: each leaf whose flag is set is
written by `setCLIFlagValue`. -/
def applyFlagLeaves (cmd : Command) : List (Str × GoType) → ConfigMap → ConfigMap
  | [], config => config
  | (fullKey, ft) :: rest, config =>
    if !cmd.IsSet (replaceDots fullKey) then applyFlagLeaves cmd rest config
    else applyFlagLeaves cmd rest (setCLIFlagValue cmd config fullKey (replaceDots fullKey) ft)


/-! ## Concrete inputs -/

/-- A command on which no flag is set. -/
def Command.unset : Command where
  IsSet := fun _ => false
  String := fun _ => []
  Bool := fun _ => false
  Int := fun _ => 0
  Int8 := fun _ => 0
  Int16 := fun _ => 0
  Int32 := fun _ => 0
  Int64 := fun _ => 0
  Uint := fun _ => 0
  Uint16 := fun _ => 0
  Uint32 := fun _ => 0
  Uint64 := fun _ => 0
  Float32 := fun _ => 0
  Float64 := fun _ => 0
  Duration := fun _ => 0
  Timestamp := fun _ => 0
  TimestampArgs := fun _ => []
  StringSlice := fun _ => []
  IntSlice := fun _ => []
  Int8Slice := fun _ => []
  Int16Slice := fun _ => []
  Int32Slice := fun _ => []
  Int64Slice := fun _ => []
  Uint16Slice := fun _ => []
  Uint32Slice := fun _ => []
  Float32Slice := fun _ => []
  Float64Slice := fun _ => []
  StringMap := fun _ => []

/-- A process with no files and an empty environment; paths are joined with
`/`, every decoder call fails, and `range` visits a map in the order of its
entries.  The texts this process meets are ASCII, so the two paths of `strings`
through the `unicode` tables are never taken; they are filled in with the
identity and with equality. -/
def World.bare : World where
  readFile := fun _ => none
  getenv := fun _ => []
  environ := []
  userHomeDir := none
  findProjectRoot := fun _ => none
  isAbs := fun p => p.head? = some '/'
  join := fun dir p => dir ++ ['/'] ++ p
  ext := fun _ => []
  jsonUnmarshal := fun _ => .error "no decoder".toList
  yamlUnmarshal := fun _ => .error "no decoder".toList
  rangeOrder := fun l => l
  mapToUpper := fun s => s
  unicodeEqualFold := fun s t => decide (s = t)

/-- The schema `struct { Name string; Server struct { Host string; Port int } }`
with the keys `name`, `server`, `host`, `port`. -/
def demoType : GoType :=
  .struct (.cons [] "name".toList (.basic .string)
    (.cons [] "server".toList
      (.struct (.cons [] "host".toList (.basic .string)
        (.cons [] "port".toList (.basic .int) .nil))) .nil))

def demoDefault : GoValue :=
  .struct [.prim (.str "app".toList),
    .struct [.prim (.str "localhost".toList), .prim (.num .int 8080)]]

/-- The content of the file of the demonstration as the YAML decoder returns
it. -/
def demoFile : ConfigMap :=
  [("server".toList, .map [("host".toList, .str "filehost".toList),
    ("port".toList, .num .int 1)])]

/-- A process with the file `/etc/demo.yaml`, the variable `APP_SERVER_HOST`
and no other. -/
def demoWorld : World :=
  { World.bare with
    readFile := fun p => if p = "/etc/demo.yaml".toList then some "server: ...".toList else none
    getenv := fun n => if n = "APP_SERVER_HOST".toList then "envhost".toList else []
    yamlUnmarshal := fun _ => .ok (.map demoFile) }

/-- A command on which `--server-port 9090` is set. -/
def demoCommand : Command :=
  { Command.unset with
    IsSet := fun f => f = "server-port".toList
    Int := fun _ => 9090 }

def demoOptions : List LoadOption :=
  [WithConfigPaths ["/etc/demo.yaml".toList], WithEnvPrefix "APP_".toList,
    WithCommand (some demoCommand)]

/-- The schema `struct { Tags map[string]string }` with the key `tags`. -/
def tagsType : GoType :=
  .struct (.cons [] "tags".toList (.map (.basic .string) (.basic .string)) .nil)

/-- The default `Tags: {"a": "1"}`. -/
def tagsDefault : GoValue :=
  .struct [.mapOf [("a".toList, .prim (.str "1".toList))]]

/-- The file `tags: {b: "2"}` as the YAML decoder returns it. -/
def tagsFile : ConfigMap :=
  [("tags".toList, .map [("b".toList, .str "2".toList)])]

def tagsWorld : World :=
  { World.bare with
    readFile := fun p => if p = "/etc/tags.yaml".toList then some "tags: ...".toList else none
    yamlUnmarshal := fun _ => .ok (.map tagsFile) }

def tagsOptions : List LoadOption := [WithConfigPaths ["/etc/tags.yaml".toList]]


/-! ## The environment step of `load` -/

/-- The environment-binding step of `load`: the block guarded by
`options.envPrefix != ""`, which binds every key-path of the schema to its
variable and writes the non-empty values into the tree. -/
def bindEnvironment (w : World) (typ : GoType) (envPrefix : Str) (configMap : ConfigMap) :
    ConfigMap :=
  if envPrefix ≠ [] then
    applyEnvBindings w.getenv
      (w.rangeOrder (generateEnvBindings w.mapToUpper envPrefix (collectConfigKeys typ)))
      configMap
  else configMap


/-! ## Concrete inputs for the merge, the environment step and the round trip -/

/-- The schema `struct { Name string; secret string; Note string }` of package
`main`, with the `json` tags `name` on `Name` and `secret` on the unexported
field `secret`, and no tag on `Note`. -/
def secretType : GoType :=
  .struct (.cons [] "name".toList (.basic .string)
    (.cons "main".toList "secret".toList (.basic .string)
      (.cons [] [] (.basic .string) .nil)))

/-- The value `{Name: "app", secret: "s3cr3t", Note: "draft"}`. -/
def secretValue : GoValue :=
  .struct [.prim (.str "app".toList), .prim (.str "s3cr3t".toList), .prim (.str "draft".toList)]

/-- The value `{Name: "app"}`, its other two fields empty. -/
def secretBlank : GoValue :=
  .struct [.prim (.str "app".toList), .prim (.str []), .prim (.str [])]

/-- A decoder for the schema `demoType`: it reads the three leaves of the tree
into a value of that type. -/
def demoDecode (tree : ConfigMap) : Except Str GoValue :=
  match getByPath tree "name".toList, getByPath tree "server.host".toList,
    getByPath tree "server.port".toList with
  | some (.str name), some (.str host), some (.num .int port) =>
    .ok (.struct [.prim (.str name), .struct [.prim (.str host), .prim (.num .int port)]])
  | _, _, _ => .error "cannot decode".toList


/-- A destination tree: a scalar at `server`, a mapping at `log`. -/
def mergeDst : ConfigMap :=
  [("server".toList, .str "off".toList),
    ("log".toList, .map [("level".toList, .str "info".toList),
      ("file".toList, .str "app.log".toList)])]

/-- A source tree: a mapping at `server`, a partial mapping at `log`. -/
def mergeSrc : ConfigMap :=
  [("server".toList, .map [("host".toList, .str "example.org".toList)]),
    ("log".toList, .map [("level".toList, .str "debug".toList)])]

/-- The schema `struct { Client struct { RevAuthUser string } }` with the keys
`client` and `rev-auth-user`. -/
def clientType : GoType :=
  .struct (.cons [] "client".toList
    (.struct (.cons [] "rev-auth-user".toList (.basic .string) .nil)) .nil)

/-- A tree for `clientType` with the user `admin`. -/
def clientTree : ConfigMap :=
  [("client".toList, .map [("rev-auth-user".toList, .str "admin".toList)])]

/-- A process in which `APP_CLIENT_REV_AUTH_USER` has the given value and every
other variable is unset. -/
def clientWorld (value : Str) : World :=
  { World.bare with
    getenv := fun n => if n = "APP_CLIENT_REV_AUTH_USER".toList then value else [] }

/-- The schema `struct { A struct { X string; Y string } }` with the keys `a`,
`b-c` and `b_c`: its two leaves have the same variable name. -/
def clashType : GoType :=
  .struct (.cons [] "a".toList
    (.struct (.cons [] "b-c".toList (.basic .string)
      (.cons [] "b_c".toList (.basic .string) .nil))) .nil)

/-- A tree for `clashType`. -/
def clashTree : ConfigMap :=
  [("a".toList, .map [("b-c".toList, .str "one".toList), ("b_c".toList, .str "two".toList)])]

/-- A process in which `APP_A_B_C` is `env` and every other variable is
unset. -/
def clashWorld : World :=
  { World.bare with getenv := fun n => if n = "APP_A_B_C".toList then "env".toList else [] }


/-! ## Concrete inputs for the flag stage -/

/-- The schema `struct { A string; B string }` with the keys `a` and `a.b`: the
key-path of the first leaf leads into the key-path of the second. -/
def overlapType : GoType :=
  .struct (.cons [] "a".toList (.basic .string) (.cons [] "a.b".toList (.basic .string) .nil))

/-- A tree with a mapping at `a`, as a file `a: {b: kept}` gives it. -/
def overlapTree : ConfigMap := [("a".toList, .map [("b".toList, .str "kept".toList)])]

/-- A command on which `--a x` is set and no other flag. -/
def overlapCommand : Command :=
  { Command.unset with
    IsSet := fun f => f = "a".toList
    String := fun _ => "x".toList }

/-- The schema `struct { Level uint8; Marks []bool }` with the keys `level` and
`marks`. -/
def narrowType : GoType :=
  .struct (.cons [] "level".toList (.basic .uint8)
    (.cons [] "marks".toList (.slice (.basic .bool)) .nil))

/-- A tree for `narrowType`. -/
def narrowTree : ConfigMap :=
  [("level".toList, .num .uint8 7), ("marks".toList, .null)]

/-- A command on which `--level 300` and `--marks` are set. -/
def narrowCommand : Command :=
  { Command.unset with
    IsSet := fun f => f = "level".toList ∨ f = "marks".toList
    Uint := fun _ => 300 }


/-! ## Concrete inputs for the file stage -/

/-- A process with the two files `/etc/one.yaml` and `/etc/two.yaml`; the YAML
decoder gives the tree `demoFile` for the content of the first and a tree with
the key `other` for every other content. -/
def twoFilesWorld : World :=
  { World.bare with
    readFile := fun p =>
      if p = "/etc/one.yaml".toList then some "one".toList
      else if p = "/etc/two.yaml".toList then some "two".toList
      else none
    yamlUnmarshal := fun c =>
      if c = "one".toList then .ok (.map demoFile)
      else .ok (.map [("other".toList, .bool true)]) }

/-- A process whose YAML decoder gives the null root, as for an empty
document. -/
def emptyDocumentWorld : World :=
  { World.bare with yamlUnmarshal := fun _ => .ok .null }

/-- A process whose home directory is `/home/u`. -/
def homeWorld : World :=
  { World.bare with userHomeDir := some "/home/u".toList }


/-! ## Key-paths as sequences of key names -/

/-- Key names joined with `.`. -/
def dotJoin : List Str → Str
  | [] => []
  | [name] => name
  | name :: rest => name ++ '.' :: dotJoin rest

mutual
/-- The leaf key-paths under a type as the specification describes them, each
as the sequence of key names from the root: a record, or a pointer to a record,
has the key-paths of its fields, every other type has none below it. -/
def keyPathsOfType : GoType → List (List Str)
  | .pointer (.struct fs) => keyPathsOfFields fs
  | .struct fs => keyPathsOfFields fs
  | _ => []
/-- The leaf key-paths under the fields of a record, depth-first in declaration
order: a field without a key name has none, a field that is a nested record has
those of the record below its own key name, every other field is a leaf. -/
def keyPathsOfFields : Fields → List (List Str)
  | .nil => []
  | .cons _ tag ft rest =>
    if configTagName tag = [] then keyPathsOfFields rest
    else if isStructType ft then
      (keyPathsOfType ft).map (fun names => configTagName tag :: names) ++ keyPathsOfFields rest
    else [configTagName tag] :: keyPathsOfFields rest
end

/-- The schema `struct { Name string; Wait time.Duration; At *time.Time;
Inner struct { Host string }; Skipped struct { Port int }; Hidden string }`
with the tags `name`, `wait`, `at,omitempty`, `inner` (its field `host`),
no tag on `Skipped` (its field `port`), and `-` on `Hidden`. -/
def walkType : GoType :=
  .struct (.cons [] "name".toList (.basic .string)
    (.cons [] "wait".toList .duration
      (.cons [] "at,omitempty".toList (.pointer .time)
        (.cons [] "inner".toList (.struct (.cons [] "host".toList (.basic .string) .nil))
          (.cons [] [] (.struct (.cons [] "port".toList (.basic .int) .nil))
            (.cons [] "-".toList (.basic .string) .nil))))))


/-! ## The fields of a record and the tree built from it -/

/-- The field whose value `structValueToMap` leaves under `key`: the last
exported field of the record with that key name, given by its type and its
value. -/
def lastField : Fields → List GoValue → Str → Option (GoType × GoValue)
  | .nil, _, _ => none
  | .cons pkgPath tag ft rest, vals, key =>
    match lastField rest vals.tail key with
    | some found => some found
    | none =>
      if pkgPath = [] ∧ configTagName tag ≠ [] ∧ configTagName tag = key then
        some (ft, vals.headD .nilPointer)
      else none

/-- The fields and the field values of a record: of a record value, or of a
non-nil pointer to one. -/
def recordOf : GoType → GoValue → Option (Fields × List GoValue)
  | .struct fs, .struct vals => some (fs, vals)
  | .pointer (.struct fs), .pointer (.struct vals) => some (fs, vals)
  | _, _ => none

/-- The field reached from a record along a sequence of key names: at each
name the last exported field with that key name, which is a record, or a
non-nil pointer to one, as long as names follow. -/
def fieldAtFields : List Str → Fields → List GoValue → Option (GoType × GoValue)
  | [], _, _ => none
  | [name], fs, vals => lastField fs vals name
  | name :: rest, fs, vals =>
    match lastField fs vals name with
    | some (ft, fv) =>
      match recordOf ft fv with
      | some (fs2, vals2) => fieldAtFields rest fs2 vals2
      | none => none
    | none => none

/-- The field reached from a typed value along a sequence of key names. -/
def fieldAt (typ : GoType) (v : GoValue) (names : List Str) : Option (GoType × GoValue) :=
  match recordOf typ v with
  | some (fs, vals) => fieldAtFields names fs vals
  | none => none

/-- The schema `struct { X string }` with the key `a.b`. -/
def dottedType : GoType := .struct (.cons [] "a.b".toList (.basic .string) .nil)

/-- A value of `dottedType`. -/
def dottedValue : GoValue := .struct [.prim (.str "v".toList)]

/-- The schema `struct { Sub *struct { X string }; Port *int }` with the keys
`sub`, `x` and `port`. -/
def nilSubType : GoType :=
  .struct (.cons [] "sub".toList (.pointer (.struct (.cons [] "x".toList (.basic .string) .nil)))
    (.cons [] "port".toList (.pointer (.basic .int)) .nil))

/-- The value of `nilSubType` whose two pointers are nil. -/
def nilSubValue : GoValue := .struct [.nilPointer, .nilPointer]

/-- A value of `nilSubType` whose pointers are set. -/
def setSubValue : GoValue :=
  .struct [.pointer (.struct [.prim (.str "deep".toList)]), .pointer (.prim (.num .int 80))]


/-! ## Schemas with distinct key names -/

/-- The key names of the fields of a record, in declaration order: the
non-empty results of `configTagName`. -/
def siblingKeys : Fields → List Str
  | .nil => []
  | .cons _ tag _ rest =>
    if configTagName tag = [] then siblingKeys rest else configTagName tag :: siblingKeys rest

mutual
/-- Inside every record the enumeration enters, the fields with a key name
have pairwise distinct key names and no key name contains `.`. -/
def distinctDotFreeKeys : GoType → Bool
  | .pointer (.struct fs) => distinctDotFreeFields fs
  | .struct fs => distinctDotFreeFields fs
  | _ => true
/-- The condition of `distinctDotFreeKeys` on the fields of a record: a field
without a key name is passed over; the key name of any other field has no `.`,
differs from the key names of the fields after it, and the record below it, if
it is one, satisfies the condition. -/
def distinctDotFreeFields : Fields → Bool
  | .nil => true
  | .cons _ tag ft rest =>
    if configTagName tag = [] then distinctDotFreeFields rest
    else
      !(configTagName tag).contains '.' && !(siblingKeys rest).contains (configTagName tag) &&
        (if isStructType ft then distinctDotFreeKeys ft else true) &&
        distinctDotFreeFields rest
end

/-- The schema `struct { Name string; Server struct { Host string; Port int };
Client *struct { Host string; Tags []string } }` with the tags `name`,
`server` (`host`, `port`) and `client` (`host`, `tags`): the key name `host`
occurs in two records, in each of them once. -/
def nestedType : GoType :=
  .struct (.cons [] "name".toList (.basic .string)
    (.cons [] "server".toList
      (.struct (.cons [] "host".toList (.basic .string)
        (.cons [] "port".toList (.basic .int) .nil)))
      (.cons [] "client".toList
        (.pointer (.struct (.cons [] "host".toList (.basic .string)
          (.cons [] "tags".toList (.slice (.basic .string)) .nil))))
        .nil)))


/-! ## The decoder -/

/-- The zero value of a kind, as an `any`: `false`, `0`, the empty string; a
type of any further kind has the zero value `other 0`. -/
def zeroOfKind : Kind → GoAny
  | .bool => .bool false
  | .string => .str []
  | .float32 => .float .float32 0
  | .float64 => .float .float64 0
  | .int => .num .int 0
  | .int8 => .num .int8 0
  | .int16 => .num .int16 0
  | .int32 => .num .int32 0
  | .int64 => .num .int64 0
  | .uint => .num .uint 0
  | .uint8 => .num .uint8 0
  | .uint16 => .num .uint16 0
  | .uint32 => .num .uint32 0
  | .uint64 => .num .uint64 0
  | _ => .other 0

mutual
/-- The value of `var cfg T` in `load`: the zero value of the type, with the
zero `time.Time` given as the instant `0`. -/
def zeroValue : GoType → GoValue
  | .basic k => .prim (zeroOfKind k)
  | .duration => .prim (.duration 0)
  | .time => .prim (.time 0)
  | .pointer _ => .nilPointer
  | .slice _ => .nilSlice
  | .map _ _ => .nilMap
  | .struct fs => .struct (zeroFields fs)
/-- The zero values of the fields of a record. -/
def zeroFields : Fields → List GoValue
  | .nil => []
  | .cons _ _ ft rest => zeroValue ft :: zeroFields rest
end

/-- A scalar of the tree is a value of the declared leaf type as it stands: a
string for a string, a boolean for a boolean, a number of the same kind for a
number, a duration for a duration, a timestamp for a timestamp. -/
def fits : GoType → GoAny → Bool
  | .basic .string, .str _ => true
  | .basic .bool, .bool _ => true
  | .basic k, .num k2 _ =>
    decide (k = k2) && decide (k ∈ [Kind.int, .int8, .int16, .int32, .int64, .uint, .uint8,
      .uint16, .uint32, .uint64])
  | .basic k, .float k2 _ => decide (k = k2) && decide (k ∈ [Kind.float32, .float64])
  | .duration, .duration _ => true
  | .time, .time _ => true
  | _, _ => false

/-- The results of a list of decoding steps: the list of the values, or the
first error. -/
def allOk {α : Type} : List (Except Str α) → Except Str (List α)
  | [] => .ok []
  | x :: xs =>
    match x with
    | .error err => .error err
    | .ok a =>
      match allOk xs with
      | .error err => .error err
      | .ok rest => .ok (a :: rest)

mutual
/-- Modelled from the spec: the Decoder (§2, §4.7), that is `decoder.Decode`
of the `mapstructure` library, whose code is not under src/; `decodeConfigMap`
configures it with `TagName: "json"`.  It converts the tree back into a value
of the declared type: a Mapping gives a record, field by field under the key
names, and a key of the tree that no field has is ignored; a field that is
unexported, has no key name, or finds no value in the tree keeps the zero value
of the fresh result, and so does any place where the tree holds nil; a Sequence
gives a list and a Mapping gives a map where the type says so, element-wise; a
scalar that is a value of the leaf type as it stands is taken as it is, and any
other value goes through the weak-typing coercions (numeric, duration and time
strings), the parameter `coerce`; a record type that does not find a Mapping is
a structural error. -/
def decodeValue (coerce : GoType → GoAny → Except Str GoValue) :
    GoType → GoAny → Except Str GoValue
  | .struct fs, tree =>
    match tree with
    | .null => .ok (.struct (zeroFields fs))
    | .map m =>
      match decodeFields coerce fs m with
      | .error err => .error err
      | .ok vals => .ok (.struct vals)
    | _ => .error "expected a map".toList
  | .pointer t, tree =>
    match tree with
    | .null => .ok .nilPointer
    | _ =>
      match decodeValue coerce t tree with
      | .error err => .error err
      | .ok v => .ok (.pointer v)
  | .slice t, tree =>
    match tree with
    | .null => .ok .nilSlice
    | .seq xs =>
      match allOk (xs.map (decodeValue coerce t)) with
      | .error err => .error err
      | .ok vals => .ok (.slice vals)
    | _ => coerce (.slice t) tree
  | .map k t, tree =>
    match tree with
    | .null => .ok .nilMap
    | .map m =>
      match allOk (m.map (fun e =>
          match decodeValue coerce t e.2 with
          | .error err => .error err
          | .ok v => .ok (e.1, v))) with
      | .error err => .error err
      | .ok entries => .ok (.mapOf entries)
    | _ => coerce (.map k t) tree
  | typ, tree =>
    match tree with
    | .null => .ok (zeroValue typ)
    | _ => if fits typ tree then .ok (.prim tree) else coerce typ tree
/-- Modelled from the spec: the Decoder on the fields of a record (see
`decodeValue`). -/
def decodeFields (coerce : GoType → GoAny → Except Str GoValue) :
    Fields → ConfigMap → Except Str (List GoValue)
  | .nil, _ => .ok []
  | .cons pkgPath tag ft rest, m =>
    let field : Except Str GoValue :=
      if pkgPath ≠ [] ∨ configTagName tag = [] then .ok (zeroValue ft)
      else
        match mapGet m (configTagName tag) with
        | none => .ok (zeroValue ft)
        | some x => decodeValue coerce ft x
    match field with
    | .error err => .error err
    | .ok v =>
      match decodeFields coerce rest m with
      | .error err => .error err
      | .ok vals => .ok (v :: vals)
end

/-- `decodeConfigMap(data, &cfg)` for the fresh `cfg` of `load`: the decoder
(modelled from the spec, see `decodeValue`) on the tree, for the type of
`cfg`. -/
def decodeConfigMap (coerce : GoType → GoAny → Except Str GoValue) (typ : GoType)
    (data : ConfigMap) : Except Str GoValue :=
  decodeValue coerce typ (.map data)

/-! ## Values the tree carries in full -/

/-- A leaf type: no record, pointer, list or map. -/
def isLeafType : GoType → Bool
  | .basic _ => true
  | .duration => true
  | .time => true
  | _ => false

mutual
/-- The value is one the tree carries in full: it is a value of the type; in
every record every field is exported and has a key name, different from the key
names of the other fields of the record; every leaf holds a value of its
declared type; a pointer is nil or points to a record or to a leaf; a list and
a map are nil or hold such values, the map under distinct keys. -/
def carried : GoType → GoValue → Bool
  | .struct fs, v =>
    match v with
    | .struct vals => carriedFields fs vals
    | _ => false
  | .pointer (.struct fs), v =>
    match v with
    | .nilPointer => true
    | .pointer (.struct vals) => carriedFields fs vals
    | _ => false
  | .pointer t, v =>
    isLeafType t &&
      match v with
      | .nilPointer => true
      | .pointer (.prim a) => fits t a
      | _ => false
  | .slice t, v =>
    match v with
    | .nilSlice => true
    | .slice xs => xs.all (carried t)
    | _ => false
  | .map _ t, v =>
    match v with
    | .nilMap => true
    | .mapOf es => decide (es.map Prod.fst).Nodup && es.all (fun e => carried t e.2)
    | _ => false
  | t, v =>
    match v with
    | .prim a => fits t a
    | _ => false
/-- The condition of `carried` on the fields of a record and their values. -/
def carriedFields : Fields → List GoValue → Bool
  | .nil, vals => vals.isEmpty
  | .cons pkgPath tag ft rest, vals =>
    match vals with
    | [] => false
    | v :: more =>
      decide (pkgPath = []) && decide (configTagName tag ≠ []) &&
        !(siblingKeys rest).contains (configTagName tag) &&
        carried ft v && carriedFields rest more
end

/-! ## Concrete inputs for the round trip -/

/-- The schema `struct { Name string; Wait time.Duration; Server struct { Host
string; Port int }; Client *struct { URL string }; Backup *struct { URL string };
Limit *int; Tags []string; None []string; Labels map[string]string }` with a
key name on every field. -/
def richType : GoType :=
  .struct (.cons [] "name".toList (.basic .string)
    (.cons [] "wait".toList .duration
      (.cons [] "server".toList
        (.struct (.cons [] "host".toList (.basic .string)
          (.cons [] "port".toList (.basic .int) .nil)))
        (.cons [] "client".toList
          (.pointer (.struct (.cons [] "url".toList (.basic .string) .nil)))
          (.cons [] "backup".toList
            (.pointer (.struct (.cons [] "url".toList (.basic .string) .nil)))
            (.cons [] "limit".toList (.pointer (.basic .int))
              (.cons [] "tags".toList (.slice (.basic .string))
                (.cons [] "none".toList (.slice (.basic .string))
                  (.cons [] "labels".toList (.map (.basic .string) (.basic .string))
                    .nil)))))))))

/-- A value of `richType`: the URL of the client is the text
`${API_BASE_URL:-:40117}`, the pointer `Backup` and the list `None` are nil. -/
def richValue : GoValue :=
  .struct [.prim (.str "app".toList), .prim (.duration 30),
    .struct [.prim (.str "h".toList), .prim (.num .int 80)],
    .pointer (.struct [.prim (.str (Templexp.braced "API_BASE_URL:-:40117".toList))]),
    .nilPointer,
    .pointer (.prim (.num .int 5)),
    .slice [.prim (.str "a".toList), .prim (.str "b".toList)], .nilSlice,
    .mapOf [("k".toList, .prim (.str "v".toList)), ("l".toList, .prim (.str "w".toList))]]

/-- Coercions that accept nothing. -/
def noCoerce : GoType → GoAny → Except Str GoValue := fun _ _ => .error "no coercion".toList

end Cfgm

/-! # Theorems -/

namespace Templexp

/-! ## Brace matching: basic facts -/

theorem findMatchingBraceLoop_cons (c : Char) (rest : Str) (depth i : Nat) :
    findMatchingBraceLoop (c :: rest) depth i =
      if c = '$' ∧ rest.head? = some '{' then
        findMatchingBraceLoop rest.tail (depth + 1) (i + 2)
      else if c = '}' then
        if depth = 0 then some i else findMatchingBraceLoop rest (depth - 1) (i + 1)
      else findMatchingBraceLoop rest depth (i + 1) := by
  cases rest with
  | nil => simp [findMatchingBraceLoop]
  | cons d rest => simp [findMatchingBraceLoop]

theorem findMatchingBraceLoop_bounds (n : Nat) :
    ∀ (rest : Str) (depth i e : Nat), rest.length ≤ n →
      findMatchingBraceLoop rest depth i = some e →
      i ≤ e ∧ e < i + rest.length ∧ rest[e - i]? = some '}' := by
  induction n with
  | zero =>
    intro rest depth i e hn h
    have : rest = [] := List.length_eq_zero.mp (Nat.le_zero.mp hn)
    subst this
    simp [findMatchingBraceLoop] at h
  | succ n ih =>
    intro rest depth i e hn h
    cases rest with
    | nil => simp [findMatchingBraceLoop] at h
    | cons c rest =>
      rw [findMatchingBraceLoop_cons] at h
      simp only [List.length_cons] at hn ⊢
      split_ifs at h with h1 h2 h3
      · obtain ⟨a, b, hb⟩ := ih rest.tail (depth + 1) (i + 2) e (by simp; omega) h
        have hlen : rest.tail.length + 1 = rest.length := by
          cases rest with
          | nil => simp at h1
          | cons d r => simp
        refine ⟨by omega, by omega, ?_⟩
        have : e - i = (e - (i + 2)) + 1 + 1 := by omega
        rw [this, List.getElem?_cons_succ]
        cases rest with
        | nil => simp at h1
        | cons d r => simpa using hb
      · simp at h; subst h; subst h2; simp
      · obtain ⟨a, b, hb⟩ := ih rest (depth - 1) (i + 1) e (by omega) h
        refine ⟨by omega, by omega, ?_⟩
        have : e - i = (e - (i + 1)) + 1 := by omega
        rw [this, List.getElem?_cons_succ]; exact hb
      · obtain ⟨a, b, hb⟩ := ih rest depth (i + 1) e (by omega) h
        refine ⟨by omega, by omega, ?_⟩
        have : e - i = (e - (i + 1)) + 1 := by omega
        rw [this, List.getElem?_cons_succ]; exact hb

theorem findMatchingBrace_bounds (text : Str) (start e : Nat)
    (h : findMatchingBrace text start = some e) :
    start ≤ e ∧ e < text.length ∧ text[e]? = some '}' := by
  unfold findMatchingBrace at h
  obtain ⟨a, b, c⟩ := findMatchingBraceLoop_bounds _ _ _ _ _ (le_refl _) h
  have hlen : (text.drop start).length = text.length - start := by simp
  refine ⟨a, by omega, ?_⟩
  rw [List.getElem?_drop] at c
  have : start + (e - start) = e := by omega
  rwa [this] at c


/-! ## The parser: shape of a successful parse -/

theorem isOpChar_iff (c : Char) :
    isOpChar c = true ↔ c = '-' ∨ c = '+' ∨ c = '?' ∨ c = '=' := by
  simp [isOpChar, or_assoc]

theorem parseShellParameter_shape (expr name op word : Str)
    (h : parseShellParameter expr = some (name, op, word)) :
    expr = name ++ op ++ word ∧ op ∈ operators ∧ isValidName name = true ∧
      (op = [] → word = []) := by
  unfold parseShellParameter at h
  cases expr with
  | nil => simp at h
  | cons c tail =>
    simp only at h
    split_ifs at h with hc
    simp only [Bool.not_eq_true', Bool.not_eq_false] at hc
    have hsplit : tail = tail.takeWhile isVarNameChar ++ tail.dropWhile isVarNameChar :=
      (List.takeWhile_append_dropWhile _ _).symm
    have hname : isValidName (c :: tail.takeWhile isVarNameChar) = true := by
      simp only [isValidName, hc, Bool.true_and, List.all_eq_true]
      intro x hx
      exact List.mem_takeWhile_imp hx
    generalize tail.takeWhile isVarNameChar = nm at h hsplit hname
    generalize tail.dropWhile isVarNameChar = rest at h hsplit
    subst hsplit
    cases rest with
    | nil =>
      simp only [Option.some.injEq, Prod.mk.injEq] at h
      obtain ⟨rfl, rfl, rfl⟩ := h
      simp [operators, hname]
    | cons r0 rest1 =>
      cases rest1 with
      | nil =>
        simp only at h
        split_ifs at h with h0
        simp only [Option.some.injEq, Prod.mk.injEq] at h
        obtain ⟨rfl, rfl, rfl⟩ := h
        rw [isOpChar_iff] at h0
        refine ⟨by simp, ?_, hname, by simp⟩
        rcases h0 with rfl | rfl | rfl | rfl <;> simp [operators]
      | cons r1 w =>
        simp only at h
        split_ifs at h with h0 h1
        · simp only [Option.some.injEq, Prod.mk.injEq] at h
          obtain ⟨rfl, rfl, rfl⟩ := h
          simp only [Bool.and_eq_true, decide_eq_true_eq] at h0
          obtain ⟨rfl, h0⟩ := h0
          rw [isOpChar_iff] at h0
          refine ⟨by simp, ?_, hname, by simp⟩
          rcases h0 with rfl | rfl | rfl | rfl <;> simp [operators]
        · simp only [Option.some.injEq, Prod.mk.injEq] at h
          obtain ⟨rfl, rfl, rfl⟩ := h
          rw [isOpChar_iff] at h1
          refine ⟨by simp, ?_, hname, by simp⟩
          rcases h1 with rfl | rfl | rfl | rfl <;> simp [operators]

theorem parseShellParameter_word_length (expr name op word : Str)
    (h : parseShellParameter expr = some (name, op, word)) :
    word.length < expr.length := by
  obtain ⟨h1, _, h3, _⟩ := parseShellParameter_shape _ _ _ _ h
  subst h1
  cases name with
  | nil => simp [isValidName] at h3
  | cons c t => simp only [List.length_append, List.length_cons]; omega

/-! ## The recursion budget is never the limit -/

theorem expandShellWord_congr (r1 r2 : Str → Session → Outcome (Str × Session))
    (word : Str) (env : Session) (h : ∀ env1, r1 word env1 = r2 word env1) :
    expandShellWord r1 word env = expandShellWord r2 word env := by
  unfold expandShellWord
  split_ifs
  · rfl
  · exact h env

theorem expandShellExpression_congr (r1 r2 : Str → Session → Outcome (Str × Session))
    (expr : Str) (env : Session)
    (h : ∀ (w : Str) (env1 : Session), w.length < expr.length → r1 w env1 = r2 w env1) :
    expandShellExpression r1 expr env = expandShellExpression r2 expr env := by
  unfold expandShellExpression
  cases hp : parseShellParameter expr with
  | none => rfl
  | some p =>
    obtain ⟨name, op, word⟩ := p
    have hlen := parseShellParameter_word_length _ _ _ _ hp
    have hw : ∀ (b : Bool), expandWordBranch r1 name word env b =
        expandWordBranch r2 name word env b := by
      intro b
      unfold expandWordBranch
      rw [expandShellWord_congr r1 r2 word env (fun env1 => h word env1 hlen)]
    simp only [hw]

theorem expandShellParametersFuel_adequate (n : Nat) :
    ∀ (m : Nat) (text : Str) (env : Session), text.length ≤ n → text.length ≤ m →
      expandShellParametersFuel n text env = expandShellParametersFuel m text env := by
  induction n with
  | zero =>
    intro m text env hn _
    have : text = [] := List.length_eq_zero.mp (Nat.le_zero.mp hn)
    subst this
    simp [expandShellParametersFuel]
  | succ n ih =>
    intro m text env hn hm
    cases text with
    | nil => simp [expandShellParametersFuel]
    | cons ch rest =>
      cases m with
      | zero => simp at hm
      | succ m =>
        simp only [List.length_cons, Nat.add_le_add_iff_right] at hn hm
        simp only [expandShellParametersFuel]
        split_ifs with h1
        · rw [ih m rest env hn hm]
        · cases rest with
          | nil => simp [expandShellParametersFuel]
          | cons next rest2 =>
            simp only [List.length_cons] at hn hm
            simp only
            split_ifs with h2 h3
            · rw [ih m rest2 env (by omega) (by omega)]
            · rw [ih m (next :: rest2) env (by simpa using hn) (by simpa using hm)]
            · cases hf : findMatchingBrace (ch :: next :: rest2) 2 with
              | none =>
                simp only
                rw [ih m (next :: rest2) env (by simpa using hn) (by simpa using hm)]
              | some e =>
                obtain ⟨b1, b2, _⟩ := findMatchingBrace_bounds _ _ _ hf
                simp only [List.length_cons] at b2
                have hexpr : (((ch :: next :: rest2).take e).drop 2).length ≤ rest2.length := by
                  simp only [List.length_drop, List.length_take, List.length_cons]
                  omega
                have hrest : ((ch :: next :: rest2).drop (e + 1)).length ≤ rest2.length := by
                  simp only [List.length_drop, List.length_cons]
                  omega
                simp only
                rw [expandShellExpression_congr (expandShellParametersFuel n)
                  (expandShellParametersFuel m) _ env
                  (fun w env1 hw => ih m w env1 (by omega) (by omega))]
                cases expandShellExpression (expandShellParametersFuel m)
                    (((ch :: next :: rest2).take e).drop 2) env with
                | error msg => rfl
                | exhausted => rfl
                | ok p =>
                  obtain ⟨o, env1⟩ := p
                  cases o with
                  | none => simp only; rw [ih m _ env1 (by omega) (by omega)]
                  | some s => simp only; rw [ih m _ env1 (by omega) (by omega)]

/-- Unfolding of the top-level call at any sufficient budget. -/
theorem expandShellParameters_eq_fuel (n : Nat) (text : Str) (env : Session)
    (h : text.length ≤ n) :
    expandShellParametersFuel n text env = expandShellParameters text env :=
  expandShellParametersFuel_adequate n text.length text env h (le_refl _)


/-! ## Unfolding equations of `expandShellParameters` -/

theorem expandShellParameters_nil (env : Session) :
    expandShellParameters [] env = .ok ([], env) := by
  simp [expandShellParameters, expandShellParametersFuel]

theorem expandShellParameters_plain (ch : Char) (rest : Str) (env : Session)
    (h : ch ≠ '$') :
    expandShellParameters (ch :: rest) env = emit [ch] (expandShellParameters rest env) := by
  simp only [expandShellParameters, List.length_cons, expandShellParametersFuel, if_pos h]

theorem expandShellParameters_lone (env : Session) :
    expandShellParameters ['$'] env = .ok (['$'], env) := by
  simp [expandShellParameters, expandShellParametersFuel, emit]

theorem expandShellParameters_dollar_dollar (rest : Str) (env : Session) :
    expandShellParameters ('$' :: '$' :: rest) env =
      emit ['$'] (expandShellParameters rest env) := by
  have h := expandShellParameters_eq_fuel (rest.length + 1) rest env (by omega)
  simp only [expandShellParameters, List.length_cons, expandShellParametersFuel] at h ⊢
  simp [h]

theorem expandShellParameters_dollar_other (next : Char) (rest : Str) (env : Session)
    (h1 : next ≠ '$') (h2 : next ≠ '{') :
    expandShellParameters ('$' :: next :: rest) env =
      emit ['$'] (expandShellParameters (next :: rest) env) := by
  simp [expandShellParameters, expandShellParametersFuel, h1, h2]

theorem expandShellParameters_unterminated (rest : Str) (env : Session)
    (h : findMatchingBrace ('$' :: '{' :: rest) 2 = none) :
    expandShellParameters ('$' :: '{' :: rest) env =
      emit ['$'] (expandShellParameters ('{' :: rest) env) := by
  simp [expandShellParameters, expandShellParametersFuel, h]

theorem expandShellParameters_braced (rest : Str) (env : Session) (e : Nat)
    (h : findMatchingBrace ('$' :: '{' :: rest) 2 = some e) :
    expandShellParameters ('$' :: '{' :: rest) env =
      afterExpression (('$' :: '{' :: rest).take (e + 1))
        (expandShellParameters (('$' :: '{' :: rest).drop (e + 1)))
        (expandShellExpression expandShellParameters
          ((('$' :: '{' :: rest).take e).drop 2) env) := by
  obtain ⟨b1, b2, _⟩ := findMatchingBrace_bounds _ _ _ h
  simp only [List.length_cons] at b2
  have hexpr : (((('$' : Char) :: '{' :: rest).take e).drop 2).length ≤ rest.length := by
    simp only [List.length_drop, List.length_take, List.length_cons]
    omega
  have hrest : ((('$' : Char) :: '{' :: rest).drop (e + 1)).length ≤ rest.length := by
    simp only [List.length_drop, List.length_cons]
    omega
  have hcongr := expandShellExpression_congr (expandShellParametersFuel (rest.length + 1))
    expandShellParameters ((('$' :: '{' :: rest).take e).drop 2) env
    (fun w env1 hw => expandShellParameters_eq_fuel _ w env1 (by omega))
  have hnext : ∀ env1, expandShellParametersFuel (rest.length + 1)
      (('$' :: '{' :: rest).drop (e + 1)) env1 =
      expandShellParameters (('$' :: '{' :: rest).drop (e + 1)) env1 :=
    fun env1 => expandShellParameters_eq_fuel _ _ env1 (by omega)
  rw [expandShellParameters]
  simp only [List.length_cons, expandShellParametersFuel, ne_eq, not_true_eq_false,
    if_false, h, hcongr]
  simp only [show (('{' : Char) = '$') = False by simp, if_false]
  cases expandShellExpression expandShellParameters
      ((('$' :: '{' :: rest).take e).drop 2) env with
  | error msg => rfl
  | exhausted => rfl
  | ok p =>
    obtain ⟨o, env1⟩ := p
    cases o with
    | none => simp only [afterExpression, hnext]
    | some s => simp only [afterExpression, hnext]

/-- The braced case when the position of the closing brace is known. -/
theorem expandShellParameters_expr (expr s : Str) (env : Session)
    (h : findMatchingBraceLoop (expr ++ '}' :: s) 0 2 = some (expr.length + 2)) :
    expandShellParameters ('$' :: '{' :: (expr ++ '}' :: s)) env =
      afterExpression ('$' :: '{' :: (expr ++ ['}'])) (expandShellParameters s)
        (expandShellExpression expandShellParameters expr env) := by
  have hf : findMatchingBrace ('$' :: '{' :: (expr ++ '}' :: s)) 2 = some (expr.length + 2) := by
    simpa [findMatchingBrace] using h
  rw [expandShellParameters_braced _ env _ hf]
  have h1 : (('$' :: '{' :: (expr ++ '}' :: s)).take (expr.length + 2)).drop 2 = expr := by
    simp
  have h2 : ('$' :: '{' :: (expr ++ '}' :: s)).take (expr.length + 2 + 1) =
      '$' :: '{' :: (expr ++ ['}']) := by
    simp [List.take_append_eq_append_take]
  have h3 : ('$' :: '{' :: (expr ++ '}' :: s)).drop (expr.length + 2 + 1) = s := by
    simp [List.drop_append_eq_append_drop]
  rw [h1, h2, h3]

theorem expandShellParameters_bracedExpr (expr s : Str) (env : Session)
    (h : findMatchingBraceLoop (expr ++ '}' :: s) 0 2 = some (expr.length + 2)) :
    expandShellParameters (braced expr ++ s) env =
      afterExpression (braced expr) (expandShellParameters s)
        (expandShellExpression expandShellParameters expr env) := by
  have hb : braced expr ++ s = '$' :: '{' :: (expr ++ '}' :: s) := by simp [braced]
  rw [hb, expandShellParameters_expr expr s env h]
  rfl

/-! ## Brace matching over text without nested expressions -/

theorem containsDollarBrace_cons (c : Char) (rest : Str) :
    containsDollarBrace (c :: rest) =
      ((c = '$' && rest.head? = some '{') || containsDollarBrace rest) := rfl

theorem findMatchingBraceLoop_skip (u : Str) :
    ∀ (rest : Str) (depth i : Nat), (∀ c ∈ u, c ≠ '}') → containsDollarBrace u = false →
      rest.head? ≠ some '{' →
      findMatchingBraceLoop (u ++ rest) depth i =
        findMatchingBraceLoop rest depth (i + u.length) := by
  induction u with
  | nil => intro rest depth i _ _ _; simp
  | cons c t ih =>
    intro rest depth i h1 h2 h3
    rw [containsDollarBrace_cons] at h2
    simp only [Bool.or_eq_false_iff, Bool.and_eq_false_imp, decide_eq_true_eq,
      decide_eq_false_iff_not] at h2
    obtain ⟨h2a, h2b⟩ := h2
    have hc : c ≠ '}' := h1 c (List.mem_cons_self _ _)
    have hnot : ¬(c = '$' ∧ (t ++ rest).head? = some '{') := by
      rintro ⟨hc1, hc2⟩
      cases t with
      | nil => exact h3 (by simpa using hc2)
      | cons d t2 => exact h2a hc1 (by simpa using hc2)
    rw [List.cons_append, findMatchingBraceLoop_cons, if_neg hnot, if_neg hc,
      ih rest depth (i + 1) (fun x hx => h1 x (List.mem_cons_of_mem _ hx)) h2b h3]
    simp only [List.length_cons]
    congr 1
    omega

theorem findMatchingBraceLoop_close (u s : Str) (i : Nat) (h1 : ∀ c ∈ u, c ≠ '}')
    (h2 : containsDollarBrace u = false) :
    findMatchingBraceLoop (u ++ '}' :: s) 0 i = some (u.length + i) := by
  rw [findMatchingBraceLoop_skip u _ 0 i h1 h2 (by simp), findMatchingBraceLoop_cons]
  simp [Nat.add_comm]

theorem containsDollarBrace_of_no_dollar (u : Str) (h : ∀ c ∈ u, c ≠ '$') :
    containsDollarBrace u = false := by
  induction u with
  | nil => rfl
  | cons c t ih =>
    rw [containsDollarBrace_cons, ih (fun x hx => h x (List.mem_cons_of_mem _ hx))]
    simp [h c (List.mem_cons_self _ _)]


/-! ## Names, operators and the parser -/

theorem isVarNameChar_props (c : Char) (h : isVarNameChar c = true) :
    c ≠ '$' ∧ c ≠ '}' ∧ c ≠ '{' ∧ c ≠ ':' ∧ isOpChar c = false := by
  refine ⟨?_, ?_, ?_, ?_, ?_⟩
  · rintro rfl; revert h; decide
  · rintro rfl; revert h; decide
  · rintro rfl; revert h; decide
  · rintro rfl; revert h; decide
  · cases hc : isOpChar c with
    | false => rfl
    | true =>
      rw [isOpChar_iff] at hc
      rcases hc with rfl | rfl | rfl | rfl <;> revert h <;> decide

theorem isValidName_chars (n : Str) (h : isValidName n = true) :
    ∀ c ∈ n, isVarNameChar c = true := by
  cases n with
  | nil => simp [isValidName] at h
  | cons a t =>
    simp only [isValidName, Bool.and_eq_true, List.all_eq_true] at h
    intro c hc
    rcases List.mem_cons.mp hc with rfl | hc
    · simp [isVarNameChar, h.1]
    · exact h.2 c hc

theorem takeWhile_name (t rest : Str) (h : ∀ c ∈ t, isVarNameChar c = true)
    (hr : ∀ r ∈ rest.head?, isVarNameChar r = false) :
    (t ++ rest).takeWhile isVarNameChar = t ∧ (t ++ rest).dropWhile isVarNameChar = rest := by
  induction t with
  | nil =>
    cases rest with
    | nil => simp
    | cons r w =>
      have := hr r (by simp)
      simp [List.takeWhile, List.dropWhile, this]
  | cons a t ih =>
    have ha := h a (List.mem_cons_self _ _)
    have := ih (fun c hc => h c (List.mem_cons_of_mem _ hc))
    simp [List.takeWhile, List.dropWhile, ha, this.1, this.2]

theorem parseShellParameter_name (n : Str) (h : isValidName n = true) :
    parseShellParameter n = some (n, [], []) := by
  cases n with
  | nil => simp [isValidName] at h
  | cons a t =>
    have hch := isValidName_chars _ h
    simp only [isValidName, Bool.and_eq_true] at h
    have ht := takeWhile_name t [] (fun c hc => hch c (List.mem_cons_of_mem _ hc)) (by simp)
    simp only [List.append_nil] at ht
    simp [parseShellParameter, h.1, ht.1, ht.2]

theorem parseShellParameter_op (n op w : Str) (h : isValidName n = true)
    (hop : op ∈ operators) (hne : op ≠ []) :
    parseShellParameter (n ++ op ++ w) = some (n, op, w) := by
  cases n with
  | nil => simp [isValidName] at h
  | cons a t =>
    have hch := isValidName_chars _ h
    simp only [isValidName, Bool.and_eq_true] at h
    have ht := takeWhile_name t (op ++ w) (fun c hc => hch c (List.mem_cons_of_mem _ hc))
      (by
        simp only [operators, List.mem_cons, List.mem_singleton, List.not_mem_nil,
          or_false] at hop
        rcases hop with rfl | rfl | rfl | rfl | rfl | rfl | rfl | rfl | rfl <;>
          simp at hne ⊢ <;> decide)
    simp only [operators, List.mem_cons, List.mem_singleton, List.not_mem_nil,
      or_false] at hop
    rcases hop with rfl | rfl | rfl | rfl | rfl | rfl | rfl | rfl | rfl
    · exact absurd rfl hne
    all_goals
      simp only [List.cons_append, List.nil_append] at ht
      simp only [parseShellParameter, List.cons_append, List.append_assoc, List.nil_append,
        h.1, Bool.not_true, Bool.false_eq_true, if_false, ht.1, ht.2]
      cases w <;> simp [isOpChar]

theorem expandShellWord_plain (r : Str → Session → Outcome (Str × Session)) (w : Str)
    (env : Session) (h : ∀ c ∈ w, c ≠ '$') :
    expandShellWord r w env = .ok (w, env) := by
  simp [expandShellWord, containsDollarBrace_of_no_dollar w h]

/-! ## Text without `$` is copied -/

theorem emit_emit (a b : Str) (x : Outcome (Str × Session)) :
    emit a (emit b x) = emit (a ++ b) x := by
  cases x with
  | ok p => obtain ⟨o, e⟩ := p; simp [emit]
  | error m => rfl
  | exhausted => rfl

theorem emit_nil (x : Outcome (Str × Session)) : emit [] x = x := by
  cases x with
  | ok p => obtain ⟨o, e⟩ := p; simp [emit]
  | error m => rfl
  | exhausted => rfl

theorem expandShellParameters_copy (p t : Str) (env : Session) (h : ∀ c ∈ p, c ≠ '$') :
    expandShellParameters (p ++ t) env = emit p (expandShellParameters t env) := by
  induction p with
  | nil => simp [emit_nil]
  | cons c p ih =>
    rw [List.cons_append, expandShellParameters_plain _ _ _ (h c (List.mem_cons_self _ _)),
      ih (fun x hx => h x (List.mem_cons_of_mem _ hx)), emit_emit]
    rfl

theorem expandShellParameters_literal (p : Str) (env : Session) (h : ∀ c ∈ p, c ≠ '$') :
    expandShellParameters p env = .ok (p, env) := by
  have := expandShellParameters_copy p [] env h
  simpa [expandShellParameters_nil, emit] using this

/-- A `${expr}` whose body holds neither `}` nor `$`, followed by `s`. -/
theorem expandShellParameters_simple (expr s : Str) (env : Session)
    (h : ∀ c ∈ expr, c ≠ '$' ∧ c ≠ '}') :
    expandShellParameters (braced expr ++ s) env =
      afterExpression (braced expr) (expandShellParameters s)
        (expandShellExpression expandShellParameters expr env) := by
  have hb : braced expr ++ s = '$' :: '{' :: (expr ++ '}' :: s) := by simp [braced]
  rw [hb, expandShellParameters_expr expr s env]
  · rfl
  · exact findMatchingBraceLoop_close expr s 2 (fun c hc => (h c hc).2)
      (containsDollarBrace_of_no_dollar _ (fun c hc => (h c hc).1))


theorem name_op_word_chars (n op w : Str) (hn : isValidName n = true)
    (hop : ∀ c ∈ op, c ≠ '$' ∧ c ≠ '}') (hw : ∀ c ∈ w, c ≠ '$' ∧ c ≠ '}') :
    ∀ c ∈ n ++ op ++ w, c ≠ '$' ∧ c ≠ '}' := by
  intro c hc
  simp only [List.mem_append] at hc
  rcases hc with (hc | hc) | hc
  · have := isVarNameChar_props c (isValidName_chars n hn c hc)
    exact ⟨this.1, this.2.1⟩
  · exact hop c hc
  · exact hw c hc

/-- Evaluation of a single `${n op w}` with a literal word, followed by `s`. -/
theorem expandShellParameters_operator (n op w s : Str) (env : Session)
    (hn : isValidName n = true) (hop : op ∈ operators) (hne : op ≠ [])
    (hw : ∀ c ∈ w, c ≠ '$' ∧ c ≠ '}') :
    expandShellParameters (braced (n ++ op ++ w) ++ s) env =
      afterExpression (braced (n ++ op ++ w)) (expandShellParameters s)
        (expandShellExpression expandShellParameters (n ++ op ++ w) env) := by
  apply expandShellParameters_simple
  apply name_op_word_chars n op w hn _ hw
  simp only [operators, List.mem_cons, List.mem_singleton, List.not_mem_nil, or_false] at hop
  rcases hop with rfl | rfl | rfl | rfl | rfl | rfl | rfl | rfl | rfl <;> decide

theorem expandShellParameters_reference (n s : Str) (env : Session)
    (hn : isValidName n = true) :
    expandShellParameters (braced n ++ s) env =
      emit ((env n).getD []) (expandShellParameters s env) := by
  rw [expandShellParameters_simple n s env, expandShellExpression,
    parseShellParameter_name n hn]
  · simp [afterExpression]
  · intro c hc
    have := isVarNameChar_props c (isValidName_chars n hn c hc)
    exact ⟨this.1, this.2.1⟩

theorem ExpandTemplate_eq (environ : List Str) (text : Str) :
    ExpandTemplate environ text =
      match expandShellParameters text (newTemplateData environ) with
      | .ok (s, _) => .ok s
      | .error m => .error m
      | .exhausted => .exhausted := rfl

/-- C2: the fallback operators.  For a valid name `n` and a literal word `w`
(no `$`, no `}`), `${n:-w}` gives the value of `n` when it is set and non-empty
and `w` otherwise; `${n-w}` gives the value of `n` whenever it is set (also when
empty) and `w` only when it is unset.  Neither returns an error. -/
theorem C2_fallback_operators (environ : List Str) (n w : Str)
    (hn : isValidName n = true) (hw : ∀ c ∈ w, c ≠ '$' ∧ c ≠ '}') :
    ExpandTemplate environ (braced (n ++ [':', '-'] ++ w)) =
        .ok (match newTemplateData environ n with
             | some v => if v = [] then w else v
             | none => w) ∧
    ExpandTemplate environ (braced (n ++ ['-'] ++ w)) =
        .ok (match newTemplateData environ n with
             | some v => v
             | none => w) := by
  have hword : ∀ env, expandShellWord expandShellParameters w env = .ok (w, env) :=
    fun env => expandShellWord_plain _ w env (fun c hc => (hw c hc).1)
  constructor
  · have h := expandShellParameters_operator n [':', '-'] w [] (newTemplateData environ) hn
      (by simp [operators]) (by simp) hw
    rw [List.append_nil] at h
    rw [ExpandTemplate_eq, h, expandShellExpression,
      parseShellParameter_op n _ w hn (by simp [operators]) (by simp)]
    cases hv : newTemplateData environ n with
    | none =>
      simp [hv, expandWordBranch, hword, afterExpression, emit, expandShellParameters_nil]
    | some v =>
      by_cases hvn : v = []
      · simp [hv, hvn, expandWordBranch, hword, afterExpression, emit, expandShellParameters_nil]
      · simp [hv, hvn, afterExpression, emit, expandShellParameters_nil]
  · have h := expandShellParameters_operator n ['-'] w [] (newTemplateData environ) hn
      (by simp [operators]) (by simp) hw
    rw [List.append_nil] at h
    rw [ExpandTemplate_eq, h, expandShellExpression,
      parseShellParameter_op n _ w hn (by simp [operators]) (by simp)]
    cases hv : newTemplateData environ n with
    | none =>
      simp [hv, expandWordBranch, hword, afterExpression, emit, expandShellParameters_nil]
    | some v =>
      simp [hv, afterExpression, emit, expandShellParameters_nil]

theorem C2_fallback_operators_witness :
    (isValidName "HOST".toList = true ∧ ∀ c ∈ "localhost".toList, c ≠ '$' ∧ c ≠ '}') ∧
    ExpandTemplate ["HOST=".toList] (braced ("HOST".toList ++ [':', '-'] ++ "localhost".toList)) =
        .ok "localhost".toList ∧
    ExpandTemplate ["HOST=".toList] (braced ("HOST".toList ++ ['-'] ++ "localhost".toList)) =
        .ok [] :=
  ⟨⟨by decide, by decide⟩,
    C2_fallback_operators ["HOST=".toList] "HOST".toList "localhost".toList
      (by decide) (by decide)⟩

/-- C3: the plain reference.  For a valid name `n` and literal text `p`, `s`
without `$`, `p ++ ${n} ++ s` expands to `p ++ v ++ s` with `v` the value of `n`
in the snapshot, the empty string when `n` is unset; `v` is inserted as it is,
whatever it contains. -/
theorem C3_plain_reference (environ : List Str) (n p s : Str)
    (hn : isValidName n = true) (hp : ∀ c ∈ p, c ≠ '$') (hs : ∀ c ∈ s, c ≠ '$') :
    ExpandTemplate environ (p ++ braced n ++ s) =
      .ok (p ++ (match newTemplateData environ n with
                 | some v => v
                 | none => []) ++ s) := by
  rw [ExpandTemplate_eq, List.append_assoc, expandShellParameters_copy p _ _ hp,
    expandShellParameters_reference n s _ hn, expandShellParameters_literal s _ hs]
  cases hv : newTemplateData environ n <;> simp [hv, emit]

theorem C3_plain_reference_witness :
    (isValidName "API_KEY".toList = true ∧ (∀ c ∈ "key=".toList, c ≠ '$') ∧
      (∀ c ∈ ";".toList, c ≠ '$')) ∧
    ExpandTemplate [['A', 'P', 'I', '_', 'K', 'E', 'Y', '=', '$', '$', '$', '{', 'X', '}']]
        ("key=".toList ++ braced "API_KEY".toList ++ ";".toList) =
      .ok ("key=".toList ++ ['$', '$', '$', '{', 'X', '}'] ++ ";".toList) :=
  ⟨⟨by decide, by decide, by decide⟩,
    C3_plain_reference [['A', 'P', 'I', '_', 'K', 'E', 'Y', '=', '$', '$', '$', '{', 'X', '}']]
      "API_KEY".toList "key=".toList ";".toList (by decide) (by decide) (by decide)⟩


/-- C4: the required operators.  For a valid name `n` and a literal word `w`,
`${n:?w}` returns an error exactly when `n` is unset or empty and `${n?w}`
exactly when `n` is unset; otherwise the result is the value of `n`.  The error
text is `templexp: n: w`, with `parameter null or not set` in place of an empty
`w`. -/
theorem C4_required_operators (environ : List Str) (n w : Str)
    (hn : isValidName n = true) (hw : ∀ c ∈ w, c ≠ '$' ∧ c ≠ '}') :
    ExpandTemplate environ (braced (n ++ [':', '?'] ++ w)) =
        (match newTemplateData environ n with
         | some v =>
           if v = [] then
             .error ("templexp: ".toList ++ n ++ ": ".toList ++
               (if w = [] then "parameter null or not set".toList else w))
           else .ok v
         | none =>
           .error ("templexp: ".toList ++ n ++ ": ".toList ++
             (if w = [] then "parameter null or not set".toList else w))) ∧
    ExpandTemplate environ (braced (n ++ ['?'] ++ w)) =
        (match newTemplateData environ n with
         | some v => .ok v
         | none =>
           .error ("templexp: ".toList ++ n ++ ": ".toList ++
             (if w = [] then "parameter null or not set".toList else w))) := by
  have hmsg : errorMessage n w = "templexp: ".toList ++ n ++ ": ".toList ++
      (if w = [] then "parameter null or not set".toList else w) := by
    unfold errorMessage
    split_ifs <;> simp
  constructor
  · have h := expandShellParameters_operator n [':', '?'] w [] (newTemplateData environ) hn
      (by simp [operators]) (by simp) hw
    rw [List.append_nil] at h
    rw [ExpandTemplate_eq, h, expandShellExpression,
      parseShellParameter_op n _ w hn (by simp [operators]) (by simp), ← hmsg]
    cases hv : newTemplateData environ n with
    | none => simp [hv, afterExpression]
    | some v =>
      by_cases hvn : v = []
      · simp [hv, hvn, afterExpression]
      · simp [hv, hvn, afterExpression, emit, expandShellParameters_nil]
  · have h := expandShellParameters_operator n ['?'] w [] (newTemplateData environ) hn
      (by simp [operators]) (by simp) hw
    rw [List.append_nil] at h
    rw [ExpandTemplate_eq, h, expandShellExpression,
      parseShellParameter_op n _ w hn (by simp [operators]) (by simp), ← hmsg]
    cases hv : newTemplateData environ n with
    | none => simp [hv, afterExpression]
    | some v => simp [hv, afterExpression, emit, expandShellParameters_nil]

theorem C4_required_operators_witness :
    (isValidName "MISSING".toList = true ∧ ∀ c ∈ "boom".toList, c ≠ '$' ∧ c ≠ '}') ∧
    ExpandTemplate [] (braced ("MISSING".toList ++ [':', '?'] ++ "boom".toList)) =
        .error "templexp: MISSING: boom".toList ∧
    ExpandTemplate [] (braced ("MISSING".toList ++ ['?'] ++ "boom".toList)) =
        .error "templexp: MISSING: boom".toList :=
  ⟨⟨by decide, by decide⟩,
    C4_required_operators [] "MISSING".toList "boom".toList (by decide) (by decide)⟩

/-- C6: the assignment operators.  For a valid name `n` and a literal word `w`:
`${n:=w}-${n}` gives `w-w` when `n` is unset or empty and `${n=w}-${n}` gives
`w-w` when `n` is unset, the session then holding `w` under `n`; when `n` holds
a non-empty `v` both give `v-v` and the session is left as it was; when `n` is
set to the empty string `${n=w}-${n}` gives `-`. -/
theorem C6_assignment_operators (environ : List Str) (n w : Str)
    (hn : isValidName n = true) (hw : ∀ c ∈ w, c ≠ '$' ∧ c ≠ '}') :
    expandShellParameters (braced (n ++ [':', '='] ++ w) ++ '-' :: braced n)
        (newTemplateData environ) =
      (match newTemplateData environ n with
       | some v =>
         if v = [] then
           .ok (w ++ '-' :: w, Session.assign (newTemplateData environ) n w)
         else .ok (v ++ '-' :: v, newTemplateData environ)
       | none => .ok (w ++ '-' :: w, Session.assign (newTemplateData environ) n w)) ∧
    expandShellParameters (braced (n ++ ['='] ++ w) ++ '-' :: braced n)
        (newTemplateData environ) =
      (match newTemplateData environ n with
       | some v => .ok (v ++ '-' :: v, newTemplateData environ)
       | none => .ok (w ++ '-' :: w, Session.assign (newTemplateData environ) n w)) ∧
    ExpandTemplate environ (braced (n ++ [':', '='] ++ w) ++ '-' :: braced n) =
      .ok (match newTemplateData environ n with
           | some v => if v = [] then w ++ '-' :: w else v ++ '-' :: v
           | none => w ++ '-' :: w) ∧
    ExpandTemplate environ (braced (n ++ ['='] ++ w) ++ '-' :: braced n) =
      .ok (match newTemplateData environ n with
           | some v => v ++ '-' :: v
           | none => w ++ '-' :: w) := by
  have hword : ∀ env, expandShellWord expandShellParameters w env = .ok (w, env) :=
    fun env => expandShellWord_plain _ w env (fun c hc => (hw c hc).1)
  have htail : ∀ env, expandShellParameters ('-' :: braced n) env =
      .ok ('-' :: (env n).getD [], env) := by
    intro env
    have := expandShellParameters_reference n [] env hn
    rw [List.append_nil] at this
    rw [expandShellParameters_plain _ _ _ (by decide), this]
    simp [expandShellParameters_nil, emit]
  have h1 : expandShellParameters (braced (n ++ [':', '='] ++ w) ++ '-' :: braced n)
        (newTemplateData environ) =
      (match newTemplateData environ n with
       | some v =>
         if v = [] then
           .ok (w ++ '-' :: w, Session.assign (newTemplateData environ) n w)
         else .ok (v ++ '-' :: v, newTemplateData environ)
       | none => .ok (w ++ '-' :: w, Session.assign (newTemplateData environ) n w)) := by
    rw [expandShellParameters_operator n [':', '='] w _ (newTemplateData environ) hn
      (by simp [operators]) (by simp) hw, expandShellExpression,
      parseShellParameter_op n _ w hn (by simp [operators]) (by simp)]
    cases hv : newTemplateData environ n with
    | none =>
      simp [hv, expandWordBranch, hword, afterExpression, emit, htail, Session.assign]
    | some v =>
      by_cases hvn : v = []
      · simp [hv, hvn, expandWordBranch, hword, afterExpression, emit, htail, Session.assign]
      · simp [hv, hvn, afterExpression, emit, htail]
  have h2 : expandShellParameters (braced (n ++ ['='] ++ w) ++ '-' :: braced n)
        (newTemplateData environ) =
      (match newTemplateData environ n with
       | some v => .ok (v ++ '-' :: v, newTemplateData environ)
       | none => .ok (w ++ '-' :: w, Session.assign (newTemplateData environ) n w)) := by
    rw [expandShellParameters_operator n ['='] w _ (newTemplateData environ) hn
      (by simp [operators]) (by simp) hw, expandShellExpression,
      parseShellParameter_op n _ w hn (by simp [operators]) (by simp)]
    cases hv : newTemplateData environ n with
    | none =>
      simp [hv, expandWordBranch, hword, afterExpression, emit, htail, Session.assign]
    | some v => simp [hv, afterExpression, emit, htail]
  refine ⟨h1, h2, ?_, ?_⟩
  · rw [ExpandTemplate_eq, h1]
    cases hv : newTemplateData environ n with
    | none => rfl
    | some v => by_cases hvn : v = [] <;> simp [hvn]
  · rw [ExpandTemplate_eq, h2]
    cases hv : newTemplateData environ n <;> rfl

theorem C6_assignment_operators_witness :
    (isValidName "MODEL".toList = true ∧ ∀ c ∈ "gpt-4".toList, c ≠ '$' ∧ c ≠ '}') ∧
    ExpandTemplate [] (braced ("MODEL".toList ++ [':', '='] ++ "gpt-4".toList) ++
        '-' :: braced "MODEL".toList) = .ok "gpt-4-gpt-4".toList :=
  ⟨⟨by decide, by decide⟩,
    (C6_assignment_operators [] "MODEL".toList "gpt-4".toList (by decide) (by decide)).2.2.1⟩


theorem containsDollarBrace_braced (body : Str) : containsDollarBrace (braced body) = true := by
  simp [braced, containsDollarBrace]

/-- Evaluation of `${n:-w}` followed by `s`, for a literal word `w`. -/
theorem expandShellParameters_fallback (n w s : Str) (env : Session)
    (hn : isValidName n = true) (hw : ∀ c ∈ w, c ≠ '$' ∧ c ≠ '}') :
    expandShellParameters (braced (n ++ [':', '-'] ++ w) ++ s) env =
      emit (match env n with
            | some v => if v = [] then w else v
            | none => w) (expandShellParameters s env) := by
  have hword : ∀ env, expandShellWord expandShellParameters w env = .ok (w, env) :=
    fun env => expandShellWord_plain _ w env (fun c hc => (hw c hc).1)
  rw [expandShellParameters_operator n [':', '-'] w s env hn (by simp [operators]) (by simp) hw,
    expandShellExpression, parseShellParameter_op n _ w hn (by simp [operators]) (by simp)]
  cases hv : env n with
  | none => simp [hv, expandWordBranch, hword, afterExpression]
  | some v =>
    by_cases hvn : v = []
    · simp [hv, hvn, expandWordBranch, hword, afterExpression]
    · simp [hv, hvn, afterExpression]

/-- The closing brace found for `${A:-${B:-x}}`. -/
theorem findMatchingBraceLoop_nested (a b x : Str) (ha : isValidName a = true)
    (hb : isValidName b = true) (hx : ∀ c ∈ x, c ≠ '$' ∧ c ≠ '}') :
    findMatchingBraceLoop
        ((a ++ [':', '-'] ++ braced (b ++ [':', '-'] ++ x)) ++ ['}']) 0 2 =
      some ((a ++ [':', '-'] ++ braced (b ++ [':', '-'] ++ x)).length + 2) := by
  have hA := name_op_word_chars a [':', '-'] [] ha (by decide) (by simp)
  have hB := name_op_word_chars b [':', '-'] x hb (by decide) hx
  rw [List.append_nil] at hA
  have e1 : (a ++ [':', '-'] ++ braced (b ++ [':', '-'] ++ x)) ++ ['}'] =
      (a ++ [':', '-']) ++ ('$' :: '{' :: ((b ++ [':', '-'] ++ x) ++ ['}', '}'])) := by
    simp [braced]
  rw [e1, findMatchingBraceLoop_skip _ _ 0 2 (fun c hc => (hA c hc).2)
    (containsDollarBrace_of_no_dollar _ (fun c hc => (hA c hc).1)) (by simp),
    findMatchingBraceLoop_cons]
  simp only [List.head?_cons, List.tail_cons, and_self, if_true]
  rw [findMatchingBraceLoop_skip _ _ _ _ (fun c hc => (hB c hc).2)
    (containsDollarBrace_of_no_dollar _ (fun c hc => (hB c hc).1)) (by simp),
    findMatchingBraceLoop_cons]
  simp only [List.head?_cons, findMatchingBraceLoop_cons]
  simp [braced]
  omega

/-- C7: nested fallback.  For valid names `A`, `B` and a literal `x`,
`${A:-${B:-x}}` expands to the value of `A` when it is set and non-empty,
otherwise to the value of `B` when that is set and non-empty, otherwise to `x`;
`findMatchingBrace` pairs the outer `${` with the last `}` of the text. -/
theorem C7_nested_fallback (environ : List Str) (a b x : Str)
    (ha : isValidName a = true) (hb : isValidName b = true)
    (hx : ∀ c ∈ x, c ≠ '$' ∧ c ≠ '}') :
    ExpandTemplate environ (braced (a ++ [':', '-'] ++ braced (b ++ [':', '-'] ++ x))) =
      .ok (match newTemplateData environ a with
           | some va =>
             if va = [] then
               (match newTemplateData environ b with
                | some vb => if vb = [] then x else vb
                | none => x)
             else va
           | none =>
             (match newTemplateData environ b with
              | some vb => if vb = [] then x else vb
              | none => x)) ∧
    findMatchingBrace (braced (a ++ [':', '-'] ++ braced (b ++ [':', '-'] ++ x))) 2 =
      some ((braced (a ++ [':', '-'] ++ braced (b ++ [':', '-'] ++ x))).length - 1) := by
  have hloop := findMatchingBraceLoop_nested a b x ha hb hx
  constructor
  · have hinner := expandShellParameters_fallback b x [] (newTemplateData environ) hb hx
    rw [List.append_nil, expandShellParameters_nil] at hinner
    have hw : expandShellWord expandShellParameters (braced (b ++ [':', '-'] ++ x))
        (newTemplateData environ) =
        .ok ((match newTemplateData environ b with
              | some v => if v = [] then x else v
              | none => x), newTemplateData environ) := by
      rw [expandShellWord, containsDollarBrace_braced, hinner]
      simp [emit]
    have h := expandShellParameters_bracedExpr
      (a ++ [':', '-'] ++ braced (b ++ [':', '-'] ++ x)) [] (newTemplateData environ) hloop
    rw [List.append_nil] at h
    rw [ExpandTemplate_eq, h, expandShellExpression,
      parseShellParameter_op a _ _ ha (by simp [operators]) (by simp)]
    generalize braced (b ++ [':', '-'] ++ x) = word at hw ⊢
    generalize (match newTemplateData environ b with
              | some v => if v = [] then x else v
              | none => x) = inner at hw ⊢
    cases hva : newTemplateData environ a with
    | none =>
      simp [hva, expandWordBranch, hw, afterExpression, emit, expandShellParameters_nil]
    | some va =>
      by_cases hvn : va = []
      · simp [hva, hvn, expandWordBranch, hw, afterExpression, emit, expandShellParameters_nil]
      · simp [hva, hvn, afterExpression, emit, expandShellParameters_nil]
  · have : braced (a ++ [':', '-'] ++ braced (b ++ [':', '-'] ++ x)) =
        '$' :: '{' :: ((a ++ [':', '-'] ++ braced (b ++ [':', '-'] ++ x)) ++ ['}']) := rfl
    rw [this, findMatchingBrace]
    simp only [List.drop_succ_cons, List.drop_zero, hloop, List.length_cons,
      List.length_append, List.length_nil]
    congr 1

theorem C7_nested_fallback_witness :
    (isValidName "PROD_URL".toList = true ∧ isValidName "DEV_URL".toList = true ∧
      ∀ c ∈ "http://localhost:8080".toList, c ≠ '$' ∧ c ≠ '}') ∧
    ExpandTemplate ["PROD_URL=".toList, "DEV_URL=dev".toList]
        (braced ("PROD_URL".toList ++ [':', '-'] ++
          braced ("DEV_URL".toList ++ [':', '-'] ++ "http://localhost:8080".toList))) =
      .ok "dev".toList ∧
    findMatchingBrace
        (braced ("PROD_URL".toList ++ [':', '-'] ++
          braced ("DEV_URL".toList ++ [':', '-'] ++ "http://localhost:8080".toList))) 2 =
      some 45 :=
  ⟨⟨by decide, by decide, by decide⟩,
    C7_nested_fallback ["PROD_URL=".toList, "DEV_URL=dev".toList] "PROD_URL".toList
      "DEV_URL".toList "http://localhost:8080".toList (by decide) (by decide) (by decide)⟩

/-- C8: `$$` is a literal dollar.  For every text `t`, `$$t` fails exactly when
`t` fails (with the same error) and otherwise expands to `$` followed by the
expansion of `t`; with `SET = x`, `$$${SET}` gives `$x` and `$${SET}` gives the
literal `${SET}`. -/
theorem C8_dollar_dollar :
    (∀ (environ : List Str) (t : Str),
      ExpandTemplate environ ('$' :: '$' :: t) =
        match ExpandTemplate environ t with
        | .ok s => .ok ('$' :: s)
        | .error m => .error m
        | .exhausted => .exhausted) ∧
    (∀ (environ : List Str), newTemplateData environ "SET".toList = some "x".toList →
      ExpandTemplate environ ('$' :: '$' :: braced "SET".toList) = .ok ['$', 'x'] ∧
      ExpandTemplate environ ('$' :: braced "SET".toList) = .ok (braced "SET".toList)) := by
  have hgen : ∀ (environ : List Str) (t : Str),
      ExpandTemplate environ ('$' :: '$' :: t) =
        match ExpandTemplate environ t with
        | .ok s => .ok ('$' :: s)
        | .error m => .error m
        | .exhausted => .exhausted := by
    intro environ t
    rw [ExpandTemplate_eq, ExpandTemplate_eq, expandShellParameters_dollar_dollar]
    cases expandShellParameters t (newTemplateData environ) with
    | ok p => obtain ⟨o, e⟩ := p; simp [emit]
    | error m => rfl
    | exhausted => rfl
  refine ⟨hgen, ?_⟩
  intro environ hset
  have href := expandShellParameters_reference "SET".toList [] (newTemplateData environ)
    (by decide)
  rw [List.append_nil, hset] at href
  constructor
  · rw [hgen, ExpandTemplate_eq, href]
    simp [expandShellParameters_nil, emit]
  · have : ('$' : Char) :: braced "SET".toList = '$' :: '$' :: "{SET}".toList := by decide
    rw [this, hgen, ExpandTemplate_eq, expandShellParameters_literal _ _ (by decide)]
    rfl

theorem C8_dollar_dollar_witness :
    newTemplateData ["SET=x".toList] "SET".toList = some "x".toList ∧
    ExpandTemplate ["SET=x".toList] ('$' :: '$' :: braced "SET".toList) = .ok ['$', 'x'] ∧
    ExpandTemplate ["SET=x".toList] ('$' :: braced "SET".toList) = .ok (braced "SET".toList) :=
  ⟨by decide, C8_dollar_dollar.2 ["SET=x".toList] (by decide)⟩


/-! ## Case analysis of the loop and of the expression evaluator -/

theorem containsDollarBrace_iff_sub (u : Str) :
    containsDollarBrace u = true ↔ ['$', '{'] <:+: u := by
  induction u with
  | nil => simp [containsDollarBrace]
  | cons c t ih =>
    rw [containsDollarBrace_cons, Bool.or_eq_true, ih, List.infix_cons_iff]
    constructor
    · rintro (h | h)
      · left
        simp only [Bool.and_eq_true, decide_eq_true_eq] at h
        obtain ⟨rfl, h⟩ := h
        cases t with
        | nil => simp at h
        | cons d t2 =>
          simp only [List.head?_cons, Option.some.injEq] at h
          subst h
          exact ⟨t2, rfl⟩
      · right; exact h
    · rintro (h | h)
      · left
        obtain ⟨t2, ht⟩ := h
        simp only [List.cons_append, List.nil_append, List.cons.injEq] at ht
        obtain ⟨rfl, rfl⟩ := ht
        simp
      · right; exact h

/-- The seven ways one iteration of the loop of `expandShellParameters` can
go, by the shape of the unread text. -/
theorem text_cases (text : Str) :
    text = [] ∨
    (∃ ch rest, text = ch :: rest ∧ ch ≠ '$') ∨
    text = ['$'] ∨
    (∃ rest, text = '$' :: '$' :: rest) ∨
    (∃ next rest, text = '$' :: next :: rest ∧ next ≠ '$' ∧ next ≠ '{') ∨
    (∃ rest, text = '$' :: '{' :: rest ∧ findMatchingBrace ('$' :: '{' :: rest) 2 = none) ∨
    (∃ expr s, text = braced expr ++ s ∧
      findMatchingBraceLoop (expr ++ '}' :: s) 0 2 = some (expr.length + 2)) := by
  cases text with
  | nil => left; rfl
  | cons ch rest =>
    by_cases hch : ch = '$'
    · subst hch
      cases rest with
      | nil => right; right; left; rfl
      | cons next rest2 =>
        by_cases h1 : next = '$'
        · subst h1; right; right; right; left; exact ⟨rest2, rfl⟩
        · by_cases h2 : next = '{'
          · subst h2
            cases hf : findMatchingBrace ('$' :: '{' :: rest2) 2 with
            | none => right; right; right; right; right; left; exact ⟨rest2, rfl, hf⟩
            | some e =>
              right; right; right; right; right; right
              have hl : findMatchingBraceLoop rest2 0 2 = some e := by
                simpa [findMatchingBrace] using hf
              obtain ⟨b1, b2, b3⟩ := findMatchingBraceLoop_bounds _ _ _ _ _ (le_refl _) hl
              have hlt : e - 2 < rest2.length := by omega
              have hget : rest2[e - 2] = '}' := by
                rw [List.getElem?_eq_getElem hlt] at b3
                exact Option.some.inj b3
              have hsplit : rest2 = rest2.take (e - 2) ++ '}' :: rest2.drop (e - 2 + 1) := by
                rw [← hget, ← List.drop_eq_getElem_cons hlt, List.take_append_drop]
              refine ⟨rest2.take (e - 2), rest2.drop (e - 2 + 1), ?_, ?_⟩
              · rw [braced, List.cons_append, List.cons_append, List.append_assoc,
                  List.singleton_append, ← hsplit]
              · rw [← hsplit, hl, List.length_take]
                congr 1
                omega
          · right; right; right; right; left; exact ⟨next, rest2, rfl, h1, h2⟩
    · right; left; exact ⟨ch, rest, rfl, hch⟩

theorem braced_append_length (expr s : Str) :
    (braced expr ++ s).length = expr.length + s.length + 3 := by
  simp [braced]; omega

/-- The outcomes of `expandShellExpression`, by what was parsed. -/
theorem expandShellExpression_cases (r : Str → Session → Outcome (Str × Session))
    (expr : Str) (env : Session) :
    (parseShellParameter expr = none ∧ expandShellExpression r expr env = .ok (none, env)) ∨
    ∃ name op word, parseShellParameter expr = some (name, op, word) ∧
      ((∃ v, expandShellExpression r expr env = .ok (some v, env)) ∨
       (expandShellExpression r expr env = .error (errorMessage name word) ∧
          ((op = [':', '?'] ∧ (env name = none ∨ env name = some [])) ∨
           (op = ['?'] ∧ env name = none))) ∨
       (∃ store, expandShellExpression r expr env = expandWordBranch r name word env store ∧
          (store = true → (env name = none ∨ env name = some [])) ∧
          op ≠ [':', '?'] ∧ op ≠ ['?'])) := by
  cases hp : parseShellParameter expr with
  | none => left; simp [expandShellExpression, hp]
  | some p =>
    obtain ⟨name, op, word⟩ := p
    right
    refine ⟨name, op, word, rfl, ?_⟩
    obtain ⟨_, hop, _, _⟩ := parseShellParameter_shape _ _ _ _ hp
    simp only [operators, List.mem_cons, List.mem_singleton, List.not_mem_nil, or_false] at hop
    rcases hop with rfl | rfl | rfl | rfl | rfl | rfl | rfl | rfl | rfl
    · left; exact ⟨(env name).getD [], by simp [expandShellExpression, hp]⟩
    · cases hv : env name with
      | none =>
        right; right
        exact ⟨false, by simp [expandShellExpression, hp, hv], by simp, by decide, by decide⟩
      | some v =>
        by_cases hvn : v = []
        · right; right
          exact ⟨false, by simp [expandShellExpression, hp, hv, hvn], by simp, by decide,
            by decide⟩
        · left; exact ⟨v, by simp [expandShellExpression, hp, hv, hvn]⟩
    · cases hv : env name with
      | none =>
        right; right
        exact ⟨false, by simp [expandShellExpression, hp, hv], by simp, by decide, by decide⟩
      | some v => left; exact ⟨v, by simp [expandShellExpression, hp, hv]⟩
    · cases hv : env name with
      | none => left; exact ⟨[], by simp [expandShellExpression, hp, hv]⟩
      | some v =>
        by_cases hvn : v = []
        · left; exact ⟨[], by simp [expandShellExpression, hp, hv, hvn]⟩
        · right; right
          exact ⟨false, by simp [expandShellExpression, hp, hv, hvn], by simp, by decide,
            by decide⟩
    · cases hv : env name with
      | none => left; exact ⟨[], by simp [expandShellExpression, hp, hv]⟩
      | some v =>
        right; right
        exact ⟨false, by simp [expandShellExpression, hp, hv], by simp, by decide, by decide⟩
    · cases hv : env name with
      | none =>
        right; left
        exact ⟨by simp [expandShellExpression, hp, hv], Or.inl ⟨rfl, Or.inl rfl⟩⟩
      | some v =>
        by_cases hvn : v = []
        · right; left
          exact ⟨by simp [expandShellExpression, hp, hv, hvn],
            Or.inl ⟨rfl, Or.inr (by rw [hvn])⟩⟩
        · left; exact ⟨v, by simp [expandShellExpression, hp, hv, hvn]⟩
    · cases hv : env name with
      | none =>
        right; left
        exact ⟨by simp [expandShellExpression, hp, hv], Or.inr ⟨rfl, rfl⟩⟩
      | some v => left; exact ⟨v, by simp [expandShellExpression, hp, hv]⟩
    · cases hv : env name with
      | none =>
        right; right
        exact ⟨true, by simp [expandShellExpression, hp, hv], by simp, by decide, by decide⟩
      | some v =>
        by_cases hvn : v = []
        · right; right
          exact ⟨true, by simp [expandShellExpression, hp, hv, hvn], by simp [hvn], by decide,
            by decide⟩
        · left; exact ⟨v, by simp [expandShellExpression, hp, hv, hvn]⟩
    · cases hv : env name with
      | none =>
        right; right
        exact ⟨true, by simp [expandShellExpression, hp, hv], by simp, by decide, by decide⟩
      | some v => left; exact ⟨v, by simp [expandShellExpression, hp, hv]⟩

/-- The outcomes of a word branch: the word is written as it is when it holds
no `${`, and goes through the expander otherwise. -/
theorem expandWordBranch_cases (r : Str → Session → Outcome (Str × Session))
    (name word : Str) (env : Session) (store : Bool) :
    (containsDollarBrace word = false ∧
      expandWordBranch r name word env store =
        .ok (some word, if store then Session.assign env name word else env)) ∨
    (containsDollarBrace word = true ∧
      expandWordBranch r name word env store =
        match r word env with
        | .ok (x, env1) => .ok (some x, if store then Session.assign env1 name x else env1)
        | .error m => .error m
        | .exhausted => .exhausted) := by
  cases h : containsDollarBrace word with
  | false => left; simp [expandWordBranch, expandShellWord, h]
  | true => right; simp [expandWordBranch, expandShellWord, h]


/-! ## The expander always returns -/

theorem emit_eq_exhausted (s : Str) (x : Outcome (Str × Session)) :
    emit s x = .exhausted ↔ x = .exhausted := by
  cases x with
  | ok p => obtain ⟨o, e⟩ := p; simp [emit]
  | error m => simp [emit]
  | exhausted => simp [emit]

theorem emit_eq_error (s : Str) (x : Outcome (Str × Session)) (m : Str) :
    emit s x = .error m ↔ x = .error m := by
  cases x with
  | ok p => obtain ⟨o, e⟩ := p; simp [emit]
  | error m2 => simp [emit]
  | exhausted => simp [emit]

theorem emit_eq_ok (s : Str) (x : Outcome (Str × Session)) (out : Str) (env1 : Session) :
    emit s x = .ok (out, env1) ↔ ∃ o, x = .ok (o, env1) ∧ out = s ++ o := by
  cases x with
  | ok p =>
    obtain ⟨o, e⟩ := p
    simp only [emit, Outcome.ok.injEq, Prod.mk.injEq]
    constructor
    · rintro ⟨rfl, rfl⟩; exact ⟨o, ⟨rfl, rfl⟩, rfl⟩
    · rintro ⟨o2, ⟨rfl, rfl⟩, rfl⟩; exact ⟨rfl, rfl⟩
  | error m2 => simp [emit]
  | exhausted => simp [emit]

theorem expandShellExpression_ne_exhausted (r : Str → Session → Outcome (Str × Session))
    (expr : Str) (env : Session)
    (h : ∀ (w : Str) (env1 : Session), w.length < expr.length → r w env1 ≠ .exhausted) :
    expandShellExpression r expr env ≠ .exhausted := by
  rcases expandShellExpression_cases r expr env with ⟨_, h1⟩ |
    ⟨name, op, word, hp, ⟨v, h1⟩ | ⟨h1, _⟩ | ⟨store, h1, _⟩⟩
  · rw [h1]; simp
  · rw [h1]; simp
  · rw [h1]; simp
  · rw [h1]
    have hlen := parseShellParameter_word_length _ _ _ _ hp
    rcases expandWordBranch_cases r name word env store with ⟨_, h2⟩ | ⟨_, h2⟩
    · rw [h2]; simp
    · rw [h2]
      have := h word env hlen
      cases hr : r word env with
      | ok p => simp
      | error m => simp
      | exhausted => exact absurd hr this

theorem expandShellParameters_ne_exhausted_aux (n : Nat) :
    ∀ (text : Str) (env : Session), text.length ≤ n →
      expandShellParameters text env ≠ .exhausted := by
  induction n with
  | zero =>
    intro text env hn
    have : text = [] := List.length_eq_zero.mp (Nat.le_zero.mp hn)
    subst this
    simp [expandShellParameters_nil]
  | succ n ih =>
    intro text env hn
    rcases text_cases text with rfl | ⟨ch, rest, rfl, hch⟩ | rfl | ⟨rest, rfl⟩ |
      ⟨next, rest, rfl, h1, h2⟩ | ⟨rest, rfl, hf⟩ | ⟨expr, s, rfl, hl⟩
    · simp [expandShellParameters_nil]
    · rw [expandShellParameters_plain _ _ _ hch, Ne, emit_eq_exhausted]
      exact ih rest env (by simpa using hn)
    · simp [expandShellParameters_lone]
    · rw [expandShellParameters_dollar_dollar, Ne, emit_eq_exhausted]
      exact ih rest env (by simp at hn; omega)
    · rw [expandShellParameters_dollar_other _ _ _ h1 h2, Ne, emit_eq_exhausted]
      exact ih _ env (by simpa using hn)
    · rw [expandShellParameters_unterminated _ _ hf, Ne, emit_eq_exhausted]
      exact ih _ env (by simpa using hn)
    · rw [braced_append_length] at hn
      rw [expandShellParameters_bracedExpr _ _ _ hl]
      have he := expandShellExpression_ne_exhausted expandShellParameters expr env
        (fun w env1 hw => ih w env1 (by omega))
      cases hx : expandShellExpression expandShellParameters expr env with
      | exhausted => exact absurd hx he
      | error m => simp [afterExpression]
      | ok p =>
        obtain ⟨o, env1⟩ := p
        have hs := ih s env1 (by omega)
        cases o with
        | none => simpa [afterExpression, emit_eq_exhausted] using hs
        | some x => simpa [afterExpression, emit_eq_exhausted] using hs

/-- The recursion budget of `expandShellParameters` is never used up. -/
theorem expandShellParameters_ne_exhausted (text : Str) (env : Session) :
    expandShellParameters text env ≠ .exhausted :=
  expandShellParameters_ne_exhausted_aux text.length text env (le_refl _)

/-! ## Text without `?` never fails -/

theorem expandShellExpression_no_error (r : Str → Session → Outcome (Str × Session))
    (expr : Str) (env : Session) (hq : ∀ c ∈ expr, c ≠ '?')
    (h : ∀ (w : Str) (env1 : Session) (m : Str), w.length < expr.length →
      (∀ c ∈ w, c ≠ '?') → r w env1 ≠ .error m) (m : Str) :
    expandShellExpression r expr env ≠ .error m := by
  rcases expandShellExpression_cases r expr env with ⟨_, h1⟩ |
    ⟨name, op, word, hp, ⟨v, h1⟩ | ⟨_, h2⟩ | ⟨store, h1, _⟩⟩
  · rw [h1]; simp
  · rw [h1]; simp
  · exfalso
    obtain ⟨hshape, _, _, _⟩ := parseShellParameter_shape _ _ _ _ hp
    have : '?' ∈ expr := by
      rw [hshape]
      rcases h2 with ⟨rfl, _⟩ | ⟨rfl, _⟩ <;> simp
    exact hq _ this rfl
  · rw [h1]
    have hlen := parseShellParameter_word_length _ _ _ _ hp
    obtain ⟨hshape, _, _, _⟩ := parseShellParameter_shape _ _ _ _ hp
    have hwq : ∀ c ∈ word, c ≠ '?' := by
      intro c hc
      apply hq
      rw [hshape]
      simp [hc]
    rcases expandWordBranch_cases r name word env store with ⟨_, h2⟩ | ⟨_, h2⟩
    · rw [h2]; simp
    · rw [h2]
      cases hr : r word env with
      | ok p => simp
      | error m2 => exact absurd hr (h word env m2 hlen hwq)
      | exhausted => simp

theorem expandShellParameters_no_error_aux (n : Nat) :
    ∀ (text : Str) (env : Session) (m : Str), text.length ≤ n → (∀ c ∈ text, c ≠ '?') →
      expandShellParameters text env ≠ .error m := by
  induction n with
  | zero =>
    intro text env m hn _
    have : text = [] := List.length_eq_zero.mp (Nat.le_zero.mp hn)
    subst this
    simp [expandShellParameters_nil]
  | succ n ih =>
    intro text env m hn hq
    rcases text_cases text with rfl | ⟨ch, rest, rfl, hch⟩ | rfl | ⟨rest, rfl⟩ |
      ⟨next, rest, rfl, h1, h2⟩ | ⟨rest, rfl, hf⟩ | ⟨expr, s, rfl, hl⟩
    · simp [expandShellParameters_nil]
    · rw [expandShellParameters_plain _ _ _ hch, Ne, emit_eq_error]
      exact ih rest env m (by simpa using hn) (fun c hc => hq c (List.mem_cons_of_mem _ hc))
    · simp [expandShellParameters_lone]
    · rw [expandShellParameters_dollar_dollar, Ne, emit_eq_error]
      exact ih rest env m (by simp at hn; omega)
        (fun c hc => hq c (List.mem_cons_of_mem _ (List.mem_cons_of_mem _ hc)))
    · rw [expandShellParameters_dollar_other _ _ _ h1 h2, Ne, emit_eq_error]
      exact ih _ env m (by simpa using hn) (fun c hc => hq c (List.mem_cons_of_mem _ hc))
    · rw [expandShellParameters_unterminated _ _ hf, Ne, emit_eq_error]
      exact ih _ env m (by simpa using hn) (fun c hc => hq c (List.mem_cons_of_mem _ hc))
    · rw [braced_append_length] at hn
      rw [expandShellParameters_bracedExpr _ _ _ hl]
      have hqe : ∀ c ∈ expr, c ≠ '?' := fun c hc => hq c (by simp [braced, hc])
      have hqs : ∀ c ∈ s, c ≠ '?' := fun c hc => hq c (by simp [braced, hc])
      have he := expandShellExpression_no_error expandShellParameters expr env hqe
        (fun w env1 m2 hw hwq => ih w env1 m2 (by omega) hwq)
      cases hx : expandShellExpression expandShellParameters expr env with
      | exhausted => simp [afterExpression]
      | error m2 => exact absurd hx (he m2)
      | ok p =>
        obtain ⟨o, env1⟩ := p
        have hs := ih s env1 m (by omega) hqs
        cases o with
        | none => simpa [afterExpression, emit_eq_error] using hs
        | some x => simpa [afterExpression, emit_eq_error] using hs

theorem expandShellParameters_no_error (text : Str) (env : Session)
    (hq : ∀ c ∈ text, c ≠ '?') :
    ∃ out env1, expandShellParameters text env = .ok (out, env1) := by
  cases h : expandShellParameters text env with
  | ok p => exact ⟨p.1, p.2, rfl⟩
  | error m => exact absurd h (expandShellParameters_no_error_aux _ text env m (le_refl _) hq)
  | exhausted => exact absurd h (expandShellParameters_ne_exhausted text env)


/-! ## Where an error comes from -/

theorem SessionExtends.refl (env : Session) : SessionExtends env env :=
  fun _ => Or.inl rfl

theorem SessionExtends.trans {a b c : Session} (h1 : SessionExtends a b)
    (h2 : SessionExtends b c) : SessionExtends a c := by
  intro k
  rcases h1 k with e1 | ⟨u1, s1⟩
  · rcases h2 k with e2 | ⟨u2, s2⟩
    · left; rw [e2, e1]
    · right; exact ⟨by rw [← e1]; exact u2, s2⟩
  · rcases h2 k with e2 | ⟨_, s2⟩
    · right; exact ⟨u1, by rw [e2]; exact s1⟩
    · right; exact ⟨u1, s2⟩

theorem SessionExtends.assign {env env1 : Session} (h : SessionExtends env env1)
    (name x : Str) (hu : env name = none ∨ env name = some []) :
    SessionExtends env (Session.assign env1 name x) := by
  intro k
  by_cases hk : k = name
  · subst hk
    right
    exact ⟨hu, by simp [Session.assign]⟩
  · simpa [Session.assign, hk] using h k

theorem RequiredFailure.mono {t1 t2 : Str} {env0 env : Session} {m : Str}
    (ht : t1 <:+: t2) (he : SessionExtends env0 env) (h : RequiredFailure t1 env m) :
    RequiredFailure t2 env0 m := by
  obtain ⟨name, w, env1, hv, hx, hm, hc⟩ := h
  refine ⟨name, w, env1, hv, he.trans hx, hm, ?_⟩
  rcases hc with ⟨hi, hl⟩ | ⟨hi, hl⟩
  · exact Or.inl ⟨hi.trans ht, hl⟩
  · exact Or.inr ⟨hi.trans ht, hl⟩

theorem expandShellExpression_traced (expr : Str) (env : Session)
    (ih : ∀ (w : Str) (env1 : Session), w.length < expr.length → Traced w env1) :
    (∀ o env1, expandShellExpression expandShellParameters expr env = .ok (o, env1) →
      SessionExtends env env1) ∧
    (∀ m, expandShellExpression expandShellParameters expr env = .error m →
      RequiredFailure (braced expr) env m) := by
  rcases expandShellExpression_cases expandShellParameters expr env with ⟨_, h1⟩ |
    ⟨name, op, word, hp, ⟨v, h1⟩ | ⟨h1, h2⟩ | ⟨store, h1, hst, _⟩⟩
  · rw [h1]
    refine ⟨?_, by simp⟩
    intro o env1 h
    simp only [Outcome.ok.injEq, Prod.mk.injEq] at h
    rw [← h.2]
    exact SessionExtends.refl env
  · rw [h1]
    refine ⟨?_, by simp⟩
    intro o env1 h
    simp only [Outcome.ok.injEq, Prod.mk.injEq] at h
    rw [← h.2]
    exact SessionExtends.refl env
  · rw [h1]
    refine ⟨by simp, ?_⟩
    intro m hm
    simp only [Outcome.error.injEq] at hm
    obtain ⟨hshape, _, hvalid, _⟩ := parseShellParameter_shape _ _ _ _ hp
    refine ⟨name, word, env, hvalid, SessionExtends.refl env, hm.symm, ?_⟩
    rcases h2 with ⟨rfl, hl⟩ | ⟨rfl, hl⟩
    · left; rw [← hshape]; exact ⟨List.infix_refl _, hl⟩
    · right; rw [← hshape]; exact ⟨List.infix_refl _, hl⟩
  · rw [h1]
    have hlen := parseShellParameter_word_length _ _ _ _ hp
    obtain ⟨hshape, _, _, _⟩ := parseShellParameter_shape _ _ _ _ hp
    have hinf : word <:+: braced expr :=
      ⟨'$' :: '{' :: (name ++ op), ['}'], by rw [hshape]; simp [braced]⟩
    rcases expandWordBranch_cases expandShellParameters name word env store with
      ⟨_, h2⟩ | ⟨_, h2⟩
    · rw [h2]
      refine ⟨?_, by simp⟩
      intro o env1 h
      simp only [Outcome.ok.injEq, Prod.mk.injEq] at h
      rw [← h.2]
      cases store with
      | false => exact SessionExtends.refl env
      | true => exact (SessionExtends.refl env).assign name word (hst rfl)
    · rw [h2]
      obtain ⟨t1, t2⟩ := ih word env hlen
      cases hr : expandShellParameters word env with
      | exhausted => simp
      | error m2 =>
        refine ⟨by simp, ?_⟩
        intro m hm
        simp only [Outcome.error.injEq] at hm
        subst hm
        exact (t2 m2 hr).mono hinf (SessionExtends.refl env)
      | ok p =>
        obtain ⟨x, env2⟩ := p
        refine ⟨?_, by simp⟩
        intro o env1 h
        simp only [Outcome.ok.injEq, Prod.mk.injEq] at h
        rw [← h.2]
        have hx := t1 x env2 hr
        cases store with
        | false => exact hx
        | true => exact hx.assign name x (hst rfl)

theorem traced_emit (s text rest : Str) (env : Session) (hsuf : rest <:+: text)
    (heq : expandShellParameters text env = emit s (expandShellParameters rest env))
    (h : Traced rest env) : Traced text env := by
  constructor
  · intro out env1 hok
    rw [heq, emit_eq_ok] at hok
    obtain ⟨o, ho, _⟩ := hok
    exact h.1 o env1 ho
  · intro m hm
    rw [heq, emit_eq_error] at hm
    exact (h.2 m hm).mono hsuf (SessionExtends.refl env)

theorem expandShellParameters_traced_aux (n : Nat) :
    ∀ (text : Str) (env : Session), text.length ≤ n → Traced text env := by
  induction n with
  | zero =>
    intro text env hn
    have : text = [] := List.length_eq_zero.mp (Nat.le_zero.mp hn)
    subst this
    constructor
    · intro out env1 h
      simp only [expandShellParameters_nil, Outcome.ok.injEq, Prod.mk.injEq] at h
      rw [← h.2]
      exact SessionExtends.refl env
    · simp [expandShellParameters_nil]
  | succ n ih =>
    intro text env hn
    rcases text_cases text with rfl | ⟨ch, rest, rfl, hch⟩ | rfl | ⟨rest, rfl⟩ |
      ⟨next, rest, rfl, h1, h2⟩ | ⟨rest, rfl, hf⟩ | ⟨expr, s, rfl, hl⟩
    · exact ih [] env (by simp)
    · exact traced_emit [ch] _ rest env ⟨[ch], [], by simp⟩
        (expandShellParameters_plain _ _ _ hch) (ih rest env (by simpa using hn))
    · constructor
      · intro out env1 h
        simp only [expandShellParameters_lone, Outcome.ok.injEq, Prod.mk.injEq] at h
        rw [← h.2]
        exact SessionExtends.refl env
      · simp [expandShellParameters_lone]
    · exact traced_emit ['$'] _ rest env ⟨['$', '$'], [], by simp⟩
        (expandShellParameters_dollar_dollar _ _) (ih rest env (by simp at hn; omega))
    · exact traced_emit ['$'] _ (next :: rest) env ⟨['$'], [], by simp⟩
        (expandShellParameters_dollar_other _ _ _ h1 h2) (ih _ env (by simpa using hn))
    · exact traced_emit ['$'] _ ('{' :: rest) env ⟨['$'], [], by simp⟩
        (expandShellParameters_unterminated _ _ hf) (ih _ env (by simpa using hn))
    · rw [braced_append_length] at hn
      have heq := expandShellParameters_bracedExpr expr s env hl
      obtain ⟨e1, e2⟩ := expandShellExpression_traced expr env
        (fun w env1 hw => ih w env1 (by omega))
      have hpre : braced expr <:+: braced expr ++ s := ⟨[], s, by simp⟩
      have hsuf : s <:+: braced expr ++ s := ⟨braced expr, [], by simp⟩
      cases hx : expandShellExpression expandShellParameters expr env with
      | exhausted =>
        rw [hx] at heq
        constructor
        · intro out env1 h; rw [heq] at h; simp [afterExpression] at h
        · intro m h; rw [heq] at h; simp [afterExpression] at h
      | error m2 =>
        rw [hx] at heq
        constructor
        · intro out env1 h; rw [heq] at h; simp [afterExpression] at h
        · intro m h
          rw [heq] at h
          simp only [afterExpression, Outcome.error.injEq] at h
          subst h
          exact (e2 m2 hx).mono hpre (SessionExtends.refl env)
      | ok p =>
        obtain ⟨o, env1⟩ := p
        rw [hx] at heq
        have hext := e1 o env1 hx
        obtain ⟨s1, s2⟩ := ih s env1 (by omega)
        have heq2 : ∃ v, expandShellParameters (braced expr ++ s) env =
            emit v (expandShellParameters s env1) := by
          cases o with
          | none => exact ⟨_, heq⟩
          | some x => exact ⟨_, heq⟩
        obtain ⟨v, heq2⟩ := heq2
        constructor
        · intro out env2 h
          rw [heq2, emit_eq_ok] at h
          obtain ⟨o2, ho2, _⟩ := h
          exact hext.trans (s1 o2 env2 ho2)
        · intro m h
          rw [heq2, emit_eq_error] at h
          exact (s2 m h).mono hsuf hext

theorem expandShellParameters_traced (text : Str) (env : Session) : Traced text env :=
  expandShellParameters_traced_aux text.length text env (le_refl _)


/-- C9: unrecognized expressions are left verbatim.  For a string `e` that
holds no `}` and no `${` and is neither a valid name nor a valid name followed
by one of the eight operators and a word, `${e}` expands to `${e}` itself. -/
theorem C9_unrecognized_verbatim (environ : List Str) (e : Str)
    (h1 : ∀ c ∈ e, c ≠ '}') (h2 : ¬ ['$', '{'] <:+: e)
    (h3 : isValidName e = false)
    (h4 : ∀ n op w : Str, isValidName n = true → op ∈ operators → op ≠ [] →
      e ≠ n ++ op ++ w) :
    ExpandTemplate environ (braced e) = .ok (braced e) := by
  have hc : containsDollarBrace e = false := by
    cases hcd : containsDollarBrace e with
    | false => rfl
    | true => exact absurd ((containsDollarBrace_iff_sub e).mp hcd) h2
  have hparse : parseShellParameter e = none := by
    cases hp : parseShellParameter e with
    | none => rfl
    | some p =>
      obtain ⟨name, op, word⟩ := p
      obtain ⟨hshape, hop, hvalid, hword⟩ := parseShellParameter_shape _ _ _ _ hp
      by_cases hne : op = []
      · subst hne
        rw [hword rfl] at hshape
        simp only [List.append_nil] at hshape
        rw [hshape, hvalid] at h3
        exact absurd h3 (by simp)
      · exact absurd hshape (h4 name op word hvalid hop hne)
  have h := expandShellParameters_bracedExpr e [] (newTemplateData environ)
    (by
      have := findMatchingBraceLoop_close e [] 2 h1 hc
      simpa using this)
  rw [List.append_nil] at h
  rw [ExpandTemplate_eq, h, expandShellExpression, hparse]
  simp [afterExpression, emit, expandShellParameters_nil]

theorem C9_unrecognized_verbatim_witness :
    ((∀ c ∈ "VAR:x".toList, c ≠ '}') ∧ ¬ ['$', '{'] <:+: "VAR:x".toList ∧
      isValidName "VAR:x".toList = false ∧
      (∀ n op w : Str, isValidName n = true → op ∈ operators → op ≠ [] →
        "VAR:x".toList ≠ n ++ op ++ w)) ∧
    ExpandTemplate [] (braced "VAR:x".toList) = .ok (braced "VAR:x".toList) :=
  have hform : ∀ n op w : Str, isValidName n = true → op ∈ operators → op ≠ [] →
      "VAR:x".toList ≠ n ++ op ++ w := by
    intro n op w hn hop hne heq
    have hp := parseShellParameter_op n op w hn hop hne
    have hnone : parseShellParameter "VAR:x".toList = none := by decide
    rw [← heq, hnone] at hp
    exact Option.noConfusion hp
  ⟨⟨by decide, by decide, by decide, hform⟩,
    C9_unrecognized_verbatim [] "VAR:x".toList (by decide) (by decide) (by decide) hform⟩

theorem expandShellParameters_no_pair (text : Str) :
    ∀ (env : Session),
      (∀ i, text[i]? = some '$' → text[i + 1]? ≠ some '{' ∧ text[i + 1]? ≠ some '$') →
      expandShellParameters text env = .ok (text, env) := by
  induction text with
  | nil => intro env _; exact expandShellParameters_nil env
  | cons ch rest ih =>
    intro env h
    have hrest : ∀ i, rest[i]? = some '$' →
        rest[i + 1]? ≠ some '{' ∧ rest[i + 1]? ≠ some '$' := by
      intro i hi
      have := h (i + 1) (by simpa using hi)
      simpa using this
    by_cases hch : ch = '$'
    · subst hch
      cases rest with
      | nil => exact expandShellParameters_lone env
      | cons next rest2 =>
        have h0 := h 0 (by simp)
        simp only [zero_add, List.getElem?_cons_succ, List.getElem?_cons_zero, ne_eq,
          Option.some.injEq] at h0
        rw [expandShellParameters_dollar_other _ _ _ h0.2 h0.1, ih env hrest]
        rfl
    · rw [expandShellParameters_plain _ _ _ hch, ih env hrest]
      rfl

/-- C10: only `${...}` is recognized.  A text in which no `$` is immediately
followed by `{` or by another `$` expands to itself. -/
theorem C10_only_braced_form (environ : List Str) (text : Str)
    (h : ∀ i, text[i]? = some '$' → text[i + 1]? ≠ some '{' ∧ text[i + 1]? ≠ some '$') :
    ExpandTemplate environ text = .ok text := by
  rw [ExpandTemplate_eq, expandShellParameters_no_pair text _ h]

theorem C10_only_braced_form_witness :
    (∀ i, ("pa$word $HOME $".toList)[i]? = some '$' →
      ("pa$word $HOME $".toList)[i + 1]? ≠ some '{' ∧
      ("pa$word $HOME $".toList)[i + 1]? ≠ some '$') ∧
    ExpandTemplate ["HOME=/root".toList] "pa$word $HOME $".toList =
      .ok "pa$word $HOME $".toList :=
  have hpair : ∀ i, ("pa$word $HOME $".toList)[i]? = some '$' →
      ("pa$word $HOME $".toList)[i + 1]? ≠ some '{' ∧
      ("pa$word $HOME $".toList)[i + 1]? ≠ some '$' := by
    intro i hi
    by_cases hlt : i < 16
    · interval_cases i <;> first | (exact absurd hi (by decide)) | decide
    · have : ("pa$word $HOME $".toList)[i + 1]? = none :=
        List.getElem?_eq_none (by simp; omega)
      rw [this]
      simp
  ⟨hpair, C10_only_braced_form ["HOME=/root".toList] _ hpair⟩


/-- C12: the alternate operators.  For a valid name `n` and a literal word `w`
(no `$`, no `}`), `${n:+w}` gives `w` when `n` is set and non-empty and the
empty string otherwise; `${n+w}` gives `w` whenever `n` is set (also when empty)
and the empty string when `n` is unset.  Neither returns an error, and the
value of `n` never appears in the result. -/
theorem C12_alternate_operators (environ : List Str) (n w : Str)
    (hn : isValidName n = true) (hw : ∀ c ∈ w, c ≠ '$' ∧ c ≠ '}') :
    ExpandTemplate environ (braced (n ++ [':', '+'] ++ w)) =
        .ok (match newTemplateData environ n with
             | some v => if v = [] then [] else w
             | none => []) ∧
    ExpandTemplate environ (braced (n ++ ['+'] ++ w)) =
        .ok (match newTemplateData environ n with
             | some _ => w
             | none => []) := by
  have hword : ∀ env, expandShellWord expandShellParameters w env = .ok (w, env) :=
    fun env => expandShellWord_plain _ w env (fun c hc => (hw c hc).1)
  constructor
  · have h := expandShellParameters_operator n [':', '+'] w [] (newTemplateData environ) hn
      (by simp [operators]) (by simp) hw
    rw [List.append_nil] at h
    rw [ExpandTemplate_eq, h, expandShellExpression,
      parseShellParameter_op n _ w hn (by simp [operators]) (by simp)]
    cases hv : newTemplateData environ n with
    | none =>
      simp [hv, afterExpression, emit, expandShellParameters_nil]
    | some v =>
      by_cases hvn : v = []
      · simp [hv, hvn, afterExpression, emit, expandShellParameters_nil]
      · simp [hv, hvn, expandWordBranch, hword, afterExpression, emit, expandShellParameters_nil]
  · have h := expandShellParameters_operator n ['+'] w [] (newTemplateData environ) hn
      (by simp [operators]) (by simp) hw
    rw [List.append_nil] at h
    rw [ExpandTemplate_eq, h, expandShellExpression,
      parseShellParameter_op n _ w hn (by simp [operators]) (by simp)]
    cases hv : newTemplateData environ n with
    | none =>
      simp [hv, afterExpression, emit, expandShellParameters_nil]
    | some v =>
      simp [hv, expandWordBranch, hword, afterExpression, emit, expandShellParameters_nil]

theorem C12_alternate_operators_witness :
    (isValidName "SHELL_EMPTY".toList = true ∧ ∀ c ∈ "alt".toList, c ≠ '$' ∧ c ≠ '}') ∧
    ExpandTemplate ["SHELL_SET=set-value".toList, "SHELL_EMPTY=".toList]
        (braced ("SHELL_EMPTY".toList ++ [':', '+'] ++ "alt".toList)) = .ok [] ∧
    ExpandTemplate ["SHELL_SET=set-value".toList, "SHELL_EMPTY=".toList]
        (braced ("SHELL_EMPTY".toList ++ ['+'] ++ "alt".toList)) = .ok "alt".toList :=
  ⟨⟨by decide, by decide⟩,
    C12_alternate_operators ["SHELL_SET=set-value".toList, "SHELL_EMPTY=".toList]
      "SHELL_EMPTY".toList "alt".toList (by decide) (by decide)⟩

/-! ## Brace matching over a balanced word -/

theorem braceDepth_cons (c : Char) (rest : Str) (depth : Nat) :
    braceDepth (c :: rest) depth =
      if c = '$' ∧ rest.head? = some '{' then braceDepth rest.tail (depth + 1)
      else if c = '}' then
        if depth = 0 then none else braceDepth rest (depth - 1)
      else braceDepth rest depth := by
  cases rest with
  | nil => simp [braceDepth]
  | cons d rest => simp [braceDepth]

/-- The scan of `findMatchingBrace` passes over a part of the text whose braces
pair up inside it, and arrives behind it at the depth `braceDepth` gives. -/
theorem findMatchingBraceLoop_braceDepth (n : Nat) :
    ∀ (w rest : Str) (depth depth1 i : Nat), w.length ≤ n →
      braceDepth w depth = some depth1 → rest.head? ≠ some '{' →
      findMatchingBraceLoop (w ++ rest) depth i =
        findMatchingBraceLoop rest depth1 (i + w.length) := by
  induction n with
  | zero =>
    intro w rest depth depth1 i hlen hd _
    have hw : w = [] := List.length_eq_zero.mp (Nat.le_zero.mp hlen)
    subst hw
    simp only [braceDepth, Option.some.injEq] at hd
    subst hd
    simp
  | succ n ih =>
    intro w rest depth depth1 i hlen hd hrest
    cases w with
    | nil =>
      simp only [braceDepth, Option.some.injEq] at hd
      subst hd
      simp
    | cons c t =>
      rw [braceDepth_cons] at hd
      rw [List.cons_append, findMatchingBraceLoop_cons]
      simp only [List.length_cons] at hlen
      by_cases h1 : c = '$' ∧ t.head? = some '{'
      · rw [if_pos h1] at hd
        obtain ⟨hc, ht⟩ := h1
        cases t with
        | nil => simp at ht
        | cons d t2 =>
          simp only [List.head?_cons, Option.some.injEq] at ht
          subst ht
          simp only [List.tail_cons] at hd
          have := ih t2 rest (depth + 1) depth1 (i + 2)
            (by simp only [List.length_cons] at hlen; omega) hd hrest
          simp only [hc, List.cons_append, List.head?_cons, and_self, if_true, List.tail_cons,
            this, List.length_cons]
          congr 1
          omega
      · rw [if_neg h1] at hd
        have h1x : ¬(c = '$' ∧ (t ++ rest).head? = some '{') := by
          rintro ⟨hc, hh⟩
          cases t with
          | nil =>
            simp only [List.nil_append] at hh
            exact hrest hh
          | cons d t2 => exact h1 ⟨hc, by simpa using hh⟩
        rw [if_neg h1x]
        by_cases h2 : c = '}'
        · rw [if_pos h2] at hd
          rw [if_pos h2]
          by_cases h3 : depth = 0
          · rw [if_pos h3] at hd
            exact Option.noConfusion hd
          · rw [if_neg h3] at hd
            rw [if_neg h3, ih t rest (depth - 1) depth1 (i + 1) (by omega) hd hrest]
            simp only [List.length_cons]
            congr 1
            omega
        · rw [if_neg h2] at hd
          rw [if_neg h2, ih t rest depth depth1 (i + 1) (by omega) hd hrest]
          simp only [List.length_cons]
          congr 1
          omega

/-- Text without `$` and without `}` leaves the depth as it is. -/
theorem braceDepth_skip (u : Str) :
    ∀ (w : Str) (depth : Nat), (∀ c ∈ u, c ≠ '$' ∧ c ≠ '}') →
      braceDepth (u ++ w) depth = braceDepth w depth := by
  induction u with
  | nil => intro w depth _; rfl
  | cons c t ih =>
    intro w depth h
    have hc := h c (List.mem_cons_self _ _)
    rw [List.cons_append, braceDepth_cons, if_neg (fun hx => hc.1 hx.1), if_neg hc.2,
      ih w depth (fun x hx => h x (List.mem_cons_of_mem _ hx))]

/-- The closing brace found for `${n op w}` when the braces of `w` pair up. -/
theorem findMatchingBraceLoop_balanced (u w s : Str) (hu : ∀ c ∈ u, c ≠ '$' ∧ c ≠ '}')
    (hw : braceDepth w 0 = some 0) :
    findMatchingBraceLoop ((u ++ w) ++ '}' :: s) 0 2 = some ((u ++ w).length + 2) := by
  rw [findMatchingBraceLoop_braceDepth (u ++ w).length (u ++ w) ('}' :: s) 0 0 2 (le_refl _)
    (by rw [braceDepth_skip u w 0 hu]; exact hw) (by simp), findMatchingBraceLoop_cons]
  simp [Nat.add_comm]

/-- A text that holds neither `${` nor `$$` has no `$` followed by `{` or
`$`. -/
theorem no_pair_of_sub (w : Str) (h1 : containsDollarBrace w = false)
    (h2 : ¬ ['$', '$'] <:+: w) :
    ∀ i, w[i]? = some '$' → w[i + 1]? ≠ some '{' ∧ w[i + 1]? ≠ some '$' := by
  have key : ∀ (a b : Char) (i : Nat), w[i]? = some a → w[i + 1]? = some b → [a, b] <:+: w := by
    intro a b i ha hb
    refine ⟨w.take i, w.drop (i + 2), ?_⟩
    have hi : i + 1 < w.length := by
      rcases Nat.lt_or_ge (i + 1) w.length with h | h
      · exact h
      · rw [List.getElem?_eq_none h] at hb; exact Option.noConfusion hb
    have e1 : w.drop i = a :: w.drop (i + 1) := by
      rw [List.drop_eq_getElem_cons (by omega)]
      congr 1
      rw [List.getElem?_eq_getElem (by omega)] at ha
      exact Option.some.inj ha
    have e2 : w.drop (i + 1) = b :: w.drop (i + 2) := by
      rw [List.drop_eq_getElem_cons hi]
      congr 1
      rw [List.getElem?_eq_getElem hi] at hb
      exact Option.some.inj hb
    calc w.take i ++ [a, b] ++ w.drop (i + 2)
        = w.take i ++ (a :: b :: w.drop (i + 2)) := by simp
      _ = w.take i ++ w.drop i := by rw [e1, e2]
      _ = w := List.take_append_drop i w
  intro i hi
  constructor
  · intro hb
    have := (containsDollarBrace_iff_sub w).mpr (key _ _ i hi hb)
    rw [h1] at this
    exact Bool.noConfusion this
  · intro hb
    exact h2 (key _ _ i hi hb)

/-- C11 (amended): a word operand goes through the full expander when it holds
a `${`.  For a valid name `n` that is unset and a word `w` whose braces pair up
(every `}` of `w` closes a `${` opened earlier in `w`, and every `${` of `w` is
closed in `w`) and which holds a `${` or holds no `$$`, `${n:-w}` has the same
outcome as `w` itself: the same string, or the same error. -/
theorem C11_word_through_expander (environ : List Str) (n w : Str)
    (hn : isValidName n = true) (hunset : newTemplateData environ n = none)
    (hbal : braceBalanced w = true)
    (hform : containsDollarBrace w = true ∨ ¬ ['$', '$'] <:+: w) :
    ExpandTemplate environ (braced (n ++ [':', '-'] ++ w)) = ExpandTemplate environ w := by
  have hbal1 : braceDepth w 0 = some 0 := by simpa [braceBalanced] using hbal
  have hu := name_op_word_chars n [':', '-'] [] hn (by decide) (by simp)
  rw [List.append_nil] at hu
  have hfind := findMatchingBraceLoop_balanced (n ++ [':', '-']) w [] hu hbal1
  have h := expandShellParameters_bracedExpr (n ++ [':', '-'] ++ w) [] (newTemplateData environ)
    hfind
  rw [List.append_nil] at h
  have hword : expandShellWord expandShellParameters w (newTemplateData environ) =
      expandShellParameters w (newTemplateData environ) := by
    cases hc : containsDollarBrace w with
    | true => simp [expandShellWord, hc]
    | false =>
      have h2 : ¬ ['$', '$'] <:+: w := by
        rcases hform with hf | hf
        · rw [hc] at hf; exact Bool.noConfusion hf
        · exact hf
      rw [expandShellParameters_no_pair w _ (no_pair_of_sub w hc h2)]
      simp [expandShellWord, hc]
  rw [ExpandTemplate_eq, ExpandTemplate_eq, h, expandShellExpression,
    parseShellParameter_op n _ w hn (by simp [operators]) (by simp)]
  simp only [hunset, Option.isSome_none, Bool.not_false, Bool.true_or, if_true, expandWordBranch,
    hword]
  cases expandShellParameters w (newTemplateData environ) with
  | ok p =>
    obtain ⟨o, e⟩ := p
    simp [afterExpression, emit, expandShellParameters_nil]
  | error m => simp [afterExpression]
  | exhausted => simp [afterExpression]

theorem C11_word_through_expander_witness :
    (isValidName "DIR".toList = true ∧ newTemplateData ["HOME=/root".toList] "DIR".toList = none ∧
      braceBalanced ("$$".toList ++ braced "HOME".toList ++ "/x".toList) = true ∧
      containsDollarBrace ("$$".toList ++ braced "HOME".toList ++ "/x".toList) = true) ∧
    ExpandTemplate ["HOME=/root".toList]
        (braced ("DIR".toList ++ [':', '-'] ++
          ("$$".toList ++ braced "HOME".toList ++ "/x".toList))) = .ok "$/root/x".toList ∧
    ExpandTemplate ["HOME=/root".toList] ("$$".toList ++ braced "HOME".toList ++ "/x".toList) =
      .ok "$/root/x".toList :=
  ⟨⟨by decide, by decide, by decide, by decide⟩,
    (C11_word_through_expander ["HOME=/root".toList] "DIR".toList
      ("$$".toList ++ braced "HOME".toList ++ "/x".toList) (by decide) (by decide) (by decide)
      (Or.inl (by decide))).trans (by decide),
    by decide⟩

/-- C11 as stated fails.  With `X` unset, the word `$$` (no brace at all) is
substituted as it is written, `${X:-$$}` gives `$$`, while the expander turns
the text `$$` into `$`.  And a word whose `${` is never closed, such as `${Y`,
meets the condition that every `}` in it closes a `${` opened earlier, yet
`${X:-${Y}` gives `${X:-` while the text `${Y` expands to itself. -/
theorem C11_counterexample :
    (isValidName "X".toList = true ∧ newTemplateData [] "X".toList = none ∧
      ¬ "X".toList <:+: "$$".toList ∧ closesOnlyOpened "$$".toList = true ∧
      braceBalanced "$$".toList = true ∧
      ExpandTemplate [] (braced ("X".toList ++ [':', '-'] ++ "$$".toList)) = .ok "$$".toList ∧
      ExpandTemplate [] "$$".toList = .ok "$".toList) ∧
    (¬ "X".toList <:+: ['$', '{', 'Y'] ∧ closesOnlyOpened ['$', '{', 'Y'] = true ∧
      ExpandTemplate [] (braced ("X".toList ++ [':', '-'] ++ ['$', '{', 'Y'])) =
        .ok ['$', '{', 'X', ':', '-'] ∧
      ExpandTemplate [] ['$', '{', 'Y'] = .ok ['$', '{', 'Y']) := by
  refine ⟨⟨by decide, by decide, by decide, by decide, by decide, by decide, by decide⟩,
    by decide, by decide, by decide, by decide⟩


/-! ## The expander with the session is the expander -/

theorem withoutErrorSession_emitRun (s : Str) (r : Outcome Str × Session) :
    withoutErrorSession (emitRun s r) = emit s (withoutErrorSession r) := by
  obtain ⟨o, env⟩ := r
  cases o <;> rfl

theorem emitRun_snd (s : Str) (r : Outcome Str × Session) : (emitRun s r).2 = r.2 := by
  obtain ⟨o, env⟩ := r
  cases o <;> rfl

theorem expandShellWordRun_agrees (rr : Str → Session → Outcome Str × Session)
    (r : Str → Session → Outcome (Str × Session))
    (h : ∀ w env, withoutErrorSession (rr w env) = r w env) (word : Str) (env : Session) :
    withoutErrorSession (expandShellWordRun rr word env) = expandShellWord r word env := by
  unfold expandShellWordRun expandShellWord
  split_ifs
  · rfl
  · exact h word env

theorem expandWordBranchRun_agrees (rr : Str → Session → Outcome Str × Session)
    (r : Str → Session → Outcome (Str × Session))
    (h : ∀ w env, withoutErrorSession (rr w env) = r w env) (name word : Str) (env : Session)
    (store : Bool) :
    withoutErrorSession (expandWordBranchRun rr name word env store) =
      expandWordBranch r name word env store := by
  have hw := expandShellWordRun_agrees rr r h word env
  unfold expandWordBranchRun expandWordBranch
  rw [← hw]
  obtain ⟨o, env1⟩ := expandShellWordRun rr word env
  cases o <;> rfl

theorem expandShellExpressionRun_agrees (rr : Str → Session → Outcome Str × Session)
    (r : Str → Session → Outcome (Str × Session))
    (h : ∀ w env, withoutErrorSession (rr w env) = r w env) (expr : Str) (env : Session) :
    withoutErrorSession (expandShellExpressionRun rr expr env) =
      expandShellExpression r expr env := by
  cases hp : parseShellParameter expr with
  | none => simp [expandShellExpressionRun, expandShellExpression, hp, withoutErrorSession]
  | some p =>
    obtain ⟨name, op, word⟩ := p
    have hw := expandWordBranchRun_agrees rr r h name word env
    obtain ⟨_, hop, _, _⟩ := parseShellParameter_shape _ _ _ _ hp
    simp only [operators, List.mem_cons, List.mem_singleton, List.not_mem_nil, or_false] at hop
    rcases hop with rfl | rfl | rfl | rfl | rfl | rfl | rfl | rfl | rfl <;>
      simp only [expandShellExpressionRun, expandShellExpression, hp] <;>
      simp <;>
      first | rfl | (split_ifs <;> first | rfl | exact hw _)

theorem expandShellParametersRunFuel_agrees (fuel : Nat) :
    ∀ (text : Str) (env : Session),
      withoutErrorSession (expandShellParametersRunFuel fuel text env) =
        expandShellParametersFuel fuel text env := by
  induction fuel with
  | zero =>
    intro text env
    cases text <;> rfl
  | succ fuel ih =>
    intro text env
    cases text with
    | nil => rfl
    | cons ch rest =>
      simp only [expandShellParametersRunFuel, expandShellParametersFuel]
      by_cases hch : ch = '$'
      · subst hch
        simp only [ne_eq, not_true_eq_false, if_false]
        cases rest with
        | nil => simp only [withoutErrorSession_emitRun, ih]
        | cons next rest2 =>
          simp only
          by_cases h1 : next = '$'
          · simp only [h1, if_true, withoutErrorSession_emitRun, ih]
          · by_cases h2 : next = '{'
            · subst h2
              simp only [h1, if_false, ne_eq, not_true_eq_false]
              cases findMatchingBrace ('$' :: '{' :: rest2) 2 with
              | none => simp only [withoutErrorSession_emitRun, ih]
              | some e =>
                simp only
                have he := expandShellExpressionRun_agrees (expandShellParametersRunFuel fuel)
                  (expandShellParametersFuel fuel) ih
                  ((('$' :: '{' :: rest2).take e).drop 2) env
                rw [← he]
                obtain ⟨o, env1⟩ := expandShellExpressionRun (expandShellParametersRunFuel fuel)
                  ((('$' :: '{' :: rest2).take e).drop 2) env
                cases o with
                | error m => rfl
                | exhausted => rfl
                | ok x =>
                  cases x with
                  | none =>
                    exact (withoutErrorSession_emitRun _ _).trans (congrArg (emit _) (ih _ _))
                  | some y =>
                    exact (withoutErrorSession_emitRun _ _).trans (congrArg (emit _) (ih _ _))
            · simp only [h1, h2, if_false, ne_eq, not_false_eq_true, if_true,
                withoutErrorSession_emitRun, ih]
      · simp only [ne_eq, hch, not_false_eq_true, if_true, withoutErrorSession_emitRun, ih]

theorem expandShellParametersRun_agrees (text : Str) (env : Session) :
    withoutErrorSession (expandShellParametersRun text env) = expandShellParameters text env :=
  expandShellParametersRunFuel_agrees text.length text env

/-! ## The session changes only where the text assigns -/

theorem onlyAssigned_refl (text : Str) (env : Session) : OnlyAssigned text env env :=
  fun _ h => absurd rfl h

theorem assignsTo_mono {k t1 t2 : Str} (h : t1 <:+: t2) (ha : assignsTo k t1) :
    assignsTo k t2 := by
  rcases ha with ha | ha
  · exact Or.inl (ha.trans h)
  · exact Or.inr (ha.trans h)

theorem onlyAssigned_mono {t1 t2 : Str} {env env1 : Session} (h : t1 <:+: t2)
    (ha : OnlyAssigned t1 env env1) : OnlyAssigned t2 env env1 :=
  fun k hk => ⟨(ha k hk).1, assignsTo_mono h (ha k hk).2⟩

theorem onlyAssigned_trans {text : Str} {env env1 env2 : Session}
    (h1 : OnlyAssigned text env env1) (h2 : OnlyAssigned text env1 env2) :
    OnlyAssigned text env env2 := by
  intro k hk
  by_cases h : env1 k = env k
  · have := h2 k (by rw [h]; exact hk)
    rw [h] at this
    exact this
  · exact h1 k h

theorem onlyAssigned_assign {text : Str} {env env1 : Session} (name value : Str)
    (hname : env name = none ∨ env name = some []) (hassign : assignsTo name text)
    (h : OnlyAssigned text env env1) :
    OnlyAssigned text env (Session.assign env1 name value) := by
  intro k hk
  by_cases hkn : k = name
  · subst hkn
    exact ⟨hname, hassign⟩
  · apply h k
    simpa [Session.assign, hkn] using hk

/-- The branches that expand the word change the session as the word does, and
at the name where they store. -/
theorem expandWordBranchRun_onlyAssigned (rr : Str → Session → Outcome Str × Session)
    (hrr : ∀ w env, OnlyAssigned w env (rr w env).2) (text name word : Str) (env : Session)
    (store : Bool) (hword : word <:+: text)
    (hstore : store = true → (env name = none ∨ env name = some []) ∧ assignsTo name text) :
    OnlyAssigned text env (expandWordBranchRun rr name word env store).2 := by
  have hw : OnlyAssigned text env (expandShellWordRun rr word env).2 := by
    unfold expandShellWordRun
    split_ifs
    · exact onlyAssigned_refl _ _
    · exact onlyAssigned_mono hword (hrr word env)
  unfold expandWordBranchRun
  cases hr : expandShellWordRun rr word env with
  | mk o env1 =>
    rw [hr] at hw
    cases o with
    | error m => exact hw
    | exhausted => exact hw
    | ok expanded =>
      cases store with
      | false => exact hw
      | true => exact onlyAssigned_assign name expanded (hstore rfl).1 (hstore rfl).2 hw

/-- An expression changes the session only where it assigns. -/
theorem expandShellExpressionRun_onlyAssigned (rr : Str → Session → Outcome Str × Session)
    (hrr : ∀ w env, OnlyAssigned w env (rr w env).2) (expr : Str) (env : Session) :
    OnlyAssigned (braced expr) env (expandShellExpressionRun rr expr env).2 := by
  cases hp : parseShellParameter expr with
  | none =>
    simp only [expandShellExpressionRun, hp]
    exact onlyAssigned_refl _ _
  | some p =>
    obtain ⟨name, op, word⟩ := p
    obtain ⟨hshape, hop, _, _⟩ := parseShellParameter_shape _ _ _ _ hp
    have hword : word <:+: braced expr := by
      refine ⟨'$' :: '{' :: (name ++ op), ['}'], ?_⟩
      rw [hshape]
      simp [braced]
    have hplain : ∀ b, b = false →
        OnlyAssigned (braced expr) env (expandWordBranchRun rr name word env b).2 :=
      fun b hb => expandWordBranchRun_onlyAssigned rr hrr _ name word env b hword
        (fun h => by rw [hb] at h; exact Bool.noConfusion h)
    simp only [operators, List.mem_cons, List.mem_singleton, List.not_mem_nil, or_false] at hop
    rcases hop with rfl | rfl | rfl | rfl | rfl | rfl | rfl | rfl | rfl
    · simp only [expandShellExpressionRun, hp]
      simp
      exact onlyAssigned_refl _ _
    · simp only [expandShellExpressionRun, hp]
      simp
      split_ifs
      · exact hplain false rfl
      · exact onlyAssigned_refl _ _
    · simp only [expandShellExpressionRun, hp]
      simp
      split_ifs
      · exact hplain false rfl
      · exact onlyAssigned_refl _ _
    · simp only [expandShellExpressionRun, hp]
      simp
      split_ifs
      · exact hplain false rfl
      · exact onlyAssigned_refl _ _
    · simp only [expandShellExpressionRun, hp]
      simp
      split_ifs
      · exact hplain false rfl
      · exact onlyAssigned_refl _ _
    · simp only [expandShellExpressionRun, hp]
      simp
      split_ifs <;> exact onlyAssigned_refl _ _
    · simp only [expandShellExpressionRun, hp]
      simp
      split_ifs <;> exact onlyAssigned_refl _ _
    · have hassign : assignsTo name (braced expr) := by
        left
        refine ⟨[], word ++ ['}'], ?_⟩
        rw [hshape]
        simp [braced]
      have hrun : ∀ h : env name = none ∨ env name = some [],
          OnlyAssigned (braced expr) env (expandWordBranchRun rr name word env true).2 :=
        fun h => expandWordBranchRun_onlyAssigned rr hrr _ name word env true hword
          (fun _ => ⟨h, hassign⟩)
      cases hv : env name with
      | none =>
        have : expandShellExpressionRun rr expr env =
            expandWordBranchRun rr name word env true := by
          simp [expandShellExpressionRun, hp, hv]
        rw [this]
        exact hrun (Or.inl hv)
      | some v =>
        by_cases hvn : v = []
        · have : expandShellExpressionRun rr expr env =
              expandWordBranchRun rr name word env true := by
            simp [expandShellExpressionRun, hp, hv, hvn]
          rw [this]
          exact hrun (Or.inr (by rw [hv, hvn]))
        · have : expandShellExpressionRun rr expr env = (.ok (some v), env) := by
            simp [expandShellExpressionRun, hp, hv, hvn]
          rw [this]
          exact onlyAssigned_refl _ _
    · have hassign : assignsTo name (braced expr) := by
        right
        refine ⟨[], word ++ ['}'], ?_⟩
        rw [hshape]
        simp [braced]
      cases hv : env name with
      | none =>
        have : expandShellExpressionRun rr expr env =
            expandWordBranchRun rr name word env true := by
          simp [expandShellExpressionRun, hp, hv]
        rw [this]
        exact expandWordBranchRun_onlyAssigned rr hrr _ name word env true hword
          (fun _ => ⟨Or.inl hv, hassign⟩)
      | some v =>
        have : expandShellExpressionRun rr expr env = (.ok (some v), env) := by
          simp [expandShellExpressionRun, hp, hv]
        rw [this]
        exact onlyAssigned_refl _ _

/-- The braced case of the loop when the position of the closing brace is
known. -/
theorem expandShellParametersRunFuel_bracedExpr (fuel : Nat) (expr s : Str) (env : Session)
    (h : findMatchingBraceLoop (expr ++ '}' :: s) 0 2 = some (expr.length + 2)) :
    expandShellParametersRunFuel (fuel + 1) (braced expr ++ s) env =
      afterExpressionRun (braced expr) (expandShellParametersRunFuel fuel s)
        (expandShellExpressionRun (expandShellParametersRunFuel fuel) expr env) := by
  have hb : braced expr ++ s = '$' :: '{' :: (expr ++ '}' :: s) := by simp [braced]
  have hf : findMatchingBrace ('$' :: '{' :: (expr ++ '}' :: s)) 2 = some (expr.length + 2) := by
    simpa [findMatchingBrace] using h
  have h1 : (('$' :: '{' :: (expr ++ '}' :: s)).take (expr.length + 2)).drop 2 = expr := by
    simp
  have h2 : ('$' :: '{' :: (expr ++ '}' :: s)).take (expr.length + 2 + 1) =
      '$' :: '{' :: (expr ++ ['}']) := by
    simp [List.take_append_eq_append_take]
  have h3 : ('$' :: '{' :: (expr ++ '}' :: s)).drop (expr.length + 2 + 1) = s := by
    simp [List.drop_append_eq_append_drop]
  rw [hb]
  simp only [expandShellParametersRunFuel, ne_eq, not_true_eq_false, if_false, hf]
  simp only [show (('{' : Char) = '$') = False by simp, if_false, h1, h2, h3]
  cases hr : expandShellExpressionRun (expandShellParametersRunFuel fuel) expr env with
  | mk o env1 =>
    cases o with
    | error m => rfl
    | exhausted => rfl
    | ok x =>
      cases x with
      | none => rfl
      | some y => rfl

/-- A step of the loop that writes and goes on with a later part of the
text. -/
theorem onlyAssigned_emitRun {text rest : Str} {env : Session} {r r2 : Outcome Str × Session}
    (v : Str) (heq : r = emitRun v r2) (hsuf : rest <:+: text)
    (h : OnlyAssigned rest env r2.2) : OnlyAssigned text env r.2 := by
  rw [heq, emitRun_snd]
  exact onlyAssigned_mono hsuf h

/-- The loop changes the session only where the text assigns. -/
theorem expandShellParametersRunFuel_onlyAssigned (fuel : Nat) :
    ∀ (text : Str) (env : Session),
      OnlyAssigned text env (expandShellParametersRunFuel fuel text env).2 := by
  induction fuel with
  | zero =>
    intro text env
    cases text <;> exact onlyAssigned_refl _ _
  | succ fuel ih =>
    intro text env
    rcases text_cases text with rfl | ⟨ch, rest, rfl, hch⟩ | rfl | ⟨rest, rfl⟩ |
      ⟨next, rest, rfl, h1, h2⟩ | ⟨rest, rfl, hf⟩ | ⟨expr, s, rfl, hl⟩
    · exact onlyAssigned_refl _ _
    · exact onlyAssigned_emitRun [ch]
        (by simp only [expandShellParametersRunFuel, ne_eq, hch, not_false_eq_true, if_true])
        ⟨[ch], [], by simp⟩ (ih rest env)
    · exact @onlyAssigned_emitRun _ [] _ _ _ ['$']
        (by simp only [expandShellParametersRunFuel, ne_eq, not_true_eq_false, if_false])
        ⟨['$'], [], by simp⟩ (ih [] env)
    · exact onlyAssigned_emitRun ['$']
        (by simp only [expandShellParametersRunFuel, ne_eq, not_true_eq_false, if_false, if_true])
        ⟨['$', '$'], [], by simp⟩ (ih rest env)
    · exact onlyAssigned_emitRun ['$']
        (by simp only [expandShellParametersRunFuel, ne_eq, not_true_eq_false, if_false, h1, h2,
          not_false_eq_true, if_true])
        ⟨['$'], [], by simp⟩ (ih (next :: rest) env)
    · exact onlyAssigned_emitRun ['$']
        (by
          simp only [expandShellParametersRunFuel, ne_eq, not_true_eq_false, if_false, hf]
          simp only [show (('{' : Char) = '$') = False by simp, if_false])
        ⟨['$'], [], by simp⟩ (ih ('{' :: rest) env)
    · rw [expandShellParametersRunFuel_bracedExpr fuel expr s env hl]
      have he := expandShellExpressionRun_onlyAssigned (expandShellParametersRunFuel fuel) ih
        expr env
      have hpre : braced expr <:+: braced expr ++ s := ⟨[], s, by simp⟩
      have hsuf : s <:+: braced expr ++ s := ⟨braced expr, [], by simp⟩
      cases hr : expandShellExpressionRun (expandShellParametersRunFuel fuel) expr env with
      | mk o env1 =>
        rw [hr] at he
        cases o with
        | error m => exact onlyAssigned_mono hpre he
        | exhausted => exact onlyAssigned_mono hpre he
        | ok x =>
          have hnext := onlyAssigned_mono hsuf (ih s env1)
          cases x with
          | none =>
            simp only [afterExpressionRun, emitRun_snd]
            exact onlyAssigned_trans (onlyAssigned_mono hpre he) hnext
          | some y =>
            simp only [afterExpressionRun, emitRun_snd]
            exact onlyAssigned_trans (onlyAssigned_mono hpre he) hnext

theorem expandShellParametersRun_ne_exhausted (text : Str) (env : Session) :
    (expandShellParametersRun text env).1 ≠ .exhausted := by
  intro h
  have ha := expandShellParametersRun_agrees text env
  cases hr : expandShellParametersRun text env with
  | mk o env1 =>
    rw [hr] at h ha
    simp only at h
    subst h
    exact expandShellParameters_ne_exhausted text env ha.symm

/-- C30: the session is mutated only by the assignment operators.  For every
text and every initial session, the session after `expandShellParameters`,
whether it returns a string or an error, differs from the initial one only at
names `n` for which the text holds an expression `${n:=...}` or `${n=...}`, and
only where `n` was unset or empty at the start; a variable that starts with a
non-empty value keeps it; a text without `=` leaves the session unchanged; and
`ExpandTemplate` starts every call from the snapshot of the process
environment, so its result depends on the text and that environment only. -/
theorem C30_session_mutation (text : Str) (env : Session) :
    withoutErrorSession (expandShellParametersRun text env) = expandShellParameters text env ∧
    (expandShellParametersRun text env).1 ≠ .exhausted ∧
    (∀ k, (expandShellParametersRun text env).2 k ≠ env k →
      (env k = none ∨ env k = some []) ∧
      (('$' :: '{' :: (k ++ [':', '='])) <:+: text ∨ ('$' :: '{' :: (k ++ ['='])) <:+: text)) ∧
    (∀ k v, env k = some v → v ≠ [] → (expandShellParametersRun text env).2 k = some v) ∧
    ('=' ∉ text → (expandShellParametersRun text env).2 = env) ∧
    (∀ environ, ExpandTemplate environ text =
      match (expandShellParametersRun text (newTemplateData environ)).1 with
      | .ok s => .ok s
      | .error m => .error m
      | .exhausted => .exhausted) := by
  have hall : OnlyAssigned text env (expandShellParametersRun text env).2 :=
    expandShellParametersRunFuel_onlyAssigned text.length text env
  refine ⟨expandShellParametersRun_agrees text env,
    expandShellParametersRun_ne_exhausted text env, hall, ?_, ?_, ?_⟩
  · intro k v hk hv
    by_contra hne
    have h := (hall k (by rw [hk]; exact hne)).1
    rw [hk] at h
    rcases h with h | h
    · exact Option.noConfusion h
    · exact hv (Option.some.inj h)
  · intro hno
    funext k
    by_contra hne
    have hsub : ∀ u : Str, '=' ∈ u → ¬ u <:+: text := by
      intro u hu hinf
      exact hno (hinf.subset hu)
    rcases (hall k hne).2 with h | h
    · exact hsub _ (by simp) h
    · exact hsub _ (by simp) h
  · intro environ
    rw [ExpandTemplate_eq, ← expandShellParametersRun_agrees text (newTemplateData environ)]
    cases hr : expandShellParametersRun text (newTemplateData environ) with
    | mk o env1 =>
      cases o <;> rfl

theorem C30_session_mutation_witness :
    (expandShellParametersRun
        (braced ("A".toList ++ [':', '='] ++ "x".toList) ++ "-".toList ++
          braced ("B".toList ++ ['?'] ++ "unset".toList))
        (newTemplateData ["C=keep".toList])).1 = .error "templexp: B: unset".toList ∧
    (expandShellParametersRun
        (braced ("A".toList ++ [':', '='] ++ "x".toList) ++ "-".toList ++
          braced ("B".toList ++ ['?'] ++ "unset".toList))
        (newTemplateData ["C=keep".toList])).2 "A".toList = some "x".toList ∧
    (expandShellParametersRun
        (braced ("A".toList ++ [':', '='] ++ "x".toList) ++ "-".toList ++
          braced ("B".toList ++ ['?'] ++ "unset".toList))
        (newTemplateData ["C=keep".toList])).2 "C".toList = some "keep".toList ∧
    ExpandTemplate ["C=keep".toList]
        (braced ("A".toList ++ [':', '='] ++ "x".toList) ++ "-".toList ++ braced "A".toList) =
      .ok "x-x".toList ∧
    ExpandTemplate ["C=keep".toList] (braced "A".toList) = .ok [] :=
  ⟨by decide, by decide,
    (C30_session_mutation
      (braced ("A".toList ++ [':', '='] ++ "x".toList) ++ "-".toList ++
        braced ("B".toList ++ ['?'] ++ "unset".toList))
      (newTemplateData ["C=keep".toList])).2.2.2.1
      "C".toList "keep".toList (by decide) (by decide),
    by decide, by decide⟩


/-! ## The scan index moves forward -/

theorem findMatchingBraceLoop_shift (n : Nat) :
    ∀ (rest : Str) (depth i k : Nat), rest.length ≤ n →
      findMatchingBraceLoop rest depth (i + k) =
        (findMatchingBraceLoop rest depth i).map (fun e => e + k) := by
  induction n with
  | zero =>
    intro rest depth i k hn
    have : rest = [] := List.length_eq_zero.mp (Nat.le_zero.mp hn)
    subst this
    simp [findMatchingBraceLoop]
  | succ n ih =>
    intro rest depth i k hn
    cases rest with
    | nil => simp [findMatchingBraceLoop]
    | cons c rest =>
      simp only [List.length_cons] at hn
      rw [findMatchingBraceLoop_cons, findMatchingBraceLoop_cons]
      have h2 : i + k + 2 = i + 2 + k := by omega
      have h1 : i + k + 1 = i + 1 + k := by omega
      split_ifs with a b c
      · rw [h2]
        exact ih rest.tail (depth + 1) (i + 2) k (by simp; omega)
      · rfl
      · rw [h1]
        exact ih rest (depth - 1) (i + 1) k (by omega)
      · rw [h1]
        exact ih rest depth (i + 1) k (by omega)

/-- Brace matching looks at the text from `start` on only: the search from
index `i + 2` of the text is the search from index `2` of the unread part
`text[i:]`, moved by `i`. -/
theorem findMatchingBrace_drop (text : Str) (i : Nat) :
    findMatchingBrace text (i + 2) =
      (findMatchingBrace (text.drop i) 2).map (fun e => e + i) := by
  rw [findMatchingBrace, findMatchingBrace, List.drop_drop]
  have h : i + 2 = 2 + i := by omega
  rw [h]
  exact findMatchingBraceLoop_shift _ _ 0 2 i (le_refl _)

/-- An iteration inside the text moves the scan index forward and not past the
end of the text: by one, by two, or to one past the closing brace that
`findMatchingBrace` found at or after `i + 2`. -/
theorem nextIndex_bounds (text : Str) (i : Nat) (hi : i < text.length) :
    i < nextIndex text i ∧ nextIndex text i ≤ text.length ∧
      (nextIndex text i = i + 1 ∨ nextIndex text i = i + 2 ∨
        ∃ e, findMatchingBrace text (i + 2) = some e ∧ i + 2 ≤ e ∧ e < text.length ∧
          text[e]? = some '}' ∧ nextIndex text i = e + 1) := by
  have hget : text[i]? = some text[i] := List.getElem?_eq_getElem hi
  by_cases hch : text[i] = '$'
  · by_cases hi1 : i + 1 < text.length
    · have hget1 : text[i + 1]? = some text[i + 1] := List.getElem?_eq_getElem hi1
      by_cases h1 : text[i + 1] = '$'
      · have hn : nextIndex text i = i + 2 := by simp [nextIndex, hget, hch, hget1, h1]
        rw [hn]
        exact ⟨by omega, by omega, Or.inr (Or.inl rfl)⟩
      · by_cases h2 : text[i + 1] = '{'
        · cases hf : findMatchingBrace text (i + 2) with
          | none =>
            have hn : nextIndex text i = i + 1 := by
              simp [nextIndex, hget, hch, hget1, h2, hf]
            rw [hn]
            exact ⟨by omega, by omega, Or.inl rfl⟩
          | some e =>
            have hn : nextIndex text i = e + 1 := by
              simp [nextIndex, hget, hch, hget1, h2, hf]
            obtain ⟨b1, b2, b3⟩ := findMatchingBrace_bounds _ _ _ hf
            rw [hn]
            exact ⟨by omega, by omega, Or.inr (Or.inr ⟨e, rfl, b1, b2, b3, rfl⟩)⟩
        · have hn : nextIndex text i = i + 1 := by
            simp [nextIndex, hget, hch, hget1, h1, h2]
          rw [hn]
          exact ⟨by omega, by omega, Or.inl rfl⟩
    · have hget1 : text[i + 1]? = none := List.getElem?_eq_none (by omega)
      have hn : nextIndex text i = i + 1 := by simp [nextIndex, hget, hch, hget1]
      rw [hn]
      exact ⟨by omega, by omega, Or.inl rfl⟩
  · have hn : nextIndex text i = i + 1 := by simp [nextIndex, hget, hch]
    rw [hn]
    exact ⟨by omega, by omega, Or.inl rfl⟩

/-- One iteration of the loop of `expandShellParameters` at index `i` of the
text: either the byte at `i` is written, or the text has an expression
`text[i+2:e]` that is evaluated; in both cases the loop goes on from
`nextIndex text i`. -/
theorem expandShellParameters_iteration (text : Str) (i : Nat) (hi : i < text.length) :
    (∃ ch, text[i]? = some ch ∧ ∀ env, expandShellParameters (text.drop i) env =
        emit [ch] (expandShellParameters (text.drop (nextIndex text i)) env)) ∨
    (∃ e, findMatchingBrace text (i + 2) = some e ∧ nextIndex text i = e + 1 ∧
      ∀ env, expandShellParameters (text.drop i) env =
        afterExpression ((text.take (e + 1)).drop i)
          (expandShellParameters (text.drop (nextIndex text i)))
          (expandShellExpression expandShellParameters ((text.take e).drop (i + 2)) env)) := by
  have hget : text[i]? = some text[i] := List.getElem?_eq_getElem hi
  have ht : text.drop i = text[i] :: text.drop (i + 1) := List.drop_eq_getElem_cons hi
  by_cases hch : text[i] = '$'
  · by_cases hi1 : i + 1 < text.length
    · have hget1 : text[i + 1]? = some text[i + 1] := List.getElem?_eq_getElem hi1
      have ht1 : text.drop (i + 1) = text[i + 1] :: text.drop (i + 2) :=
        List.drop_eq_getElem_cons hi1
      by_cases h1 : text[i + 1] = '$'
      · have hn : nextIndex text i = i + 2 := by simp [nextIndex, hget, hch, hget1, h1]
        left
        refine ⟨text[i], hget, fun env => ?_⟩
        rw [hn, ht, ht1, hch, h1]
        exact expandShellParameters_dollar_dollar _ env
      · by_cases h2 : text[i + 1] = '{'
        · have hrel := findMatchingBrace_drop text i
          cases hf : findMatchingBrace (text.drop i) 2 with
          | none =>
            rw [hf] at hrel
            have hn : nextIndex text i = i + 1 := by
              simp [nextIndex, hget, hch, hget1, h2, hrel]
            left
            refine ⟨text[i], hget, fun env => ?_⟩
            rw [ht, ht1, hch, h2] at hf
            rw [hn, ht, ht1, hch, h2]
            exact expandShellParameters_unterminated _ env hf
          | some e0 =>
            rw [hf] at hrel
            have hrel2 : findMatchingBrace text (i + 2) = some (e0 + i) := hrel
            have hn : nextIndex text i = e0 + i + 1 := by
              simp [nextIndex, hget, hch, hget1, h2, hrel2]
            right
            refine ⟨e0 + i, hrel2, hn, fun env => ?_⟩
            have hd : text.drop i = '$' :: '{' :: text.drop (i + 2) := by
              rw [ht, ht1, hch, h2]
            have hb := expandShellParameters_braced (text.drop (i + 2)) env e0
              (by rw [← hd]; exact hf)
            rw [← hd] at hb
            rw [hb, hn]
            have e1 : (text.drop i).take (e0 + 1) = (text.take (e0 + i + 1)).drop i := by
              rw [List.drop_take]
              congr 1
              omega
            have e2 : (text.drop i).drop (e0 + 1) = text.drop (e0 + i + 1) := by
              rw [List.drop_drop]
              congr 1
              omega
            have e3 : ((text.drop i).take e0).drop 2 = (text.take (e0 + i)).drop (i + 2) := by
              rw [List.drop_take, List.drop_take, List.drop_drop]
              obtain ⟨b1, _, _⟩ := findMatchingBrace_bounds _ _ _ hf
              have a1 : e0 + i - (i + 2) = e0 - 2 := by omega
              have a2 : i + 2 = 2 + i := by omega
              rw [a1, a2]
            rw [e1, e2, e3]
        · have hn : nextIndex text i = i + 1 := by
            simp [nextIndex, hget, hch, hget1, h1, h2]
          left
          refine ⟨text[i], hget, fun env => ?_⟩
          rw [hn, ht, ht1, hch]
          exact expandShellParameters_dollar_other _ _ env h1 h2
    · have hget1 : text[i + 1]? = none := List.getElem?_eq_none (by omega)
      have hn : nextIndex text i = i + 1 := by simp [nextIndex, hget, hch, hget1]
      have hnil : text.drop (i + 1) = [] := List.drop_eq_nil_of_le (by omega)
      left
      refine ⟨text[i], hget, fun env => ?_⟩
      rw [hn, ht, hnil, hch, expandShellParameters_lone, expandShellParameters_nil]
      rfl
  · have hn : nextIndex text i = i + 1 := by simp [nextIndex, hget, hch]
    left
    refine ⟨text[i], hget, fun env => ?_⟩
    rw [hn, ht]
    exact expandShellParameters_plain _ _ env hch

/-- The expression evaluator consults the expander at the parsed word only. -/
theorem expandShellExpression_congr_word (r1 r2 : Str → Session → Outcome (Str × Session))
    (expr name op word : Str) (env : Session)
    (hp : parseShellParameter expr = some (name, op, word))
    (h : ∀ env1, r1 word env1 = r2 word env1) :
    expandShellExpression r1 expr env = expandShellExpression r2 expr env := by
  unfold expandShellExpression
  rw [hp]
  have hw : ∀ (b : Bool), expandWordBranch r1 name word env b =
      expandWordBranch r2 name word env b := by
    intro b
    unfold expandWordBranch
    rw [expandShellWord_congr r1 r2 word env h]
  simp only [hw]

/-- The word of an expression of the text is a part of the text, shorter than
the expression, which is shorter than the text. -/
theorem word_shorter (text : Str) (i e : Nat) (name op word : Str)
    (hf : findMatchingBrace text (i + 2) = some e)
    (hp : parseShellParameter ((text.take e).drop (i + 2)) = some (name, op, word)) :
    word <:+: text ∧ word.length < ((text.take e).drop (i + 2)).length ∧
      ((text.take e).drop (i + 2)).length + 3 ≤ text.length := by
  obtain ⟨b1, b2, _⟩ := findMatchingBrace_bounds _ _ _ hf
  have hlen := parseShellParameter_word_length _ _ _ _ hp
  obtain ⟨hshape, _, _, _⟩ := parseShellParameter_shape _ _ _ _ hp
  refine ⟨?_, hlen, ?_⟩
  · have h1 : word <:+ (text.take e).drop (i + 2) := by
      rw [hshape]
      exact List.suffix_append _ _
    have h2 : (text.take e).drop (i + 2) <:+ text.take e := List.drop_suffix _ _
    have h3 : text.take e <+: text := List.take_prefix _ _
    exact (h1.trans h2).isInfix.trans h3.isInfix
  · simp only [List.length_drop, List.length_take]
    omega

/-- C31: the expander terminates on every input.  For every text: an iteration
of the loop of `expandShellParameters` that starts at an index `i` inside the
text moves the index forward and not past the end, by 1, by 2, or to one past
the closing brace that `findMatchingBrace` found at or after `i + 2`, and the
loop goes on from there; `findMatchingBrace` returns no index or an index `e`
with `start ≤ e < len(text)` and a closing brace at `e`; the expression
evaluator calls the expander on the parsed word only, a part of the text that
is shorter than the expression it was cut from, itself at least three bytes
shorter than the text; so a recursion budget of `len(text)` is never used up,
and `expandShellParameters` and `ExpandTemplate` return a text or an error for
every text, session and environment. -/
theorem C31_expander_terminates (text : Str) :
    (∀ i, i < text.length →
      i < nextIndex text i ∧ nextIndex text i ≤ text.length ∧
      (nextIndex text i = i + 1 ∨ nextIndex text i = i + 2 ∨
        ∃ e, findMatchingBrace text (i + 2) = some e ∧ i + 2 ≤ e ∧ e < text.length ∧
          text[e]? = some '}' ∧ nextIndex text i = e + 1)) ∧
    (∀ i, i < text.length →
      (∃ ch, text[i]? = some ch ∧ ∀ env, expandShellParameters (text.drop i) env =
          emit [ch] (expandShellParameters (text.drop (nextIndex text i)) env)) ∨
      (∃ e, findMatchingBrace text (i + 2) = some e ∧ nextIndex text i = e + 1 ∧
        ∀ env, expandShellParameters (text.drop i) env =
          afterExpression ((text.take (e + 1)).drop i)
            (expandShellParameters (text.drop (nextIndex text i)))
            (expandShellExpression expandShellParameters
              ((text.take e).drop (i + 2)) env))) ∧
    (∀ start e, findMatchingBrace text start = some e →
      start ≤ e ∧ e < text.length ∧ text[e]? = some '}') ∧
    (∀ i e name op word, findMatchingBrace text (i + 2) = some e →
      parseShellParameter ((text.take e).drop (i + 2)) = some (name, op, word) →
      (word <:+: text ∧ word.length < ((text.take e).drop (i + 2)).length ∧
        ((text.take e).drop (i + 2)).length + 3 ≤ text.length) ∧
      ∀ (r1 r2 : Str → Session → Outcome (Str × Session)) (env : Session),
        (∀ env1, r1 word env1 = r2 word env1) →
        expandShellExpression r1 ((text.take e).drop (i + 2)) env =
          expandShellExpression r2 ((text.take e).drop (i + 2)) env) ∧
    (∀ (expr : Str) (r : Str → Session → Outcome (Str × Session)) (env : Session),
      parseShellParameter expr = none → expandShellExpression r expr env = .ok (none, env)) ∧
    (∀ n env, text.length ≤ n →
      expandShellParametersFuel n text env = expandShellParameters text env) ∧
    (∀ env, (∃ out env1, expandShellParameters text env = .ok (out, env1)) ∨
      ∃ m, expandShellParameters text env = .error m) ∧
    (∀ environ, (∃ out, ExpandTemplate environ text = .ok out) ∨
      ∃ m, ExpandTemplate environ text = .error m) := by
  refine ⟨fun i hi => nextIndex_bounds text i hi,
    fun i hi => expandShellParameters_iteration text i hi,
    fun start e h => findMatchingBrace_bounds text start e h,
    fun i e name op word hf hp => ⟨word_shorter text i e name op word hf hp,
      fun r1 r2 env h => expandShellExpression_congr_word r1 r2 _ name op word env hp h⟩,
    ?_, fun n env h => expandShellParameters_eq_fuel n text env h, ?_, ?_⟩
  · intro expr r env hp
    rw [expandShellExpression, hp]
  · intro env
    have h := expandShellParameters_ne_exhausted text env
    cases hr : expandShellParameters text env with
    | ok p => exact Or.inl ⟨p.1, p.2, rfl⟩
    | error m => exact Or.inr ⟨m, rfl⟩
    | exhausted => exact absurd hr h
  · intro environ
    have h := expandShellParameters_ne_exhausted text (newTemplateData environ)
    rw [ExpandTemplate_eq]
    cases hr : expandShellParameters text (newTemplateData environ) with
    | ok p => obtain ⟨s, e⟩ := p; exact Or.inl ⟨s, rfl⟩
    | error m => exact Or.inr ⟨m, rfl⟩
    | exhausted => exact absurd hr h

theorem C31_expander_terminates_witness :
    nestedOpenText.length = 18 ∧ findMatchingBrace nestedOpenText 2 = none ∧
    nextIndex nestedOpenText 0 = 1 ∧ nextIndex nestedOpenText 5 = 18 ∧
    ExpandTemplate [] nestedOpenText = .ok ('$' :: '{' :: "A:-x".toList) ∧
    ((∃ out, ExpandTemplate [] nestedOpenText = .ok out) ∨
      ∃ m, ExpandTemplate [] nestedOpenText = .error m) :=
  ⟨by decide, by decide, by decide, by decide, by decide,
    (C31_expander_terminates nestedOpenText).2.2.2.2.2.2.2 []⟩


/-! ## The session in which a required operator fails -/

theorem raisedIn_mono {t1 t2 m : Str} {env1 : Session} (h : t1 <:+: t2)
    (hr : RaisedIn t1 m env1) : RaisedIn t2 m env1 := by
  obtain ⟨name, w, hv, hm, hc⟩ := hr
  refine ⟨name, w, hv, hm, ?_⟩
  rcases hc with ⟨h1, h2⟩ | ⟨h1, h2⟩
  · exact Or.inl ⟨h1.trans h, h2⟩
  · exact Or.inr ⟨h1.trans h, h2⟩

/-- An error of a branch that expands the word is the error of the word, with
the session the word left. -/
theorem expandWordBranchRun_raised (rr : Str → Session → Outcome Str × Session)
    (hrr : ∀ w env m, (rr w env).1 = .error m → RaisedIn w m (rr w env).2)
    (text name word : Str) (env : Session) (store : Bool) (hword : word <:+: text) (m : Str)
    (h : (expandWordBranchRun rr name word env store).1 = .error m) :
    RaisedIn text m (expandWordBranchRun rr name word env store).2 := by
  have hw : ∀ m2, (expandShellWordRun rr word env).1 = .error m2 →
      RaisedIn text m2 (expandShellWordRun rr word env).2 := by
    intro m2 h2
    unfold expandShellWordRun at h2 ⊢
    by_cases hc : (!containsDollarBrace word) = true
    · rw [if_pos hc] at h2
      exact Outcome.noConfusion h2
    · rw [if_neg hc] at h2 ⊢
      exact raisedIn_mono hword (hrr word env m2 h2)
  unfold expandWordBranchRun at h ⊢
  cases hr : expandShellWordRun rr word env with
  | mk o env1 =>
    rw [hr] at hw h
    cases o with
    | error m2 =>
      have h3 : m2 = m := Outcome.error.inj h
      subst h3
      exact hw m2 rfl
    | exhausted => exact Outcome.noConfusion h
    | ok expanded => exact Outcome.noConfusion h

/-- An error of an expression is the error of its required operator in the
session the expression was called with, or the error of its word. -/
theorem expandShellExpressionRun_raised (rr : Str → Session → Outcome Str × Session)
    (hrr : ∀ w env m, (rr w env).1 = .error m → RaisedIn w m (rr w env).2)
    (expr : Str) (env : Session) (m : Str)
    (h : (expandShellExpressionRun rr expr env).1 = .error m) :
    RaisedIn (braced expr) m (expandShellExpressionRun rr expr env).2 := by
  cases hp : parseShellParameter expr with
  | none =>
    simp only [expandShellExpressionRun, hp] at h
    exact Outcome.noConfusion h
  | some p =>
    obtain ⟨name, op, word⟩ := p
    obtain ⟨hshape, hop, hvalid, _⟩ := parseShellParameter_shape _ _ _ _ hp
    have hword : word <:+: braced expr := by
      refine ⟨'$' :: '{' :: (name ++ op), ['}'], ?_⟩
      rw [hshape]
      simp [braced]
    have hbranch : ∀ b, expandShellExpressionRun rr expr env =
        expandWordBranchRun rr name word env b →
        RaisedIn (braced expr) m (expandShellExpressionRun rr expr env).2 := by
      intro b hb
      rw [hb] at h ⊢
      exact expandWordBranchRun_raised rr hrr _ name word env b hword m h
    have hok : ∀ v, expandShellExpressionRun rr expr env = (.ok v, env) →
        RaisedIn (braced expr) m (expandShellExpressionRun rr expr env).2 := by
      intro v hv
      rw [hv] at h
      exact Outcome.noConfusion h
    simp only [operators, List.mem_cons, List.mem_singleton, List.not_mem_nil, or_false] at hop
    rcases hop with rfl | rfl | rfl | rfl | rfl | rfl | rfl | rfl | rfl
    · exact hok (some ((env name).getD [])) (by simp [expandShellExpressionRun, hp])
    · cases hv : env name with
      | none => exact hbranch false (by simp [expandShellExpressionRun, hp, hv])
      | some v =>
        by_cases hvn : v = []
        · exact hbranch false (by simp [expandShellExpressionRun, hp, hv, hvn])
        · exact hok (some v) (by simp [expandShellExpressionRun, hp, hv, hvn])
    · cases hv : env name with
      | none => exact hbranch false (by simp [expandShellExpressionRun, hp, hv])
      | some v => exact hok (some v) (by simp [expandShellExpressionRun, hp, hv])
    · cases hv : env name with
      | none => exact hok (some []) (by simp [expandShellExpressionRun, hp, hv])
      | some v =>
        by_cases hvn : v = []
        · exact hok (some []) (by simp [expandShellExpressionRun, hp, hv, hvn])
        · exact hbranch false (by simp [expandShellExpressionRun, hp, hv, hvn])
    · cases hv : env name with
      | none => exact hok (some []) (by simp [expandShellExpressionRun, hp, hv])
      | some v => exact hbranch false (by simp [expandShellExpressionRun, hp, hv])
    · have hself : braced (name ++ [':', '?'] ++ word) <:+: braced expr := by
        rw [hshape]
      cases hv : env name with
      | none =>
        have he : expandShellExpressionRun rr expr env = (.error (errorMessage name word), env) := by
          simp [expandShellExpressionRun, hp, hv]
        rw [he] at h ⊢
        exact ⟨name, word, hvalid, (Outcome.error.inj h).symm, Or.inl ⟨hself, Or.inl hv⟩⟩
      | some v =>
        by_cases hvn : v = []
        · have he : expandShellExpressionRun rr expr env =
              (.error (errorMessage name word), env) := by
            simp [expandShellExpressionRun, hp, hv, hvn]
          rw [he] at h ⊢
          exact ⟨name, word, hvalid, (Outcome.error.inj h).symm,
            Or.inl ⟨hself, Or.inr (by show env name = some []; rw [hv, hvn])⟩⟩
        · exact hok (some v) (by simp [expandShellExpressionRun, hp, hv, hvn])
    · have hself : braced (name ++ ['?'] ++ word) <:+: braced expr := by
        rw [hshape]
      cases hv : env name with
      | none =>
        have he : expandShellExpressionRun rr expr env = (.error (errorMessage name word), env) := by
          simp [expandShellExpressionRun, hp, hv]
        rw [he] at h ⊢
        exact ⟨name, word, hvalid, (Outcome.error.inj h).symm, Or.inr ⟨hself, hv⟩⟩
      | some v => exact hok (some v) (by simp [expandShellExpressionRun, hp, hv])
    · cases hv : env name with
      | none => exact hbranch true (by simp [expandShellExpressionRun, hp, hv])
      | some v =>
        by_cases hvn : v = []
        · exact hbranch true (by simp [expandShellExpressionRun, hp, hv, hvn])
        · exact hok (some v) (by simp [expandShellExpressionRun, hp, hv, hvn])
    · cases hv : env name with
      | none => exact hbranch true (by simp [expandShellExpressionRun, hp, hv])
      | some v => exact hok (some v) (by simp [expandShellExpressionRun, hp, hv])

theorem emitRun_fst_error (s : Str) (r : Outcome Str × Session) (m : Str)
    (h : (emitRun s r).1 = .error m) : r.1 = .error m := by
  obtain ⟨o, env⟩ := r
  cases o with
  | ok out => exact Outcome.noConfusion h
  | error m2 => exact h
  | exhausted => exact Outcome.noConfusion h

/-- A step of the loop that writes and goes on with a later part of the text
returns the error of that part. -/
theorem raisedIn_emitRun {text rest m : Str} {r r2 : Outcome Str × Session}
    (v : Str) (heq : r = emitRun v r2) (hsuf : rest <:+: text)
    (h : r2.1 = .error m → RaisedIn rest m r2.2) (hm : r.1 = .error m) :
    RaisedIn text m r.2 := by
  rw [heq] at hm ⊢
  rw [emitRun_snd]
  exact raisedIn_mono hsuf (h (emitRun_fst_error v r2 m hm))

/-- An error of the loop is the error of a required operator of the text in the
session the loop returns with the error. -/
theorem expandShellParametersRunFuel_raised (fuel : Nat) :
    ∀ (text : Str) (env : Session) (m : Str),
      (expandShellParametersRunFuel fuel text env).1 = .error m →
      RaisedIn text m (expandShellParametersRunFuel fuel text env).2 := by
  induction fuel with
  | zero =>
    intro text env m h
    cases text with
    | nil => exact Outcome.noConfusion h
    | cons c t => exact Outcome.noConfusion h
  | succ fuel ih =>
    intro text env m
    rcases text_cases text with rfl | ⟨ch, rest, rfl, hch⟩ | rfl | ⟨rest, rfl⟩ |
      ⟨next, rest, rfl, h1, h2⟩ | ⟨rest, rfl, hf⟩ | ⟨expr, s, rfl, hl⟩
    · intro h
      exact Outcome.noConfusion h
    · exact raisedIn_emitRun [ch]
        (by simp only [expandShellParametersRunFuel, ne_eq, hch, not_false_eq_true, if_true])
        ⟨[ch], [], by simp⟩ (ih rest env m)
    · exact @raisedIn_emitRun _ [] _ _ _ ['$']
        (by simp only [expandShellParametersRunFuel, ne_eq, not_true_eq_false, if_false])
        ⟨['$'], [], by simp⟩ (ih [] env m)
    · exact raisedIn_emitRun ['$']
        (by simp only [expandShellParametersRunFuel, ne_eq, not_true_eq_false, if_false, if_true])
        ⟨['$', '$'], [], by simp⟩ (ih rest env m)
    · exact raisedIn_emitRun ['$']
        (by simp only [expandShellParametersRunFuel, ne_eq, not_true_eq_false, if_false, h1, h2,
          not_false_eq_true, if_true])
        ⟨['$'], [], by simp⟩ (ih (next :: rest) env m)
    · exact raisedIn_emitRun ['$']
        (by
          simp only [expandShellParametersRunFuel, ne_eq, not_true_eq_false, if_false, hf]
          simp only [show (('{' : Char) = '$') = False by simp, if_false])
        ⟨['$'], [], by simp⟩ (ih ('{' :: rest) env m)
    · rw [expandShellParametersRunFuel_bracedExpr fuel expr s env hl]
      have he := expandShellExpressionRun_raised (expandShellParametersRunFuel fuel) ih expr env
      have hpre : braced expr <:+: braced expr ++ s := ⟨[], s, by simp⟩
      have hsuf : s <:+: braced expr ++ s := ⟨braced expr, [], by simp⟩
      cases hr : expandShellExpressionRun (expandShellParametersRunFuel fuel) expr env with
      | mk o env1 =>
        rw [hr] at he
        cases o with
        | error m2 =>
          intro h
          have h3 : m2 = m := Outcome.error.inj h
          subst h3
          exact raisedIn_mono hpre (he m2 rfl)
        | exhausted =>
          intro h
          exact Outcome.noConfusion h
        | ok x =>
          cases x with
          | none =>
            intro h
            exact raisedIn_emitRun (braced expr) rfl hsuf (ih s env1 m) h
          | some y =>
            intro h
            exact raisedIn_emitRun y rfl hsuf (ih s env1 m) h

/-- What a required operator returns: it tests the session it is called with
and returns that session unchanged. -/
theorem expandShellExpressionRun_required (rr : Str → Session → Outcome Str × Session)
    (n w : Str) (env : Session) (hn : isValidName n = true) :
    expandShellExpressionRun rr (n ++ [':', '?'] ++ w) env =
      (if env n = none ∨ env n = some [] then (.error (errorMessage n w), env)
       else (.ok (some ((env n).getD [])), env)) ∧
    expandShellExpressionRun rr (n ++ ['?'] ++ w) env =
      (if env n = none then (.error (errorMessage n w), env)
       else (.ok (some ((env n).getD [])), env)) := by
  have hp1 := parseShellParameter_op n [':', '?'] w hn (by simp [operators]) (by simp)
  have hp2 := parseShellParameter_op n ['?'] w hn (by simp [operators]) (by simp)
  have key1 : ∀ expr, parseShellParameter expr = some (n, [':', '?'], w) →
      expandShellExpressionRun rr expr env =
        (if env n = none ∨ env n = some [] then (.error (errorMessage n w), env)
         else (.ok (some ((env n).getD [])), env)) := by
    intro expr hp
    cases hv : env n with
    | none => simp [expandShellExpressionRun, hp, hv]
    | some v =>
      by_cases hvn : v = []
      · simp [expandShellExpressionRun, hp, hv, hvn]
      · simp [expandShellExpressionRun, hp, hv, hvn]
  have key2 : ∀ expr, parseShellParameter expr = some (n, ['?'], w) →
      expandShellExpressionRun rr expr env =
        (if env n = none then (.error (errorMessage n w), env)
         else (.ok (some ((env n).getD [])), env)) := by
    intro expr hp
    cases hv : env n with
    | none => simp [expandShellExpressionRun, hp, hv]
    | some v => simp [expandShellExpressionRun, hp, hv]
  exact ⟨key1 _ hp1, key2 _ hp2⟩

/-- C5: the `:?` and `?` operators are the only source of errors.  A text
without `?` expands to a string, in every environment.  An error returned for a
text is the error of a `${n:?w}` occurring in the text with `n` unset or empty,
or of a `${n?w}` occurring in the text with `n` unset, in the session in which
the expression is evaluated: the session the expander holds when it returns the
error (the second component of `expandShellParametersRun`), since a required
operator tests the session it is called with and returns it unchanged next to
its error, and nothing is written on the way out.  So a name that an assignment
earlier in the text has set does not fail, though it is unset in the
snapshot. -/
theorem C5_only_required_operators_fail :
    (∀ (environ : List Str) (text : Str), (∀ c ∈ text, c ≠ '?') →
      ∃ s, ExpandTemplate environ text = .ok s) ∧
    (∀ (environ : List Str) (text msg : Str), ExpandTemplate environ text = .error msg →
      (expandShellParametersRun text (newTemplateData environ)).1 = .error msg ∧
      ∃ (n w : Str), isValidName n = true ∧ msg = errorMessage n w ∧
        ((braced (n ++ [':', '?'] ++ w) <:+: text ∧
            ((expandShellParametersRun text (newTemplateData environ)).2 n = none ∨
              (expandShellParametersRun text (newTemplateData environ)).2 n = some [])) ∨
         (braced (n ++ ['?'] ++ w) <:+: text ∧
            (expandShellParametersRun text (newTemplateData environ)).2 n = none))) ∧
    (∀ (rr : Str → Session → Outcome Str × Session) (n w : Str) (env : Session),
      isValidName n = true →
      expandShellExpressionRun rr (n ++ [':', '?'] ++ w) env =
        (if env n = none ∨ env n = some [] then (.error (errorMessage n w), env)
         else (.ok (some ((env n).getD [])), env)) ∧
      expandShellExpressionRun rr (n ++ ['?'] ++ w) env =
        (if env n = none then (.error (errorMessage n w), env)
         else (.ok (some ((env n).getD [])), env))) := by
  refine ⟨?_, ?_, fun rr n w env hn => expandShellExpressionRun_required rr n w env hn⟩
  · intro environ text hq
    obtain ⟨out, env1, h⟩ := expandShellParameters_no_error text (newTemplateData environ) hq
    exact ⟨out, by rw [ExpandTemplate_eq, h]⟩
  · intro environ text msg h
    rw [ExpandTemplate_eq] at h
    have hagree := expandShellParametersRun_agrees text (newTemplateData environ)
    have hrun : (expandShellParametersRun text (newTemplateData environ)).1 = .error msg := by
      cases hx : expandShellParameters text (newTemplateData environ) with
      | ok p => rw [hx] at h; exact Outcome.noConfusion h
      | exhausted => rw [hx] at h; exact Outcome.noConfusion h
      | error m =>
        rw [hx] at h hagree
        have hm : m = msg := Outcome.error.inj h
        subst hm
        cases hr : expandShellParametersRun text (newTemplateData environ) with
        | mk o env1 =>
          rw [hr] at hagree
          cases o with
          | ok out => exact Outcome.noConfusion hagree
          | exhausted => exact Outcome.noConfusion hagree
          | error m2 =>
            have hm2 : m2 = m := Outcome.error.inj hagree
            rw [hm2]
    exact ⟨hrun, expandShellParametersRunFuel_raised _ text (newTemplateData environ) msg hrun⟩

theorem C5_only_required_operators_fail_witness :
    ((∀ c ∈ ['$', '{', 'A', ':', '-', '$', '{', 'B', ':', '=', 'x', '}', '$', '{'], c ≠ '?') ∧
      ∃ s, ExpandTemplate []
        ['$', '{', 'A', ':', '-', '$', '{', 'B', ':', '=', 'x', '}', '$', '{'] = .ok s) ∧
    ExpandTemplate [] (braced "B:=x".toList ++ braced "B:?boom".toList) = .ok "xx".toList ∧
    ExpandTemplate [] (braced "B:?boom".toList ++ braced "B:=x".toList) =
      .error "templexp: B: boom".toList ∧
    ∃ (n w : Str), isValidName n = true ∧ "templexp: B: boom".toList = errorMessage n w ∧
      ((braced (n ++ [':', '?'] ++ w) <:+: braced "B:?boom".toList ++ braced "B:=x".toList ∧
          ((expandShellParametersRun (braced "B:?boom".toList ++ braced "B:=x".toList)
              (newTemplateData [])).2 n = none ∨
            (expandShellParametersRun (braced "B:?boom".toList ++ braced "B:=x".toList)
              (newTemplateData [])).2 n = some [])) ∨
       (braced (n ++ ['?'] ++ w) <:+: braced "B:?boom".toList ++ braced "B:=x".toList ∧
          (expandShellParametersRun (braced "B:?boom".toList ++ braced "B:=x".toList)
            (newTemplateData [])).2 n = none)) :=
  ⟨⟨by decide, C5_only_required_operators_fail.1 [] _ (by decide)⟩, by decide, by decide,
    (C5_only_required_operators_fail.2.1 [] _ _ (by decide)).2⟩

end Templexp

namespace Cfgm

/-! ## Maps -/

theorem mapGet_mapSet_same {α : Type} (m : List (Str × α)) (key : Str) (v : α) :
    mapGet (mapSet m key v) key = some v := by
  induction m with
  | nil => simp [mapSet, mapGet]
  | cons e rest ih =>
    obtain ⟨k, x⟩ := e
    by_cases h : k = key
    · simp [mapSet, mapGet, h]
    · simp [mapSet, mapGet, h, ih]

theorem mapGet_mapSet_other {α : Type} (m : List (Str × α)) (key key2 : Str) (v : α)
    (h : key2 ≠ key) : mapGet (mapSet m key v) key2 = mapGet m key2 := by
  induction m with
  | nil =>
    have : ¬ key = key2 := fun e => h e.symm
    simp [mapSet, mapGet, this]
  | cons e rest ih =>
    obtain ⟨k, x⟩ := e
    by_cases hk : k = key
    · subst hk
      have : ¬ k = key2 := fun e => h e.symm
      simp [mapSet, mapGet, this]
    · by_cases hk2 : k = key2
      · subst hk2
        simp [mapSet, mapGet, hk]
      · simp [mapSet, mapGet, hk, hk2, ih]

/-! ## `getAt` and `setByParts` -/

theorem getAt_cons_map (part : Str) (rest : List Str) (m : ConfigMap) :
    getAt (part :: rest) (.map m) = (mapGet m part).bind (getAt rest) := rfl

theorem getAt_cons_of_asMap_none (part : Str) (rest : List Str) (v : GoAny)
    (h : asMap (some v) = none) : getAt (part :: rest) v = none := by
  cases v <;> first | rfl | simp [asMap] at h

theorem asMap_eq_some (o : Option GoAny) (m : ConfigMap) (h : asMap o = some m) :
    o = some (.map m) := by
  cases o with
  | none => simp [asMap] at h
  | some v => cases v <;> simp [asMap] at h ⊢; exact h

theorem setByParts_single (part : Str) (current : ConfigMap) (value : GoAny) :
    setByParts [part] current value = mapSet current part value := rfl

theorem setByParts_cons (part p2 : Str) (rest : List Str) (current : ConfigMap)
    (value : GoAny) :
    setByParts (part :: p2 :: rest) current value =
      mapSet current part
        (.map (setByParts (p2 :: rest) ((asMap (mapGet current part)).getD []) value)) := rfl

/-- The value written by `setByPath` is found at the path. -/
theorem getAt_setByParts_same (parts : List Str) :
    ∀ (current : ConfigMap) (value : GoAny), parts ≠ [] →
      getAt parts (.map (setByParts parts current value)) = some value := by
  induction parts with
  | nil => intro _ _ h; exact absurd rfl h
  | cons part rest ih =>
    intro current value _
    cases rest with
    | nil => simp [setByParts_single, getAt_cons_map, mapGet_mapSet_same, getAt]
    | cons p2 rest2 =>
      rw [setByParts_cons, getAt_cons_map, mapGet_mapSet_same]
      exact ih _ value (by simp)

theorem getAt_nonempty_nil (parts : List Str) (h : parts ≠ []) :
    getAt parts (.map []) = none := by
  cases parts with
  | nil => exact absurd rfl h
  | cons part rest => simp [getAt_cons_map, mapGet]

/-- A write at a path that parts ways with `p` leaves what the tree holds at
`p`. -/
theorem getAt_setByParts_diverge (q : List Str) :
    ∀ (p : List Str) (current : ConfigMap) (value : GoAny), Diverge p q →
      getAt p (.map (setByParts q current value)) = getAt p (.map current) := by
  induction q with
  | nil => intro p _ _ h; exact absurd (List.nil_prefix) h.2
  | cons b q2 ih =>
    intro p current value h
    cases p with
    | nil => exact absurd (List.nil_prefix) h.1
    | cons a p2 =>
      by_cases hab : a = b
      · subst hab
        have hd : Diverge p2 q2 := by
          constructor
          · intro hp; exact h.1 ((List.prefix_cons_inj a).mpr hp)
          · intro hp; exact h.2 ((List.prefix_cons_inj a).mpr hp)
        cases q2 with
        | nil => exact absurd (List.nil_prefix) hd.2
        | cons b2 q3 =>
          rw [setByParts_cons, getAt_cons_map, mapGet_mapSet_same, getAt_cons_map,
            Option.some_bind, ih p2 _ value hd]
          have hp2 : p2 ≠ [] := by
            rintro rfl; exact hd.1 (List.nil_prefix)
          cases hm : asMap (mapGet current a) with
          | some next =>
            rw [asMap_eq_some _ _ hm]
            rfl
          | none =>
            simp only [Option.getD_none]
            rw [getAt_nonempty_nil p2 hp2]
            cases hg : mapGet current a with
            | none => rfl
            | some v =>
              rw [hg] at hm
              obtain ⟨c, p3, rfl⟩ := List.exists_cons_of_ne_nil hp2
              simp [getAt_cons_of_asMap_none c p3 v hm]
      · cases q2 with
        | nil =>
          rw [setByParts_single, getAt_cons_map, getAt_cons_map, mapGet_mapSet_other _ _ _ _ hab]
        | cons b2 q3 =>
          rw [setByParts_cons, getAt_cons_map, getAt_cons_map, mapGet_mapSet_other _ _ _ _ hab]


/-! ## `mergeMaps` -/

theorem mergeMaps_nil (dst : ConfigMap) : mergeMaps dst [] = dst := by
  rw [mergeMaps]

theorem mergeMaps_cons (dst : ConfigMap) (key : Str) (value : GoAny) (rest : ConfigMap) :
    mergeMaps dst ((key, value) :: rest) =
      mergeMaps (mapSet dst key (mergeValue (mapGet dst key) value)) rest := by
  rw [mergeMaps]

theorem mergeValue_map_map (dstMap valueMap : ConfigMap) :
    mergeValue (some (.map dstMap)) (.map valueMap) = .map (mergeMaps dstMap valueMap) := by
  rw [mergeValue]

theorem mergeValue_of_not_map (old : Option GoAny) (value : GoAny)
    (h : ∀ m, value ≠ .map m) : mergeValue old value = value := by
  cases value with
  | map m => exact absurd rfl (h m)
  | _ =>
    cases old with
    | none => simp [mergeValue]
    | some o => cases o <;> simp [mergeValue]

theorem mergeValue_of_dst_not_map (old : Option GoAny) (valueMap : ConfigMap)
    (h : asMap old = none) : mergeValue old (.map valueMap) = .map valueMap := by
  cases old with
  | none => simp [mergeValue]
  | some v =>
    cases v with
    | map m => simp [asMap] at h
    | _ => simp [mergeValue]

theorem mapGet_eq_none_of_not_mem {α : Type} (m : List (Str × α)) (key : Str)
    (h : key ∉ m.map Prod.fst) : mapGet m key = none := by
  induction m with
  | nil => rfl
  | cons e rest ih =>
    obtain ⟨k, x⟩ := e
    simp only [List.map_cons, List.mem_cons, not_or] at h
    have : ¬ k = key := fun e => h.1 e.symm
    simp [mapGet, this, ih h.2]

theorem mapGet_mem {α : Type} (m : List (Str × α)) (key : Str) (v : α)
    (h : mapGet m key = some v) : (key, v) ∈ m := by
  induction m with
  | nil => simp [mapGet] at h
  | cons e rest ih =>
    obtain ⟨k, x⟩ := e
    by_cases hk : k = key
    · simp only [mapGet, hk, if_true, Option.some.injEq] at h
      subst h; subst hk; simp
    · simp only [mapGet, hk, if_false] at h
      exact List.mem_cons_of_mem _ (ih h)

/-- What `mergeMaps` leaves at a key, for a source with distinct keys. -/
theorem mapGet_mergeMaps (src : ConfigMap) :
    ∀ (dst : ConfigMap) (key : Str), (src.map Prod.fst).Nodup →
      mapGet (mergeMaps dst src) key =
        match mapGet src key with
        | none => mapGet dst key
        | some v => some (mergeValue (mapGet dst key) v) := by
  induction src with
  | nil => intro dst key _; simp [mergeMaps_nil, mapGet]
  | cons e rest ih =>
    intro dst key hnd
    obtain ⟨k, x⟩ := e
    simp only [List.map_cons, List.nodup_cons] at hnd
    rw [mergeMaps_cons, ih _ key hnd.2]
    by_cases hk : k = key
    · subst hk
      rw [mapGet_eq_none_of_not_mem rest k hnd.1]
      simp [mapGet, mapGet_mapSet_same]
    · have hk2 : key ≠ k := fun e => hk e.symm
      simp only [mapGet, hk, if_false, mapGet_mapSet_other _ _ _ _ hk2]

theorem distinctKeysEntries_spec (m : List (Str × GoAny)) :
    ∀ (seen : List Str), distinctKeysEntries m seen = true →
      (∀ k ∈ m.map Prod.fst, k ∉ seen) ∧ (m.map Prod.fst).Nodup ∧
        ∀ e ∈ m, distinctKeys e.2 = true := by
  induction m with
  | nil => intro seen _; simp
  | cons e rest ih =>
    intro seen h
    obtain ⟨k, x⟩ := e
    rw [distinctKeysEntries] at h
    simp only [Bool.and_eq_true, Bool.not_eq_true', List.contains_eq_any_beq,
      List.any_eq_false, beq_iff_eq] at h
    obtain ⟨⟨h1, h2⟩, h3⟩ := h
    obtain ⟨i1, i2, i3⟩ := ih (k :: seen) h3
    refine ⟨?_, ?_, ?_⟩
    · intro k2 hk2
      simp only [List.map_cons, List.mem_cons] at hk2
      rcases hk2 with rfl | hk2
      · intro hmem; exact h1 _ hmem rfl
      · intro hmem; exact i1 k2 hk2 (List.mem_cons_of_mem _ hmem)
    · simp only [List.map_cons, List.nodup_cons]
      exact ⟨fun hmem => i1 k hmem (List.mem_cons_self _ _), i2⟩
    · intro e he
      rcases List.mem_cons.mp he with rfl | he
      · exact h2
      · exact i3 e he

theorem distinctKeys_map (m : ConfigMap) (h : distinctKeys (.map m) = true) :
    (m.map Prod.fst).Nodup ∧ ∀ (key : Str) (v : GoAny), mapGet m key = some v →
      distinctKeys v = true := by
  rw [distinctKeys] at h
  obtain ⟨_, h2, h3⟩ := distinctKeysEntries_spec m [] h
  exact ⟨h2, fun key v hg => h3 (key, v) (mapGet_mem m key v hg)⟩

/-- What `mergeMaps` leaves at a path: the value of the source when the source
has one there, the value of the destination otherwise, provided the source
holds mappings only on the way and the two do not both hold a mapping at the
path itself. -/
theorem getAt_mergeMaps (p : List Str) :
    ∀ (dst src : ConfigMap), p ≠ [] → distinctKeys (.map src) = true →
      (∀ q v, OnTheWay q p → getAt q (.map src) = some v → ∃ m, v = .map m) →
      (∀ m m2, getAt p (.map src) = some (.map m) → getAt p (.map dst) ≠ some (.map m2)) →
      getAt p (.map (mergeMaps dst src)) =
        match getAt p (.map src) with
        | some v => some v
        | none => getAt p (.map dst) := by
  induction p with
  | nil => intro _ _ h; exact absurd rfl h
  | cons a rest ih =>
    intro dst src _ hd hway hleaf
    obtain ⟨hnd, hvals⟩ := distinctKeys_map src hd
    rw [getAt_cons_map, mapGet_mergeMaps src dst a hnd, getAt_cons_map, getAt_cons_map]
    cases hs : mapGet src a with
    | none => simp
    | some v =>
      simp only [Option.some_bind]
      cases rest with
      | nil =>
        have hv : mergeValue (mapGet dst a) v = v := by
          by_cases hmap : ∃ m, v = .map m
          · obtain ⟨m, rfl⟩ := hmap
            apply mergeValue_of_dst_not_map
            cases hm : asMap (mapGet dst a) with
            | none => rfl
            | some dm =>
              exfalso
              apply hleaf m dm
              · rw [getAt_cons_map, hs]; rfl
              · rw [getAt_cons_map, asMap_eq_some _ _ hm]; rfl
          · exact mergeValue_of_not_map _ v (fun m hm => hmap ⟨m, hm⟩)
        rw [hv]
        simp [getAt]
      | cons b rest2 =>
        obtain ⟨sm, rfl⟩ := hway [a] v ⟨⟨b :: rest2, rfl⟩, by simp, by simp⟩
          (by rw [getAt_cons_map, hs]; rfl)
        have hd2 := hvals a _ hs
        have hway2 : ∀ q v, OnTheWay q (b :: rest2) → getAt q (.map sm) = some v →
            ∃ m, v = .map m := by
          intro q v ⟨hq1, hq2, hq3⟩ hg
          apply hway (a :: q) v ⟨(List.prefix_cons_inj a).mpr hq1, by simpa using hq2, by simp⟩
          rw [getAt_cons_map, hs]
          exact hg
        cases hm : asMap (mapGet dst a) with
        | some dm =>
          have hleaf2 : ∀ m m2, getAt (b :: rest2) (.map sm) = some (.map m) →
              getAt (b :: rest2) (.map dm) ≠ some (.map m2) := by
            intro m m2 h1 h2
            apply hleaf m m2
            · rw [getAt_cons_map, hs]; exact h1
            · rw [getAt_cons_map, asMap_eq_some _ _ hm]; exact h2
          rw [asMap_eq_some _ _ hm, mergeValue_map_map,
            ih dm sm (by simp) hd2 hway2 hleaf2]
          rfl
        | none =>
          rw [mergeValue_of_dst_not_map _ _ hm]
          have hdst : (mapGet dst a).bind (getAt (b :: rest2)) = none := by
            cases hg : mapGet dst a with
            | none => rfl
            | some y =>
              rw [hg] at hm
              exact getAt_cons_of_asMap_none b rest2 y hm
          rw [hdst]
          cases getAt (b :: rest2) (.map sm) <;> rfl


/-! ## The schema walkers visit the same leaves -/

theorem leavesOfType_not_struct (typ : GoType) (pfx : Str) (h : isStructType typ = false) :
    leavesOfType typ pfx = [] := by
  cases typ with
  | pointer e =>
    cases e with
    | struct fs => simp [isStructType] at h
    | _ => simp [leavesOfType]
  | struct fs => simp [isStructType] at h
  | _ => simp [leavesOfType]

theorem collectConfigKeysRecursive_not_struct (typ : GoType) (pfx : Str) (keys : List Str)
    (h : isStructType typ = false) : collectConfigKeysRecursive typ pfx keys = keys := by
  cases typ with
  | pointer e =>
    cases e with
    | struct fs => simp [isStructType] at h
    | _ => simp [collectConfigKeysRecursive]
  | struct fs => simp [isStructType] at h
  | _ => simp [collectConfigKeysRecursive]

theorem applyCLIFlagsRecursive_not_struct (cmd : Command) (config : ConfigMap) (typ : GoType)
    (pfx : Str) (h : isStructType typ = false) :
    applyCLIFlagsRecursive cmd config typ pfx = config := by
  cases typ with
  | pointer e =>
    cases e with
    | struct fs => simp [isStructType] at h
    | _ => simp [applyCLIFlagsRecursive]
  | struct fs => simp [isStructType] at h
  | _ => simp [applyCLIFlagsRecursive]

mutual
theorem collectConfigKeysRecursive_eq_leaves :
    ∀ (typ : GoType) (pfx : Str) (keys : List Str),
      collectConfigKeysRecursive typ pfx keys = keys ++ (leavesOfType typ pfx).map Prod.fst
  | .pointer (.struct fs), pfx, keys => by
    rw [collectConfigKeysRecursive, leavesOfType]
    exact collectConfigKeysFields_eq_leaves fs pfx keys
  | .struct fs, pfx, keys => by
    rw [collectConfigKeysRecursive, leavesOfType]
    exact collectConfigKeysFields_eq_leaves fs pfx keys
  | .basic k, pfx, keys => by simp [collectConfigKeysRecursive, leavesOfType]
  | .duration, pfx, keys => by simp [collectConfigKeysRecursive, leavesOfType]
  | .time, pfx, keys => by simp [collectConfigKeysRecursive, leavesOfType]
  | .slice e, pfx, keys => by simp [collectConfigKeysRecursive, leavesOfType]
  | .map k e, pfx, keys => by simp [collectConfigKeysRecursive, leavesOfType]
  | .pointer (.basic k), pfx, keys => by simp [collectConfigKeysRecursive, leavesOfType]
  | .pointer .duration, pfx, keys => by simp [collectConfigKeysRecursive, leavesOfType]
  | .pointer .time, pfx, keys => by simp [collectConfigKeysRecursive, leavesOfType]
  | .pointer (.slice e), pfx, keys => by simp [collectConfigKeysRecursive, leavesOfType]
  | .pointer (.map k e), pfx, keys => by simp [collectConfigKeysRecursive, leavesOfType]
  | .pointer (.pointer e), pfx, keys => by simp [collectConfigKeysRecursive, leavesOfType]
theorem collectConfigKeysFields_eq_leaves :
    ∀ (fs : Fields) (pfx : Str) (keys : List Str),
      collectConfigKeysFields fs pfx keys = keys ++ (leavesOfFields fs pfx).map Prod.fst
  | .nil, pfx, keys => by simp [collectConfigKeysFields, leavesOfFields]
  | .cons _ tag ft rest, pfx, keys => by
    rw [collectConfigKeysFields, leavesOfFields]
    by_cases h1 : configTagName tag = []
    · simp only [h1, if_true]
      exact collectConfigKeysFields_eq_leaves rest pfx keys
    · simp only [h1, if_false]
      by_cases h2 : isStructType ft = true
      · simp only [h2, if_true]
        rw [collectConfigKeysFields_eq_leaves rest, collectConfigKeysRecursive_eq_leaves ft]
        simp
      · simp only [h2, Bool.false_eq_true, if_false]
        rw [collectConfigKeysFields_eq_leaves rest]
        simp
end

/-- The keys of `collectConfigKeys` are the key-paths of `schemaLeaves`. -/
theorem collectConfigKeys_eq (typ : GoType) :
    collectConfigKeys typ = (schemaLeaves typ).map Prod.fst := by
  rw [collectConfigKeys, schemaLeaves, collectConfigKeysRecursive_eq_leaves]
  simp


/-! ## The flag stage -/

theorem applyFlagLeaves_append (cmd : Command) (l1 l2 : List (Str × GoType)) :
    ∀ (config : ConfigMap),
      applyFlagLeaves cmd (l1 ++ l2) config = applyFlagLeaves cmd l2 (applyFlagLeaves cmd l1 config) := by
  induction l1 with
  | nil => intro config; rfl
  | cons e rest ih =>
    intro config
    obtain ⟨k, ft⟩ := e
    simp only [List.cons_append, applyFlagLeaves]
    split_ifs <;> exact ih _

mutual
theorem applyCLIFlagsRecursive_eq_leaves (cmd : Command) :
    ∀ (typ : GoType) (config : ConfigMap) (pfx : Str),
      applyCLIFlagsRecursive cmd config typ pfx = applyFlagLeaves cmd (leavesOfType typ pfx) config
  | .pointer (.struct fs), config, pfx => by
    rw [applyCLIFlagsRecursive, leavesOfType]
    exact applyCLIFlagsFields_eq_leaves cmd fs config pfx
  | .struct fs, config, pfx => by
    rw [applyCLIFlagsRecursive, leavesOfType]
    exact applyCLIFlagsFields_eq_leaves cmd fs config pfx
  | .basic k, config, pfx => by simp [applyCLIFlagsRecursive, leavesOfType, applyFlagLeaves]
  | .duration, config, pfx => by simp [applyCLIFlagsRecursive, leavesOfType, applyFlagLeaves]
  | .time, config, pfx => by simp [applyCLIFlagsRecursive, leavesOfType, applyFlagLeaves]
  | .slice e, config, pfx => by simp [applyCLIFlagsRecursive, leavesOfType, applyFlagLeaves]
  | .map k e, config, pfx => by simp [applyCLIFlagsRecursive, leavesOfType, applyFlagLeaves]
  | .pointer (.basic k), config, pfx => by
    simp [applyCLIFlagsRecursive, leavesOfType, applyFlagLeaves]
  | .pointer .duration, config, pfx => by
    simp [applyCLIFlagsRecursive, leavesOfType, applyFlagLeaves]
  | .pointer .time, config, pfx => by
    simp [applyCLIFlagsRecursive, leavesOfType, applyFlagLeaves]
  | .pointer (.slice e), config, pfx => by
    simp [applyCLIFlagsRecursive, leavesOfType, applyFlagLeaves]
  | .pointer (.map k e), config, pfx => by
    simp [applyCLIFlagsRecursive, leavesOfType, applyFlagLeaves]
  | .pointer (.pointer e), config, pfx => by
    simp [applyCLIFlagsRecursive, leavesOfType, applyFlagLeaves]
theorem applyCLIFlagsFields_eq_leaves (cmd : Command) :
    ∀ (fs : Fields) (config : ConfigMap) (pfx : Str),
      applyCLIFlagsFields cmd config fs pfx = applyFlagLeaves cmd (leavesOfFields fs pfx) config
  | .nil, config, pfx => by simp [applyCLIFlagsFields, leavesOfFields, applyFlagLeaves]
  | .cons _ tag ft rest, config, pfx => by
    rw [applyCLIFlagsFields, leavesOfFields]
    by_cases h1 : configTagName tag = []
    · simp only [h1, if_true]
      exact applyCLIFlagsFields_eq_leaves cmd rest config pfx
    · simp only [h1, if_false]
      by_cases h2 : isStructType ft = true
      · simp only [h2, if_true]
        rw [applyCLIFlagsFields_eq_leaves cmd rest, applyCLIFlagsRecursive_eq_leaves cmd ft,
          applyFlagLeaves_append]
      · simp only [h2, Bool.false_eq_true, if_false]
        rw [applyFlagLeaves]
        split_ifs <;> exact applyCLIFlagsFields_eq_leaves cmd rest _ pfx
end

theorem applyCLIFlagsGeneric_eq (cmd : Command) (config : ConfigMap) (typ : GoType) :
    applyCLIFlagsGeneric cmd config typ = applyFlagLeaves cmd (schemaLeaves typ) config :=
  applyCLIFlagsRecursive_eq_leaves cmd typ config []

theorem setSliceFlagValue_eq (cmd : Command) (config : ConfigMap) (configPath cliFlag : Str)
    (ft : GoType) :
    setSliceFlagValue cmd config configPath cliFlag ft =
      match sliceFlagValue cmd cliFlag ft with
      | some v => setByPath config configPath v
      | none => config := by
  unfold setSliceFlagValue sliceFlagValue
  cases hft : ft.elemType with
  | time => rfl
  | basic k => cases k <;> rfl
  | duration => rfl
  | pointer e => rfl
  | slice e => rfl
  | map k e => rfl
  | struct fs => rfl

/-- `setCLIFlagValue` writes `flagValue` at the path, or nothing. -/
theorem setCLIFlagValue_eq (cmd : Command) (config : ConfigMap) (configPath cliFlag : Str)
    (ft : GoType) :
    setCLIFlagValue cmd config configPath cliFlag ft =
      match flagValue cmd cliFlag ft with
      | some v => setByPath config configPath v
      | none => config := by
  cases ft with
  | duration => rfl
  | time => rfl
  | basic k => cases k <;> rfl
  | pointer e => rfl
  | slice e => exact setSliceFlagValue_eq _ _ _ _ _
  | map k e =>
    simp only [setCLIFlagValue, flagValue, GoType.kind]
    split_ifs <;> rfl
  | struct fs => rfl


theorem splitOnByte_ne_nil (sep : Char) (s : Str) : splitOnByte sep s ≠ [] := by
  cases s with
  | nil => simp [splitOnByte]
  | cons c rest =>
    rw [splitOnByte]
    split_ifs
    · simp
    · cases splitOnByte sep rest <;> simp

theorem Diverge.symm {p q : List Str} (h : Diverge p q) : Diverge q p := ⟨h.2, h.1⟩

theorem not_diverge_self (p : List Str) : ¬ Diverge p p := fun h => h.1 (List.prefix_refl p)

theorem getByPath_setByPath_same (config : ConfigMap) (path : Str) (value : GoAny) :
    getByPath (setByPath config path value) path = some value :=
  getAt_setByParts_same _ config value (splitOnByte_ne_nil _ _)

theorem getByPath_setByPath_diverge (config : ConfigMap) (path path2 : Str) (value : GoAny)
    (h : Diverge (splitOnByte '.' path2) (splitOnByte '.' path)) :
    getByPath (setByPath config path value) path2 = getByPath config path2 :=
  getAt_setByParts_diverge _ _ config value h

/-- One step of the flag stage at the key-path of its own leaf. -/
theorem getByPath_flag_step (cmd : Command) (k : Str) (ft : GoType) (config : ConfigMap) :
    getByPath (if (!cmd.IsSet (replaceDots k)) = true then config
        else setCLIFlagValue cmd config k (replaceDots k) ft) k =
      match flagLayer (some cmd) k ft with
      | some v => some v
      | none => getByPath config k := by
  by_cases hset : cmd.IsSet (replaceDots k) = true
  · simp only [hset, Bool.not_true, Bool.false_eq_true, if_false, flagLayer, if_true]
    rw [setCLIFlagValue_eq]
    cases hv : flagValue cmd (replaceDots k) ft with
    | none => rfl
    | some v => simp only [getByPath_setByPath_same]
  · simp [flagLayer, hset]

theorem applyFlagLeaves_cons (cmd : Command) (k : Str) (ft : GoType)
    (rest : List (Str × GoType)) (config : ConfigMap) :
    applyFlagLeaves cmd ((k, ft) :: rest) config =
      applyFlagLeaves cmd rest
        (if (!cmd.IsSet (replaceDots k)) = true then config
         else setCLIFlagValue cmd config k (replaceDots k) ft) := by
  rw [applyFlagLeaves]
  split_ifs <;> rfl

/-- The flag stage at one key-path: the leaf of that path is written when its
flag is set and its type has a getter; leaves at paths that part ways with it
do not touch it. -/
theorem getByPath_applyFlagLeaves (cmd : Command) (k : Str) (ft : GoType)
    (l : List (Str × GoType)) :
    ∀ (config : ConfigMap),
      (∀ e ∈ l, e = (k, ft) ∨ Diverge (splitOnByte '.' k) (splitOnByte '.' e.1)) →
      ((k, ft) ∈ l → getByPath (applyFlagLeaves cmd l config) k =
        match flagLayer (some cmd) k ft with
        | some v => some v
        | none => getByPath config k) ∧
      ((k, ft) ∉ l → getByPath (applyFlagLeaves cmd l config) k = getByPath config k) := by
  induction l with
  | nil => intro config _; simp [applyFlagLeaves]
  | cons e rest ih =>
    intro config h
    obtain ⟨k2, ft2⟩ := e
    have hrest : ∀ e ∈ rest, e = (k, ft) ∨ Diverge (splitOnByte '.' k) (splitOnByte '.' e.1) :=
      fun e he => h e (List.mem_cons_of_mem _ he)
    rw [applyFlagLeaves_cons]
    rcases h (k2, ft2) (List.mem_cons_self _ _) with heq | hdiv
    · simp only [Prod.mk.injEq] at heq
      obtain ⟨rfl, rfl⟩ := heq
      refine ⟨fun _ => ?_, fun hn => absurd (List.mem_cons_self _ _) hn⟩
      have hstep := getByPath_flag_step cmd k2 ft2 config
      by_cases hmem : (k2, ft2) ∈ rest
      · rw [(ih _ hrest).1 hmem, hstep]
        cases flagLayer (some cmd) k2 ft2 <;> rfl
      · rw [(ih _ hrest).2 hmem, hstep]
    · have hne : (k, ft) ≠ (k2, ft2) := by
        intro heq
        simp only [Prod.mk.injEq] at heq
        rw [heq.1] at hdiv
        exact not_diverge_self _ hdiv
      have hcfg : getByPath (if (!cmd.IsSet (replaceDots k2)) = true then config
          else setCLIFlagValue cmd config k2 (replaceDots k2) ft2) k = getByPath config k := by
        split_ifs
        · rfl
        · rw [setCLIFlagValue_eq]
          cases flagValue cmd (replaceDots k2) ft2 with
          | none => rfl
          | some v => exact getByPath_setByPath_diverge _ _ _ _ hdiv
      constructor
      · intro hmem
        have hmem2 : (k, ft) ∈ rest := by
          rcases List.mem_cons.mp hmem with h1 | h1
          · exact absurd h1 hne
          · exact h1
        rw [(ih _ hrest).1 hmem2, hcfg]
      · intro hmem
        have hmem2 : (k, ft) ∉ rest := fun h1 => hmem (List.mem_cons_of_mem _ h1)
        rw [(ih _ hrest).2 hmem2, hcfg]

/-! ## The environment stage -/

theorem mem_mapSet {α : Type} (m : List (Str × α)) (key : Str) (v : α) (e : Str × α)
    (h : e ∈ mapSet m key v) : e ∈ m ∨ e = (key, v) := by
  induction m with
  | nil => simp [mapSet] at h; exact Or.inr h
  | cons x rest ih =>
    obtain ⟨k, y⟩ := x
    rw [mapSet] at h
    split_ifs at h with hk
    · rcases List.mem_cons.mp h with h | h
      · right; rw [h, hk]
      · left; exact List.mem_cons_of_mem _ h
    · rcases List.mem_cons.mp h with h | h
      · left; rw [h]; exact List.mem_cons_self _ _
      · rcases ih h with h | h
        · left; exact List.mem_cons_of_mem _ h
        · right; exact h

theorem generateEnvBindings_mem_aux (up : Str → Str) (pfx : Str) (keys : List Str) :
    ∀ (init : List (Str × Str)) (e : Str × Str),
      e ∈ keys.foldl (fun bindings key =>
          mapSet bindings (pfx ++ toUpper up (replaceDotDash key)) key)
        init →
      e ∈ init ∨ (e.2 ∈ keys ∧ e.1 = envName up pfx e.2) := by
  induction keys with
  | nil => intro init e h; exact Or.inl h
  | cons key rest ih =>
    intro init e h
    rw [List.foldl_cons] at h
    rcases ih _ e h with h | ⟨h1, h2⟩
    · rcases mem_mapSet _ _ _ _ h with h | h
      · exact Or.inl h
      · right; rw [h]; exact ⟨List.mem_cons_self _ _, rfl⟩
    · right; exact ⟨List.mem_cons_of_mem _ h1, h2⟩

/-- Every binding maps the variable of a key-path to that key-path. -/
theorem generateEnvBindings_mem (up : Str → Str) (pfx : Str) (keys : List Str) (e : Str × Str)
    (h : e ∈ generateEnvBindings up pfx keys) : e.2 ∈ keys ∧ e.1 = envName up pfx e.2 := by
  rcases generateEnvBindings_mem_aux up pfx keys [] e h with h | h
  · simp at h
  · exact h

theorem generateEnvBindings_get_aux (up : Str → Str) (pfx k : Str) (keys : List Str) :
    ∀ (init : List (Str × Str)),
      (∀ k2 ∈ keys, envName up pfx k2 = envName up pfx k → k2 = k) →
      mapGet (keys.foldl
          (fun bindings key =>
          mapSet bindings (pfx ++ toUpper up (replaceDotDash key)) key) init)
        (envName up pfx k) =
        if k ∈ keys then some k else mapGet init (envName up pfx k) := by
  induction keys with
  | nil => intro init _; simp
  | cons key rest ih =>
    intro init hinj
    rw [List.foldl_cons, ih _ (fun k2 hk2 => hinj k2 (List.mem_cons_of_mem _ hk2))]
    by_cases hk : key = k
    · subst hk
      have : mapGet (mapSet init (pfx ++ toUpper up (replaceDotDash key)) key)
          (envName up pfx key) = some key := mapGet_mapSet_same _ _ _
      simp [this]
    · have hne : envName up pfx k ≠ pfx ++ toUpper up (replaceDotDash key) := by
        intro heq
        exact hk (hinj key (List.mem_cons_self _ _) heq.symm)
      rw [mapGet_mapSet_other _ _ _ _ hne]
      have hk2 : ¬ k = key := fun h => hk h.symm
      by_cases hmem : k ∈ rest
      · simp [hmem]
      · simp [hmem, hk2]

/-- A key-path that shares its variable with no other key-path is bound to
it. -/
theorem generateEnvBindings_mem_of_injective (up : Str → Str) (pfx k : Str) (keys : List Str) (hk : k ∈ keys)
    (hinj : ∀ k2 ∈ keys, envName up pfx k2 = envName up pfx k → k2 = k) :
    (envName up pfx k, k) ∈ generateEnvBindings up pfx keys := by
  apply mapGet_mem
  rw [generateEnvBindings, generateEnvBindings_get_aux up pfx k keys [] hinj]
  simp [hk]

/-- The environment stage at one key-path. -/
theorem getByPath_applyEnvBindings (getenv : Str → Str) (k ek : Str) (l : List (Str × Str)) :
    ∀ (config : ConfigMap),
      (∀ e ∈ l, e = (ek, k) ∨ Diverge (splitOnByte '.' k) (splitOnByte '.' e.2)) →
      getByPath (applyEnvBindings getenv l config) k =
        if (ek, k) ∈ l ∧ getenv ek ≠ [] then some (.str (getenv ek))
        else getByPath config k := by
  induction l with
  | nil => intro config _; simp [applyEnvBindings]
  | cons e rest ih =>
    intro config h
    obtain ⟨e2, p2⟩ := e
    have hrest : ∀ e ∈ rest, e = (ek, k) ∨ Diverge (splitOnByte '.' k) (splitOnByte '.' e.2) :=
      fun e he => h e (List.mem_cons_of_mem _ he)
    rw [applyEnvBindings]
    rcases h (e2, p2) (List.mem_cons_self _ _) with heq | hdiv
    · simp only [Prod.mk.injEq] at heq
      obtain ⟨rfl, rfl⟩ := heq
      by_cases hval : getenv e2 = []
      · simp only [hval, ne_eq, not_true_eq_false, if_false, and_false]
        rw [ih _ hrest]
        simp [hval]
      · simp only [ne_eq, hval, not_false_eq_true, if_true, List.mem_cons, true_or, and_self]
        rw [ih _ hrest, getByPath_setByPath_same]
        split_ifs <;> rfl
    · have hne : (ek, k) ≠ (e2, p2) := by
        intro heq
        simp only [Prod.mk.injEq] at heq
        rw [heq.2] at hdiv
        exact not_diverge_self _ hdiv
      have hmem : (ek, k) ∈ (e2, p2) :: rest ↔ (ek, k) ∈ rest := by
        simp [hne]
      have hcfg : getByPath (if getenv e2 ≠ [] then setByPath config p2 (.str (getenv e2))
          else config) k = getByPath config k := by
        split_ifs
        · exact getByPath_setByPath_diverge _ _ _ _ hdiv
        · rfl
      have happ : (if getenv e2 ≠ [] then
            applyEnvBindings getenv rest (setByPath config p2 (.str (getenv e2)))
          else applyEnvBindings getenv rest config) =
          applyEnvBindings getenv rest (if getenv e2 ≠ [] then
            setByPath config p2 (.str (getenv e2)) else config) := by
        split_ifs <;> rfl
      simp only [happ, hmem]
      rw [ih _ hrest, hcfg]

/-! ## The file stage -/

/-- The file loop merges the loaded file, if any, into the defaults. -/
theorem loadConfigFile_eq (w : World) (noExp : Bool) (paths : List Str) (configMap : ConfigMap) :
    loadConfigFile w noExp paths configMap =
      match loadedFile w noExp paths with
      | .ok (some fileMap) => .ok (mergeMaps configMap fileMap)
      | .ok none => .ok configMap
      | .error err => .error err
      | .exhausted => .exhausted := by
  induction paths with
  | nil => rfl
  | cons path rest ih =>
    rw [loadConfigFile, loadedFile]
    cases w.readFile path with
    | none => exact ih
    | some content =>
      simp only
      cases (if (!noExp) = true then Templexp.ExpandTemplate w.environ content
          else Templexp.Outcome.ok content) with
      | error e => rfl
      | exhausted => rfl
      | ok c1 =>
        simp only
        cases parseConfigBytes w path c1 <;> rfl


/-! ## The stages of `load` at one key-path -/

/-- The file stage at a key-path. -/
theorem getByPath_file_stage (dflt : ConfigMap) (file : Option ConfigMap) (k : Str)
    (hkeys : ∀ f, file = some f → distinctKeys (.map f) = true)
    (hway : ∀ f q v, file = some f → OnTheWay q (splitOnByte '.' k) →
      getAt q (.map f) = some v → ∃ m, v = .map m)
    (hnomap : ∀ f m m2, file = some f → getByPath f k = some (.map m) →
      getByPath dflt k ≠ some (.map m2)) :
    getByPath (file.elim dflt (mergeMaps dflt)) k =
      match file.bind (fun f => getByPath f k) with
      | some v => some v
      | none => getByPath dflt k := by
  cases file with
  | none => rfl
  | some f =>
    exact getAt_mergeMaps _ dflt f (splitOnByte_ne_nil _ _) (hkeys f rfl)
      (fun q v hq hg => hway f q v rfl hq hg) (fun m m2 => hnomap f m m2 rfl)

/-- The environment stage at a key-path. -/
theorem getByPath_env_stage (w : World) (typ : GoType) (pfx : Str) (config : ConfigMap)
    (k : Str) (ft : GoType) (horder : ∀ l, (w.rangeOrder l).Perm l)
    (hleaf : (k, ft) ∈ schemaLeaves typ)
    (hapart : ∀ e ∈ schemaLeaves typ,
      e = (k, ft) ∨ Diverge (splitOnByte '.' k) (splitOnByte '.' e.1))
    (henv : ∀ e ∈ schemaLeaves typ, envName w.mapToUpper pfx e.1 = envName w.mapToUpper pfx k → e.1 = k) :
    getByPath (if pfx ≠ [] then
        applyEnvBindings w.getenv
          (w.rangeOrder (generateEnvBindings w.mapToUpper pfx (collectConfigKeys typ))) config
      else config) k =
      match envLayer w pfx k with
      | some v => some v
      | none => getByPath config k := by
  by_cases hp : pfx = []
  · simp [hp, envLayer]
  · have hkeysmem : ∀ key, key ∈ collectConfigKeys typ ↔ ∃ t, (key, t) ∈ schemaLeaves typ := by
      intro key
      rw [collectConfigKeys_eq, List.mem_map]
      constructor
      · rintro ⟨⟨k1, t⟩, hmem, rfl⟩
        exact ⟨t, hmem⟩
      · rintro ⟨t, hmem⟩
        exact ⟨(key, t), hmem, rfl⟩
    have hin : (envName w.mapToUpper pfx k, k) ∈
        w.rangeOrder (generateEnvBindings w.mapToUpper pfx (collectConfigKeys typ)) := by
      apply (horder _).mem_iff.mpr
      apply generateEnvBindings_mem_of_injective w.mapToUpper pfx k _ ((hkeysmem k).mpr ⟨ft, hleaf⟩)
      intro k2 hk2 heq
      obtain ⟨t, ht⟩ := (hkeysmem k2).mp hk2
      exact henv (k2, t) ht heq
    have hall : ∀ e ∈ w.rangeOrder (generateEnvBindings w.mapToUpper pfx (collectConfigKeys typ)),
        e = (envName w.mapToUpper pfx k, k) ∨ Diverge (splitOnByte '.' k) (splitOnByte '.' e.2) := by
      intro e he
      obtain ⟨h1, h2⟩ := generateEnvBindings_mem w.mapToUpper pfx _ e ((horder _).mem_iff.mp he)
      obtain ⟨t, ht⟩ := (hkeysmem e.2).mp h1
      rcases hapart (e.2, t) ht with heq | hdiv
      · left
        simp only [Prod.mk.injEq] at heq
        obtain ⟨e1, e2⟩ := e
        simp only at h2 heq
        rw [h2, heq.1]
      · right; exact hdiv
    simp only [ne_eq, hp, not_false_eq_true, if_true]
    rw [getByPath_applyEnvBindings w.getenv k (envName w.mapToUpper pfx k) _ config hall]
    simp only [hin, true_and, envLayer, ne_eq, hp, not_false_eq_true]
    split_ifs <;> rfl

/-- The flag stage at a key-path. -/
theorem getByPath_flag_stage (cmd : Option Command) (typ : GoType) (config : ConfigMap)
    (k : Str) (ft : GoType) (hleaf : (k, ft) ∈ schemaLeaves typ)
    (hapart : ∀ e ∈ schemaLeaves typ,
      e = (k, ft) ∨ Diverge (splitOnByte '.' k) (splitOnByte '.' e.1)) :
    getByPath (cmd.elim config (fun c => applyCLIFlagsGeneric c config typ)) k =
      match flagLayer cmd k ft with
      | some v => some v
      | none => getByPath config k := by
  cases cmd with
  | none => rfl
  | some c =>
    simp only [Option.elim]
    rw [applyCLIFlagsGeneric_eq]
    exact (getByPath_applyFlagLeaves c k ft _ config hapart).1 hleaf

/-- C1 (amended): the priority of the layers at a leaf key-path.  Let `k` be a
leaf key-path of the schema, with declared type `ft`, that parts ways with
every other leaf key-path and shares its environment variable with none, and
let the file that `load` reads, if any, hold mappings with distinct keys and
only mappings on the way to `k`, and let the file and the defaults not both
hold a mapping at `k`.  Then `load` reaches the
decoder, and the tree handed to it holds at `k` the value written for the
flag of `k` if a command is bound, the flag is set and the type has a getter;
otherwise the string of the variable of `k` if the prefix and the string are
non-empty; otherwise the value of the file at `k` if it has one; otherwise what
the tree built from the defaults holds at `k`. -/
theorem C1_layer_priority (w : World) (typ : GoType) (defaultConfig : GoValue)
    (callerSkip : Int) (opts : List LoadOption) (file : Option ConfigMap) (k : Str)
    (ft : GoType)
    (horder : ∀ l, (w.rangeOrder l).Perm l)
    (hleaf : (k, ft) ∈ schemaLeaves typ)
    (hapart : ∀ e ∈ schemaLeaves typ,
      e = (k, ft) ∨ Diverge (splitOnByte '.' k) (splitOnByte '.' e.1))
    (henv : ∀ e ∈ schemaLeaves typ,
      envName w.mapToUpper (resolveOptions w callerSkip opts).envPrefix e.1 =
        envName w.mapToUpper (resolveOptions w callerSkip opts).envPrefix k → e.1 = k)
    (hfile : loadedFile w (resolveOptions w callerSkip opts).noTemplateExpansion
      (candidatePaths w (resolveOptions w callerSkip opts)) = .ok file)
    (hkeys : ∀ f, file = some f → distinctKeys (.map f) = true)
    (hway : ∀ f q v, file = some f → OnTheWay q (splitOnByte '.' k) →
      getAt q (.map f) = some v → ∃ m, v = .map m)
    (hnomap : ∀ f m m2, file = some f → getByPath f k = some (.map m) →
      getByPath (structToMap typ defaultConfig) k ≠ some (.map m2)) :
    ∃ tree, loadConfigMap w typ defaultConfig callerSkip opts = .ok tree ∧
      getByPath tree k =
        layeredValue (flagLayer (resolveOptions w callerSkip opts).cmd k ft)
          (envLayer w (resolveOptions w callerSkip opts).envPrefix k)
          (file.bind (fun f => getByPath f k))
          (getByPath (structToMap typ defaultConfig) k) := by
  generalize hopt : resolveOptions w callerSkip opts = options at henv hfile
  have hstage1 := getByPath_file_stage (structToMap typ defaultConfig) file k hkeys hway hnomap
  have hload : loadConfigFile w options.noTemplateExpansion (candidatePaths w options)
      (structToMap typ defaultConfig) =
      .ok (file.elim (structToMap typ defaultConfig) (mergeMaps (structToMap typ defaultConfig))) := by
    rw [loadConfigFile_eq, hfile]
    cases file <;> rfl
  generalize file.elim (structToMap typ defaultConfig)
    (mergeMaps (structToMap typ defaultConfig)) = cm1 at hstage1 hload
  have hstage2 := getByPath_env_stage w typ options.envPrefix cm1 k ft horder hleaf hapart henv
  have hstage3 := getByPath_flag_stage options.cmd typ
    (if options.envPrefix ≠ [] then
      applyEnvBindings w.getenv
        (w.rangeOrder (generateEnvBindings w.mapToUpper options.envPrefix (collectConfigKeys typ))) cm1
    else cm1) k ft hleaf hapart
  refine ⟨_, ?_, hstage3.trans ?_⟩
  · rw [loadConfigMap, hopt]
    simp only [hload]
    cases options.cmd <;> rfl
  · rw [hstage2, hstage1]
    unfold layeredValue
    cases flagLayer options.cmd k ft <;> cases envLayer w options.envPrefix k <;> rfl


theorem onTheWay_pair (q : List Str) (a b : Str) (h : OnTheWay q [a, b]) : q = [a] := by
  obtain ⟨⟨t, ht⟩, h2, h3⟩ := h
  cases q with
  | nil => exact absurd rfl h3
  | cons x q2 =>
    cases q2 with
    | nil =>
      simp only [List.cons_append, List.nil_append, List.cons.injEq] at ht
      rw [ht.1]
    | cons y q3 =>
      exfalso
      apply h2
      simp only [List.cons_append, List.cons.injEq] at ht
      obtain ⟨rfl, rfl, ht3⟩ := ht
      have : q3 = [] := by
        cases q3 with
        | nil => rfl
        | cons z q4 => simp at ht3
      rw [this]

theorem onTheWay_single (q : List Str) (a : Str) : ¬ OnTheWay q [a] := by
  rintro ⟨⟨t, ht⟩, h2, h3⟩
  cases q with
  | nil => exact h3 rfl
  | cons x q2 =>
    apply h2
    simp only [List.cons_append, List.cons.injEq] at ht
    obtain ⟨rfl, ht2⟩ := ht
    have : q2 = [] := by
      cases q2 with
      | nil => rfl
      | cons z q4 => simp at ht2
    rw [this]

theorem C1_layer_priority_witness :
    ((∀ l, (demoWorld.rangeOrder l).Perm l) ∧
      ("server.host".toList, GoType.basic .string) ∈ schemaLeaves demoType ∧
      (∀ e ∈ schemaLeaves demoType, e = ("server.host".toList, GoType.basic .string) ∨
        Diverge (splitOnByte '.' "server.host".toList) (splitOnByte '.' e.1)) ∧
      (∀ e ∈ schemaLeaves demoType,
        envName demoWorld.mapToUpper (resolveOptions demoWorld 1 demoOptions).envPrefix e.1 =
          envName demoWorld.mapToUpper (resolveOptions demoWorld 1 demoOptions).envPrefix "server.host".toList →
        e.1 = "server.host".toList) ∧
      loadedFile demoWorld (resolveOptions demoWorld 1 demoOptions).noTemplateExpansion
        (candidatePaths demoWorld (resolveOptions demoWorld 1 demoOptions)) = .ok (some demoFile) ∧
      distinctKeys (.map demoFile) = true ∧
      (∀ q v, OnTheWay q (splitOnByte '.' "server.host".toList) →
        getAt q (.map demoFile) = some v → ∃ m, v = .map m) ∧
      (∀ m m2, getByPath demoFile "server.host".toList = some (.map m) →
        getByPath (structToMap demoType demoDefault) "server.host".toList ≠ some (.map m2))) ∧
    (∃ tree, loadConfigMap demoWorld demoType demoDefault 1 demoOptions = .ok tree ∧
      getByPath tree "server.host".toList =
        layeredValue
          (flagLayer (resolveOptions demoWorld 1 demoOptions).cmd "server.host".toList
            (.basic .string))
          (envLayer demoWorld (resolveOptions demoWorld 1 demoOptions).envPrefix
            "server.host".toList)
          ((some demoFile).bind (fun f => getByPath f "server.host".toList))
          (getByPath (structToMap demoType demoDefault) "server.host".toList)) ∧
    layeredValue
        (flagLayer (resolveOptions demoWorld 1 demoOptions).cmd "server.host".toList
          (.basic .string))
        (envLayer demoWorld (resolveOptions demoWorld 1 demoOptions).envPrefix
          "server.host".toList)
        ((some demoFile).bind (fun f => getByPath f "server.host".toList))
        (getByPath (structToMap demoType demoDefault) "server.host".toList) =
      some (.str "envhost".toList) :=
  have hleaves : schemaLeaves demoType =
      [("name".toList, .basic .string), ("server.host".toList, .basic .string),
        ("server.port".toList, .basic .int)] := rfl
  have horder : ∀ l, (demoWorld.rangeOrder l).Perm l := fun l => List.Perm.refl l
  have hleaf : ("server.host".toList, GoType.basic .string) ∈ schemaLeaves demoType := by
    rw [hleaves]; simp
  have hapart : ∀ e ∈ schemaLeaves demoType,
      e = ("server.host".toList, GoType.basic .string) ∨
        Diverge (splitOnByte '.' "server.host".toList) (splitOnByte '.' e.1) := by
    intro e he
    rw [hleaves] at he
    simp only [List.mem_cons, List.mem_singleton, List.not_mem_nil, or_false] at he
    rcases he with rfl | rfl | rfl
    · right; exact ⟨by decide, by decide⟩
    · left; rfl
    · right; exact ⟨by decide, by decide⟩
  have henv : ∀ e ∈ schemaLeaves demoType,
      envName demoWorld.mapToUpper (resolveOptions demoWorld 1 demoOptions).envPrefix e.1 =
        envName demoWorld.mapToUpper (resolveOptions demoWorld 1 demoOptions).envPrefix "server.host".toList →
      e.1 = "server.host".toList := by
    intro e he
    rw [hleaves] at he
    simp only [List.mem_cons, List.mem_singleton, List.not_mem_nil, or_false] at he
    rcases he with rfl | rfl | rfl
    · intro h; exact absurd h (by decide)
    · intro _; rfl
    · intro h; exact absurd h (by decide)
  have hfile : loadedFile demoWorld (resolveOptions demoWorld 1 demoOptions).noTemplateExpansion
      (candidatePaths demoWorld (resolveOptions demoWorld 1 demoOptions)) =
      .ok (some demoFile) := rfl
  have hway : ∀ q v, OnTheWay q (splitOnByte '.' "server.host".toList) →
      getAt q (.map demoFile) = some v → ∃ m, v = .map m := by
    intro q v hq hg
    have hs : splitOnByte '.' "server.host".toList = ["server".toList, "host".toList] := rfl
    rw [hs] at hq
    rw [onTheWay_pair q _ _ hq] at hg
    have hv : getAt ["server".toList] (.map demoFile) =
        some (.map [("host".toList, .str "filehost".toList), ("port".toList, .num .int 1)]) :=
      rfl
    rw [hv] at hg
    exact ⟨_, (Option.some.inj hg).symm⟩
  have hnomap : ∀ m m2, getByPath demoFile "server.host".toList = some (.map m) →
      getByPath (structToMap demoType demoDefault) "server.host".toList ≠ some (.map m2) := by
    intro m m2 h
    have hv : getByPath demoFile "server.host".toList = some (.str "filehost".toList) := rfl
    rw [hv] at h
    simp at h
  ⟨⟨horder, hleaf, hapart, henv, hfile, rfl, hway, hnomap⟩,
    C1_layer_priority demoWorld demoType demoDefault 1 demoOptions (some demoFile)
      "server.host".toList (.basic .string) horder hleaf hapart henv hfile
      (fun f hf => by cases hf; rfl) (fun f q v hf => by cases hf; exact hway q v)
      (fun f m m2 hf => by cases hf; exact hnomap m m2),
    rfl⟩

/-- C1 as stated fails for a leaf that holds a mapping: with the default
`tags: {a: 1}` and the file `tags: {b: 2}`, no environment prefix and no
command, the tree handed to the decoder holds `{a: 1, b: 2}` at `tags`, the
merge of the two, and not the value `{b: 2}` of the file. -/
theorem C1_counterexample :
    (∀ l, (tagsWorld.rangeOrder l).Perm l) ∧
    ("tags".toList, GoType.map (.basic .string) (.basic .string)) ∈ schemaLeaves tagsType ∧
    loadedFile tagsWorld (resolveOptions tagsWorld 1 tagsOptions).noTemplateExpansion
      (candidatePaths tagsWorld (resolveOptions tagsWorld 1 tagsOptions)) = .ok (some tagsFile) ∧
    (∃ tree, loadConfigMap tagsWorld tagsType tagsDefault 1 tagsOptions = .ok tree ∧
      getByPath tree "tags".toList =
        some (.map [("a".toList, .str "1".toList), ("b".toList, .str "2".toList)])) ∧
    layeredValue
        (flagLayer (resolveOptions tagsWorld 1 tagsOptions).cmd "tags".toList
          (.map (.basic .string) (.basic .string)))
        (envLayer tagsWorld (resolveOptions tagsWorld 1 tagsOptions).envPrefix
          "tags".toList)
        ((some tagsFile).bind (fun f => getByPath f "tags".toList))
        (getByPath (structToMap tagsType tagsDefault) "tags".toList) =
      some (.map [("b".toList, .str "2".toList)]) ∧
    ¬ ∃ tree, loadConfigMap tagsWorld tagsType tagsDefault 1 tagsOptions = .ok tree ∧
      getByPath tree "tags".toList =
        layeredValue
          (flagLayer (resolveOptions tagsWorld 1 tagsOptions).cmd "tags".toList
            (.map (.basic .string) (.basic .string)))
          (envLayer tagsWorld (resolveOptions tagsWorld 1 tagsOptions).envPrefix
            "tags".toList)
          ((some tagsFile).bind (fun f => getByPath f "tags".toList))
          (getByPath (structToMap tagsType tagsDefault) "tags".toList) := by
  have hload : loadConfigMap tagsWorld tagsType tagsDefault 1 tagsOptions =
      .ok [("tags".toList, .map [("a".toList, .str "1".toList), ("b".toList, .str "2".toList)])] :=
    rfl
  have hlayer : layeredValue
        (flagLayer (resolveOptions tagsWorld 1 tagsOptions).cmd "tags".toList
          (.map (.basic .string) (.basic .string)))
        (envLayer tagsWorld (resolveOptions tagsWorld 1 tagsOptions).envPrefix
          "tags".toList)
        ((some tagsFile).bind (fun f => getByPath f "tags".toList))
        (getByPath (structToMap tagsType tagsDefault) "tags".toList) =
      some (.map [("b".toList, .str "2".toList)]) := rfl
  refine ⟨fun l => List.Perm.refl l, ?_, rfl, ⟨_, hload, rfl⟩, hlayer, ?_⟩
  · have : schemaLeaves tagsType = [("tags".toList, .map (.basic .string) (.basic .string))] :=
      rfl
    rw [this]
    simp
  · rintro ⟨tree, h1, h2⟩
    rw [hload] at h1
    have htree := Templexp.Outcome.ok.inj h1
    rw [hlayer, ← htree] at h2
    have hv : getByPath
        [("tags".toList, GoAny.map [("a".toList, .str "1".toList), ("b".toList, .str "2".toList)])]
        "tags".toList =
        some (.map [("a".toList, .str "1".toList), ("b".toList, .str "2".toList)]) := rfl
    rw [hv] at h2
    simp at h2


/-! ## `mergeMaps` along a path -/

theorem getAt_append (q : List Str) :
    ∀ (r : List Str) (v : GoAny), getAt (q ++ r) v = (getAt q v).bind (getAt r) := by
  induction q with
  | nil => intro r v; rfl
  | cons a q2 ih =>
    intro r v
    cases v with
    | map m =>
      rw [List.cons_append, getAt_cons_map, getAt_cons_map]
      cases mapGet m a with
      | none => rfl
      | some x => simp only [Option.some_bind]; exact ih r x
    | _ => rfl

/-- A value with something below it is a mapping. -/
theorem isMap_of_getAt (r : List Str) (v x : GoAny) (hr : r ≠ []) (h : getAt r v = some x) :
    ∃ m, v = .map m := by
  cases r with
  | nil => exact absurd rfl hr
  | cons a r2 =>
    cases v with
    | map m => exact ⟨m, rfl⟩
    | _ => exact Option.noConfusion h

/-- C13: the higher-priority source wins at the leaf level.  For trees `dst`
and `src` (Go maps, so with distinct keys in `src`) and a path `p` at which
`src` holds a value `v` that is no mapping, reached through mappings only: the
tree `mergeMaps` leaves holds exactly `v` at `p`, whatever `dst` held at `p` or
on the way to it. -/
theorem C13_source_wins_at_leaf (dst src : ConfigMap) (p : List Str) (v : GoAny)
    (hsrc : distinctKeys (.map src) = true) (hv : getAt p (.map src) = some v)
    (hleaf : ∀ m, v ≠ .map m) :
    getAt p (.map (mergeMaps dst src)) = some v := by
  have hp : p ≠ [] := by
    rintro rfl
    simp only [getAt, Option.some.injEq] at hv
    exact hleaf src hv.symm
  rw [getAt_mergeMaps p dst src hp hsrc, hv]
  · intro q x ⟨⟨r, hr⟩, hne, _⟩ hq
    have hr2 : r ≠ [] := by
      rintro rfl
      exact hne (by simpa using hr)
    rw [← hr, getAt_append, hq] at hv
    exact isMap_of_getAt r x v hr2 hv
  · intro m m2 hm
    rw [hv] at hm
    exact absurd (Option.some.inj hm) (hleaf m)

theorem C13_source_wins_at_leaf_witness :
    (distinctKeys (.map mergeSrc) = true ∧
      getAt ["server".toList, "host".toList] (.map mergeSrc) = some (.str "example.org".toList) ∧
      ∀ m, GoAny.str "example.org".toList ≠ .map m) ∧
    getAt ["server".toList, "host".toList] (.map (mergeMaps mergeDst mergeSrc)) =
      some (.str "example.org".toList) :=
  ⟨⟨rfl, rfl, fun _ h => GoAny.noConfusion h⟩,
    C13_source_wins_at_leaf mergeDst mergeSrc ["server".toList, "host".toList]
      (.str "example.org".toList) rfl rfl (fun _ h => GoAny.noConfusion h)⟩

/-- Where both trees hold a mapping, reached through mappings in both, the
merged tree holds the merge of the two mappings. -/
theorem getAt_mergeMaps_level (p : List Str) :
    ∀ (dst src dm sm : ConfigMap), distinctKeys (.map src) = true →
      getAt p (.map dst) = some (.map dm) → getAt p (.map src) = some (.map sm) →
      getAt p (.map (mergeMaps dst src)) = some (.map (mergeMaps dm sm)) ∧
        distinctKeys (.map sm) = true := by
  induction p with
  | nil =>
    intro dst src dm sm hsrc hd hs
    simp only [getAt, Option.some.injEq, GoAny.map.injEq] at hd hs
    subst hd; subst hs
    exact ⟨rfl, hsrc⟩
  | cons a rest ih =>
    intro dst src dm sm hsrc hd hs
    obtain ⟨hnd, hvals⟩ := distinctKeys_map src hsrc
    rw [getAt_cons_map] at hd hs
    rw [getAt_cons_map, mapGet_mergeMaps src dst a hnd]
    cases hsa : mapGet src a with
    | none => rw [hsa] at hs; exact Option.noConfusion hs
    | some sv =>
      cases hda : mapGet dst a with
      | none => rw [hda] at hd; exact Option.noConfusion hd
      | some dv =>
        rw [hsa, Option.some_bind] at hs
        rw [hda, Option.some_bind] at hd
        cases rest with
        | nil =>
          simp only [getAt, Option.some.injEq] at hd hs
          subst hd; subst hs
          refine ⟨?_, hvals a _ hsa⟩
          simp only [Option.some_bind, getAt, mergeValue_map_map]
        | cons b rest2 =>
          obtain ⟨sm1, rfl⟩ := isMap_of_getAt (b :: rest2) sv _ (by simp) hs
          obtain ⟨dm1, rfl⟩ := isMap_of_getAt (b :: rest2) dv _ (by simp) hd
          simp only [Option.some_bind, mergeValue_map_map]
          exact ih dm1 sm1 dm sm (hvals a _ hsa) hd hs

/-- `mergeMaps` keeps a key of the destination present. -/
theorem mapGet_mergeMaps_isSome (dm sm : ConfigMap) (hnd : (sm.map Prod.fst).Nodup) (k : Str) :
    (mapGet (mergeMaps dm sm) k).isSome = ((mapGet dm k).isSome || (mapGet sm k).isSome) := by
  rw [mapGet_mergeMaps sm dm k hnd]
  cases mapGet sm k with
  | none => simp
  | some sv => simp

/-- C14: a partial nested record does not erase siblings.  At every level at
which both `dst` and `src` hold a mapping (the top level, and every path that
leads through mappings in both), the merged tree holds the merge `rm` of the
two mappings `dm` and `sm`, and: a key of `dm` that is no key of `sm` keeps its
value; the keys of `rm` are the keys of `dm` together with the keys of `sm`;
and the value `dv` of a key of `dm` is either kept (no value in `sm`), or
merged one level down (both values are mappings), or replaced by the value of
`sm` (the two are not both mappings). -/
theorem C14_siblings_kept (dst src : ConfigMap) (p : List Str) (dm sm : ConfigMap)
    (hsrc : distinctKeys (.map src) = true)
    (hd : getAt p (.map dst) = some (.map dm)) (hs : getAt p (.map src) = some (.map sm)) :
    getAt p (.map (mergeMaps dst src)) = some (.map (mergeMaps dm sm)) ∧
    (∀ k, mapGet sm k = none → mapGet (mergeMaps dm sm) k = mapGet dm k) ∧
    (∀ k, (mapGet (mergeMaps dm sm) k).isSome = ((mapGet dm k).isSome || (mapGet sm k).isSome)) ∧
    (∀ k dv, mapGet dm k = some dv →
      (mapGet sm k = none ∧ mapGet (mergeMaps dm sm) k = some dv) ∨
      (∃ a b, dv = .map a ∧ mapGet sm k = some (.map b) ∧
        mapGet (mergeMaps dm sm) k = some (.map (mergeMaps a b))) ∨
      (∃ sv, mapGet sm k = some sv ∧ ¬ (∃ a b, dv = .map a ∧ sv = .map b) ∧
        mapGet (mergeMaps dm sm) k = some sv)) := by
  obtain ⟨hlevel, hsm⟩ := getAt_mergeMaps_level p dst src dm sm hsrc hd hs
  obtain ⟨hnd, _⟩ := distinctKeys_map sm hsm
  refine ⟨hlevel, ?_, mapGet_mergeMaps_isSome dm sm hnd, ?_⟩
  · intro k hk
    rw [mapGet_mergeMaps sm dm k hnd, hk]
  · intro k dv hdv
    rw [mapGet_mergeMaps sm dm k hnd, hdv]
    cases hsk : mapGet sm k with
    | none => exact Or.inl ⟨rfl, rfl⟩
    | some sv =>
      right
      by_cases hboth : ∃ a b, dv = .map a ∧ sv = .map b
      · obtain ⟨a, b, rfl, rfl⟩ := hboth
        exact Or.inl ⟨a, b, rfl, rfl, by simp only [mergeValue_map_map]⟩
      · refine Or.inr ⟨sv, rfl, hboth, ?_⟩
        simp only [Option.some.injEq]
        by_cases hsmap : ∃ b, sv = .map b
        · obtain ⟨b, rfl⟩ := hsmap
          apply mergeValue_of_dst_not_map
          cases dv with
          | map a => exact absurd ⟨a, b, rfl, rfl⟩ hboth
          | _ => rfl
        · exact mergeValue_of_not_map _ sv (fun m hm => hsmap ⟨m, hm⟩)

theorem C14_siblings_kept_witness :
    (distinctKeys (.map mergeSrc) = true ∧
      getAt ["log".toList] (.map mergeDst) =
        some (.map [("level".toList, .str "info".toList),
          ("file".toList, .str "app.log".toList)]) ∧
      getAt ["log".toList] (.map mergeSrc) =
        some (.map [("level".toList, .str "debug".toList)])) ∧
    getAt ["log".toList] (.map (mergeMaps mergeDst mergeSrc)) =
      some (.map [("level".toList, .str "debug".toList),
        ("file".toList, .str "app.log".toList)]) ∧
    mapGet (mergeMaps [("level".toList, GoAny.str "info".toList),
        ("file".toList, .str "app.log".toList)] [("level".toList, .str "debug".toList)])
      "file".toList = some (.str "app.log".toList) :=
  ⟨⟨rfl, rfl, rfl⟩,
    (C14_siblings_kept mergeDst mergeSrc ["log".toList]
      [("level".toList, .str "info".toList), ("file".toList, .str "app.log".toList)]
      [("level".toList, .str "debug".toList)] rfl rfl rfl).1,
    (C14_siblings_kept mergeDst mergeSrc ["log".toList]
      [("level".toList, .str "info".toList), ("file".toList, .str "app.log".toList)]
      [("level".toList, .str "debug".toList)] rfl rfl rfl).2.1 "file".toList rfl⟩

/-! ## Merging a tree into itself -/

theorem mapSet_of_mapGet {α : Type} (m : List (Str × α)) (key : Str) (v : α)
    (h : mapGet m key = some v) : mapSet m key v = m := by
  induction m with
  | nil => simp [mapGet] at h
  | cons e rest ih =>
    obtain ⟨k, x⟩ := e
    by_cases hk : k = key
    · simp only [mapGet, hk, if_true, Option.some.injEq] at h
      simp [mapSet, hk, h]
    · simp only [mapGet, hk, if_false] at h
      simp [mapSet, hk, ih h]

/-- Merging entries that the destination already holds, each unchanged by a
merge with itself, changes nothing. -/
theorem mergeMaps_of_held (src : ConfigMap) :
    ∀ (dst : ConfigMap),
      (∀ e ∈ src, mapGet dst e.1 = some e.2 ∧ mergeValue (some e.2) e.2 = e.2) →
      mergeMaps dst src = dst := by
  induction src with
  | nil => intro dst _; exact mergeMaps_nil dst
  | cons e rest ih =>
    intro dst h
    obtain ⟨k, x⟩ := e
    obtain ⟨h1, h2⟩ := h (k, x) (List.mem_cons_self _ _)
    simp only at h1 h2
    rw [mergeMaps_cons, h1, h2, mapSet_of_mapGet dst k x h1]
    exact ih dst (fun e he => h e (List.mem_cons_of_mem _ he))

theorem mapGet_of_mem_nodup {α : Type} (m : List (Str × α)) (hnd : (m.map Prod.fst).Nodup)
    (e : Str × α) (he : e ∈ m) : mapGet m e.1 = some e.2 := by
  induction m with
  | nil => simp at he
  | cons f rest ih =>
    obtain ⟨k, x⟩ := f
    simp only [List.map_cons, List.nodup_cons] at hnd
    rcases List.mem_cons.mp he with rfl | he2
    · simp [mapGet]
    · have hk : ¬ k = e.1 := by
        rintro rfl
        exact hnd.1 (List.mem_map_of_mem Prod.fst he2)
      simp only [mapGet, hk, if_false]
      exact ih hnd.2 he2

mutual
/-- A value with distinct keys is unchanged by a merge with itself. -/
theorem mergeValue_self : ∀ (v : GoAny), distinctKeys v = true → mergeValue (some v) v = v
  | .map m, h => by
    obtain ⟨hnd, _⟩ := distinctKeys_map m h
    rw [distinctKeys] at h
    obtain ⟨_, _, h3⟩ := distinctKeysEntries_spec m [] h
    rw [mergeValue_map_map, mergeMaps_of_held m m (fun e he =>
      ⟨mapGet_of_mem_nodup m hnd e he, mergeValue_self_entries m h3 e he⟩)]
  | .null, _ => mergeValue_of_not_map _ _ (fun _ h => GoAny.noConfusion h)
  | .str _, _ => mergeValue_of_not_map _ _ (fun _ h => GoAny.noConfusion h)
  | .bool _, _ => mergeValue_of_not_map _ _ (fun _ h => GoAny.noConfusion h)
  | .num _ _, _ => mergeValue_of_not_map _ _ (fun _ h => GoAny.noConfusion h)
  | .float _ _, _ => mergeValue_of_not_map _ _ (fun _ h => GoAny.noConfusion h)
  | .duration _, _ => mergeValue_of_not_map _ _ (fun _ h => GoAny.noConfusion h)
  | .time _, _ => mergeValue_of_not_map _ _ (fun _ h => GoAny.noConfusion h)
  | .strs _, _ => mergeValue_of_not_map _ _ (fun _ h => GoAny.noConfusion h)
  | .nums _ _, _ => mergeValue_of_not_map _ _ (fun _ h => GoAny.noConfusion h)
  | .floats _ _, _ => mergeValue_of_not_map _ _ (fun _ h => GoAny.noConfusion h)
  | .times _, _ => mergeValue_of_not_map _ _ (fun _ h => GoAny.noConfusion h)
  | .strMap _, _ => mergeValue_of_not_map _ _ (fun _ h => GoAny.noConfusion h)
  | .other _, _ => mergeValue_of_not_map _ _ (fun _ h => GoAny.noConfusion h)
  | .nilRef, _ => mergeValue_of_not_map _ _ (fun _ h => GoAny.noConfusion h)
  | .ref _, _ => mergeValue_of_not_map _ _ (fun _ h => GoAny.noConfusion h)
  | .seq _, _ => mergeValue_of_not_map _ _ (fun _ h => GoAny.noConfusion h)
  | .mapAny _, _ => mergeValue_of_not_map _ _ (fun _ h => GoAny.noConfusion h)
/-- The entries of a map with distinct keys throughout are unchanged by a merge
with themselves. -/
theorem mergeValue_self_entries : ∀ (m : List (Str × GoAny)),
    (∀ e ∈ m, distinctKeys e.2 = true) → ∀ e ∈ m, mergeValue (some e.2) e.2 = e.2
  | [], _ => fun e he => absurd he (List.not_mem_nil e)
  | (k, x) :: rest, h => fun e he => by
    rcases List.mem_cons.mp he with rfl | he
    · exact mergeValue_self x (h (k, x) (List.mem_cons_self _ _))
    · exact mergeValue_self_entries rest (fun e he => h e (List.mem_cons_of_mem _ he)) e he
end

/-- C15: merging a tree into an equal tree changes nothing.  For every tree
`a` of any depth (a Go map, so with distinct keys in every mapping),
`mergeMaps` with `dst = a` and `src = a` leaves `dst` equal to `a`. -/
theorem C15_merge_self (a : ConfigMap) (h : distinctKeys (.map a) = true) :
    mergeMaps a a = a := by
  have := mergeValue_self (.map a) h
  rw [mergeValue_map_map] at this
  exact GoAny.map.inj this

theorem C15_merge_self_witness :
    distinctKeys (.map mergeDst) = true ∧ mergeMaps mergeDst mergeDst = mergeDst :=
  ⟨rfl, C15_merge_self mergeDst rfl⟩

/-! ## The names of the environment variables -/

theorem generateEnvBindings_get_last (up : Str → Str) (pfx name : Str) (keys : List Str) :
    ∀ (init : List (Str × Str)),
      mapGet (keys.foldl
          (fun bindings key =>
            mapSet bindings (pfx ++ toUpper up (replaceDotDash key)) key) init)
        name =
        match keys.reverse.find? (fun k => decide (envName up pfx k = name)) with
        | some k => some k
        | none => mapGet init name := by
  induction keys with
  | nil => intro init; rfl
  | cons key rest ih =>
    intro init
    rw [List.foldl_cons, ih, List.reverse_cons, List.find?_append]
    cases hf : rest.reverse.find? (fun k => decide (envName up pfx k = name)) with
    | some k => rfl
    | none =>
      by_cases hk : envName up pfx key = name
      · have : pfx ++ toUpper up (replaceDotDash key) = name := hk
        simp [List.find?, hk, this, mapGet_mapSet_same]
      · have hne : name ≠ pfx ++ toUpper up (replaceDotDash key) := fun h => hk h.symm
        simp [List.find?, hk, mapGet_mapSet_other _ _ _ _ hne]

/-- The loop of `load` over the bindings, when no variable has a value. -/
theorem applyEnvBindings_of_empty (getenv : Str → Str) (l : List (Str × Str)) :
    ∀ (config : ConfigMap), (∀ e ∈ l, getenv e.1 = []) →
      applyEnvBindings getenv l config = config := by
  induction l with
  | nil => intro config _; rfl
  | cons e rest ih =>
    intro config h
    obtain ⟨envKey, configPath⟩ := e
    have h0 : getenv envKey = [] := h (envKey, configPath) (List.mem_cons_self _ _)
    rw [applyEnvBindings]
    simp only [h0, ne_eq, not_true_eq_false, if_false]
    exact ih config (fun e he => h e (List.mem_cons_of_mem _ he))

/-- The environment step is the one `load` runs between the file and the
flags. -/
theorem loadConfigMap_bindEnvironment (w : World) (typ : GoType) (defaultConfig : GoValue)
    (callerSkip : Int) (opts : List LoadOption) :
    loadConfigMap w typ defaultConfig callerSkip opts =
      match loadConfigFile w (resolveOptions w callerSkip opts).noTemplateExpansion
          (candidatePaths w (resolveOptions w callerSkip opts)) (structToMap typ defaultConfig) with
      | .error err => .error err
      | .exhausted => .exhausted
      | .ok configMap =>
        .ok ((resolveOptions w callerSkip opts).cmd.elim
          (bindEnvironment w typ (resolveOptions w callerSkip opts).envPrefix configMap)
          (fun cmd => applyCLIFlagsGeneric cmd
            (bindEnvironment w typ (resolveOptions w callerSkip opts).envPrefix configMap) typ)) := by
  rw [loadConfigMap]
  simp only [bindEnvironment]
  cases loadConfigFile w (resolveOptions w callerSkip opts).noTemplateExpansion
      (candidatePaths w (resolveOptions w callerSkip opts)) (structToMap typ defaultConfig) with
  | error e => rfl
  | exhausted => rfl
  | ok c => simp only; cases (resolveOptions w callerSkip opts).cmd <;> rfl

/-- On a text of ASCII bytes `strings.ToUpper` works byte by byte. -/
theorem toUpper_ascii (up : Str → Str) (s : Str) (h : ∀ c ∈ s, c.toNat < 128) :
    toUpper up s = s.map Char.toUpper := by
  have hall : s.all (fun c => decide (c.toNat < 128)) = true := by
    rw [List.all_eq_true]
    intro c hc
    exact decide_eq_true (h c hc)
  rw [toUpper, if_pos hall]

/-- The replacement of `.` and `-` keeps the bytes inside ASCII. -/
theorem replaceDotDash_ascii (k : Str) (h : ∀ c ∈ k, c.toNat < 128) :
    ∀ c ∈ replaceDotDash k, c.toNat < 128 := by
  intro c hc
  rw [replaceDotDash, List.mem_map] at hc
  obtain ⟨d, hd, rfl⟩ := hc
  split_ifs
  · decide
  · exact h d hd

/-- C17 (amended): the names of the environment variables.  Every binding of
`generateEnvBindings` maps the name `prefix ++ U(k)` to a key-path `k` of the
list, where `U(k)` is `strings.ToUpper` of `k` with each `.` and each `-`
replaced by `_`, and the prefix stands in front unchanged; for a key-path of
ASCII bytes `U` works byte by byte, `a`..`z` to `A`..`Z`, and for any other
key-path the upper-casing is that of the `unicode` tables.  The name of every
key-path of the list is bound: to the last key-path of the list with that name,
so to the key-path itself when no other key-path of the list has its name.  `APP_` and `client.rev-auth-user` give `APP_CLIENT_REV_AUTH_USER`,
`MYAPP_` and `server.url` give `MYAPP_SERVER_URL`, and a lower-case prefix
stays lower-case. -/
theorem C17_env_name_synthesis (up : Str → Str) (pfx : Str) (keys : List Str) :
    (∀ e ∈ generateEnvBindings up pfx keys, e.2 ∈ keys ∧
      e.1 = pfx ++ toUpper up (replaceDotDash e.2)) ∧
    (∀ k : Str, replaceDotDash k = k.map (fun c => if c = '.' ∨ c = '-' then '_' else c)) ∧
    (∀ k : Str, (∀ c ∈ k, c.toNat < 128) →
      envName up pfx k =
        pfx ++ k.map (fun c => if c = '.' ∨ c = '-' then '_' else c.toUpper)) ∧
    (∀ k : Str, (¬ ∀ c ∈ k, c.toNat < 128) →
      envName up pfx k = pfx ++ up (replaceDotDash k)) ∧
    (∀ name, mapGet (generateEnvBindings up pfx keys) name =
      keys.reverse.find? (fun k => decide (envName up pfx k = name))) ∧
    (∀ k ∈ keys, ∃ k2 ∈ keys,
      mapGet (generateEnvBindings up pfx keys) (envName up pfx k) = some k2 ∧
        envName up pfx k2 = envName up pfx k) ∧
    (∀ k ∈ keys, (∀ k2 ∈ keys, envName up pfx k2 = envName up pfx k → k2 = k) →
      mapGet (generateEnvBindings up pfx keys) (envName up pfx k) = some k) ∧
    envName up "APP_".toList "client.rev-auth-user".toList = "APP_CLIENT_REV_AUTH_USER".toList ∧
    generateEnvBindings up "MYAPP_".toList ["server.url".toList] =
      [("MYAPP_SERVER_URL".toList, "server.url".toList)] ∧
    generateEnvBindings up "app_".toList ["server.url".toList] =
      [("app_SERVER_URL".toList, "server.url".toList)] := by
  have hget : ∀ name, mapGet (generateEnvBindings up pfx keys) name =
      keys.reverse.find? (fun k => decide (envName up pfx k = name)) := by
    intro name
    rw [generateEnvBindings, generateEnvBindings_get_last up pfx name keys []]
    cases keys.reverse.find? (fun k => decide (envName up pfx k = name)) <;> rfl
  refine ⟨?_, fun k => rfl, ?_, ?_, hget, ?_, ?_, rfl, rfl, rfl⟩
  · intro e he
    obtain ⟨h1, h2⟩ := generateEnvBindings_mem up pfx keys e he
    exact ⟨h1, h2⟩
  · intro k hk
    rw [envName, toUpper_ascii up _ (replaceDotDash_ascii k hk), replaceDotDash, List.map_map]
    congr 1
    apply List.map_congr_left
    intro c _
    simp only [Function.comp]
    split_ifs
    · rfl
    · rfl
  · intro k hk
    have hall : (replaceDotDash k).all (fun c => decide (c.toNat < 128)) = false := by
      rw [Bool.eq_false_iff]
      intro h
      apply hk
      intro c hc
      rw [List.all_eq_true] at h
      have hm : (if c = '.' ∨ c = '-' then '_' else c) ∈ replaceDotDash k := by
        rw [replaceDotDash]
        exact List.mem_map_of_mem _ hc
      have := of_decide_eq_true (h _ hm)
      split_ifs at this with hcd
      · rcases hcd with rfl | rfl <;> decide
      · exact this
    rw [envName, toUpper, hall]
    rfl
  · intro k hk
    rw [hget]
    cases hf : keys.reverse.find? (fun k2 => decide (envName up pfx k2 = envName up pfx k)) with
    | none =>
      have := List.find?_eq_none.mp hf k (List.mem_reverse.mpr hk)
      simp at this
    | some k2 =>
      have hmem := List.mem_of_find?_eq_some hf
      have hp := List.find?_some hf
      exact ⟨k2, List.mem_reverse.mp hmem, rfl, of_decide_eq_true hp⟩
  · intro k hk hinj
    rw [generateEnvBindings, generateEnvBindings_get_aux up pfx k keys [] hinj]
    simp [hk]

theorem C17_env_name_synthesis_witness :
    mapGet (generateEnvBindings World.bare.mapToUpper "APP_".toList
        ["client.rev-auth-user".toList, "server.url".toList])
      "APP_CLIENT_REV_AUTH_USER".toList = some "client.rev-auth-user".toList :=
  (C17_env_name_synthesis World.bare.mapToUpper "APP_".toList
    ["client.rev-auth-user".toList, "server.url".toList]).2.2.2.2.1
      "APP_CLIENT_REV_AUTH_USER".toList

/-- C17 as stated fails.  The key-paths `a.b-c` and `a.b_c` have the same name
`APP_A_B_C`; the map of bindings holds one entry for that name, with the later
key-path `a.b_c`, and no binding for `a.b-c`. -/
theorem C17_counterexample :
    envName World.bare.mapToUpper "APP_".toList "a.b-c".toList = "APP_A_B_C".toList ∧
    generateEnvBindings World.bare.mapToUpper "APP_".toList
        ["a.b-c".toList, "a.b_c".toList] = [("APP_A_B_C".toList, "a.b_c".toList)] ∧
    (envName World.bare.mapToUpper "APP_".toList "a.b-c".toList, "a.b-c".toList) ∉
      generateEnvBindings World.bare.mapToUpper "APP_".toList
        ["a.b-c".toList, "a.b_c".toList] ∧
    mapGet (generateEnvBindings World.bare.mapToUpper "APP_".toList
        ["a.b-c".toList, "a.b_c".toList])
      (envName World.bare.mapToUpper "APP_".toList "a.b-c".toList) ≠ some "a.b-c".toList := by
  refine ⟨by decide, by decide, by decide, by decide⟩

/-- C18: an empty environment value does not override.  When the prefix is
empty, or the variable of every leaf key-path of the schema is unset or set to
the empty string (`os.Getenv` gives the empty string in both cases), the
environment step of `load` leaves the tree as it is. -/
theorem C18_empty_env_no_override (w : World) (typ : GoType) (pfx : Str) (tree : ConfigMap)
    (horder : ∀ l, (w.rangeOrder l).Perm l)
    (h : pfx = [] ∨ ∀ k ∈ collectConfigKeys typ, w.getenv (envName w.mapToUpper pfx k) = []) :
    bindEnvironment w typ pfx tree = tree := by
  by_cases hp : pfx = []
  · simp [bindEnvironment, hp]
  · rcases h with h | h
    · exact absurd h hp
    · simp only [bindEnvironment, ne_eq, hp, not_false_eq_true, if_true]
      apply applyEnvBindings_of_empty
      intro e he
      obtain ⟨h1, h2⟩ := generateEnvBindings_mem w.mapToUpper pfx _ e ((horder _).mem_iff.mp he)
      rw [h2]
      exact h e.2 h1

theorem C18_empty_env_no_override_witness :
    ((∀ l, ((clientWorld []).rangeOrder l).Perm l) ∧
      ("APP_".toList = [] ∨ ∀ k ∈ collectConfigKeys clientType,
        (clientWorld []).getenv (envName (clientWorld []).mapToUpper "APP_".toList k) = [])) ∧
    (clientWorld []).getenv "APP_CLIENT_REV_AUTH_USER".toList = [] ∧
    bindEnvironment (clientWorld []) clientType "APP_".toList clientTree = clientTree ∧
    getByPath (bindEnvironment (clientWorld []) clientType "APP_".toList clientTree)
      "client.rev-auth-user".toList = some (.str "admin".toList) :=
  have hempty : ∀ k ∈ collectConfigKeys clientType,
      (clientWorld []).getenv (envName (clientWorld []).mapToUpper "APP_".toList k) = [] := by
    intro k _
    simp [clientWorld]
  ⟨⟨fun l => List.Perm.refl l, Or.inr hempty⟩, rfl,
    C18_empty_env_no_override (clientWorld []) clientType "APP_".toList clientTree
      (fun l => List.Perm.refl l) (Or.inr hempty),
    rfl⟩

theorem collectConfigKeys_mem (typ : GoType) (key : Str) :
    key ∈ collectConfigKeys typ ↔ ∃ t, (key, t) ∈ schemaLeaves typ := by
  rw [collectConfigKeys_eq, List.mem_map]
  constructor
  · rintro ⟨⟨k1, t⟩, hmem, rfl⟩
    exact ⟨t, hmem⟩
  · rintro ⟨t, hmem⟩
    exact ⟨(key, t), hmem, rfl⟩

/-- C19 (amended): a leaf key-path is bound to its environment variable when it
shares the variable with no other.  For a non-empty prefix and a leaf key-path
`k` that parts ways with every other leaf key-path of the schema and whose
variable name `prefix ++ U(k)` no other leaf key-path has: if the variable has
a non-empty value `s`, the tree holds the raw string `s` at `k` after the
environment step, whatever the order in which the bindings are visited. -/
theorem C19_env_binding (w : World) (typ : GoType) (pfx : Str) (tree : ConfigMap) (k : Str)
    (horder : ∀ l, (w.rangeOrder l).Perm l) (hpfx : pfx ≠ [])
    (hk : k ∈ collectConfigKeys typ)
    (hapart : ∀ k2 ∈ collectConfigKeys typ,
      k2 = k ∨ Diverge (splitOnByte '.' k) (splitOnByte '.' k2))
    (hname : ∀ k2 ∈ collectConfigKeys typ, envName w.mapToUpper pfx k2 = envName w.mapToUpper pfx k → k2 = k)
    (hval : w.getenv (envName w.mapToUpper pfx k) ≠ []) :
    getByPath (bindEnvironment w typ pfx tree) k = some (.str (w.getenv (envName w.mapToUpper pfx k))) := by
  have hin : (envName w.mapToUpper pfx k, k) ∈
      w.rangeOrder (generateEnvBindings w.mapToUpper pfx (collectConfigKeys typ)) :=
    (horder _).mem_iff.mpr (generateEnvBindings_mem_of_injective w.mapToUpper pfx k _ hk hname)
  have hall : ∀ e ∈ w.rangeOrder (generateEnvBindings w.mapToUpper pfx (collectConfigKeys typ)),
      e = (envName w.mapToUpper pfx k, k) ∨ Diverge (splitOnByte '.' k) (splitOnByte '.' e.2) := by
    intro e he
    obtain ⟨h1, h2⟩ := generateEnvBindings_mem w.mapToUpper pfx _ e ((horder _).mem_iff.mp he)
    rcases hapart e.2 h1 with heq | hdiv
    · left
      obtain ⟨e1, e2⟩ := e
      simp only at h2 heq
      rw [h2, heq]
    · right; exact hdiv
  simp only [bindEnvironment, ne_eq, hpfx, not_false_eq_true, if_true]
  rw [getByPath_applyEnvBindings w.getenv k (envName w.mapToUpper pfx k) _ tree hall]
  simp [hin, hval]

theorem C19_env_binding_witness :
    ((∀ l, ((clientWorld "root".toList).rangeOrder l).Perm l) ∧ "APP_".toList ≠ [] ∧
      "client.rev-auth-user".toList ∈ collectConfigKeys clientType ∧
      (clientWorld "root".toList).getenv
        (envName (clientWorld "root".toList).mapToUpper "APP_".toList
          "client.rev-auth-user".toList) ≠ []) ∧
    getByPath (bindEnvironment (clientWorld "root".toList) clientType "APP_".toList clientTree)
      "client.rev-auth-user".toList = some (.str "root".toList) :=
  have hkeys : collectConfigKeys clientType = ["client.rev-auth-user".toList] := rfl
  ⟨⟨fun l => List.Perm.refl l, by decide, by decide, by decide⟩,
    C19_env_binding (clientWorld "root".toList) clientType "APP_".toList clientTree
      "client.rev-auth-user".toList (fun l => List.Perm.refl l) (by decide) (by decide)
      (fun k2 h2 => Or.inl (by rw [hkeys] at h2; simpa using h2))
      (fun k2 h2 _ => by rw [hkeys] at h2; simpa using h2)
      (by decide)⟩

/-- C19 as stated fails.  The leaves `a.b-c` and `a.b_c` of `clashType` both
have the variable `APP_A_B_C`; the map of bindings holds one entry for that
name, the later key-path `a.b_c`.  With `APP_A_B_C=env` the environment step
writes `env` at `a.b_c` and leaves `a.b-c` as it was. -/
theorem C19_counterexample :
    collectConfigKeys clashType = ["a.b-c".toList, "a.b_c".toList] ∧
    envName clashWorld.mapToUpper "APP_".toList "a.b-c".toList = "APP_A_B_C".toList ∧
    clashWorld.getenv (envName clashWorld.mapToUpper "APP_".toList "a.b-c".toList) = "env".toList ∧
    generateEnvBindings clashWorld.mapToUpper "APP_".toList (collectConfigKeys clashType) =
      [("APP_A_B_C".toList, "a.b_c".toList)] ∧
    getByPath (bindEnvironment clashWorld clashType "APP_".toList clashTree) "a.b-c".toList =
      some (.str "one".toList) ∧
    getByPath (bindEnvironment clashWorld clashType "APP_".toList clashTree) "a.b-c".toList ≠
      some (.str "env".toList) ∧
    getByPath (bindEnvironment clashWorld clashType "APP_".toList clashTree) "a.b_c".toList =
      some (.str "env".toList) := by
  have h1 : getByPath (bindEnvironment clashWorld clashType "APP_".toList clashTree)
      "a.b-c".toList = some (.str "one".toList) := rfl
  refine ⟨rfl, by decide, by decide, by decide, h1, ?_, rfl⟩
  rw [h1]
  intro h
  have h2 := GoAny.str.inj (Option.some.inj h)
  exact absurd h2 (by decide)

/-! ## The names of the flags -/

/-- The flag stage over leaves none of whose flags is set. -/
theorem applyFlagLeaves_of_unset (cmd : Command) (l : List (Str × GoType)) :
    ∀ (config : ConfigMap), (∀ e ∈ l, cmd.IsSet (replaceDots e.1) = false) →
      applyFlagLeaves cmd l config = config := by
  induction l with
  | nil => intro config _; rfl
  | cons e rest ih =>
    intro config h
    obtain ⟨k, ft⟩ := e
    have h0 : cmd.IsSet (replaceDots k) = false := h (k, ft) (List.mem_cons_self _ _)
    rw [applyFlagLeaves_cons]
    simp only [h0, Bool.not_false, if_true]
    exact ih config (fun e he => h e (List.mem_cons_of_mem _ he))

/-- C20: the names of the flags.  The flag stage visits the leaves of the
schema and asks the command for the flag `replaceDots k` of each leaf `k`; that
name is `k` with every `.` replaced by `-` and every other byte unchanged: it
is as long as `k`, holds no `.`, and keeps hyphens and underscores, so
`server.url` gives `server-url`, `tls.skip_verify` gives `tls-skip_verify` and
`redis.max-len` gives `redis-max-len`, while the environment name turns `-`
into `_`. -/
theorem C20_flag_name_synthesis (k : Str) :
    (∀ (cmd : Command) (config : ConfigMap) (typ : GoType),
      applyCLIFlagsGeneric cmd config typ = applyFlagLeaves cmd (schemaLeaves typ) config) ∧
    (∀ (cmd : Command) (config : ConfigMap) (typ : GoType),
      (∀ e ∈ schemaLeaves typ, cmd.IsSet (replaceDots e.1) = false) →
      applyCLIFlagsGeneric cmd config typ = config) ∧
    (replaceDots k).length = k.length ∧
    '.' ∉ replaceDots k ∧
    (∀ (i : Nat) (c : Char), k[i]? = some c →
      (replaceDots k)[i]? = some (if c = '.' then '-' else c)) ∧
    replaceDots "server.url".toList = "server-url".toList ∧
    replaceDots "tls.skip_verify".toList = "tls-skip_verify".toList ∧
    replaceDots "redis.max-len".toList = "redis-max-len".toList ∧
    replaceDotDash "redis.max-len".toList = "redis_max_len".toList := by
  refine ⟨fun cmd config typ => applyCLIFlagsGeneric_eq cmd config typ,
    fun cmd config typ h => by
      rw [applyCLIFlagsGeneric_eq]
      exact applyFlagLeaves_of_unset cmd _ config h,
    ?_, ?_, ?_, by decide, by decide, by decide, by decide⟩
  · simp [replaceDots]
  · simp only [replaceDots, List.mem_map, not_exists, not_and]
    intro c _
    split_ifs with h
    · decide
    · exact fun h2 => h h2
  · intro i c hc
    simp [replaceDots, List.getElem?_map, hc]

theorem C20_flag_name_synthesis_witness :
    (replaceDots "tls.skip_verify".toList).length = "tls.skip_verify".toList.length ∧
    '.' ∉ replaceDots "tls.skip_verify".toList ∧
    applyCLIFlagsGeneric demoCommand demoFile demoType =
      applyFlagLeaves demoCommand (schemaLeaves demoType) demoFile :=
  ⟨(C20_flag_name_synthesis "tls.skip_verify".toList).2.2.1,
    (C20_flag_name_synthesis "tls.skip_verify".toList).2.2.2.1,
    (C20_flag_name_synthesis "tls.skip_verify".toList).1 demoCommand demoFile demoType⟩

/-! ## `load` with no overrides -/

theorem loadConfigFile_of_unreadable (w : World) (noExp : Bool) (paths : List Str)
    (configMap : ConfigMap) (h : ∀ p ∈ paths, w.readFile p = none) :
    loadConfigFile w noExp paths configMap = .ok configMap := by
  induction paths with
  | nil => rfl
  | cons path rest ih =>
    rw [loadConfigFile, h path (List.mem_cons_self _ _)]
    exact ih (fun p hp => h p (List.mem_cons_of_mem _ hp))


/-! ## The flag stage away from the flags that are set -/

/-- The flag stage leaves what the tree holds at a path that parts ways with
the key-path of every leaf whose flag is set. -/
theorem getByPath_applyFlagLeaves_frame (cmd : Command) (k : Str) (l : List (Str × GoType)) :
    ∀ (config : ConfigMap),
      (∀ e ∈ l, cmd.IsSet (replaceDots e.1) = true →
        Diverge (splitOnByte '.' k) (splitOnByte '.' e.1)) →
      getByPath (applyFlagLeaves cmd l config) k = getByPath config k := by
  induction l with
  | nil => intro config _; rfl
  | cons e rest ih =>
    intro config h
    obtain ⟨k2, ft2⟩ := e
    rw [applyFlagLeaves_cons, ih _ (fun e he => h e (List.mem_cons_of_mem _ he))]
    by_cases hset : cmd.IsSet (replaceDots k2) = true
    · have hdiv := h (k2, ft2) (List.mem_cons_self _ _) hset
      simp only [hset, Bool.not_true, Bool.false_eq_true, if_false]
      rw [setCLIFlagValue_eq]
      cases flagValue cmd (replaceDots k2) ft2 with
      | none => rfl
      | some v => exact getByPath_setByPath_diverge _ _ _ _ hdiv
    · simp [hset]

/-- C21 (amended): flags that were not explicitly set change nothing.  If
`IsSet` is false for the flag of every leaf key-path, `applyCLIFlagsGeneric`
leaves the tree unchanged; and in general the tree after the flag stage agrees
with the tree before at every key-path that parts ways with the key-path of
every leaf whose flag is set, whatever the getters of the command return. -/
theorem C21_unset_flags_change_nothing (cmd : Command) (config : ConfigMap) (typ : GoType) :
    ((∀ e ∈ schemaLeaves typ, cmd.IsSet (replaceDots e.1) = false) →
      applyCLIFlagsGeneric cmd config typ = config) ∧
    (∀ k, (∀ e ∈ schemaLeaves typ, cmd.IsSet (replaceDots e.1) = true →
        Diverge (splitOnByte '.' k) (splitOnByte '.' e.1)) →
      getByPath (applyCLIFlagsGeneric cmd config typ) k = getByPath config k) := by
  constructor
  · intro h
    rw [applyCLIFlagsGeneric_eq]
    exact applyFlagLeaves_of_unset cmd _ config h
  · intro k h
    rw [applyCLIFlagsGeneric_eq]
    exact getByPath_applyFlagLeaves_frame cmd k _ config h

theorem C21_unset_flags_change_nothing_witness :
    (∀ e ∈ schemaLeaves demoType, demoCommand.IsSet (replaceDots e.1) = true →
      Diverge (splitOnByte '.' "server.host".toList) (splitOnByte '.' e.1)) ∧
    getByPath (applyCLIFlagsGeneric demoCommand demoFile demoType) "server.host".toList =
      some (.str "filehost".toList) ∧
    getByPath (applyCLIFlagsGeneric demoCommand demoFile demoType) "server.port".toList =
      some (.num .int 9090) :=
  have hleaves : schemaLeaves demoType =
      [("name".toList, .basic .string), ("server.host".toList, .basic .string),
        ("server.port".toList, .basic .int)] := rfl
  have hdiv : ∀ e ∈ schemaLeaves demoType, demoCommand.IsSet (replaceDots e.1) = true →
      Diverge (splitOnByte '.' "server.host".toList) (splitOnByte '.' e.1) := by
    intro e he hset
    rw [hleaves] at he
    simp only [List.mem_cons, List.mem_singleton, List.not_mem_nil, or_false] at he
    rcases he with rfl | rfl | rfl
    · exact absurd hset (by decide)
    · exact absurd hset (by decide)
    · constructor <;> decide
  ⟨hdiv, (C21_unset_flags_change_nothing demoCommand demoFile demoType).2 _ hdiv, rfl⟩

/-- C21 as stated fails.  In `overlapType` the leaf `a` leads into the leaf
`a.b`.  With only `--a` set, the flag stage writes the string `x` at `a`; the
flag `a-b` of the leaf `a.b` is not set, yet the tree held `kept` at `a.b`
before and holds nothing there afterwards. -/
theorem C21_counterexample :
    schemaLeaves overlapType =
      [("a".toList, .basic .string), ("a.b".toList, .basic .string)] ∧
    overlapCommand.IsSet (replaceDots "a.b".toList) = false ∧
    getByPath overlapTree "a.b".toList = some (.str "kept".toList) ∧
    applyCLIFlagsGeneric overlapCommand overlapTree overlapType =
      [("a".toList, .str "x".toList)] ∧
    getByPath (applyCLIFlagsGeneric overlapCommand overlapTree overlapType) "a.b".toList =
      none := by
  refine ⟨rfl, by decide, rfl, rfl, rfl⟩


/-! ## The value written for a flag that is set -/

/-- C22 (amended): an explicitly set flag is written with the value of the
getter of its declared type.  For a leaf key-path `k` of declared type `ft`
that parts ways with every other leaf key-path and whose flag is set, the tree
after the flag stage holds at `k` the value `flagValue` names, and holds what
it held before when `flagValue` names none.  `flagValue` is the result of the
getter of the type for string, bool, every signed integer kind, uint, uint16,
uint32, uint64, both float kinds, duration and timestamp, for lists of
strings, of the signed integer kinds, of uint16, uint32, of the float kinds
and of timestamps, and for mappings from string to string; for a uint8 leaf it
is the result of the `Uint` getter converted to uint8, the value itself when
that is below 256; a list of durations is read with the `Int64Slice` getter;
and lists of bool, uint, uint8 or uint64 are skipped. -/
theorem C22_set_flag_written (cmd : Command) (config : ConfigMap) (typ : GoType) (k : Str)
    (ft : GoType) (hleaf : (k, ft) ∈ schemaLeaves typ)
    (hapart : ∀ e ∈ schemaLeaves typ,
      e = (k, ft) ∨ Diverge (splitOnByte '.' k) (splitOnByte '.' e.1))
    (hset : cmd.IsSet (replaceDots k) = true) :
    getByPath (applyCLIFlagsGeneric cmd config typ) k =
      (match flagValue cmd (replaceDots k) ft with
       | some v => some v
       | none => getByPath config k) ∧
    (∀ f, flagValue cmd f (.basic .string) = some (.str (cmd.String f)) ∧
      flagValue cmd f (.basic .bool) = some (.bool (cmd.Bool f)) ∧
      flagValue cmd f (.basic .int) = some (.num .int (cmd.Int f)) ∧
      flagValue cmd f (.basic .int8) = some (.num .int8 (cmd.Int8 f)) ∧
      flagValue cmd f (.basic .int16) = some (.num .int16 (cmd.Int16 f)) ∧
      flagValue cmd f (.basic .int32) = some (.num .int32 (cmd.Int32 f)) ∧
      flagValue cmd f (.basic .int64) = some (.num .int64 (cmd.Int64 f)) ∧
      flagValue cmd f (.basic .uint) = some (.num .uint (Int.ofNat (cmd.Uint f))) ∧
      flagValue cmd f (.basic .uint16) = some (.num .uint16 (Int.ofNat (cmd.Uint16 f))) ∧
      flagValue cmd f (.basic .uint32) = some (.num .uint32 (Int.ofNat (cmd.Uint32 f))) ∧
      flagValue cmd f (.basic .uint64) = some (.num .uint64 (Int.ofNat (cmd.Uint64 f))) ∧
      flagValue cmd f (.basic .float32) = some (.float .float32 (cmd.Float32 f)) ∧
      flagValue cmd f (.basic .float64) = some (.float .float64 (cmd.Float64 f)) ∧
      flagValue cmd f .duration = some (.duration (cmd.Duration f)) ∧
      flagValue cmd f .time = some (.time (cmd.Timestamp f))) ∧
    (∀ f, flagValue cmd f (.basic .uint8) = some (.num .uint8 (Int.ofNat (cmd.Uint f % 256))) ∧
      (cmd.Uint f < 256 →
        flagValue cmd f (.basic .uint8) = some (.num .uint8 (Int.ofNat (cmd.Uint f))))) ∧
    (∀ f, flagValue cmd f (.slice (.basic .string)) = some (.strs (cmd.StringSlice f)) ∧
      flagValue cmd f (.slice (.basic .int)) = some (.nums .int (cmd.IntSlice f)) ∧
      flagValue cmd f (.slice (.basic .int8)) = some (.nums .int8 (cmd.Int8Slice f)) ∧
      flagValue cmd f (.slice (.basic .int16)) = some (.nums .int16 (cmd.Int16Slice f)) ∧
      flagValue cmd f (.slice (.basic .int32)) = some (.nums .int32 (cmd.Int32Slice f)) ∧
      flagValue cmd f (.slice (.basic .int64)) = some (.nums .int64 (cmd.Int64Slice f)) ∧
      flagValue cmd f (.slice (.basic .uint16)) =
        some (.nums .uint16 ((cmd.Uint16Slice f).map Int.ofNat)) ∧
      flagValue cmd f (.slice (.basic .uint32)) =
        some (.nums .uint32 ((cmd.Uint32Slice f).map Int.ofNat)) ∧
      flagValue cmd f (.slice (.basic .float32)) = some (.floats .float32 (cmd.Float32Slice f)) ∧
      flagValue cmd f (.slice (.basic .float64)) = some (.floats .float64 (cmd.Float64Slice f)) ∧
      flagValue cmd f (.slice .time) = some (.times (cmd.TimestampArgs f)) ∧
      flagValue cmd f (.map (.basic .string) (.basic .string)) =
        some (.strMap (cmd.StringMap f))) ∧
    (∀ f, flagValue cmd f (.slice .duration) = some (.nums .int64 (cmd.Int64Slice f)) ∧
      flagValue cmd f (.slice (.basic .bool)) = none ∧
      flagValue cmd f (.slice (.basic .uint)) = none ∧
      flagValue cmd f (.slice (.basic .uint8)) = none ∧
      flagValue cmd f (.slice (.basic .uint64)) = none) := by
  refine ⟨?_, fun f => ⟨rfl, rfl, rfl, rfl, rfl, rfl, rfl, rfl, rfl, rfl, rfl, rfl, rfl, rfl, rfl⟩,
    fun f => ⟨rfl, fun h => ?_⟩,
    fun f => ⟨rfl, rfl, rfl, rfl, rfl, rfl, rfl, rfl, rfl, rfl, rfl, ?_⟩,
    fun f => ⟨rfl, rfl, rfl, rfl, rfl⟩⟩
  · have h := (getByPath_applyFlagLeaves cmd k ft _ config hapart).1 hleaf
    have hl : flagLayer (some cmd) k ft = flagValue cmd (replaceDots k) ft := by
      simp only [flagLayer, hset, if_true]
    rw [hl] at h
    rw [applyCLIFlagsGeneric_eq]
    exact h
  · have : flagValue cmd f (.basic .uint8) =
        some (.num .uint8 (Int.ofNat (cmd.Uint f % 256))) := rfl
    rw [this, Nat.mod_eq_of_lt h]
  · simp [flagValue, GoType.kind, GoType.keyType, GoType.elemType]

theorem C22_set_flag_written_witness :
    ((("server.port".toList, GoType.basic .int) ∈ schemaLeaves demoType) ∧
      demoCommand.IsSet (replaceDots "server.port".toList) = true) ∧
    getByPath (applyCLIFlagsGeneric demoCommand demoFile demoType) "server.port".toList =
      some (.num .int 9090) :=
  have hleaves : schemaLeaves demoType =
      [("name".toList, .basic .string), ("server.host".toList, .basic .string),
        ("server.port".toList, .basic .int)] := rfl
  have hleaf : ("server.port".toList, GoType.basic .int) ∈ schemaLeaves demoType := by
    rw [hleaves]; simp
  have hapart : ∀ e ∈ schemaLeaves demoType, e = ("server.port".toList, GoType.basic .int) ∨
      Diverge (splitOnByte '.' "server.port".toList) (splitOnByte '.' e.1) := by
    intro e he
    rw [hleaves] at he
    simp only [List.mem_cons, List.mem_singleton, List.not_mem_nil, or_false] at he
    rcases he with rfl | rfl | rfl
    · right; constructor <;> decide
    · right; constructor <;> decide
    · left; rfl
  ⟨⟨hleaf, rfl⟩,
    (C22_set_flag_written demoCommand demoFile demoType "server.port".toList (.basic .int)
      hleaf hapart rfl).1⟩

/-- C22 as stated fails.  For the uint8 leaf `level` the flag stage writes the
result of the `Uint` getter converted to uint8: with `--level 300` the tree
holds 44, not 300.  For the leaf `marks`, a list of bool, the flag stage has
no getter: with `--marks` set the tree holds what it held before. -/
theorem C22_counterexample :
    schemaLeaves narrowType =
      [("level".toList, .basic .uint8), ("marks".toList, .slice (.basic .bool))] ∧
    narrowCommand.IsSet (replaceDots "level".toList) = true ∧
    narrowCommand.IsSet (replaceDots "marks".toList) = true ∧
    narrowCommand.Uint (replaceDots "level".toList) = 300 ∧
    getByPath (applyCLIFlagsGeneric narrowCommand narrowTree narrowType) "level".toList =
      some (.num .uint8 44) ∧
    getByPath (applyCLIFlagsGeneric narrowCommand narrowTree narrowType) "marks".toList =
      getByPath narrowTree "marks".toList := by
  refine ⟨rfl, by decide, by decide, rfl, rfl, rfl⟩


/-! ## The file loop uses the first readable candidate -/

theorem ExpandTemplate_ne_exhausted (environ : List Str) (text : Str) :
    Templexp.ExpandTemplate environ text ≠ .exhausted := by
  rw [Templexp.ExpandTemplate_eq]
  have h := Templexp.expandShellParameters_ne_exhausted text (Templexp.newTemplateData environ)
  cases hr : Templexp.expandShellParameters text (Templexp.newTemplateData environ) with
  | ok p => obtain ⟨s, e⟩ := p; simp
  | error m => simp
  | exhausted => exact absurd hr h

/-- The file loop passes over the candidates that cannot be read. -/
theorem loadConfigFile_skip (w : World) (noExp : Bool) (pre rest : List Str)
    (configMap : ConfigMap) (h : ∀ q ∈ pre, w.readFile q = none) :
    loadConfigFile w noExp (pre ++ rest) configMap = loadConfigFile w noExp rest configMap := by
  induction pre with
  | nil => rfl
  | cons q pre ih =>
    rw [List.cons_append, loadConfigFile, h q (List.mem_cons_self _ _)]
    exact ih (fun x hx => h x (List.mem_cons_of_mem _ hx))

/-- The file loop stops at a candidate that can be read. -/
theorem loadConfigFile_stop (w : World) (noExp : Bool) (p : Str) (post : List Str)
    (configMap : ConfigMap) (content : Str) (h : w.readFile p = some content) :
    loadConfigFile w noExp (p :: post) configMap = loadConfigFile w noExp [p] configMap := by
  rw [loadConfigFile, loadConfigFile]
  cases hr : w.readFile p with
  | none => rw [hr] at h; exact Option.noConfusion h
  | some c => rfl

theorem loadConfigFile_single (w : World) (noExp : Bool) (p : Str) (configMap : ConfigMap)
    (content : Str) (h : w.readFile p = some content) :
    loadConfigFile w noExp [p] configMap =
      match (if (!noExp) = true then Templexp.ExpandTemplate w.environ content
          else Templexp.Outcome.ok content) with
      | .error expandErr =>
        .error ("expand template in ".toList ++ p ++ ": ".toList ++ expandErr)
      | .exhausted => .exhausted
      | .ok content1 =>
        match parseConfigBytes w p content1 with
        | .error err => .error ("parse config file ".toList ++ p ++ ": ".toList ++ err)
        | .ok fileMap => .ok (mergeMaps configMap fileMap) := by
  rw [loadConfigFile]
  cases hr : w.readFile p with
  | none => rw [hr] at h; exact Option.noConfusion h
  | some c =>
    rw [hr] at h
    cases h
    rfl

/-- C23: the first readable candidate file is used exclusively.  Let `p` be
the first candidate whose read succeeds, with content `content`: the file loop
of `load` gives what it gives for the single candidate `p`, whatever the later
candidates are and whether they exist; that is the error of the expansion of
`content` or of its parsing when one of them fails, and else the defaults
merged with the parsed content.  An error of the file loop is the result of
`load`.  And if no candidate can be read, the loop raises no error and gives
the tree it was given, the tree built from the defaults. -/
theorem C23_first_readable_file (w : World) (noExp : Bool) (tree : ConfigMap) :
    (∀ (pre post : List Str) (p content : Str),
      (∀ q ∈ pre, w.readFile q = none) → w.readFile p = some content →
      loadConfigFile w noExp (pre ++ p :: post) tree = loadConfigFile w noExp [p] tree ∧
      loadConfigFile w noExp [p] tree ≠ .exhausted ∧
      (∀ expandErr, noExp = false →
        Templexp.ExpandTemplate w.environ content = .error expandErr →
        loadConfigFile w noExp [p] tree =
          .error ("expand template in ".toList ++ p ++ ": ".toList ++ expandErr)) ∧
      (∀ content1 err,
        (noExp = true ∧ content1 = content ∨
          noExp = false ∧ Templexp.ExpandTemplate w.environ content = .ok content1) →
        parseConfigBytes w p content1 = .error err →
        loadConfigFile w noExp [p] tree =
          .error ("parse config file ".toList ++ p ++ ": ".toList ++ err)) ∧
      (∀ content1 fileMap,
        (noExp = true ∧ content1 = content ∨
          noExp = false ∧ Templexp.ExpandTemplate w.environ content = .ok content1) →
        parseConfigBytes w p content1 = .ok fileMap →
        loadConfigFile w noExp [p] tree = .ok (mergeMaps tree fileMap))) ∧
    (∀ paths : List Str, (∀ q ∈ paths, w.readFile q = none) →
      loadConfigFile w noExp paths tree = .ok tree) ∧
    (∀ {τ : Type} (decode : ConfigMap → Except Str τ) (typ : GoType) (v : GoValue)
      (callerSkip : Int) (opts : List LoadOption) (err : Str),
      loadConfigFile w (resolveOptions w callerSkip opts).noTemplateExpansion
          (candidatePaths w (resolveOptions w callerSkip opts)) (structToMap typ v) =
        .error err →
      load w decode typ v callerSkip opts = .error err) := by
  refine ⟨?_, fun paths h => loadConfigFile_of_unreadable w noExp paths tree h, ?_⟩
  · intro pre post p content hpre hp
    have hexp : ∀ content1,
        (noExp = true ∧ content1 = content ∨
          noExp = false ∧ Templexp.ExpandTemplate w.environ content = .ok content1) →
        (if (!noExp) = true then Templexp.ExpandTemplate w.environ content
          else Templexp.Outcome.ok content) = .ok content1 := by
      intro content1 h
      rcases h with ⟨h1, h2⟩ | ⟨h1, h2⟩
      · simp [h1, h2]
      · simp [h1, h2]
    refine ⟨?_, ?_, ?_, ?_, ?_⟩
    · rw [loadConfigFile_skip w noExp pre _ tree hpre, loadConfigFile_stop w noExp p post tree _ hp]
    · rw [loadConfigFile_single w noExp p tree content hp]
      cases hn : noExp with
      | true =>
        simp only [Bool.not_true, Bool.false_eq_true, if_false]
        cases parseConfigBytes w p content <;> simp
      | false =>
        simp only [Bool.not_false, if_true]
        cases he : Templexp.ExpandTemplate w.environ content with
        | error m => simp
        | exhausted => exact absurd he (ExpandTemplate_ne_exhausted _ _)
        | ok c1 => simp only; cases parseConfigBytes w p c1 <;> simp
    · intro expandErr hn he
      rw [loadConfigFile_single w noExp p tree content hp]
      simp [hn, he]
    · intro content1 err h hparse
      rw [loadConfigFile_single w noExp p tree content hp, hexp content1 h]
      simp [hparse]
    · intro content1 fileMap h hparse
      rw [loadConfigFile_single w noExp p tree content hp, hexp content1 h]
      simp [hparse]
  · intro τ decode typ v callerSkip opts err h
    have hmap : loadConfigMap w typ v callerSkip opts = .error err := by
      rw [loadConfigMap_bindEnvironment, h]
    rw [load, hmap]

theorem C23_first_readable_file_witness :
    ((∀ q ∈ ["/etc/zero.yaml".toList], twoFilesWorld.readFile q = none) ∧
      twoFilesWorld.readFile "/etc/one.yaml".toList = some "one".toList ∧
      twoFilesWorld.readFile "/etc/two.yaml".toList = some "two".toList ∧
      parseConfigBytes twoFilesWorld "/etc/one.yaml".toList "one".toList = .ok demoFile) ∧
    loadConfigFile twoFilesWorld true
        (["/etc/zero.yaml".toList] ++ "/etc/one.yaml".toList :: ["/etc/two.yaml".toList])
        (structToMap demoType demoDefault) =
      loadConfigFile twoFilesWorld true ["/etc/one.yaml".toList]
        (structToMap demoType demoDefault) ∧
    loadConfigFile twoFilesWorld true ["/etc/one.yaml".toList]
        (structToMap demoType demoDefault) =
      .ok (mergeMaps (structToMap demoType demoDefault) demoFile) :=
  have hpre : ∀ q ∈ ["/etc/zero.yaml".toList], twoFilesWorld.readFile q = none := by
    intro q hq
    rw [List.mem_singleton.mp hq]
    rfl
  ⟨⟨hpre, rfl, rfl, rfl⟩,
    ((C23_first_readable_file twoFilesWorld true (structToMap demoType demoDefault)).1
      ["/etc/zero.yaml".toList] ["/etc/two.yaml".toList] "/etc/one.yaml".toList "one".toList
      hpre rfl).1,
    ((C23_first_readable_file twoFilesWorld true (structToMap demoType demoDefault)).1
      ["/etc/zero.yaml".toList] ["/etc/two.yaml".toList] "/etc/one.yaml".toList "one".toList
      hpre rfl).2.2.2.2 "one".toList demoFile (Or.inl ⟨rfl, rfl⟩) rfl⟩


/-! ## The root of a configuration file -/

/-- C24 (amended): the root of a configuration file.  For the document root
`r` that the JSON or YAML decoder produces: `parseConfigBytes` succeeds with
the key-normalized mapping when `r` is a mapping (with string keys or with keys
of any type), succeeds with the empty mapping when `r` is the null root of an
empty or null document, and returns the error `config root must be object` for
every other root, a scalar or a sequence.  An error of the decoder is
returned as it is. -/
theorem C24_root_mapping (w : World) (path content : Str) :
    (∀ r, (if isJSONPath w path then w.jsonUnmarshal content else w.yamlUnmarshal content) =
        .ok r →
      parseConfigBytes w path content =
        match r with
        | .map m => .ok (normalizeEntries m [])
        | .mapAny m => .ok (normalizeEntries m [])
        | .null => .ok []
        | _ => .error "config root must be object".toList) ∧
    (∀ err, (if isJSONPath w path then w.jsonUnmarshal content else w.yamlUnmarshal content) =
        .error err →
      parseConfigBytes w path content = .error err) := by
  constructor
  · intro r h
    rw [parseConfigBytes]
    simp only [h]
    cases r with
    | seq xs => simp [normalizeMapKeys]
    | map m => simp [normalizeMapKeys]
    | mapAny m => simp [normalizeMapKeys]
    | _ => rfl
  · intro err h
    rw [parseConfigBytes]
    simp only [h]

theorem C24_root_mapping_witness :
    (if isJSONPath twoFilesWorld "/etc/one.yaml".toList
        then twoFilesWorld.jsonUnmarshal "one".toList
        else twoFilesWorld.yamlUnmarshal "one".toList) = .ok (.map demoFile) ∧
    parseConfigBytes twoFilesWorld "/etc/one.yaml".toList "one".toList = .ok demoFile :=
  ⟨rfl, (C24_root_mapping twoFilesWorld "/etc/one.yaml".toList "one".toList).1 (.map demoFile) rfl⟩

/-- C24 as stated fails.  For the null root, which the decoder produces for an
empty document, `parseConfigBytes` returns the empty mapping and no error. -/
theorem C24_counterexample :
    (if isJSONPath emptyDocumentWorld "config.yaml".toList
        then emptyDocumentWorld.jsonUnmarshal []
        else emptyDocumentWorld.yamlUnmarshal []) = .ok .null ∧
    parseConfigBytes emptyDocumentWorld "config.yaml".toList [] = .ok [] :=
  ⟨rfl, rfl⟩

/-! ## The default search paths -/

/-- C28: the default search order.  For a non-empty application name `a`
(the first argument) and a resolvable home directory `h`, `DefaultPaths` is the
five paths `.a.yaml`, `h` joined with `.a.yaml`, `/etc/a/config.yaml`,
`config.yaml`, `config/config.yaml` in this order; without an argument or with
the empty name it is the two paths `config.yaml`, `config/config.yaml`; and for
every argument the result ends with these two. -/
theorem C28_default_paths (w : World) :
    (∀ (a h : Str) (more : List Str), a ≠ [] → w.userHomeDir = some h →
      DefaultPaths w (a :: more) =
        [['.'] ++ a ++ ".yaml".toList, w.join h (['.'] ++ a ++ ".yaml".toList),
          "/etc/".toList ++ a ++ "/config.yaml".toList,
          "config.yaml".toList, "config/config.yaml".toList]) ∧
    DefaultPaths w [] = ["config.yaml".toList, "config/config.yaml".toList] ∧
    DefaultPaths w [[]] = ["config.yaml".toList, "config/config.yaml".toList] ∧
    (∀ appName, ∃ front,
      DefaultPaths w appName = front ++ ["config.yaml".toList, "config/config.yaml".toList]) := by
  refine ⟨?_, rfl, rfl, ?_⟩
  · intro a h more ha hh
    simp [DefaultPaths, ha, hh]
  · intro appName
    exact ⟨_, rfl⟩

theorem C28_default_paths_witness :
    ("myapp".toList ≠ [] ∧ homeWorld.userHomeDir = some "/home/u".toList) ∧
    DefaultPaths homeWorld ["myapp".toList] =
      [".myapp.yaml".toList, "/home/u/.myapp.yaml".toList, "/etc/myapp/config.yaml".toList,
        "config.yaml".toList, "config/config.yaml".toList] :=
  ⟨⟨by decide, rfl⟩,
    (C28_default_paths homeWorld).1 "myapp".toList "/home/u".toList [] (by decide) rfl⟩

/-! ## Writing at a key-path -/

theorem setByParts_cons_cons (part : Str) (rest : List Str) (current : ConfigMap)
    (value : GoAny) (h : rest ≠ []) :
    setByParts (part :: rest) current value =
      mapSet current part
        (.map (setByParts rest ((asMap (mapGet current part)).getD []) value)) := by
  obtain ⟨p2, rest2, rfl⟩ := List.exists_cons_of_ne_nil h
  exact setByParts_cons part p2 rest2 current value

/-- Written into the empty map, a path leaves a mapping with one key. -/
theorem setByParts_nil_map (s : Str) (rest : List Str) (value : GoAny) :
    ∃ x, setByParts (s :: rest) [] value = [(s, x)] := by
  cases rest with
  | nil => exact ⟨value, rfl⟩
  | cons p2 rest2 => exact ⟨_, by rw [setByParts_cons]; rfl⟩

/-- A node on the way that was missing or no mapping is a new mapping with the
next segment as its only key. -/
theorem getAt_setByParts_created (q : List Str) :
    ∀ (s : Str) (rest : List Str) (d : ConfigMap) (v : GoAny), q ≠ [] →
      (∀ m, getAt q (.map d) ≠ some (.map m)) →
      ∃ x, getAt q (.map (setByParts (q ++ s :: rest) d v)) = some (.map [(s, x)]) := by
  induction q with
  | nil => intro _ _ _ _ h; exact absurd rfl h
  | cons a q2 ih =>
    intro s rest d v _ hold
    rw [List.cons_append, setByParts_cons_cons a _ d v (by simp), getAt_cons_map,
      mapGet_mapSet_same, Option.some_bind]
    cases q2 with
    | nil =>
      have hnone : asMap (mapGet d a) = none := by
        cases hm : asMap (mapGet d a) with
        | none => rfl
        | some m =>
          exfalso
          apply hold m
          rw [getAt_cons_map, asMap_eq_some _ _ hm]
          rfl
      obtain ⟨x, hx⟩ := setByParts_nil_map s rest v
      refine ⟨x, ?_⟩
      simp only [List.nil_append, hnone, Option.getD_none, hx, getAt]
    | cons b q3 =>
      cases hm : asMap (mapGet d a) with
      | some m =>
        simp only [Option.getD_some]
        apply ih s rest m v (by simp)
        intro m2 h2
        apply hold m2
        rw [getAt_cons_map, asMap_eq_some _ _ hm]
        exact h2
      | none =>
        simp only [Option.getD_none]
        apply ih s rest [] v (by simp)
        intro m2 h2
        rw [getAt_nonempty_nil _ (by simp)] at h2
        exact Option.noConfusion h2

/-- A mapping on the way keeps every key other than the segment taken. -/
theorem getAt_setByParts_kept (q : List Str) :
    ∀ (s : Str) (rest : List Str) (d m : ConfigMap) (v : GoAny),
      getAt q (.map d) = some (.map m) →
      ∃ m2, getAt q (.map (setByParts (q ++ s :: rest) d v)) = some (.map m2) ∧
        ∀ key, key ≠ s → mapGet m2 key = mapGet m key := by
  induction q with
  | nil =>
    intro s rest d m v h
    simp only [getAt, Option.some.injEq, GoAny.map.injEq] at h
    subst h
    refine ⟨setByParts (s :: rest) d v, rfl, ?_⟩
    intro key hkey
    cases rest with
    | nil => rw [setByParts_single, mapGet_mapSet_other _ _ _ _ hkey]
    | cons p2 rest2 => rw [setByParts_cons, mapGet_mapSet_other _ _ _ _ hkey]
  | cons a q2 ih =>
    intro s rest d m v h
    rw [getAt_cons_map] at h
    cases hg : mapGet d a with
    | none => rw [hg] at h; exact Option.noConfusion h
    | some x =>
      rw [hg, Option.some_bind] at h
      have hx : ∃ m1, x = .map m1 := by
        cases q2 with
        | nil =>
          simp only [getAt, Option.some.injEq] at h
          exact ⟨m, h⟩
        | cons b q3 => exact isMap_of_getAt (b :: q3) x _ (by simp) h
      obtain ⟨m1, rfl⟩ := hx
      rw [List.cons_append, setByParts_cons_cons a _ d v (by simp), getAt_cons_map,
        mapGet_mapSet_same, Option.some_bind, hg]
      exact ih s rest m1 m v h

/-- C29: writing at a key-path.  With `s1..sn` the segments of `p` split at
`.`: after `setByPath(d, p, v)` the descent through `s1..sn` reaches `v`; a
node on the way that was missing or no mapping is a new mapping whose only key
is the next segment; at every mapping on the way (the root included) every key
other than the segment taken keeps its value; and what the tree holds at a
path that parts ways with `p` is unchanged. -/
theorem C29_write_at_path (d : ConfigMap) (p : Str) (v : GoAny) :
    getAt (splitOnByte '.' p) (.map (setByPath d p v)) = some v ∧
    (∀ (q : List Str) (s : Str) (rest : List Str), splitOnByte '.' p = q ++ s :: rest → q ≠ [] →
      (∀ m, getAt q (.map d) ≠ some (.map m)) →
      ∃ x, getAt q (.map (setByPath d p v)) = some (.map [(s, x)])) ∧
    (∀ (q : List Str) (s : Str) (rest : List Str) (m : ConfigMap),
      splitOnByte '.' p = q ++ s :: rest → getAt q (.map d) = some (.map m) →
      ∃ m2, getAt q (.map (setByPath d p v)) = some (.map m2) ∧
        ∀ key, key ≠ s → mapGet m2 key = mapGet m key) ∧
    (∀ q : List Str, Diverge q (splitOnByte '.' p) →
      getAt q (.map (setByPath d p v)) = getAt q (.map d)) := by
  refine ⟨getByPath_setByPath_same d p v, ?_, ?_, ?_⟩
  · intro q s rest hsplit hq hold
    rw [setByPath, hsplit]
    exact getAt_setByParts_created q s rest d v hq hold
  · intro q s rest m hsplit hm
    rw [setByPath, hsplit]
    exact getAt_setByParts_kept q s rest d m v hm
  · intro q hdiv
    exact getAt_setByParts_diverge _ q d v hdiv

theorem C29_write_at_path_witness :
    (splitOnByte '.' "server.tls.cert".toList =
        ["server".toList] ++ "tls".toList :: ["cert".toList] ∧
      getAt ["server".toList] (.map mergeDst) = some (.str "off".toList)) ∧
    setByPath mergeDst "server.tls.cert".toList (.str "pem".toList) =
      [("server".toList, .map [("tls".toList, .map [("cert".toList, .str "pem".toList)])]),
        ("log".toList, .map [("level".toList, .str "info".toList),
          ("file".toList, .str "app.log".toList)])] ∧
    getAt ["server".toList, "tls".toList, "cert".toList]
      (.map (setByPath mergeDst "server.tls.cert".toList (.str "pem".toList))) =
      some (.str "pem".toList) ∧
    (∃ x, getAt ["server".toList]
      (.map (setByPath mergeDst "server.tls.cert".toList (.str "pem".toList))) =
      some (.map [("tls".toList, x)])) :=
  ⟨⟨rfl, rfl⟩, rfl,
    (C29_write_at_path mergeDst "server.tls.cert".toList (.str "pem".toList)).1,
    (C29_write_at_path mergeDst "server.tls.cert".toList (.str "pem".toList)).2.1
      ["server".toList] "tls".toList ["cert".toList] rfl (by simp)
      (fun m h => GoAny.noConfusion (Option.some.inj (h : some (GoAny.str "off".toList) = _)))⟩


/-! ## The enumeration of the leaf key-paths -/

theorem dotJoin_cons (name : Str) (names : List Str) (h : names ≠ []) :
    dotJoin (name :: names) = name ++ '.' :: dotJoin names := by
  obtain ⟨n2, rest, rfl⟩ := List.exists_cons_of_ne_nil h
  rfl

theorem keyPathsOfType_not_struct (typ : GoType) (h : isStructType typ = false) :
    keyPathsOfType typ = [] := by
  cases typ with
  | pointer e =>
    cases e with
    | struct fs => simp [isStructType] at h
    | _ => simp [keyPathsOfType]
  | struct fs => simp [isStructType] at h
  | _ => simp [keyPathsOfType]

mutual
/-- No enumerated path is empty. -/
theorem keyPathsOfType_ne_nil : ∀ (typ : GoType), ∀ names ∈ keyPathsOfType typ, names ≠ []
  | .pointer (.struct fs), names, h => by
    rw [keyPathsOfType] at h
    exact keyPathsOfFields_ne_nil fs names h
  | .struct fs, names, h => by
    rw [keyPathsOfType] at h
    exact keyPathsOfFields_ne_nil fs names h
  | .basic k, names, h => by simp [keyPathsOfType] at h
  | .duration, names, h => by simp [keyPathsOfType] at h
  | .time, names, h => by simp [keyPathsOfType] at h
  | .slice e, names, h => by simp [keyPathsOfType] at h
  | .map k e, names, h => by simp [keyPathsOfType] at h
  | .pointer (.basic k), names, h => by simp [keyPathsOfType] at h
  | .pointer .duration, names, h => by simp [keyPathsOfType] at h
  | .pointer .time, names, h => by simp [keyPathsOfType] at h
  | .pointer (.slice e), names, h => by simp [keyPathsOfType] at h
  | .pointer (.map k e), names, h => by simp [keyPathsOfType] at h
  | .pointer (.pointer e), names, h => by simp [keyPathsOfType] at h
theorem keyPathsOfFields_ne_nil : ∀ (fs : Fields), ∀ names ∈ keyPathsOfFields fs, names ≠ []
  | .nil, names, h => by simp [keyPathsOfFields] at h
  | .cons _ tag ft rest, names, h => by
    rw [keyPathsOfFields] at h
    by_cases h1 : configTagName tag = []
    · simp only [h1, if_true] at h
      exact keyPathsOfFields_ne_nil rest names h
    · simp only [h1, if_false] at h
      by_cases h2 : isStructType ft = true
      · simp only [h2, if_true, List.mem_append, List.mem_map] at h
        rcases h with ⟨n2, _, rfl⟩ | h
        · simp
        · exact keyPathsOfFields_ne_nil rest names h
      · simp only [h2, Bool.false_eq_true, if_false, List.mem_cons] at h
        rcases h with rfl | h
        · simp
        · exact keyPathsOfFields_ne_nil rest names h
end

/-- The key-path of a sequence of key names below a prefix. -/
theorem dotJoin_under (pfx key : Str) (names : List Str) (hk : key ≠ []) (hn : names ≠ []) :
    (if (if pfx ≠ [] then pfx ++ ['.'] ++ key else key) ≠ [] then
        (if pfx ≠ [] then pfx ++ ['.'] ++ key else key) ++ ['.'] ++ dotJoin names
      else dotJoin names) =
      if pfx ≠ [] then pfx ++ ['.'] ++ dotJoin (key :: names) else dotJoin (key :: names) := by
  rw [dotJoin_cons key names hn]
  by_cases hp : pfx = []
  · simp [hp, hk]
  · simp [hp]

mutual
theorem leavesOfType_keyPaths : ∀ (typ : GoType) (pfx : Str),
    (leavesOfType typ pfx).map Prod.fst =
      (keyPathsOfType typ).map
        (fun names => if pfx ≠ [] then pfx ++ ['.'] ++ dotJoin names else dotJoin names)
  | .pointer (.struct fs), pfx => by
    rw [leavesOfType, keyPathsOfType]
    exact leavesOfFields_keyPaths fs pfx
  | .struct fs, pfx => by
    rw [leavesOfType, keyPathsOfType]
    exact leavesOfFields_keyPaths fs pfx
  | .basic k, pfx => by simp [leavesOfType, keyPathsOfType]
  | .duration, pfx => by simp [leavesOfType, keyPathsOfType]
  | .time, pfx => by simp [leavesOfType, keyPathsOfType]
  | .slice e, pfx => by simp [leavesOfType, keyPathsOfType]
  | .map k e, pfx => by simp [leavesOfType, keyPathsOfType]
  | .pointer (.basic k), pfx => by simp [leavesOfType, keyPathsOfType]
  | .pointer .duration, pfx => by simp [leavesOfType, keyPathsOfType]
  | .pointer .time, pfx => by simp [leavesOfType, keyPathsOfType]
  | .pointer (.slice e), pfx => by simp [leavesOfType, keyPathsOfType]
  | .pointer (.map k e), pfx => by simp [leavesOfType, keyPathsOfType]
  | .pointer (.pointer e), pfx => by simp [leavesOfType, keyPathsOfType]
theorem leavesOfFields_keyPaths : ∀ (fs : Fields) (pfx : Str),
    (leavesOfFields fs pfx).map Prod.fst =
      (keyPathsOfFields fs).map
        (fun names => if pfx ≠ [] then pfx ++ ['.'] ++ dotJoin names else dotJoin names)
  | .nil, pfx => by simp [leavesOfFields, keyPathsOfFields]
  | .cons _ tag ft rest, pfx => by
    rw [leavesOfFields, keyPathsOfFields]
    by_cases h1 : configTagName tag = []
    · simp only [h1, if_true]
      exact leavesOfFields_keyPaths rest pfx
    · simp only [h1, if_false]
      by_cases h2 : isStructType ft = true
      · simp only [h2, if_true, List.map_append, List.map_map]
        rw [leavesOfFields_keyPaths rest pfx, leavesOfType_keyPaths ft]
        congr 1
        apply List.map_congr_left
        intro names hn
        exact dotJoin_under pfx (configTagName tag) names h1 (keyPathsOfType_ne_nil ft names hn)
      · simp only [h2, Bool.false_eq_true, if_false, List.map_cons]
        rw [leavesOfFields_keyPaths rest pfx]
        rfl
end

/-- C25: the enumeration of the leaf key-paths.  `collectConfigKeys` returns
the key-paths of the specification, each the key names from the root to a leaf
joined with `.`, depth-first in declaration order: a field that is a record or
a pointer to a record (`isStructType`) is entered and not collected, every
other field with a key name is a leaf, durations and timestamps among them, and
a field without a key name (no tag, an empty name as in `,omitempty`, or `-`)
gives no key-path, also when it is a record whose fields have key names. -/
theorem C25_key_path_enumeration (typ : GoType) :
    collectConfigKeys typ = (keyPathsOfType typ).map dotJoin ∧
    (∀ ft, isStructType ft = true ↔ ∃ fs, ft = .struct fs ∨ ft = .pointer (.struct fs)) ∧
    (isStructType .duration = false ∧ isStructType .time = false ∧
      isStructType (.pointer .time) = false) ∧
    (configTagName [] = [] ∧ configTagName ",omitempty".toList = [] ∧
      configTagName "-".toList = [] ∧ configTagName "at,omitempty".toList = "at".toList) ∧
    keyPathsOfType walkType =
      [["name".toList], ["wait".toList], ["at".toList], ["inner".toList, "host".toList]] ∧
    collectConfigKeys walkType =
      ["name".toList, "wait".toList, "at".toList, "inner.host".toList] := by
  refine ⟨?_, ?_, ⟨rfl, rfl, rfl⟩, ⟨by decide, by decide, by decide, by decide⟩, rfl, rfl⟩
  · rw [collectConfigKeys_eq, schemaLeaves, leavesOfType_keyPaths]
    apply List.map_congr_left
    intro names _
    simp
  · intro ft
    constructor
    · intro h
      cases ft with
      | struct fs => exact ⟨fs, Or.inl rfl⟩
      | pointer e =>
        cases e with
        | struct fs => exact ⟨fs, Or.inr rfl⟩
        | _ => simp [isStructType] at h
      | _ => simp [isStructType] at h
    · rintro ⟨fs, rfl | rfl⟩ <;> rfl

theorem C25_key_path_enumeration_witness :
    collectConfigKeys demoType =
      ["name".toList, "server.host".toList, "server.port".toList] :=
  (C25_key_path_enumeration demoType).1.trans rfl


/-! ## What the tree built from a value holds -/

/-- One step of the field loop of `structValueToMap`, the pointer step of
`valueToAny` folded back. -/
theorem fieldsToMap_cons (pkgPath tag : Str) (ft : GoType) (rest : Fields)
    (vals : List GoValue) (out : ConfigMap) :
    fieldsToMap (.cons pkgPath tag ft rest) vals out =
      if pkgPath ≠ [] then fieldsToMap rest vals.tail out
      else if configTagName tag = [] then fieldsToMap rest vals.tail out
      else fieldsToMap rest vals.tail
        (mapSet out (configTagName tag) (valueToAny ft (vals.headD .nilPointer))) := by
  cases ft with
  | pointer t =>
    rw [fieldsToMap]
    by_cases h1 : pkgPath = []
    · by_cases h2 : configTagName tag = []
      · simp [h1, h2]
      · simp only [h1, h2, ne_eq, not_true_eq_false, if_false]
        congr 2
        cases vals.headD .nilPointer <;> rfl
    · simp [h1]
  | _ =>
    rw [fieldsToMap]
    · by_cases h1 : pkgPath = []
      · by_cases h2 : configTagName tag = []
        · simp [h1, h2]
        · simp only [h1, h2, ne_eq, not_true_eq_false, if_false]
          congr 2
          cases vals.headD .nilPointer <;> rfl
      · simp [h1]
    · intro t h
      cases h

/-- What the tree built from the fields of a record holds at a key: the
converted value of the last exported field with that key name. -/
theorem mapGet_fieldsToMap : ∀ (fs : Fields) (vals : List GoValue) (out : ConfigMap) (key : Str),
    mapGet (fieldsToMap fs vals out) key =
      match lastField fs vals key with
      | some (ft, fv) => some (valueToAny ft fv)
      | none => mapGet out key
  | .nil, vals, out, key => by rw [fieldsToMap, lastField]
  | .cons pkgPath tag ft rest, vals, out, key => by
    rw [fieldsToMap_cons, lastField]
    by_cases h1 : pkgPath = []
    · by_cases h2 : configTagName tag = []
      · simp only [h1, h2, ne_eq, not_true_eq_false, if_false, if_true, false_and, and_false]
        rw [mapGet_fieldsToMap rest vals.tail out key]
        cases lastField rest vals.tail key <;> rfl
      · simp only [h1, h2, ne_eq, not_true_eq_false, if_false, not_false_eq_true, true_and]
        rw [mapGet_fieldsToMap rest vals.tail _ key]
        cases lastField rest vals.tail key with
        | some found => rfl
        | none =>
          by_cases h3 : configTagName tag = key
          · subst h3
            simp [mapGet_mapSet_same]
          · have h4 : key ≠ configTagName tag := fun h => h3 h.symm
            simp [h3, mapGet_mapSet_other _ _ _ _ h4]
    · simp only [h1, ne_eq, not_false_eq_true, if_true, false_and, if_false]
      rw [mapGet_fieldsToMap rest vals.tail out key]
      cases lastField rest vals.tail key <;> rfl

/-- A record, or a non-nil pointer to one, is converted to the tree of its
fields. -/
theorem valueToAny_of_recordOf (ft : GoType) (fv : GoValue) (fs : Fields) (vals : List GoValue)
    (h : recordOf ft fv = some (fs, vals)) : valueToAny ft fv = .map (fieldsToMap fs vals []) := by
  cases ft with
  | struct fs1 =>
    cases fv with
    | struct vals1 =>
      simp only [recordOf, Option.some.injEq, Prod.mk.injEq] at h
      obtain ⟨rfl, rfl⟩ := h
      rfl
    | _ => simp [recordOf] at h
  | pointer e =>
    cases e with
    | struct fs1 =>
      cases fv with
      | pointer x =>
        cases x with
        | struct vals1 =>
          simp only [recordOf, Option.some.injEq, Prod.mk.injEq] at h
          obtain ⟨rfl, rfl⟩ := h
          rfl
        | _ => simp [recordOf] at h
      | _ => simp [recordOf] at h
    | _ => simp [recordOf] at h
  | _ => simp [recordOf] at h

theorem structToMap_of_recordOf (typ : GoType) (v : GoValue) (fs : Fields)
    (vals : List GoValue) (h : recordOf typ v = some (fs, vals)) :
    structToMap typ v = fieldsToMap fs vals [] := by
  have := valueToAny_of_recordOf typ v fs vals h
  cases typ with
  | struct fs1 =>
    cases v with
    | struct vals1 =>
      simp only [recordOf, Option.some.injEq, Prod.mk.injEq] at h
      obtain ⟨rfl, rfl⟩ := h
      rfl
    | _ => simp [recordOf] at h
  | pointer e =>
    cases e with
    | struct fs1 =>
      cases v with
      | pointer x =>
        cases x with
        | struct vals1 =>
          simp only [recordOf, Option.some.injEq, Prod.mk.injEq] at h
          obtain ⟨rfl, rfl⟩ := h
          rfl
        | _ => simp [recordOf] at h
      | _ => simp [recordOf] at h
    | _ => simp [recordOf] at h
  | _ => simp [recordOf] at h

theorem fieldAtFields_single (name : Str) (fs : Fields) (vals : List GoValue) :
    fieldAtFields [name] fs vals = lastField fs vals name := rfl

theorem fieldAtFields_cons (name n2 : Str) (rest : List Str) (fs : Fields)
    (vals : List GoValue) :
    fieldAtFields (name :: n2 :: rest) fs vals =
      match lastField fs vals name with
      | some (ft, fv) =>
        match recordOf ft fv with
        | some (fs2, vals2) => fieldAtFields (n2 :: rest) fs2 vals2
        | none => none
      | none => none := rfl

/-- The descent along key names in the tree built from a record arrives at the
converted value of the field reached, through mappings only. -/
theorem getAt_fieldsToMap (names : List Str) :
    ∀ (fs : Fields) (vals : List GoValue) (ft : GoType) (fv : GoValue),
      fieldAtFields names fs vals = some (ft, fv) →
      getAt names (.map (fieldsToMap fs vals [])) = some (valueToAny ft fv) ∧
        ∀ q, OnTheWay q names → ∃ m, getAt q (.map (fieldsToMap fs vals [])) = some (.map m) := by
  induction names with
  | nil => intro fs vals ft fv h; simp [fieldAtFields] at h
  | cons name rest ih =>
    intro fs vals ft fv h
    cases rest with
    | nil =>
      rw [fieldAtFields_single] at h
      constructor
      · rw [getAt_cons_map, mapGet_fieldsToMap, h]
        rfl
      · intro q ⟨hq1, hq2, hq3⟩
        exfalso
        rcases List.prefix_cons_iff.mp hq1 with h0 | ⟨t, rfl, ht⟩
        · exact hq3 h0
        · have : t = [] := List.prefix_nil.mp ht
          exact hq2 (by rw [this])
    | cons n2 rest2 =>
      rw [fieldAtFields_cons] at h
      cases hl : lastField fs vals name with
      | none => rw [hl] at h; exact Option.noConfusion h
      | some found =>
        obtain ⟨ft1, fv1⟩ := found
        rw [hl] at h
        simp only at h
        cases hr : recordOf ft1 fv1 with
        | none => rw [hr] at h; exact Option.noConfusion h
        | some r =>
          obtain ⟨fs2, vals2⟩ := r
          rw [hr] at h
          simp only at h
          obtain ⟨ih1, ih2⟩ := ih fs2 vals2 ft fv h
          have hstep : mapGet (fieldsToMap fs vals []) name =
              some (.map (fieldsToMap fs2 vals2 [])) := by
            rw [mapGet_fieldsToMap, hl]
            simp only
            rw [valueToAny_of_recordOf ft1 fv1 fs2 vals2 hr]
          constructor
          · rw [getAt_cons_map, hstep, Option.some_bind]
            exact ih1
          · intro q ⟨hq1, hq2, hq3⟩
            rcases List.prefix_cons_iff.mp hq1 with h0 | ⟨t, rfl, ht⟩
            · exact absurd h0 hq3
            · rw [getAt_cons_map, hstep, Option.some_bind]
              by_cases ht0 : t = []
              · subst ht0
                exact ⟨_, rfl⟩
              · exact ih2 t ⟨ht, fun h => hq2 (by rw [h]), ht0⟩

/-- Splitting at `.` undoes the joining of key names that hold no `.`. -/
theorem splitOnByte_append (n : Str) (tail : Str) (h : '.' ∉ n) :
    splitOnByte '.' (n ++ tail) =
      (n ++ (splitOnByte '.' tail).headD []) :: (splitOnByte '.' tail).tail := by
  induction n with
  | nil =>
    have hne := splitOnByte_ne_nil '.' tail
    cases hs : splitOnByte '.' tail with
    | nil => exact absurd hs hne
    | cons p ps => simpa using hs
  | cons c n ih =>
    have hc : c ≠ '.' := fun e => h (by rw [e]; exact List.mem_cons_self _ _)
    have hn : '.' ∉ n := fun e => h (List.mem_cons_of_mem _ e)
    rw [List.cons_append, splitOnByte, if_neg hc, ih hn]
    rfl

theorem splitOnByte_dotJoin (names : List Str) (hne : names ≠ [])
    (h : ∀ n ∈ names, '.' ∉ n) : splitOnByte '.' (dotJoin names) = names := by
  induction names with
  | nil => exact absurd rfl hne
  | cons n rest ih =>
    have hn : '.' ∉ n := h n (List.mem_cons_self _ _)
    cases rest with
    | nil =>
      have := splitOnByte_append n [] hn
      simpa [dotJoin, splitOnByte] using this
    | cons n2 rest2 =>
      have ih2 := ih (by simp) (fun x hx => h x (List.mem_cons_of_mem _ hx))
      rw [dotJoin_cons n _ (by simp), splitOnByte_append n _ hn]
      have : splitOnByte '.' ('.' :: dotJoin (n2 :: rest2)) = [] :: (n2 :: rest2) := by
        rw [splitOnByte, if_pos rfl, ih2]
      rw [this]
      simp

/-- C26 (amended): the built tree holds the fields of the value at their
key-paths.  Let a descent from the typed value `v` along the key names
`n1..nm`, none of which contains `.`, arrive at a field of type `ft` with value
`fv`, taking at each name the exported field that is the last of its record to
carry that key name, through records and non-nil pointers to records
(`fieldAt`).  Then splitting the key-path `n1.….nm` at `.` and descending
through the mappings of `structToMap(v)` reaches a node that holds the
converted value of that field, and every node on the way is a Mapping. -/
theorem C26_tree_shape (typ : GoType) (v : GoValue) (names : List Str) (ft : GoType)
    (fv : GoValue) (hdots : ∀ n ∈ names, '.' ∉ n)
    (hfield : fieldAt typ v names = some (ft, fv)) :
    getByPath (structToMap typ v) (dotJoin names) = some (valueToAny ft fv) ∧
    (∀ q, OnTheWay q names → ∃ m, getAt q (.map (structToMap typ v)) = some (.map m)) := by
  rw [fieldAt] at hfield
  cases hr : recordOf typ v with
  | none => rw [hr] at hfield; exact Option.noConfusion hfield
  | some r =>
    obtain ⟨fs, vals⟩ := r
    rw [hr] at hfield
    simp only at hfield
    have hne : names ≠ [] := by
      rintro rfl
      simp [fieldAtFields] at hfield
    rw [getByPath, splitOnByte_dotJoin names hne hdots, structToMap_of_recordOf typ v fs vals hr]
    exact getAt_fieldsToMap names fs vals ft fv hfield

theorem C26_tree_shape_witness :
    ((∀ n ∈ ["sub".toList, "x".toList], '.' ∉ n) ∧
      fieldAt nilSubType setSubValue ["sub".toList, "x".toList] =
        some (.basic .string, .prim (.str "deep".toList)) ∧
      "sub.x".toList ∈ collectConfigKeys nilSubType) ∧
    getByPath (structToMap nilSubType setSubValue) "sub.x".toList = some (.str "deep".toList) ∧
    (∃ m, getAt ["sub".toList] (.map (structToMap nilSubType setSubValue)) = some (.map m)) :=
  have hdots : ∀ n ∈ ["sub".toList, "x".toList], '.' ∉ n := by decide
  ⟨⟨hdots, rfl, by decide⟩,
    (C26_tree_shape nilSubType setSubValue ["sub".toList, "x".toList] (.basic .string)
      (.prim (.str "deep".toList)) hdots rfl).1,
    (C26_tree_shape nilSubType setSubValue ["sub".toList, "x".toList] (.basic .string)
      (.prim (.str "deep".toList)) hdots rfl).2 ["sub".toList]
      ⟨⟨["x".toList], rfl⟩, by decide, by decide⟩⟩

/-- C26 as stated fails in each of the three cases it names.  The unexported
field of `secretType` has the key name `secret`: its key-path is enumerated,
and the tree holds nothing there.  The key name `a.b` of `dottedType` is one
key of the tree, and the descent along `a`, `b` finds nothing.  And under the
nil pointer `Sub` of `nilSubValue` the tree holds nil at `sub`, no Mapping,
and nothing at the enumerated key-path `sub.x`. -/
theorem C26_counterexample :
    ("secret".toList ∈ collectConfigKeys secretType ∧
      getByPath (structToMap secretType secretValue) "secret".toList = none) ∧
    (collectConfigKeys dottedType = ["a.b".toList] ∧
      structToMap dottedType dottedValue = [("a.b".toList, .str "v".toList)] ∧
      getByPath (structToMap dottedType dottedValue) "a.b".toList = none) ∧
    (collectConfigKeys nilSubType = ["sub.x".toList, "port".toList] ∧
      getByPath (structToMap nilSubType nilSubValue) "sub".toList = some .null ∧
      getByPath (structToMap nilSubType nilSubValue) "sub.x".toList = none) := by
  refine ⟨⟨by decide, rfl⟩, ⟨rfl, rfl, rfl⟩, ⟨rfl, rfl, rfl⟩⟩

/-- C27 (amended): nil pointers convert without error.  A field of a record
whose value is a nil pointer is converted to the absent value nil at its key,
for a pointer to a nested record as for a pointer to a leaf type (the field
being the exported field that is the last of its record to carry its key name);
the empty Mapping is what a nil pointer gives that is itself the value handed
to `structToMap`.  The conversion is a total function. -/
theorem C27_nil_pointer_field (typ : GoType) (v : GoValue) (fs : Fields) (vals : List GoValue)
    (key : Str) (ft : GoType) (hrec : recordOf typ v = some (fs, vals))
    (hfield : lastField fs vals key = some (ft, .nilPointer)) :
    mapGet (structToMap typ v) key = some .null ∧
    (∀ t, structToMap t .nilPointer = []) ∧
    (∀ t, valueToAny t .nilPointer = .null) := by
  refine ⟨?_, fun t => rfl, fun t => ?_⟩
  · rw [structToMap_of_recordOf typ v fs vals hrec, mapGet_fieldsToMap, hfield]
    simp only [Option.some.injEq]
    cases ft <;> rfl
  · cases t <;> rfl

theorem C27_nil_pointer_field_witness :
    (recordOf nilSubType nilSubValue =
        some (.cons [] "sub".toList
          (.pointer (.struct (.cons [] "x".toList (.basic .string) .nil)))
          (.cons [] "port".toList (.pointer (.basic .int)) .nil), [.nilPointer, .nilPointer]) ∧
      lastField (.cons [] "sub".toList
          (.pointer (.struct (.cons [] "x".toList (.basic .string) .nil)))
          (.cons [] "port".toList (.pointer (.basic .int)) .nil)) [.nilPointer, .nilPointer]
          "sub".toList =
        some (.pointer (.struct (.cons [] "x".toList (.basic .string) .nil)), .nilPointer)) ∧
    mapGet (structToMap nilSubType nilSubValue) "sub".toList = some .null :=
  ⟨⟨rfl, rfl⟩,
    (C27_nil_pointer_field nilSubType nilSubValue _ _ "sub".toList _ rfl rfl).1⟩

/-- C27 as stated fails.  The field `Sub` of `nilSubType` is a pointer to a
nested record; with the nil pointer as its value the tree holds nil at `sub`,
as it does at `port` for the nil pointer to a leaf type, and no empty
Mapping. -/
theorem C27_counterexample :
    structToMap nilSubType nilSubValue = [("sub".toList, .null), ("port".toList, .null)] ∧
    mapGet (structToMap nilSubType nilSubValue) "sub".toList = some .null ∧
    mapGet (structToMap nilSubType nilSubValue) "sub".toList ≠ some (.map []) := by
  refine ⟨rfl, rfl, ?_⟩
  intro h
  have h2 : some GoAny.null = some (GoAny.map []) := h
  exact GoAny.noConfusion (Option.some.inj h2)


/-! ## Key-paths of a schema with distinct key names -/

theorem collectConfigKeys_keyPaths (typ : GoType) :
    collectConfigKeys typ = (keyPathsOfType typ).map dotJoin := by
  rw [collectConfigKeys_eq, schemaLeaves, leavesOfType_keyPaths]
  apply List.map_congr_left
  intro names _
  simp

theorem splitOnByte_append_sep (sep : Char) (a s : Str) :
    splitOnByte sep (a ++ sep :: s) = splitOnByte sep a ++ splitOnByte sep s := by
  induction a with
  | nil => simp [splitOnByte]
  | cons c a ih =>
    rw [List.cons_append, splitOnByte, splitOnByte, ih]
    by_cases hc : c = sep
    · simp [hc]
    · simp only [hc, if_false]
      have hne := splitOnByte_ne_nil sep a
      cases hs : splitOnByte sep a with
      | nil => exact absurd hs hne
      | cons p ps => rfl

theorem diverge_cons_cons (n : Str) {p q : List Str} (h : Diverge p q) :
    Diverge (n :: p) (n :: q) := by
  constructor
  · intro hp
    exact h.1 ((List.prefix_cons_inj n).mp hp)
  · intro hp
    exact h.2 ((List.prefix_cons_inj n).mp hp)

theorem diverge_of_head_ne {n m : Str} (p q : List Str) (h : n ≠ m) :
    Diverge (n :: p) (m :: q) := by
  constructor
  · intro hp
    exact h (List.cons_prefix_cons.mp hp).1
  · intro hp
    exact h (List.cons_prefix_cons.mp hp).1.symm

theorem diverge_symm {p q : List Str} (h : Diverge p q) : Diverge q p := ⟨h.2, h.1⟩

/-- Every enumerated path under the fields of a record starts with the key
name of one of the fields. -/
theorem keyPathsOfFields_head : ∀ (fs : Fields), ∀ names ∈ keyPathsOfFields fs,
    ∃ n tl, names = n :: tl ∧ n ∈ siblingKeys fs
  | .nil, names, h => by simp [keyPathsOfFields] at h
  | .cons _ tag ft rest, names, h => by
    rw [keyPathsOfFields] at h
    rw [siblingKeys]
    by_cases h1 : configTagName tag = []
    · simp only [h1, if_true] at h ⊢
      exact keyPathsOfFields_head rest names h
    · simp only [h1, if_false] at h ⊢
      by_cases h2 : isStructType ft = true
      · simp only [h2, if_true, List.mem_append, List.mem_map] at h
        rcases h with ⟨n2, _, rfl⟩ | h
        · exact ⟨_, _, rfl, List.mem_cons_self _ _⟩
        · obtain ⟨n, tl, e, hn⟩ := keyPathsOfFields_head rest names h
          exact ⟨n, tl, e, List.mem_cons_of_mem _ hn⟩
      · simp only [h2, Bool.false_eq_true, if_false, List.mem_cons] at h
        rcases h with rfl | h
        · exact ⟨_, _, rfl, List.mem_cons_self _ _⟩
        · obtain ⟨n, tl, e, hn⟩ := keyPathsOfFields_head rest names h
          exact ⟨n, tl, e, List.mem_cons_of_mem _ hn⟩

/-- The condition on the fields of a record, taken apart at a field with a key
name. -/
theorem distinctDotFreeFields_cons (pkg tag : Str) (ft : GoType) (rest : Fields)
    (h1 : configTagName tag ≠ [])
    (h : distinctDotFreeFields (.cons pkg tag ft rest) = true) :
    '.' ∉ configTagName tag ∧ configTagName tag ∉ siblingKeys rest ∧
      (isStructType ft = true → distinctDotFreeKeys ft = true) ∧
      distinctDotFreeFields rest = true := by
  rw [distinctDotFreeFields] at h
  simp only [h1, if_false, Bool.and_eq_true, Bool.not_eq_true'] at h
  obtain ⟨⟨⟨a, b⟩, c⟩, d⟩ := h
  refine ⟨by simpa using a, by simpa using b, ?_, d⟩
  intro hs
  simpa [hs] using c

mutual
/-- In a schema with distinct key names free of `.`, the key names of every
enumerated path are free of `.`. -/
theorem keyPathsOfType_dotFree : ∀ (typ : GoType), distinctDotFreeKeys typ = true →
    ∀ names ∈ keyPathsOfType typ, ∀ n ∈ names, '.' ∉ n
  | .pointer (.struct fs), hd, names, h => by
    rw [keyPathsOfType] at h
    rw [distinctDotFreeKeys] at hd
    exact keyPathsOfFields_dotFree fs hd names h
  | .struct fs, hd, names, h => by
    rw [keyPathsOfType] at h
    rw [distinctDotFreeKeys] at hd
    exact keyPathsOfFields_dotFree fs hd names h
  | .basic k, _, names, h => by simp [keyPathsOfType] at h
  | .duration, _, names, h => by simp [keyPathsOfType] at h
  | .time, _, names, h => by simp [keyPathsOfType] at h
  | .slice e, _, names, h => by simp [keyPathsOfType] at h
  | .map k e, _, names, h => by simp [keyPathsOfType] at h
  | .pointer (.basic k), _, names, h => by simp [keyPathsOfType] at h
  | .pointer .duration, _, names, h => by simp [keyPathsOfType] at h
  | .pointer .time, _, names, h => by simp [keyPathsOfType] at h
  | .pointer (.slice e), _, names, h => by simp [keyPathsOfType] at h
  | .pointer (.map k e), _, names, h => by simp [keyPathsOfType] at h
  | .pointer (.pointer e), _, names, h => by simp [keyPathsOfType] at h
theorem keyPathsOfFields_dotFree : ∀ (fs : Fields), distinctDotFreeFields fs = true →
    ∀ names ∈ keyPathsOfFields fs, ∀ n ∈ names, '.' ∉ n
  | .nil, _, names, h => by simp [keyPathsOfFields] at h
  | .cons pkg tag ft rest, hd, names, h => by
    rw [keyPathsOfFields] at h
    by_cases h1 : configTagName tag = []
    · rw [distinctDotFreeFields] at hd
      simp only [h1, if_true] at h hd
      exact keyPathsOfFields_dotFree rest hd names h
    · obtain ⟨a, _, c, d⟩ := distinctDotFreeFields_cons pkg tag ft rest h1 hd
      simp only [h1, if_false] at h
      by_cases h2 : isStructType ft = true
      · simp only [h2, if_true, List.mem_append, List.mem_map] at h
        rcases h with ⟨n2, hn2, rfl⟩ | h
        · intro n hn
          rcases List.mem_cons.mp hn with rfl | hn
          · exact a
          · exact keyPathsOfType_dotFree ft (c h2) n2 hn2 n hn
        · exact keyPathsOfFields_dotFree rest d names h
      · simp only [h2, Bool.false_eq_true, if_false, List.mem_cons] at h
        rcases h with rfl | h
        · intro n hn
          rcases List.mem_singleton.mp hn with rfl
          exact a
        · exact keyPathsOfFields_dotFree rest d names h
end

mutual
/-- In a schema with distinct key names, any two enumerated paths part ways. -/
theorem keyPathsOfType_pairwise : ∀ (typ : GoType), distinctDotFreeKeys typ = true →
    (keyPathsOfType typ).Pairwise Diverge
  | .pointer (.struct fs), hd => by
    rw [keyPathsOfType]
    rw [distinctDotFreeKeys] at hd
    exact keyPathsOfFields_pairwise fs hd
  | .struct fs, hd => by
    rw [keyPathsOfType]
    rw [distinctDotFreeKeys] at hd
    exact keyPathsOfFields_pairwise fs hd
  | .basic k, _ => by simp [keyPathsOfType]
  | .duration, _ => by simp [keyPathsOfType]
  | .time, _ => by simp [keyPathsOfType]
  | .slice e, _ => by simp [keyPathsOfType]
  | .map k e, _ => by simp [keyPathsOfType]
  | .pointer (.basic k), _ => by simp [keyPathsOfType]
  | .pointer .duration, _ => by simp [keyPathsOfType]
  | .pointer .time, _ => by simp [keyPathsOfType]
  | .pointer (.slice e), _ => by simp [keyPathsOfType]
  | .pointer (.map k e), _ => by simp [keyPathsOfType]
  | .pointer (.pointer e), _ => by simp [keyPathsOfType]
theorem keyPathsOfFields_pairwise : ∀ (fs : Fields), distinctDotFreeFields fs = true →
    (keyPathsOfFields fs).Pairwise Diverge
  | .nil, _ => by simp [keyPathsOfFields]
  | .cons pkg tag ft rest, hd => by
    rw [keyPathsOfFields]
    by_cases h1 : configTagName tag = []
    · rw [distinctDotFreeFields] at hd
      simp only [h1, if_true] at hd ⊢
      exact keyPathsOfFields_pairwise rest hd
    · obtain ⟨_, b, c, d⟩ := distinctDotFreeFields_cons pkg tag ft rest h1 hd
      have hrest := keyPathsOfFields_pairwise rest d
      have hcross : ∀ tl, ∀ q ∈ keyPathsOfFields rest, Diverge (configTagName tag :: tl) q := by
        intro tl q hq
        obtain ⟨n, tl2, rfl, hn⟩ := keyPathsOfFields_head rest q hq
        apply diverge_of_head_ne
        rintro rfl
        exact b hn
      simp only [h1, if_false]
      by_cases h2 : isStructType ft = true
      · simp only [h2, if_true]
        rw [List.pairwise_append]
        refine ⟨?_, hrest, ?_⟩
        · rw [List.pairwise_map]
          exact (keyPathsOfType_pairwise ft (c h2)).imp (fun h => diverge_cons_cons _ h)
        · intro p hp q hq
          obtain ⟨tl, _, rfl⟩ := List.mem_map.mp hp
          exact hcross tl q hq
      · simp only [h2, Bool.false_eq_true, if_false]
        rw [List.pairwise_cons]
        exact ⟨fun q hq => hcross [] q hq, hrest⟩
end

/-- Two enumerated key-paths of a schema with distinct key names free of `.`
are equal or their key sequences part ways. -/
theorem collectConfigKeys_apart (typ : GoType) (h : distinctDotFreeKeys typ = true)
    (k1 k2 : Str) (h1 : k1 ∈ collectConfigKeys typ) (h2 : k2 ∈ collectConfigKeys typ)
    (hne : k1 ≠ k2) : Diverge (splitOnByte '.' k1) (splitOnByte '.' k2) := by
  rw [collectConfigKeys_keyPaths] at h1 h2
  obtain ⟨n1, hn1, rfl⟩ := List.mem_map.mp h1
  obtain ⟨n2, hn2, rfl⟩ := List.mem_map.mp h2
  rw [splitOnByte_dotJoin n1 (keyPathsOfType_ne_nil typ n1 hn1) (keyPathsOfType_dotFree typ h n1 hn1),
    splitOnByte_dotJoin n2 (keyPathsOfType_ne_nil typ n2 hn2) (keyPathsOfType_dotFree typ h n2 hn2)]
  have hsym : Symmetric Diverge := fun _ _ hd => diverge_symm hd
  exact (keyPathsOfType_pairwise typ h).forall hsym hn1 hn2 (fun e => hne (by rw [e]))

/-- C32: key-paths address leaves unambiguously.  For a schema in which, inside
every record the enumeration enters, the fields with a key name have pairwise
distinct key names and no key name contains `.`: the list `collectConfigKeys`
returns has no duplicate; no enumerated key-path followed by `.` starts another
enumerated key-path; the key sequences of two different enumerated key-paths
part ways; and `setByPath` on one leaf key-path leaves the tree at every other
leaf key-path as it was. -/
theorem C32_key_paths_unambiguous (typ : GoType) (h : distinctDotFreeKeys typ = true) :
    (collectConfigKeys typ).Nodup ∧
    (∀ k1 ∈ collectConfigKeys typ, ∀ k2 ∈ collectConfigKeys typ, ¬ (k1 ++ ['.']) <+: k2) ∧
    (∀ k1 ∈ collectConfigKeys typ, ∀ k2 ∈ collectConfigKeys typ, k1 ≠ k2 →
      Diverge (splitOnByte '.' k1) (splitOnByte '.' k2)) ∧
    (∀ k1 ∈ collectConfigKeys typ, ∀ k2 ∈ collectConfigKeys typ, k1 ≠ k2 →
      ∀ (tree : ConfigMap) (v : GoAny),
        getByPath (setByPath tree k1 v) k2 = getByPath tree k2) := by
  refine ⟨?_, ?_, fun k1 h1 k2 h2 hne => collectConfigKeys_apart typ h k1 k2 h1 h2 hne, ?_⟩
  · rw [collectConfigKeys_keyPaths]
    apply List.Nodup.map_on
    · intro x hx y hy hxy
      have hs := congrArg (splitOnByte '.') hxy
      rwa [splitOnByte_dotJoin x (keyPathsOfType_ne_nil typ x hx) (keyPathsOfType_dotFree typ h x hx),
        splitOnByte_dotJoin y (keyPathsOfType_ne_nil typ y hy) (keyPathsOfType_dotFree typ h y hy)]
        at hs
    · exact (keyPathsOfType_pairwise typ h).imp (fun hd e => hd.1 (by rw [e]))
  · intro k1 h1 k2 h2 hp
    obtain ⟨s, rfl⟩ := hp
    have hne : k1 ≠ k1 ++ ['.'] ++ s := by
      intro e
      have := congrArg List.length e
      simp at this
    have hd := collectConfigKeys_apart typ h k1 _ h1 h2 hne
    apply hd.1
    rw [List.append_assoc, List.singleton_append, splitOnByte_append_sep]
    exact List.prefix_append _ _
  · intro k1 h1 k2 h2 hne tree v
    exact getByPath_setByPath_diverge tree k1 k2 v
      (collectConfigKeys_apart typ h k2 k1 h2 h1 (fun e => hne e.symm))

theorem C32_key_paths_unambiguous_witness :
    distinctDotFreeKeys nestedType = true ∧
    collectConfigKeys nestedType =
      ["name".toList, "server.host".toList, "server.port".toList, "client.host".toList,
        "client.tags".toList] ∧
    (collectConfigKeys nestedType).Nodup ∧
    getByPath (setByPath [] "server.host".toList (.str "h".toList)) "server.port".toList =
      getByPath [] "server.port".toList :=
  have hd : distinctDotFreeKeys nestedType = true := by decide
  ⟨hd, rfl, (C32_key_paths_unambiguous nestedType hd).1,
    (C32_key_paths_unambiguous nestedType hd).2.2.2 "server.host".toList (by decide)
      "server.port".toList (by decide) (by decide) [] (.str "h".toList)⟩


/-! ## The round trip through the tree -/

theorem fits_leaf (t : GoType) (a : GoAny) (h : fits t a = true) :
    isLeafType t = true ∧ a ≠ .null := by
  cases t with
  | basic k => exact ⟨rfl, by rintro rfl; cases k <;> simp [fits] at h⟩
  | duration => exact ⟨rfl, by rintro rfl; simp [fits] at h⟩
  | time => exact ⟨rfl, by rintro rfl; simp [fits] at h⟩
  | pointer e => simp [fits] at h
  | slice e => simp [fits] at h
  | map k e => simp [fits] at h
  | struct fs => simp [fits] at h

/-- A leaf value is converted to the `any` it holds. -/
theorem valueToAny_prim (t : GoType) (a : GoAny) (h : isLeafType t = true) :
    valueToAny t (.prim a) = a := by
  cases t with
  | basic k => rfl
  | duration => rfl
  | time => rfl
  | pointer e => simp [isLeafType] at h
  | slice e => simp [isLeafType] at h
  | map k e => simp [isLeafType] at h
  | struct fs => simp [isLeafType] at h

/-- A scalar that fits its leaf type is decoded as it stands. -/
theorem decodeValue_fits (coerce : GoType → GoAny → Except Str GoValue) (t : GoType)
    (a : GoAny) (h : fits t a = true) : decodeValue coerce t a = .ok (.prim a) := by
  have hnull := (fits_leaf t a h).2
  cases t with
  | basic k =>
    rw [decodeValue]
    · cases a with
      | null => exact absurd rfl hnull
      | _ => simp only [h, if_true]
    all_goals intros; simp_all
  | duration =>
    rw [decodeValue]
    · cases a with
      | null => exact absurd rfl hnull
      | _ => simp only [h, if_true]
    all_goals intros; simp_all
  | time =>
    rw [decodeValue]
    · cases a with
      | null => exact absurd rfl hnull
      | _ => simp only [h, if_true]
    all_goals intros; simp_all
  | pointer e => simp [fits] at h
  | slice e => simp [fits] at h
  | map k e => simp [fits] at h
  | struct fs => simp [fits] at h

/-- A list is converted element by element. -/
theorem valueToAny_slice (t : GoType) (xs : List GoValue) :
    valueToAny (.slice t) (.slice xs) = .seq (xs.map (valueToAny t)) := by
  cases t with
  | pointer e =>
    show valueToAnyCore (.slice (.pointer e)) (.slice xs) = _
    rw [valueToAnyCore]
    congr 1
    apply List.map_congr_left
    intro x _
    cases x <;> rfl
  | _ =>
    show valueToAnyCore _ (.slice xs) = _
    rw [valueToAnyCore]
    · congr 1
      apply List.map_congr_left
      intro x _
      cases x <;> rfl
    · intro t h
      cases h

/-- A map is converted entry by entry. -/
theorem valueToAny_mapOf (k t : GoType) (es : List (Str × GoValue)) :
    valueToAny (.map k t) (.mapOf es) =
      .map (es.foldl (fun out entry => mapSet out entry.1 (valueToAny t entry.2)) []) := by
  cases t with
  | pointer e =>
    show valueToAnyCore (.map k (.pointer e)) (.mapOf es) = _
    rw [valueToAnyCore]
    congr 2
    funext out entry
    congr 1
    cases entry.2 <;> rfl
  | _ =>
    show valueToAnyCore _ (.mapOf es) = _
    rw [valueToAnyCore]
    · congr 2
      funext out entry
      congr 1
      cases entry.2 <;> rfl
    · intro t h
      cases h

theorem mapSet_of_not_mem {α : Type} (m : List (Str × α)) (key : Str) (v : α)
    (h : key ∉ m.map Prod.fst) : mapSet m key v = m ++ [(key, v)] := by
  induction m with
  | nil => rfl
  | cons e rest ih =>
    obtain ⟨k, x⟩ := e
    simp only [List.map_cons, List.mem_cons, not_or] at h
    rw [mapSet, if_neg (fun hk => h.1 hk.symm), ih h.2]
    rfl

/-- Stores under distinct new keys append the entries in order. -/
theorem foldl_mapSet_nodup {α β : Type} (g : β → α) (es : List (Str × β)) :
    ∀ (out : List (Str × α)), (es.map Prod.fst).Nodup →
      (∀ e ∈ es, e.1 ∉ out.map Prod.fst) →
      es.foldl (fun m entry => mapSet m entry.1 (g entry.2)) out =
        out ++ es.map (fun e => (e.1, g e.2)) := by
  induction es with
  | nil => intro out _ _; simp
  | cons e rest ih =>
    intro out hnd hout
    simp only [List.map_cons, List.nodup_cons] at hnd
    rw [List.foldl_cons, mapSet_of_not_mem out e.1 (g e.2) (hout e (List.mem_cons_self _ _)),
      ih _ hnd.2]
    · simp
    · intro e2 he2
      simp only [List.map_append, List.map_cons, List.map_nil, List.mem_append,
        List.mem_singleton, not_or]
      refine ⟨hout e2 (List.mem_cons_of_mem _ he2), ?_⟩
      intro heq
      apply hnd.1
      rw [← heq]
      exact List.mem_map_of_mem _ he2

theorem allOk_map_ok {α β : Type} (f : α → Except Str β) (g : α → β) (xs : List α)
    (h : ∀ x ∈ xs, f x = .ok (g x)) : allOk (xs.map f) = .ok (xs.map g) := by
  induction xs with
  | nil => rfl
  | cons x rest ih =>
    have key : ∀ (r1 : Except Str β) (r2 : Except Str (List β)),
        r1 = Except.ok (g x) → r2 = Except.ok (rest.map g) →
        (match r1 with
          | .error err => (Except.error err : Except Str (List β))
          | .ok a =>
            match r2 with
            | .error err => .error err
            | .ok more => .ok (a :: more)) = Except.ok (g x :: rest.map g) := by
      intro r1 r2 h1 h2
      subst h1
      subst h2
      rfl
    exact key _ _ (h x (List.mem_cons_self _ _))
      (ih (fun y hy => h y (List.mem_cons_of_mem _ hy)))

theorem decodeValue_struct (coerce : GoType → GoAny → Except Str GoValue) (fs : Fields)
    (m : ConfigMap) (vals : List GoValue) (h : decodeFields coerce fs m = .ok vals) :
    decodeValue coerce (.struct fs) (.map m) = .ok (.struct vals) := by
  rw [decodeValue]
  simp only [h]

theorem decodeValue_pointer (coerce : GoType → GoAny → Except Str GoValue) (t : GoType)
    (tree : GoAny) (v : GoValue) (hn : tree ≠ .null) (h : decodeValue coerce t tree = .ok v) :
    decodeValue coerce (.pointer t) tree = .ok (.pointer v) := by
  rw [decodeValue]
  · simp only [h]
  · exact hn

theorem decodeValue_slice (coerce : GoType → GoAny → Except Str GoValue) (t : GoType)
    (xs : List GoAny) (vals : List GoValue)
    (h : allOk (xs.map (decodeValue coerce t)) = .ok vals) :
    decodeValue coerce (.slice t) (.seq xs) = .ok (.slice vals) := by
  rw [decodeValue]
  simp only [h]

theorem decodeValue_map (coerce : GoType → GoAny → Except Str GoValue) (k t : GoType)
    (m : ConfigMap) (entries : List (Str × GoValue))
    (h : allOk (m.map (fun e =>
        match decodeValue coerce t e.2 with
        | .error err => .error err
        | .ok v => .ok (e.1, v))) = .ok entries) :
    decodeValue coerce (.map k t) (.map m) = .ok (.mapOf entries) := by
  rw [decodeValue]
  simp only [h]

/-- One step of the decoder over the fields of a record. -/
theorem decodeFields_cons (coerce : GoType → GoAny → Except Str GoValue) (tag : Str)
    (ft : GoType) (rest : Fields) (m : ConfigMap) (x : GoAny) (v : GoValue)
    (vals : List GoValue) (htag : configTagName tag ≠ [])
    (hget : mapGet m (configTagName tag) = some x) (hv : decodeValue coerce ft x = .ok v)
    (hrest : decodeFields coerce rest m = .ok vals) :
    decodeFields coerce (.cons [] tag ft rest) m = .ok (v :: vals) := by
  rw [decodeFields]
  simp only [ne_eq, not_true_eq_false, htag, or_self, if_false, hget, hv, hrest]

/-- The field that a key finds is among the fields with a key name. -/
theorem lastField_mem_siblingKeys : ∀ (fs : Fields) (vals : List GoValue) (key : Str)
    (found : GoType × GoValue), lastField fs vals key = some found → key ∈ siblingKeys fs
  | .nil, vals, key, found, h => by simp [lastField] at h
  | .cons pkgPath tag ft rest, vals, key, found, h => by
    rw [lastField] at h
    rw [siblingKeys]
    cases hr : lastField rest vals.tail key with
    | some f2 =>
      have := lastField_mem_siblingKeys rest vals.tail key f2 hr
      split_ifs
      · exact this
      · exact List.mem_cons_of_mem _ this
    | none =>
      rw [hr] at h
      simp only at h
      split_ifs at h with hc
      rw [if_neg hc.2.1, ← hc.2.2]
      exact List.mem_cons_self _ _

theorem decodeValue_null_pointer (coerce : GoType → GoAny → Except Str GoValue) (t : GoType) :
    decodeValue coerce (.pointer t) .null = .ok .nilPointer := by
  rw [decodeValue]

theorem decodeValue_null_slice (coerce : GoType → GoAny → Except Str GoValue) (t : GoType) :
    decodeValue coerce (.slice t) .null = .ok .nilSlice := by
  rw [decodeValue]

theorem decodeValue_null_map (coerce : GoType → GoAny → Except Str GoValue) (k t : GoType) :
    decodeValue coerce (.map k t) .null = .ok .nilMap := by
  rw [decodeValue]

theorem valueToAny_nilSlice (t : GoType) : valueToAny (.slice t) .nilSlice = .null := by
  cases t <;> rfl

theorem valueToAny_nilMap (k t : GoType) : valueToAny (.map k t) .nilMap = .null := by
  cases t <;> rfl

theorem valueToAnyCore_prim (t : GoType) (a : GoAny) (h : isLeafType t = true) :
    valueToAnyCore t (.prim a) = a := by
  cases t with
  | basic k => rfl
  | duration => rfl
  | time => rfl
  | pointer e => simp [isLeafType] at h
  | slice e => simp [isLeafType] at h
  | map k e => simp [isLeafType] at h
  | struct fs => simp [isLeafType] at h

/-- What `carried` asks of a pointer to a type that is no record. -/
theorem carried_pointer (t : GoType) (v : GoValue) (hs : ∀ fs, t ≠ .struct fs) :
    carried (.pointer t) v =
      (isLeafType t &&
        match v with
        | .nilPointer => true
        | .pointer (.prim a) => fits t a
        | _ => false) := by
  cases t with
  | struct fs => exact absurd rfl (hs fs)
  | _ =>
    cases v with
    | pointer p => cases p <;> simp [carried]
    | _ => simp [carried]

/-- A pointer to a leaf round-trips. -/
theorem decodeValue_leaf_pointer (coerce : GoType → GoAny → Except Str GoValue) (t : GoType)
    (v : GoValue) (hs : ∀ fs, t ≠ .struct fs) (h : carried (.pointer t) v = true) :
    decodeValue coerce (.pointer t) (valueToAny (.pointer t) v) = .ok v := by
  rw [carried_pointer t v hs, Bool.and_eq_true] at h
  obtain ⟨hl, h⟩ := h
  cases v with
  | nilPointer => exact decodeValue_null_pointer coerce t
  | pointer p =>
    cases p with
    | prim a =>
      have hf : fits t a = true := h
      have e : valueToAny (.pointer t) (.pointer (.prim a)) = a := by
        show valueToAnyCore t (.prim a) = a
        exact valueToAnyCore_prim t a hl
      rw [e]
      exact decodeValue_pointer coerce t a _ (fits_leaf t a hf).2 (decodeValue_fits coerce t a hf)
    | _ => exact Bool.noConfusion h
  | _ => exact Bool.noConfusion h

mutual
/-- The decoder gives back every value the tree carries in full. -/
theorem decodeValue_valueToAny (coerce : GoType → GoAny → Except Str GoValue) :
    ∀ (typ : GoType) (v : GoValue), carried typ v = true →
      decodeValue coerce typ (valueToAny typ v) = .ok v
  | .struct fs, v, h => by
    cases v with
    | struct vals =>
      rw [carried] at h
      have e : valueToAny (.struct fs) (.struct vals) = .map (fieldsToMap fs vals []) := rfl
      rw [e]
      apply decodeValue_struct
      exact decodeFields_fieldsToMap coerce fs vals _ h
        (fun key ft fv hl => by rw [mapGet_fieldsToMap, hl])
    | _ => simp [carried] at h
  | .pointer (.struct fs), v, h => by
    cases v with
    | nilPointer => exact decodeValue_null_pointer coerce _
    | pointer p =>
      cases p with
      | struct vals =>
        rw [carried] at h
        have e : valueToAny (.pointer (.struct fs)) (.pointer (.struct vals)) =
            .map (fieldsToMap fs vals []) := rfl
        rw [e]
        apply decodeValue_pointer coerce _ _ _ (fun hc => GoAny.noConfusion hc)
        apply decodeValue_struct
        exact decodeFields_fieldsToMap coerce fs vals _ h
          (fun key ft fv hl => by rw [mapGet_fieldsToMap, hl])
      | _ => simp [carried] at h
    | _ => simp [carried] at h
  | .pointer (.basic k), v, h => by
    exact decodeValue_leaf_pointer coerce _ v (fun fs hc => GoType.noConfusion hc) h
  | .pointer .duration, v, h => by
    exact decodeValue_leaf_pointer coerce _ v (fun fs hc => GoType.noConfusion hc) h
  | .pointer .time, v, h => by
    exact decodeValue_leaf_pointer coerce _ v (fun fs hc => GoType.noConfusion hc) h
  | .pointer (.pointer e), v, h => by
    exact decodeValue_leaf_pointer coerce _ v (fun fs hc => GoType.noConfusion hc) h
  | .pointer (.slice e), v, h => by
    exact decodeValue_leaf_pointer coerce _ v (fun fs hc => GoType.noConfusion hc) h
  | .pointer (.map k e), v, h => by
    exact decodeValue_leaf_pointer coerce _ v (fun fs hc => GoType.noConfusion hc) h
  | .slice t, v, h => by
    cases v with
    | nilSlice =>
      rw [valueToAny_nilSlice]
      exact decodeValue_null_slice coerce t
    | slice xs =>
      rw [carried] at h
      rw [valueToAny_slice]
      apply decodeValue_slice
      rw [List.map_map]
      have hall := List.all_eq_true.mp h
      have := allOk_map_ok (decodeValue coerce t ∘ valueToAny t) (fun x => x) xs
        (fun x hx => decodeValue_valueToAny coerce t x (hall x hx))
      rw [this, List.map_id']
    | _ => simp [carried] at h
  | .map k t, v, h => by
    cases v with
    | nilMap =>
      rw [valueToAny_nilMap]
      exact decodeValue_null_map coerce k t
    | mapOf es =>
      rw [carried] at h
      simp only [Bool.and_eq_true, decide_eq_true_eq] at h
      have hall := List.all_eq_true.mp h.2
      rw [valueToAny_mapOf, foldl_mapSet_nodup (valueToAny t) es [] h.1 (fun _ _ => by simp)]
      apply decodeValue_map
      rw [List.nil_append, List.map_map]
      have := allOk_map_ok
        ((fun e : Str × GoAny =>
          match decodeValue coerce t e.2 with
          | .error err => (Except.error err : Except Str (Str × GoValue))
          | .ok v => .ok (e.1, v)) ∘ fun e : Str × GoValue => (e.1, valueToAny t e.2))
        (fun e => e) es
        (fun e he => by
          simp only [Function.comp]
          rw [decodeValue_valueToAny coerce t e.2 (hall e he)])
      rw [this, List.map_id']
    | _ => simp [carried] at h
  | .basic k, v, h => by
    cases v with
    | prim a =>
      have hf : fits (.basic k) a = true := by simpa [carried] using h
      rw [valueToAny_prim _ a (fits_leaf _ a hf).1]
      exact decodeValue_fits coerce _ a hf
    | _ => simp [carried] at h
  | .duration, v, h => by
    cases v with
    | prim a =>
      have hf : fits .duration a = true := by simpa [carried] using h
      rw [valueToAny_prim _ a (fits_leaf _ a hf).1]
      exact decodeValue_fits coerce _ a hf
    | _ => simp [carried] at h
  | .time, v, h => by
    cases v with
    | prim a =>
      have hf : fits .time a = true := by simpa [carried] using h
      rw [valueToAny_prim _ a (fits_leaf _ a hf).1]
      exact decodeValue_fits coerce _ a hf
    | _ => simp [carried] at h
/-- The decoder gives back the fields of a record from a tree that holds the
converted value of each field under its key name. -/
theorem decodeFields_fieldsToMap (coerce : GoType → GoAny → Except Str GoValue) :
    ∀ (fs : Fields) (vals : List GoValue) (m : ConfigMap), carriedFields fs vals = true →
      (∀ key ft fv, lastField fs vals key = some (ft, fv) →
        mapGet m key = some (valueToAny ft fv)) →
      decodeFields coerce fs m = .ok vals
  | .nil, vals, m, h, _ => by
    rw [carriedFields] at h
    cases vals with
    | nil => rfl
    | cons v more => simp at h
  | .cons pkgPath tag ft rest, vals, m, h, hm => by
    cases vals with
    | nil => simp [carriedFields] at h
    | cons v more =>
      rw [carriedFields] at h
      simp only [Bool.and_eq_true, decide_eq_true_eq, Bool.not_eq_true'] at h
      obtain ⟨⟨⟨⟨hpkg, htag⟩, hsib⟩, hv⟩, hrest⟩ := h
      subst hpkg
      have hnot : configTagName tag ∉ siblingKeys rest := by simpa using hsib
      have hnone : lastField rest more (configTagName tag) = none := by
        cases hl : lastField rest more (configTagName tag) with
        | none => rfl
        | some found => exact absurd (lastField_mem_siblingKeys rest more _ found hl) hnot
      have hget : mapGet m (configTagName tag) = some (valueToAny ft v) := by
        apply hm
        rw [lastField]
        simp only [List.tail_cons, hnone, List.headD_cons]
        simp [htag]
      exact decodeFields_cons coerce tag ft rest m _ v more htag hget
        (decodeValue_valueToAny coerce ft v hv)
        (decodeFields_fieldsToMap coerce rest more m hrest (fun key ft2 fv hl => by
          apply hm
          rw [lastField]
          simp only [List.tail_cons, hl]))
end

/-- C16 (amended): the round trip with no overrides, for the values the tree
carries in full.  Let `v` be a record, or a non-nil pointer to one, in which
every field of every record is exported and has a key name of its own, every
leaf holds a value of its declared type, every pointer is nil or points to a
record or a leaf, and every list and map is nil or holds such values
(`carried`).  Then the decoder, modelled from the spec, gives `v` back from the
tree built from `v`, whatever its coercions; with no candidate file present, no
environment prefix and no command, `Load` hands the decoder exactly that tree,
with nothing merged or written into it, and returns `v`.  For any decoder and
any `v`, `Load` then returns what the decoder makes of the tree of `v`. -/
theorem C16_load_without_overrides (w : World) (coerce : GoType → GoAny → Except Str GoValue)
    (typ : GoType) (v : GoValue) (fs : Fields) (vals : List GoValue) (opts : List LoadOption)
    (hfiles : ∀ p ∈ candidatePaths w (resolveOptions w 1 opts), w.readFile p = none)
    (henv : (resolveOptions w 1 opts).envPrefix = [])
    (hcmd : (resolveOptions w 1 opts).cmd.isNone = true)
    (hrecord : recordOf typ v = some (fs, vals))
    (hcarried : carried typ v = true) :
    decodeConfigMap coerce typ (structToMap typ v) = .ok v ∧
    loadConfigMap w typ v 1 opts = .ok (structToMap typ v) ∧
    Load w (decodeConfigMap coerce typ) typ v opts = .ok v ∧
    (∀ (τ : Type) (decode : ConfigMap → Except Str τ),
      Load w decode typ v opts =
        (match decode (structToMap typ v) with
         | .error err => .error ("failed to unmarshal config: ".toList ++ err)
         | .ok cfg => .ok cfg)) := by
  have hround : decodeConfigMap coerce typ (structToMap typ v) = .ok v := by
    have h := decodeValue_valueToAny coerce typ v hcarried
    rw [valueToAny_of_recordOf typ v fs vals hrecord] at h
    rw [decodeConfigMap, structToMap_of_recordOf typ v fs vals hrecord]
    exact h
  have hmap : loadConfigMap w typ v 1 opts = .ok (structToMap typ v) := by
    rw [loadConfigMap_bindEnvironment, loadConfigFile_of_unreadable _ _ _ _ hfiles]
    simp only [henv, bindEnvironment, ne_eq, not_true_eq_false, if_false]
    cases hc : (resolveOptions w 1 opts).cmd with
    | none => rfl
    | some c => rw [hc] at hcmd; exact Bool.noConfusion hcmd
  have hload : ∀ (τ : Type) (decode : ConfigMap → Except Str τ),
      Load w decode typ v opts =
        (match decode (structToMap typ v) with
         | .error err => .error ("failed to unmarshal config: ".toList ++ err)
         | .ok cfg => .ok cfg) := by
    intro τ decode
    have key : ∀ r : Templexp.Outcome ConfigMap, r = .ok (structToMap typ v) →
        (match r with
         | .error err => Templexp.Outcome.error err
         | .exhausted => .exhausted
         | .ok configMap =>
           match decode configMap with
           | .error err => .error ("failed to unmarshal config: ".toList ++ err)
           | .ok cfg => .ok cfg) =
        (match decode (structToMap typ v) with
         | .error err => .error ("failed to unmarshal config: ".toList ++ err)
         | .ok cfg => .ok cfg) := by
      intro r hr
      subst hr
      rfl
    exact key _ hmap
  refine ⟨hround, hmap, ?_, hload⟩
  rw [hload, hround]

theorem C16_load_without_overrides_witness :
    ((∀ p ∈ candidatePaths World.bare (resolveOptions World.bare 1 []),
        World.bare.readFile p = none) ∧
      (resolveOptions World.bare 1 []).envPrefix = [] ∧
      (resolveOptions World.bare 1 []).cmd.isNone = true ∧
      carried richType richValue = true) ∧
    decodeConfigMap noCoerce richType (structToMap richType richValue) = .ok richValue ∧
    Load World.bare (decodeConfigMap noCoerce richType) richType richValue [] = .ok richValue :=
  ⟨⟨fun _ _ => rfl, rfl, rfl, by decide⟩,
    (C16_load_without_overrides World.bare noCoerce richType richValue _ _ []
      (fun _ _ => rfl) rfl rfl rfl (by decide)).1,
    (C16_load_without_overrides World.bare noCoerce richType richValue _ _ []
      (fun _ _ => rfl) rfl rfl rfl (by decide)).2.2.1⟩

/-- C16 as stated fails.  The values `secretValue` and `secretBlank` differ in
the unexported field and in the field without a key name only; the tree built
from either holds the key `name` alone.  The decoder gives `secretBlank` for
the tree of `secretValue`, whatever its coercions, and `Load` returns it; and
no decoder at all gives back both values from their one tree. -/
theorem C16_counterexample :
    secretValue ≠ secretBlank ∧
    structToMap secretType secretValue = [("name".toList, .str "app".toList)] ∧
    structToMap secretType secretBlank = [("name".toList, .str "app".toList)] ∧
    (∀ coerce, decodeConfigMap coerce secretType (structToMap secretType secretValue) =
      .ok secretBlank) ∧
    (∀ coerce, Load World.bare (decodeConfigMap coerce secretType) secretType secretValue [] =
      .ok secretBlank) ∧
    (∀ decode : ConfigMap → Except Str GoValue,
      ¬ (decode (structToMap secretType secretValue) = .ok secretValue ∧
         decode (structToMap secretType secretBlank) = .ok secretBlank)) ∧
    (∀ decode : ConfigMap → Except Str GoValue,
      ¬ (Load World.bare decode secretType secretValue [] = .ok secretValue ∧
         Load World.bare decode secretType secretBlank [] = .ok secretBlank)) := by
  have hne : secretValue ≠ secretBlank := by
    intro h
    simp [secretValue, secretBlank] at h
  have htree : structToMap secretType secretValue = structToMap secretType secretBlank := rfl
  refine ⟨hne, rfl, rfl, fun coerce => rfl, fun coerce => rfl, ?_, ?_⟩
  · intro decode ⟨h1, h2⟩
    rw [htree, h2] at h1
    exact hne (Except.ok.inj h1).symm
  · intro decode ⟨h1, h2⟩
    have e1 : Load World.bare decode secretType secretValue [] =
        Load World.bare decode secretType secretBlank [] := rfl
    rw [e1, h2] at h1
    exact hne (Templexp.Outcome.ok.inj h1).symm

end Cfgm
